import Mathlib

/-!
# go-json: the slice decoder (`decode_slice.go`)

A shallow embedding of `sliceDecoder.decode` and `sliceDecoder.decodeStream`.

* Bytes are natural numbers (their ASCII codes):
  space 32, `\n` 10, `\t` 9, `\r` 13, `n` 110, `u` 117, `l` 108, `[` 91, `]` 93,
  `,` 44, `-` 45, `0`..`9` 48..57.
* Memory is a list of typed arrays (blocks); the address of an array is its position in
  that list, `unsafe.Pointer(uintptr(data) + uintptr(idx)*size)` is the pair `(data, idx)`.
* `cursor`, `len`, `cap` and `idx` are natural numbers, `depth` is an integer; none of them
  comes near the 64-bit limits (a cursor is bounded by a buffer length, the depth by
  `maxDecodeNestingDepth + 1`), so no wrap-around is modelled.
* A call returns (`Exec.ret`), stops with a run-time panic (`Exec.fault`: index out of
  range, nil or wild pointer) or is cut off by the step budget (`Exec.diverged`).
-/

namespace GoJson

/-! ## Types of the package that the decoder mentions -/

/-- The kinds of `reflect.Kind`. -/
inductive Kind where
  | Invalid | Bool | Int | Int8 | Int16 | Int32 | Int64
  | Uint | Uint8 | Uint16 | Uint32 | Uint64 | Uintptr
  | Float32 | Float64 | Complex64 | Complex128
  | Array | Chan | Func | Interface | Map | Ptr | Slice | String | Struct | UnsafePointer
  deriving DecidableEq, Repr

/-- What the slice decoder asks of a type descriptor `*rtype`: its name, its kind and whether
the pointer to it implements `json.Unmarshaler`. -/
structure rtype where
  name : String
  kind : Kind
  ptrImplementsUnmarshalJSON : Bool
  deriving DecidableEq, Repr

/-- Method `Kind()` of a type descriptor. -/
def rtype.Kind (t : rtype) : Kind := t.kind

/-- A `reflect.Type`: `rtype2type t`, or `reflect.SliceOf` of one. -/
inductive reflectType where
  | rtype2type (t : rtype)
  | SliceOf (t : reflectType)
  deriving DecidableEq, Repr

/-- The error values the slice decoder returns. `errExceededMaxDepth`, `errInvalidCharacter`
and `errUnexpectedEndOfJSON` are constructor functions of the package, kept uninterpreted with
their arguments; `UnmarshalTypeError` has the fields the decoder fills in; `external` stands
for whatever an element decoder reports. -/
inductive Error where
  | errExceededMaxDepth (c : Nat) (cursor : Nat)
  | errInvalidCharacter (c : Nat) (context : String) (cursor : Nat)
  | errUnexpectedEndOfJSON (msg : String) (cursor : Nat)
  | UnmarshalTypeError (Value : String) (Typ : reflectType) (Struct Field : String)
      (Offset : Nat)
  | external (code : Nat)
  deriving DecidableEq, Repr

/-! ## Memory -/

/-- The Go struct `sliceHeader`; `data = none` is the nil pointer, `some a` the address of
array `a`. -/
structure sliceHeader where
  data : Option Nat
  len : Nat
  cap : Nat
  deriving DecidableEq, Repr

/-- The content of one element slot: all-zero bytes, some scalar payload, or a slice header
(three words). -/
inductive Val where
  | zero
  | scalar (n : Int)
  | slice (h : sliceHeader)
  deriving DecidableEq, Repr

/-- An address inside an array: slot `index` of block `block`. -/
structure Ptr where
  block : Nat
  index : Nat
  deriving DecidableEq, Repr

/-- Calls of `sync.Pool.Get` and `sync.Pool.Put`, recorded per pool (ghost state). -/
inductive PoolEvent where
  | get (pool : Nat) (h : sliceHeader)
  | put (pool : Nat) (h : sliceHeader)
  deriving DecidableEq, Repr

/-- The mutable state a decoder works on: the arrays, the free lists of the `sync.Pool`s
(one per slice decoder) and the record of pool calls, most recent first. -/
structure World where
  heap : List (List Val)
  pools : Nat → List sliceHeader
  log : List PoolEvent

/-- Outcome of a call. -/
inductive Exec (α : Type) where
  | ret (v : α) (w : World)
  | fault
  | diverged

/-- Read the slot at `p`. -/
def World.load (w : World) (p : Ptr) : Option Val :=
  match w.heap[p.block]? with
  | some cells => cells[p.index]?
  | none => none

/-- Overwrite the slot at `p`; `none` when `p` is not the address of a slot. -/
def World.store (w : World) (p : Ptr) (v : Val) : Option World :=
  match w.heap[p.block]? with
  | some cells =>
    if p.index < cells.length then
      some { w with heap := w.heap.set p.block (cells.set p.index v) }
    else none
  | none => none

/-- The slot at `p` read as a slice header, `(*sliceHeader)(p)`. All-zero bytes are the nil
slice; a scalar slot is not a header. -/
def World.loadHeader (w : World) (p : Ptr) : Option sliceHeader :=
  match w.load p with
  | some .zero => some ⟨none, 0, 0⟩
  | some (.slice h) => some h
  | _ => none

/-- Write a slice header through `(*sliceHeader)(p)`. -/
def World.storeHeader (w : World) (p : Ptr) (h : sliceHeader) : Option World :=
  w.store p (.slice h)

/-- The slot after a nil pointer is written into its first word: a header keeps `len` and
`cap`, any one-word slot becomes all-zero. -/
def Val.withNilFirstWord : Val → Val
  | .slice h => .slice { h with data := none }
  | _ => .zero

/-- The assignment `*(*unsafe.Pointer)(p) = nil`. -/
def World.storeNilPointer (w : World) (p : Ptr) : Option World :=
  match w.load p with
  | some v => w.store p v.withNilFirstWord
  | none => none

/-- `unsafe_New`: a new zero value of the type; returns its address. -/
def unsafe_New (_elemType : rtype) (w : World) : Nat × World :=
  (w.heap.length, { w with heap := w.heap ++ [[Val.zero]] })

/-- `reflect.typedmemmove`: copies one element from `src` to `dst`. -/
def typedmemmove (_elemType : rtype) (dst src : Ptr) (w : World) : Option World :=
  match w.load src with
  | some v => w.store dst v
  | none => none

/-- `reflect.unsafe_NewArray`: a new zero-initialised array of `n` elements; returns its
address. -/
def newArray (_elemType : rtype) (n : Nat) (w : World) : Nat × World :=
  (w.heap.length, { w with heap := w.heap ++ [List.replicate n Val.zero] })

/-- `reflect.typedslicecopy`: copies `min dst.len src.len` elements from the array of `src`
to the array of `dst`. -/
def copySlice (_elemType : rtype) (dst src : sliceHeader) (w : World) : Option World :=
  let n := min dst.len src.len
  if n = 0 then some w
  else
    match dst.data, src.data with
    | some a, some b =>
      match w.heap[a]?, w.heap[b]? with
      | some da, some sb =>
        if n ≤ da.length ∧ n ≤ sb.length then
          some { w with heap := w.heap.set a (sb.take n ++ da.drop n) }
        else none
      | _, _ => none
    | _, _ => none

/-! ## Collaborators that are not part of `decode_slice.go` -/

/-- Modelled from the spec: the byte `nul`, the end-of-input sentinel that `stream.char`
returns (declared elsewhere in the package). -/
def nul : Nat := 0

/-- Modelled from the spec: the whitespace bytes `SP`, `TAB`, `LF`, `CR` (the table
`isWhiteSpace` is declared elsewhere in the package). -/
def isWhiteSpace (c : Nat) : Bool := c = 32 || c = 10 || c = 9 || c = 13

/-- Modelled from the spec: the helper `skipWhiteSpace(buf, cursor)` is declared elsewhere
in the package; the spec says it skips whitespace. Here it returns the position of the first byte at
or after `cursor` that is not whitespace, and `len(buf)` when there is none. -/
def skipWhiteSpace (buf : List Nat) (cursor : Nat) : Nat :=
  cursor + ((buf.drop cursor).takeWhile isWhiteSpace).length

/-- Modelled from the spec: the byte stream (type `stream` is declared elsewhere in the
package).
`buf` is the window read so far, `cursor` the index into it, `offset` the absolute offset of
the window, `pending` the chunks that later refills will deliver, `reads` the number of
refills attempted so far (ghost state). -/
structure stream where
  buf : List Nat
  cursor : Nat
  offset : Nat
  pending : List (List Nat)
  reads : Nat
  deriving DecidableEq, Repr

/-- Modelled from the spec: `char()` returns the current byte or the `nul` sentinel. -/
def stream.char (s : stream) : Nat := s.buf.getD s.cursor nul

/-- Modelled from the spec: `totalOffset()` yields the absolute input offset. -/
def stream.totalOffset (s : stream) : Nat := s.offset + s.cursor

/-- Modelled from the spec: `read()` attempts a refill and reports success or failure. -/
def stream.read (s : stream) : Bool × stream :=
  match s.pending with
  | [] => (false, { s with reads := s.reads + 1 })
  | chunk :: rest =>
    (true, { s with buf := s.buf ++ chunk, pending := rest, reads := s.reads + 1 })

/-- Modelled from the spec: `skipWhiteSpace()` advances the cursor past ASCII whitespace. -/
def stream.skipWhiteSpace (s : stream) : stream :=
  { s with cursor := GoJson.skipWhiteSpace s.buf s.cursor }

/-- Modelled from the spec: `nullBytes(s)` requires the bytes `n u l l` at the cursor and
moves the cursor past them (the helper is declared elsewhere in the package). -/
def nullBytes (s : stream) : Option Error × stream :=
  let s1 := if s.cursor + 3 < s.buf.length then s else (s.read).2
  let s2 := { s1 with cursor := s1.cursor + 1 }
  if s2.char ≠ 117 then (some (.errInvalidCharacter s2.char "null" s2.totalOffset), s2)
  else
    let s3 := { s2 with cursor := s2.cursor + 1 }
    if s3.char ≠ 108 then (some (.errInvalidCharacter s3.char "null" s3.totalOffset), s3)
    else
      let s4 := { s3 with cursor := s3.cursor + 1 }
      if s4.char ≠ 108 then (some (.errInvalidCharacter s4.char "null" s4.totalOffset), s4)
      else (none, { s4 with cursor := s4.cursor + 1 })

/-- The interface `decoder`: the two methods of a value decoder. `p` is the address of the
slot to fill; the stream is passed in and handed back. -/
structure decoder where
  decode : List Nat → Nat → Int → Ptr → World → Exec (Nat × Option Error)
  decodeStream : stream → Int → Ptr → World → Exec (Option Error × stream)

/-! ## `decode_slice.go` -/

/-- The Go struct `sliceDecoder`; `arrayPool` names the `sync.Pool` the decoder owns. -/
structure sliceDecoder where
  elemType : rtype
  isElemPointerType : Bool
  isElemUnmarshalJSONType : Bool
  valueDecoder : decoder
  size : Nat
  arrayPool : Nat
  structName : String
  fieldName : String

/-- The constant `defaultSliceCapacity`. -/
def defaultSliceCapacity : Nat := 2

/-- The constructor `newSliceDecoder`; the pool it creates is named by `arrayPool`. -/
def newSliceDecoder (dec : decoder) (elemType : rtype) (size : Nat)
    (structName fieldName : String) (arrayPool : Nat) : sliceDecoder :=
  { valueDecoder := dec
    elemType := elemType
    isElemPointerType := elemType.Kind = Kind.Ptr || elemType.Kind = Kind.Map
    isElemUnmarshalJSONType := elemType.ptrImplementsUnmarshalJSON
    size := size
    arrayPool := arrayPool
    structName := structName
    fieldName := fieldName }

/-- The method `newSlice`: `arrayPool.Get()` hands out a pooled header, or the result of the
pool's `New` (a fresh array of `defaultSliceCapacity` elements) when the pool is empty; its
`len` is reset. -/
def sliceDecoder.newSlice (d : sliceDecoder) (w : World) : sliceHeader × World :=
  match w.pools d.arrayPool with
  | [] =>
    let (a, w1) := newArray d.elemType defaultSliceCapacity w
    let slice : sliceHeader := { data := some a, len := 0, cap := defaultSliceCapacity }
    ({ slice with len := 0 }, { w1 with log := PoolEvent.get d.arrayPool slice :: w1.log })
  | slice :: rest =>
    ({ slice with len := 0 },
      { w with pools := Function.update w.pools d.arrayPool rest
               log := PoolEvent.get d.arrayPool slice :: w.log })

/-- The method `releaseSlice`: `arrayPool.Put(p)`. -/
def sliceDecoder.releaseSlice (d : sliceDecoder) (p : sliceHeader) (w : World) : World :=
  { w with pools := Function.update w.pools d.arrayPool (p :: w.pools d.arrayPool)
           log := PoolEvent.put d.arrayPool p :: w.log }

/-- The method `errNumber`. -/
def sliceDecoder.errNumber (d : sliceDecoder) (offset : Nat) : Error :=
  .UnmarshalTypeError "number" (.SliceOf (.rtype2type d.elemType)) d.structName d.fieldName
    offset

/-- The block `if capacity <= idx { ... }` of the element loop: double the capacity, allocate
the larger array and copy the `idx` elements read so far. Returns the new `capacity` and
`data`. -/
def sliceDecoder.grow (d : sliceDecoder) (idx capacity : Nat) (data : Option Nat) (w : World) :
    Option (Nat × Option Nat × World) :=
  if capacity ≤ idx then
    let src : sliceHeader := { data := data, len := idx, cap := capacity }
    let capacity := capacity * 2
    let (a, w) := newArray d.elemType capacity w
    let data := some a
    let dst : sliceHeader := { data := data, len := idx, cap := capacity }
    match copySlice d.elemType dst src w with
    | some w => some (capacity, data, w)
    | none => none
  else some (capacity, data, w)

/-- The initialisation of the element slot `ep` before the element decoder runs. -/
def sliceDecoder.initElem (d : sliceDecoder) (ep : Ptr) (w : World) : Option World :=
  if d.isElemUnmarshalJSONType then
    -- assign new element to the slice
    let (a, w) := unsafe_New d.elemType w
    typedmemmove d.elemType ep ⟨a, 0⟩ w
  else if d.isElemPointerType then
    w.storeNilPointer ep -- initialize elem pointer
  else some w

/-- The body of `case ']'` up to `releaseSlice`, the same text in `decode` and
`decodeStream`: the scratch header gets `cap`, `len`, `data`; the destination gets
`len = idx + 1` and, when that exceeds its `cap`, a new array of that length; the elements are
copied and the scratch header goes back to the pool. -/
def sliceDecoder.closeArray (d : sliceDecoder) (slice : sliceHeader) (idx capacity : Nat)
    (data : Option Nat) (p : Ptr) (w : World) : Option World :=
  let slice := { slice with cap := capacity }
  let slice := { slice with len := idx + 1 }
  let slice := { slice with data := data }
  match w.loadHeader p with
  | none => none
  | some dst =>
    let dst := { dst with len := idx + 1 }
    let (dst, w) :=
      if dst.len > dst.cap then
        let (a, w) := newArray d.elemType dst.len w
        ({ dst with data := some a, cap := dst.len }, w)
      else (dst, w)
    match w.storeHeader p dst with
    | none => none
    | some w =>
      match copySlice d.elemType dst slice w with
      | none => none
      | some w => some (d.releaseSlice slice w)

/-- The body of `if buf[cursor] == ']'` right after the opening bracket, the same text in
`decode` and `decodeStream`: a destination with nil `data` gets a new array of length 0, any
other gets `len = 0`. -/
def sliceDecoder.emptyArray (d : sliceDecoder) (p : Ptr) (w : World) : Option World :=
  match w.loadHeader p with
  | none => none
  | some dst =>
    let (dst, w) :=
      if dst.data = none then
        let (a, w) := newArray d.elemType 0 w
        ({ dst with data := some a }, w)
      else ({ dst with len := 0 }, w)
    w.storeHeader p dst

/-- The statements `slice.cap = capacity; slice.data = data; d.releaseSlice(slice)` of the
failing separator cases. -/
def sliceDecoder.abandon (d : sliceDecoder) (slice : sliceHeader) (capacity : Nat)
    (data : Option Nat) (w : World) : World :=
  let slice := { slice with cap := capacity }
  let slice := { slice with data := data }
  d.releaseSlice slice w

/-- The element loop `for { ... }` of `decode` (lines 230-275), one unit of `fuel` per
iteration. `depth` is the incremented depth. -/
def sliceDecoder.decodeElems (d : sliceDecoder) (buf : List Nat) (depth : Int) (p : Ptr)
    (slice : sliceHeader) :
    Nat → Nat → Nat → Option Nat → Nat → World → Exec (Nat × Option Error)
  | 0, _, _, _, _, _ => .diverged
  | fuel + 1, idx, capacity, data, cursor, w =>
    match d.grow idx capacity data w with
    | none => .fault
    | some (capacity, data, w) =>
      match data with
      | none => .fault
      | some a =>
        let ep : Ptr := ⟨a, idx⟩
        match d.initElem ep w with
        | none => .fault
        | some w =>
          match d.valueDecoder.decode buf cursor depth ep w with
          | .fault => .fault
          | .diverged => .diverged
          | .ret (_, some err) w => .ret (0, some err) w
          | .ret (c, none) w =>
            let cursor := c
            let cursor := skipWhiteSpace buf cursor
            match buf[cursor]? with
            | none => .fault
            | some b =>
              if b = 93 then
                match d.closeArray slice idx capacity data p w with
                | none => .fault
                | some w => .ret (cursor + 1, none) w
              else if b = 44 then
                sliceDecoder.decodeElems d buf depth p slice fuel (idx + 1) capacity data
                  (cursor + 1) w
              else
                .ret (0, some (.errInvalidCharacter b "slice" cursor))
                  (d.abandon slice capacity data w)

/-- The body of `case '['` of `decode` before the element loop: the empty array, or a scratch
buffer from the pool and the element loop. -/
def sliceDecoder.decodeArray (d : sliceDecoder) (buf : List Nat) (depth : Int) (p : Ptr)
    (fuel : Nat) (cursor : Nat) (w : World) : Exec (Nat × Option Error) :=
  let cursor := cursor + 1
  let cursor := skipWhiteSpace buf cursor
  match buf[cursor]? with
  | none => .fault
  | some b =>
    if b = 93 then
      match d.emptyArray p w with
      | none => .fault
      | some w => .ret (cursor + 1, none) w
    else
      let idx := 0
      let (slice, w) := d.newSlice w
      let capacity := slice.cap
      let data := slice.data
      d.decodeElems buf depth p slice fuel idx capacity data cursor w

/-- The loop `for ; cursor < buflen; cursor++ { switch buf[cursor] ... }` of `decode` and the
label `ERROR`, one unit of `fuel` per byte looked at. -/
def sliceDecoder.decodeFrom (d : sliceDecoder) (buf : List Nat) (depth : Int) (p : Ptr) :
    Nat → Nat → World → Exec (Nat × Option Error)
  | 0, _, _ => .diverged
  | fuel + 1, cursor, w =>
    let buflen := buf.length
    if cursor < buflen then
      match buf[cursor]? with
      | none => .fault
      | some c =>
        if c = 32 ∨ c = 10 ∨ c = 9 ∨ c = 13 then
          sliceDecoder.decodeFrom d buf depth p fuel (cursor + 1) w
        else if c = 110 then
          if cursor + 3 ≥ buflen then .ret (0, some (.errUnexpectedEndOfJSON "null" cursor)) w
          else if buf.getD (cursor + 1) 0 ≠ 117 then
            .ret (0, some (.errInvalidCharacter (buf.getD (cursor + 1) 0) "null" cursor)) w
          else if buf.getD (cursor + 2) 0 ≠ 108 then
            .ret (0, some (.errInvalidCharacter (buf.getD (cursor + 2) 0) "null" cursor)) w
          else if buf.getD (cursor + 3) 0 ≠ 108 then
            .ret (0, some (.errInvalidCharacter (buf.getD (cursor + 3) 0) "null" cursor)) w
          else
            match w.storeNilPointer p with
            | none => .fault
            | some w => .ret (cursor + 4, none) w
        else if c = 91 then
          d.decodeArray buf depth p fuel cursor w
        else if c = 45 ∨ (48 ≤ c ∧ c ≤ 57) then
          .ret (0, some (d.errNumber cursor)) w
        else .ret (0, some (.errUnexpectedEndOfJSON "slice" cursor)) w
    else .ret (0, some (.errUnexpectedEndOfJSON "slice" cursor)) w

/-- The method `sliceDecoder.decode`. `maxDecodeNestingDepth` is the package constant of that
name, declared elsewhere in the package. -/
def sliceDecoder.decode (maxDecodeNestingDepth : Int) (d : sliceDecoder) (fuel : Nat)
    (buf : List Nat) (cursor : Nat) (depth : Int) (p : Ptr) (w : World) :
    Exec (Nat × Option Error) :=
  let depth := depth + 1
  if depth > maxDecodeNestingDepth then
    match buf[cursor]? with
    | none => .fault
    | some c => .ret (0, some (.errExceededMaxDepth c cursor)) w
  else d.decodeFrom buf depth p fuel cursor w

mutual
/-- The element loop `for { ... }` of `decodeStream` (lines 117-169) from its head, one unit
of `fuel` per iteration and per jump to `RETRY`. `depth` is the incremented depth. -/
def sliceDecoder.decodeStreamElems (d : sliceDecoder) (depth : Int) (p : Ptr)
    (slice : sliceHeader) :
    Nat → Nat → Nat → Option Nat → stream → World → Exec (Option Error × stream)
  | 0, _, _, _, _, _ => .diverged
  | fuel + 1, idx, capacity, data, s, w =>
    match d.grow idx capacity data w with
    | none => .fault
    | some (capacity, data, w) =>
      match data with
      | none => .fault
      | some a =>
        let ep : Ptr := ⟨a, idx⟩
        match d.initElem ep w with
        | none => .fault
        | some w =>
          match d.valueDecoder.decodeStream s depth ep w with
          | .fault => .fault
          | .diverged => .diverged
          | .ret (some err, s) w => .ret (some err, s) w
          | .ret (none, s) w =>
            let s := s.skipWhiteSpace
            sliceDecoder.decodeStreamRetry d depth p slice fuel idx capacity data s w
/-- The `switch s.char()` at the label `RETRY` of `decodeStream` and what follows it; the
label `ERROR` returns `errUnexpectedEndOfJSON("slice", s.totalOffset())`. -/
def sliceDecoder.decodeStreamRetry (d : sliceDecoder) (depth : Int) (p : Ptr)
    (slice : sliceHeader) :
    Nat → Nat → Nat → Option Nat → stream → World → Exec (Option Error × stream)
  | 0, _, _, _, _, _ => .diverged
  | fuel + 1, idx, capacity, data, s, w =>
    if s.char = 93 then
      match d.closeArray slice idx capacity data p w with
      | none => .fault
      | some w => .ret (none, { s with cursor := s.cursor + 1 }) w
    else if s.char = 44 then
      sliceDecoder.decodeStreamElems d depth p slice fuel (idx + 1) capacity data
        { s with cursor := s.cursor + 1 } w
    else if s.char = nul then
      if (s.read).1 then
        sliceDecoder.decodeStreamRetry d depth p slice fuel idx capacity data (s.read).2 w
      else
        .ret (some (.errUnexpectedEndOfJSON "slice" (s.read).2.totalOffset), (s.read).2)
          (d.abandon slice capacity data w)
    else
      .ret (some (.errUnexpectedEndOfJSON "slice" s.totalOffset), s)
        (d.abandon slice capacity data w)
end

/-- The body of `case '['` of `decodeStream` before the element loop. -/
def sliceDecoder.decodeStreamArray (d : sliceDecoder) (depth : Int) (p : Ptr) (fuel : Nat)
    (s : stream) (w : World) : Exec (Option Error × stream) :=
  let s := { s with cursor := s.cursor + 1 }
  let s := s.skipWhiteSpace
  if s.char = 93 then
    match d.emptyArray p w with
    | none => .fault
    | some w => .ret (none, { s with cursor := s.cursor + 1 }) w
  else
    let idx := 0
    let (slice, w) := d.newSlice w
    let capacity := slice.cap
    let data := slice.data
    d.decodeStreamElems depth p slice fuel idx capacity data s w

/-- The outer loop `for { switch s.char() ... }` of `decodeStream` and the label `ERROR`, one
unit of `fuel` per iteration. -/
def sliceDecoder.decodeStreamFrom (d : sliceDecoder) (depth : Int) (p : Ptr) :
    Nat → stream → World → Exec (Option Error × stream)
  | 0, _, _ => .diverged
  | fuel + 1, s, w =>
    let c := s.char
    if c = 32 ∨ c = 10 ∨ c = 9 ∨ c = 13 then
      sliceDecoder.decodeStreamFrom d depth p fuel { s with cursor := s.cursor + 1 } w
    else if c = 110 then
      match nullBytes s with
      | (some err, s) => .ret (some err, s) w
      | (none, s) =>
        match w.storeNilPointer p with
        | none => .fault
        | some w => .ret (none, s) w
    else if c = 91 then
      d.decodeStreamArray depth p fuel s w
    else if c = 45 ∨ (48 ≤ c ∧ c ≤ 57) then
      .ret (some (d.errNumber s.totalOffset), s) w
    else if c = nul then
      if (s.read).1 then sliceDecoder.decodeStreamFrom d depth p fuel (s.read).2 w
      else .ret (some (.errUnexpectedEndOfJSON "slice" (s.read).2.totalOffset), (s.read).2) w
    else .ret (some (.errUnexpectedEndOfJSON "slice" s.totalOffset), s) w

/-- The method `sliceDecoder.decodeStream`. -/
def sliceDecoder.decodeStream (maxDecodeNestingDepth : Int) (d : sliceDecoder) (fuel : Nat)
    (s : stream) (depth : Int) (p : Ptr) (w : World) : Exec (Option Error × stream) :=
  let depth := depth + 1
  if depth > maxDecodeNestingDepth then
    .ret (some (.errExceededMaxDepth s.char s.cursor), s) w
  else d.decodeStreamFrom depth p fuel s w

/-! ## A small element decoder to run the slice decoder on -/

/-- A decoder for one-digit integers, standing for the primitive decoders of the package: it
skips whitespace, reads one decimal digit and stores its value in the slot. -/
def digitDecoder : decoder where
  decode := fun buf cursor _depth p w =>
    let c := skipWhiteSpace buf cursor
    match buf[c]? with
    | some b =>
      if 48 ≤ b ∧ b ≤ 57 then
        match w.store p (.scalar (b - 48 : Nat)) with
        | some w => .ret (c + 1, none) w
        | none => .fault
      else .ret (0, some (.external b)) w
    | none => .ret (0, some (.external 0)) w
  decodeStream := fun s _depth p w =>
    let s := s.skipWhiteSpace
    let b := s.char
    if 48 ≤ b ∧ b ≤ 57 then
      match w.store p (.scalar (b - 48 : Nat)) with
      | some w => .ret (none, { s with cursor := s.cursor + 1 }) w
      | none => .fault
    else .ret (some (.external b), s) w

/-- The type descriptor of `int`. -/
def intType : rtype := { name := "int", kind := Kind.Int, ptrImplementsUnmarshalJSON := false }

/-- The slice decoder for `[]int` built by `newSliceDecoder`, owning pool 0. -/
def intSliceDecoder : sliceDecoder := newSliceDecoder digitDecoder intType 8 "" "" 0

/-- A memory with one variable: block 0 holds the destination slice header `dst`; further
arrays follow in `arrays`; pool 0 holds the headers `pooled`. -/
def World.init (dst : Val) (arrays : List (List Val)) (pooled : List sliceHeader) : World :=
  { heap := [dst] :: arrays
    pools := fun i => if i = 0 then pooled else []
    log := [] }

/-! ## Vocabulary of the statements -/

/-- The value a call returned, if it returned. -/
def Exec.value {α : Type} : Exec α → Option α
  | .ret v _ => some v
  | _ => none

/-- The memory a call left behind, if it returned. -/
def Exec.world {α : Type} : Exec α → Option World
  | .ret _ w => some w
  | _ => none

/-- The byte `b`, at offset `i`, is the first byte at or after `cursor` that is not
whitespace. -/
def firstNonSpace (buf : List Nat) (cursor i b : Nat) : Prop :=
  cursor ≤ i ∧ (∀ j, j < i → cursor ≤ j → isWhiteSpace (buf.getD j 0) = true) ∧
    buf[i]? = some b ∧ isWhiteSpace b = false

/-- The element decoder `dec` succeeds on the value that starts at `start`: called there with
depth `depth` on any slot, it returns the cursor `stop` and no error, having written `v` into
the slot and nothing else. -/
def decodesTo (dec : decoder) (buf : List Nat) (depth : Int) (start stop : Nat) (v : Val) :
    Prop :=
  ∀ (w w' : World) (ep : Ptr), w.store ep v = some w' →
    dec.decode buf start depth ep w = .ret (stop, none) w'

/-- From `start` the buffer holds the values `es` (each given with the cursor where its text
stops), every two of them separated by optional whitespace, a comma and whatever whitespace
the element decoder skips; `b`, at offset `t`, is the first byte after the last value that is
not whitespace. -/
def elemsAt (dec : decoder) (buf : List Nat) (depth : Int) :
    Nat → List (Nat × Val) → Nat → Nat → Prop
  | _, [], _, _ => False
  | start, [e], t, b => decodesTo dec buf depth start e.1 e.2 ∧ firstNonSpace buf e.1 t b
  | start, e :: e' :: es, t, b =>
    decodesTo dec buf depth start e.1 e.2 ∧
      ∃ m, firstNonSpace buf e.1 m 44 ∧ elemsAt dec buf depth (m + 1) (e' :: es) t b

/-- The stream counterpart of `decodesTo`: on the stream state `s` the element decoder
returns no error, leaves the stream in state `s'` and writes `v` into the slot and nothing
else. -/
def decodesToStream (dec : decoder) (depth : Int) (s s' : stream) (v : Val) : Prop :=
  ∀ (w w' : World) (ep : Ptr), w.store ep v = some w' →
    dec.decodeStream s depth ep w = .ret (none, s') w'

/-- The stream counterpart of `elemsAt`: from the state `s` the stream delivers the values
`es` (each with the stream state its decoder leaves), every two of them separated by
whitespace and a comma that are already in the window; `last` is the state in which the
decoder of the last value leaves the stream, moved past the whitespace in the window. -/
def streamElemsAt (dec : decoder) (depth : Int) :
    stream → List (stream × Val) → stream → Prop
  | _, [], _ => False
  | s, [e], last => decodesToStream dec depth s e.1 e.2 ∧ last = e.1.skipWhiteSpace
  | s, e :: e' :: es, last =>
    decodesToStream dec depth s e.1 e.2 ∧ e.1.skipWhiteSpace.char = 44 ∧
      streamElemsAt dec depth
        { e.1.skipWhiteSpace with cursor := e.1.skipWhiteSpace.cursor + 1 } (e' :: es) last

/-- What one round of the element loop does to the scratch array when the element decoder
stores `v`: grow if needed, initialise slot `idx`, store `v` there. -/
def sliceDecoder.fillElem (d : sliceDecoder) (v : Val) (idx capacity : Nat) (data : Option Nat)
    (w : World) : Option (Nat × Option Nat × World) :=
  match d.grow idx capacity data w with
  | none => none
  | some (capacity, data, w) =>
    match data with
    | none => none
    | some a =>
      match d.initElem ⟨a, idx⟩ w with
      | none => none
      | some w =>
        match w.store ⟨a, idx⟩ v with
        | none => none
        | some w => some (capacity, data, w)

/-- The rounds of the element loop for the values `vs`, starting at index `idx`. -/
def sliceDecoder.fillElems (d : sliceDecoder) :
    List Val → Nat → Nat → Option Nat → World → Option (Nat × Option Nat × World)
  | [], _, capacity, data, w => some (capacity, data, w)
  | v :: vs, idx, capacity, data, w =>
    match d.fillElem v idx capacity data w with
    | none => none
    | some (capacity, data, w) => sliceDecoder.fillElems d vs (idx + 1) capacity data w

/-- The capacity of the scratch array after `n` more rounds of the element loop that start at
index `idx` with capacity `capacity`: it doubles in every round that finds
`capacity <= idx`. -/
def capAfter : Nat → Nat → Nat → Nat
  | 0, _, capacity => capacity
  | n + 1, idx, capacity => capAfter n (idx + 1) (if capacity ≤ idx then capacity * 2 else capacity)

/-- The header that `newSlice` will hand out is usable: if the pool of `d` is not empty, its
first header points to an array of `cap > 0` elements that is not the array holding the
destination header. -/
def scratchReady (d : sliceDecoder) (w : World) (p : Ptr) : Prop :=
  ∀ h rest, w.pools d.arrayPool = h :: rest →
    ∃ b cells, h.data = some b ∧ b ≠ p.block ∧ w.heap[b]? = some cells ∧
      cells.length = h.cap ∧ 0 < h.cap

/-- The destination header `dst` at `p` is a valid Go slice: a nil slice has capacity 0, and
otherwise `data` is an array of at least `cap` elements, other than the one holding the
header. -/
def dstValid (w : World) (p : Ptr) (dst : sliceHeader) : Prop :=
  w.loadHeader p = some dst ∧
    match dst.data with
    | none => dst.cap = 0
    | some a => a ≠ p.block ∧ ∃ cells, w.heap[a]? = some cells ∧ dst.cap ≤ cells.length

/-- The number of `Put` calls on pool `pool` in a log. -/
def putCount (pool : Nat) : List PoolEvent → Nat
  | [] => 0
  | .put q _ :: l => (if q = pool then 1 else 0) + putCount pool l
  | .get _ _ :: l => putCount pool l

/-- The number of `Get` calls on pool `pool` in a log. -/
def getCount (pool : Nat) : List PoolEvent → Nat
  | [] => 0
  | .get q _ :: l => (if q = pool then 1 else 0) + getCount pool l
  | .put _ _ :: l => getCount pool l

/-- The memory `w'` arises from `w` by allocating arrays and writing into the array `b`: the
pools and the log are the same, no array is lost or resized, and every array of `w` other
than `b` has its content. -/
def World.writesOnly (w w' : World) (b : Nat) : Prop :=
  w'.pools = w.pools ∧ w'.log = w.log ∧ w.heap.length ≤ w'.heap.length ∧
    (∀ a, a < w.heap.length → a ≠ b → w'.heap[a]? = w.heap[a]?) ∧
    (∀ a, a < w.heap.length → (w'.heap[a]?).map List.length = (w.heap[a]?).map List.length)

/-- The scratch array `b` has `capacity > 0` elements, the first `idx` of which are `done`. -/
def scratchInv (w : World) (b capacity idx : Nat) (done : List Val) : Prop :=
  ∃ cells, w.heap[b]? = some cells ∧ cells.length = capacity ∧ idx ≤ capacity ∧
    0 < capacity ∧ cells.take idx = done

/-- The number `r` is the first member of the doubling sequence `c, 2c, 4c, ...` that is at
least `n`. -/
def leastDoubling (c n r : Nat) : Prop :=
  ∃ j, r = c * 2 ^ j ∧ n ≤ r ∧ ∀ j', n ≤ c * 2 ^ j' → r ≤ c * 2 ^ j'

/-- The number `r` is the smallest power of 2 that is at least `n`. -/
def smallestPowerOfTwo (n r : Nat) : Prop :=
  ∃ j, r = 2 ^ j ∧ n ≤ r ∧ ∀ j', n ≤ 2 ^ j' → r ≤ 2 ^ j'

/-- The call of `decode` returned an `errExceededMaxDepth` error. -/
def raisesDepth (e : Exec (Nat × Option Error)) : Prop :=
  ∃ v w c k, e = .ret (v, some (.errExceededMaxDepth c k)) w

/-- The call of `decodeStream` returned an `errExceededMaxDepth` error. -/
def raisesDepthStream (e : Exec (Option Error × stream)) : Prop :=
  ∃ s w c k, e = .ret (some (.errExceededMaxDepth c k), s) w

/-- A slice decoder as a value of the interface `decoder`; `fuel` is the step budget of each
call. -/
def sliceDecoder.toDecoder (maxDecodeNestingDepth : Int) (fuel : Nat) (d : sliceDecoder) :
    decoder where
  decode := fun buf cursor depth p w => d.decode maxDecodeNestingDepth fuel buf cursor depth p w
  decodeStream := fun s depth p w => d.decodeStream maxDecodeNestingDepth fuel s depth p w

/-- The type descriptor of `[]T`. -/
def sliceType (t : rtype) : rtype :=
  { name := "[]" ++ t.name, kind := Kind.Slice, ptrImplementsUnmarshalJSON := false }

/-- The type `[]...[]T` with `m` pairs of brackets. -/
def towerType (leafType : rtype) : Nat → rtype
  | 0 => leafType
  | m + 1 => sliceType (towerType leafType m)

/-- A tower of `m` nested slice decoders over the decoder `leaf` of `leafType`: the decoder
for `[]...[]T` with `m` pairs of brackets, as `newSliceDecoder` builds it; the decoder of
level `m + 1` owns pool `m`. -/
def towerDecoder (maxDecodeNestingDepth : Int) (fuel : Nat) (leaf : decoder)
    (leafType : rtype) : Nat → decoder
  | 0 => leaf
  | m + 1 =>
    (newSliceDecoder (towerDecoder maxDecodeNestingDepth fuel leaf leafType m)
      (towerType leafType m) 24 "" "" m).toDecoder maxDecodeNestingDepth fuel

/-- The slice decoder on top of a tower of `m` nested slice decoders: a tower of `m + 1`
slice decoders in all. -/
def towerSlice (maxDecodeNestingDepth : Int) (fuel : Nat) (leaf : decoder)
    (leafType : rtype) (m : Nat) : sliceDecoder :=
  newSliceDecoder (towerDecoder maxDecodeNestingDepth fuel leaf leafType m)
    (towerType leafType m) 24 "" "" m

/-- The input of `k` nested brackets, `[[...]]`. -/
def nestedBrackets (k : Nat) : List Nat := List.replicate k 91 ++ List.replicate k 93

/-- An element decoder that looks at the slot it is handed: an all-zero slot is filled like
`digitDecoder` does; any other content is reported, as `external (n + 1)` for a slot holding
the scalar `n` and as `external 0` for a slot holding a slice header. -/
def slotProbe : decoder where
  decode := fun buf cursor depth p w =>
    match w.load p with
    | some .zero => digitDecoder.decode buf cursor depth p w
    | some (.scalar n) => .ret (0, some (.external (n.toNat + 1))) w
    | some (.slice _) => .ret (0, some (.external 0)) w
    | none => .fault
  decodeStream := fun s depth p w =>
    match w.load p with
    | some .zero => digitDecoder.decodeStream s depth p w
    | some (.scalar n) => .ret (some (.external (n.toNat + 1)), s) w
    | some (.slice _) => .ret (some (.external 0), s) w
    | none => .fault

/-- The slice decoder for `[]int` over `slotProbe`, owning pool 0 like `intSliceDecoder`. -/
def probeSliceDecoder : sliceDecoder := newSliceDecoder slotProbe intType 8 "" "" 0

/-- The arrays of `w` are in `w'` what they are in `w`, the array `b` apart; arrays may have
been allocated, none is lost. -/
def World.keepsExcept (w w' : World) (b : Nat) : Prop :=
  w.heap.length ≤ w'.heap.length ∧
    ∀ a, a < w.heap.length → a ≠ b → w'.heap[a]? = w.heap[a]?

/-- The decoder `dec` writes into the array of the slot it is handed and into arrays it
allocates, and into no other array. -/
def decoder.writesSlotOnly (dec : decoder) : Prop :=
  (∀ buf cursor depth ep w r w',
      dec.decode buf cursor depth ep w = .ret r w' → w.keepsExcept w' ep.block) ∧
    ∀ s depth ep w r w',
      dec.decodeStream s depth ep w = .ret r w' → w.keepsExcept w' ep.block

/-- The array `a` is not the scratch array that the pool of `d` hands out next. -/
def notScratch (d : sliceDecoder) (w : World) (a : Nat) : Prop :=
  ∀ h rest, w.pools d.arrayPool = h :: rest → h.data ≠ some a

/-! ### Element decoders that allocate

An element decoder in general does more than store a scalar in its slot: the decoder of a
nested slice takes a scratch array from its own pool, allocates the array of its result and
puts the scratch array back. What the slice decoder needs of it is stated relative to the
arrays `X` of the caller (the array of the destination header, the destination's array, the
scratch array of the caller), which the element decoder must leave alone, and to an
invariant `I w X` of the memory that the element decoder maintains ("my pool is in order and
its arrays are none of yours"). -/

/-- The invariant `I` of an element decoder survives the work of a caller that owns the pool
`pool`: if the memory changes only by new arrays, by writes into arrays of the caller and in
the caller's pool (and in the log), and the caller's arrays afterwards are old ones or new
ones, the invariant still holds. -/
def stableFor (I : World → (Nat → Prop) → Prop) (pool : Nat) : Prop :=
  ∀ (w w' : World) (X X' : Nat → Prop), I w X →
    w.heap.length ≤ w'.heap.length →
    (∀ a, a < w.heap.length → ¬ X a → w'.heap[a]? = w.heap[a]?) →
    (∀ q, q ≠ pool → w'.pools q = w.pools q) →
    (∀ a, X' a → X a ∨ w.heap.length ≤ a) → I w' X'

/-- The element decoder `dec` succeeds on the value that starts at `start`: in every memory
`w` that satisfies its invariant `I` for the caller's arrays `X`, called with depth `depth`
on a slot of an array of the caller whose content satisfies `Sl`, it returns the cursor
`stop` and no error, having stored in the slot a value `v` with `R v`; it has changed no
other slot of that array and no other array of the caller, no array is lost, and the
invariant holds again. -/
def decodesUnder (dec : decoder) (I : World → (Nat → Prop) → Prop) (Sl : Val → Prop)
    (buf : List Nat) (depth : Int) (start stop : Nat) (R : Val → Prop) : Prop :=
  ∀ (w : World) (X : Nat → Prop) (ep : Ptr) (cells : List Val) (v0 : Val),
    I w X → (∀ a, X a → a < w.heap.length) → X ep.block →
    w.heap[ep.block]? = some cells → cells[ep.index]? = some v0 → Sl v0 →
    ∃ w' v, dec.decode buf start depth ep w = .ret (stop, none) w' ∧ R v ∧
      w'.heap[ep.block]? = some (cells.set ep.index v) ∧
      w.heap.length ≤ w'.heap.length ∧
      (∀ a, X a → a ≠ ep.block → w'.heap[a]? = w.heap[a]?) ∧
      I w' X

/-- The counterpart of `elemsAt` for element decoders in general: from `start` the buffer
holds the values `es`, each given with the cursor where its text stops and with what is known
of the value the element decoder stores for it; every two of them are separated by optional
whitespace, a comma and whatever whitespace the element decoder skips; `b`, at offset `t`,
is the first byte after the last value that is not whitespace. -/
def elemsUnder (dec : decoder) (I : World → (Nat → Prop) → Prop) (Sl : Val → Prop)
    (buf : List Nat) (depth : Int) : Nat → List (Nat × (Val → Prop)) → Nat → Nat → Prop
  | _, [], _, _ => False
  | start, [e], t, b =>
    decodesUnder dec I Sl buf depth start e.1 e.2 ∧ firstNonSpace buf e.1 t b
  | start, e :: e' :: es, t, b =>
    decodesUnder dec I Sl buf depth start e.1 e.2 ∧
      ∃ m, firstNonSpace buf e.1 m 44 ∧ elemsUnder dec I Sl buf depth (m + 1) (e' :: es) t b

/-- The arrays of the caller at the call of `decode`: the array that holds the destination
header, the destination's array, and the scratch array that the pool hands out next. -/
def callerArrays (d : sliceDecoder) (w : World) (p : Ptr) (dst : sliceHeader) (a : Nat) :
    Prop :=
  a = p.block ∨ dst.data = some a ∨
    ∃ h rest, w.pools d.arrayPool = h :: rest ∧ h.data = some a

/-- The memory `w` is ready for the element decoder of `d`: its invariant `I` holds for the
caller's arrays and survives the caller's work; an all-zero slot, a slot after the
initialisation of a pointer element, and every slot of the scratch array that the pool hands
out next are slots the element decoder accepts (`Sl`). -/
def elemReady (d : sliceDecoder) (I : World → (Nat → Prop) → Prop) (Sl : Val → Prop)
    (w : World) (p : Ptr) (dst : sliceHeader) : Prop :=
  I w (callerArrays d w p dst) ∧ stableFor I d.arrayPool ∧ Sl Val.zero ∧
    (d.isElemPointerType = true → ∀ v, Sl v → Sl v.withNilFirstWord) ∧
    ∀ h rest b cells, w.pools d.arrayPool = h :: rest → h.data = some b →
      w.heap[b]? = some cells → ∀ v ∈ cells, Sl v

/-- The invariant of a slice decoder `d` used as element decoder: the scratch array that its
pool hands out next is an array of `cap > 0` elements that is none of the caller's. -/
def poolReady (d : sliceDecoder) (w : World) (X : Nat → Prop) : Prop :=
  ∀ h rest, w.pools d.arrayPool = h :: rest →
    ∃ b cells, h.data = some b ∧ ¬ X b ∧ w.heap[b]? = some cells ∧
      cells.length = h.cap ∧ 0 < h.cap

/-- The value is the header of a slice of length and capacity `n` over some array. -/
def sliceOfLength (n : Nat) (v : Val) : Prop :=
  ∃ h a, v = .slice h ∧ h.len = n ∧ h.cap = n ∧ h.data = some a

/-- The slice decoder for `[][]int`, built by `newSliceDecoder` over the decoder for `[]int`
(with depth bound 100 and step budget 20), owning pool 1. -/
def intSliceSliceDecoder : sliceDecoder :=
  newSliceDecoder (intSliceDecoder.toDecoder 100 20) (sliceType intType) 24 "" "" 1

/-! # The encoding compiler (`encode_compile.go`)

A shallow embedding of `Encoder.compileHead`, `Encoder.compile` and the compilers they call.

* A type descriptor `*rtype` is an address (a natural number); what the compiler asks of it
  (`Kind`, `Elem`, `Key`, `Len`, `Size`, the fields, `Implements`) is looked up in a table
  `Types`. Recursive types are cycles of that table.
* An opcode `*opcode` is an address into the list `Encoder.codes`; the node layouts that the
  source reinterprets through pointer casts (`opcode`, `structFieldCode`, `sliceElemCode`,
  `mapHeaderCode`, ...) are one record with all the slots.
* `compile` calls itself through `compilePtr`, `compileSlice`, ...; each of these takes the
  function it calls for `e.compile` as an argument, and `compile` hands them itself with one
  unit less of `fuel`: `fuel` bounds the depth of nested calls.
-/

/-! ## Types that `encode_compile.go` uses and does not declare -/

/-- The value kinds that have an opcode of their own. -/
inductive primOp where
  | Int | Int8 | Int16 | Int32 | Int64 | Uint | Uint8 | Uint16 | Uint32 | Uint64
  | Float32 | Float64 | String | Bool
  deriving DecidableEq, Repr

/-- Modelled from the spec: the opcode tags `opType` (the enumeration is declared elsewhere in
the package). The record-field families `struct_field_head[_<K>][_omit_empty][_indent]` and
`struct_field[_<K>][_omit_empty][_indent]` are given by their parts: `ptr` and `anonymous`
select the ptr-head and anonymous-head variants of a head, `k` the value kind (`none` for the
generic op). -/
inductive opType where
  | opEnd | opInterface | opPtr | opMarshalJSON | opMarshalText
  | opPrim (k : primOp)
  | opSliceHead | opSliceElem | opSliceEnd
  | opSliceHeadIndent | opRootSliceHeadIndent | opSliceElemIndent | opRootSliceElemIndent
  | opSliceEndIndent
  | opArrayHead | opArrayElem | opArrayEnd | opArrayHeadIndent | opArrayElemIndent
  | opArrayEndIndent
  | opMapHead | opMapHeadLoad | opMapKey | opMapValue | opMapEnd
  | opMapHeadIndent | opRootMapHeadIndent | opMapHeadLoadIndent | opMapKeyIndent
  | opRootMapKeyIndent | opMapValueIndent | opMapEndIndent
  | structFieldHead (ptr anonymous : Bool) (k : Option primOp) (omitEmpty indent : Bool)
  | structField (k : Option primOp) (omitEmpty indent : Bool)
  | opStructEnd | opStructAnonymousEnd | opStructEndIndent
  | opStructFieldRecursive
  deriving DecidableEq, Repr

namespace opType

@[match_pattern] def opInt : opType := opPrim .Int
@[match_pattern] def opInt8 : opType := opPrim .Int8
@[match_pattern] def opInt16 : opType := opPrim .Int16
@[match_pattern] def opInt32 : opType := opPrim .Int32
@[match_pattern] def opInt64 : opType := opPrim .Int64
@[match_pattern] def opUint : opType := opPrim .Uint
@[match_pattern] def opUint8 : opType := opPrim .Uint8
@[match_pattern] def opUint16 : opType := opPrim .Uint16
@[match_pattern] def opUint32 : opType := opPrim .Uint32
@[match_pattern] def opUint64 : opType := opPrim .Uint64
@[match_pattern] def opFloat32 : opType := opPrim .Float32
@[match_pattern] def opFloat64 : opType := opPrim .Float64
@[match_pattern] def opString : opType := opPrim .String
@[match_pattern] def opBool : opType := opPrim .Bool

@[match_pattern] def opStructFieldHead : opType := structFieldHead false false none false false
@[match_pattern] def opStructFieldHeadInt : opType :=
  structFieldHead false false (some .Int) false false
@[match_pattern] def opStructFieldHeadInt8 : opType :=
  structFieldHead false false (some .Int8) false false
@[match_pattern] def opStructFieldHeadInt16 : opType :=
  structFieldHead false false (some .Int16) false false
@[match_pattern] def opStructFieldHeadInt32 : opType :=
  structFieldHead false false (some .Int32) false false
@[match_pattern] def opStructFieldHeadInt64 : opType :=
  structFieldHead false false (some .Int64) false false
@[match_pattern] def opStructFieldHeadUint : opType :=
  structFieldHead false false (some .Uint) false false
@[match_pattern] def opStructFieldHeadUint8 : opType :=
  structFieldHead false false (some .Uint8) false false
@[match_pattern] def opStructFieldHeadUint16 : opType :=
  structFieldHead false false (some .Uint16) false false
@[match_pattern] def opStructFieldHeadUint32 : opType :=
  structFieldHead false false (some .Uint32) false false
@[match_pattern] def opStructFieldHeadUint64 : opType :=
  structFieldHead false false (some .Uint64) false false
@[match_pattern] def opStructFieldHeadFloat32 : opType :=
  structFieldHead false false (some .Float32) false false
@[match_pattern] def opStructFieldHeadFloat64 : opType :=
  structFieldHead false false (some .Float64) false false
@[match_pattern] def opStructFieldHeadString : opType :=
  structFieldHead false false (some .String) false false
@[match_pattern] def opStructFieldHeadBool : opType :=
  structFieldHead false false (some .Bool) false false
@[match_pattern] def opStructFieldHeadOmitEmpty : opType :=
  structFieldHead false false none true false
@[match_pattern] def opStructFieldHeadIndent : opType :=
  structFieldHead false false none false true
@[match_pattern] def opStructFieldHeadOmitEmptyIndent : opType :=
  structFieldHead false false none true true

@[match_pattern] def opStructField : opType := structField none false false
@[match_pattern] def opStructFieldInt : opType := structField (some .Int) false false
@[match_pattern] def opStructFieldInt8 : opType := structField (some .Int8) false false
@[match_pattern] def opStructFieldInt16 : opType := structField (some .Int16) false false
@[match_pattern] def opStructFieldInt32 : opType := structField (some .Int32) false false
@[match_pattern] def opStructFieldInt64 : opType := structField (some .Int64) false false
@[match_pattern] def opStructFieldUint : opType := structField (some .Uint) false false
@[match_pattern] def opStructFieldUint8 : opType := structField (some .Uint8) false false
@[match_pattern] def opStructFieldUint16 : opType := structField (some .Uint16) false false
@[match_pattern] def opStructFieldUint32 : opType := structField (some .Uint32) false false
@[match_pattern] def opStructFieldUint64 : opType := structField (some .Uint64) false false
@[match_pattern] def opStructFieldFloat32 : opType := structField (some .Float32) false false
@[match_pattern] def opStructFieldFloat64 : opType := structField (some .Float64) false false
@[match_pattern] def opStructFieldString : opType := structField (some .String) false false
@[match_pattern] def opStructFieldBool : opType := structField (some .Bool) false false
@[match_pattern] def opStructFieldOmitEmpty : opType := structField none true false
@[match_pattern] def opStructFieldIndent : opType := structField none false true
@[match_pattern] def opStructFieldOmitEmptyIndent : opType := structField none true true

/-- Modelled from the spec: `headToPtrHead` gives the `head→ptr_head` variant of a
record-field-head op and leaves every other op as it is. -/
def headToPtrHead : opType → opType
  | structFieldHead _ anonymous k omitEmpty indent =>
    structFieldHead true anonymous k omitEmpty indent
  | op => op

/-- Modelled from the spec: `headToAnonymousHead` gives the anonymous-head variant of a
record-field-head op and leaves every other op as it is. -/
def headToAnonymousHead : opType → opType
  | structFieldHead ptr _ k omitEmpty indent => structFieldHead ptr true k omitEmpty indent
  | op => op

/-- Modelled from the spec: `headToOmitEmptyHead` gives the omit-empty variant of a
record-field-head op. -/
def headToOmitEmptyHead : opType → opType
  | structFieldHead ptr anonymous k _ indent => structFieldHead ptr anonymous k true indent
  | op => op

/-- Modelled from the spec: `fieldToOmitEmptyField` gives the omit-empty variant of a
record-field op. -/
def fieldToOmitEmptyField : opType → opType
  | structField k _ indent => structField k true indent
  | op => op

/-- Modelled from the spec: `toIndent` gives the indented variant of an op that has one. -/
def toIndent : opType → opType
  | structFieldHead ptr anonymous k omitEmpty _ => structFieldHead ptr anonymous k omitEmpty true
  | structField k omitEmpty _ => structField k omitEmpty true
  | opStructEnd => opStructEndIndent
  | opSliceHead => opSliceHeadIndent
  | opSliceElem => opSliceElemIndent
  | opSliceEnd => opSliceEndIndent
  | opArrayHead => opArrayHeadIndent
  | opArrayElem => opArrayElemIndent
  | opArrayEnd => opArrayEndIndent
  | opMapHead => opMapHeadIndent
  | opMapHeadLoad => opMapHeadLoadIndent
  | opMapKey => opMapKeyIndent
  | opMapValue => opMapValueIndent
  | opMapEnd => opMapEndIndent
  | op => op

end opType

open opType

/-- Modelled from the spec: an opcode node. The source has one Go struct per node shape
(`opcode`, `structFieldCode`, `sliceHeaderCode`, `sliceElemCode`, `arrayHeaderCode`,
`arrayElemCode`, `mapHeaderCode`, `mapKeyCode`, `mapValueCode`, `interfaceCode`,
`recursiveCode`, all declared elsewhere in the package) and casts between them; here every
node has the common header `op`, `typ`, `indent`, `next` and all the kind-specific slots, a
slot that a shape lacks staying at its zero value. `end_` is the slot `end`, `mapKey` the
slot `key` of a mapping header (`key` is the key bytes of a record field); `jmp` is the
address of a `compiledCode`. -/
structure opcode where
  op : opType
  typ : Option Nat := none
  indent : Int := 0
  next : Option Nat := none
  elem : Option Nat := none
  end_ : Option Nat := none
  len : Nat := 0
  size : Nat := 0
  key : String := ""
  offset : Nat := 0
  anonymousKey : Bool := false
  nextField : Option Nat := none
  mapKey : Option Nat := none
  value : Option Nat := none
  root : Bool := false
  jmp : Option Nat := none
  deriving DecidableEq, Repr

/-- Modelled from the spec: the memo entry `compiledCode` with its slot `code`, empty until
the record compiler fills it (the struct is declared elsewhere in the package). -/
structure compiledCode where
  code : Option Nat
  deriving DecidableEq, Repr

/-- A record field as `reflect.StructField` describes it: `Typ` is the address of the
field's type, `Tag` the value of the `json` key of its tag. -/
structure StructField where
  Name : String
  PkgPath : String := ""
  Typ : Nat
  Tag : String := ""
  Offset : Nat := 0
  Anonymous : Bool := false
  deriving DecidableEq, Repr

/-- The type descriptors by address: the methods of `*rtype` that the compiler calls.
`Fields typ` lists `typ.Field(0)`, ..., `typ.Field(typ.NumField() - 1)`;
`ImplementsMarshalJSON typ` is `typ.Implements(marshalJSONType)` and `ImplementsMarshalText
typ` is `typ.Implements(marshalTextType)`. -/
structure Types where
  Kind : Nat → Kind
  Elem : Nat → Nat
  Key : Nat → Nat
  Len : Nat → Nat
  Size : Nat → Nat
  Fields : Nat → List StructField
  ImplementsMarshalJSON : Nat → Bool
  ImplementsMarshalText : Nat → Bool

/-- The error `UnsupportedTypeError` with its field `Type`, the address of the type. -/
structure UnsupportedTypeError where
  Typ : Nat
  deriving DecidableEq, Repr

/-- The fields of the Go struct `Encoder` that the compiler uses: the indent depth and the
two memo tables, from the address of a record type to the address of its `compiledCode`
(most recent entry first). With them the memory the compiler works on: the opcode nodes and
the memo entries allocated so far, each addressed by its position. -/
structure Encoder where
  indent : Int
  structTypeToCompiledCode : List (Nat × Nat)
  structTypeToCompiledIndentCode : List (Nat × Nat)
  codes : List opcode
  compiled : List compiledCode
  deriving DecidableEq, Repr

/-- Outcome of a call of one of the compilers: the returned `*opcode` (or other value) and
the encoder, the returned error and the encoder, a run-time panic, or the step budget
exhausted. -/
inductive Compile (α : Type) where
  | ok (v : α) (e : Encoder)
  | err (x : UnsupportedTypeError) (e : Encoder)
  | fault
  | diverged
  deriving DecidableEq, Repr

/-- Outcome of a walk along the nodes: the node found, a nil or wild pointer followed, or a
walk that never ends. -/
inductive Walk where
  | found (code : Nat)
  | fault
  | diverged
  deriving DecidableEq, Repr

/-- A new node at the end of the memory; returns its address. -/
def Encoder.alloc (e : Encoder) (c : opcode) : Nat × Encoder :=
  (e.codes.length, { e with codes := e.codes ++ [c] })

/-- An assignment to slots of the node at `a`: `f` gives the node after the assignment. -/
def Encoder.assign (e : Encoder) (a : Nat) (f : opcode → opcode) : Encoder :=
  { e with codes := e.codes.modify f a }

/-- Modelled from the spec: `newEndOp(indent)` makes the `end` sentinel (the constructor is
declared elsewhere in the package). -/
def newEndOp (indent : Int) (e : Encoder) : Nat × Encoder :=
  e.alloc { op := opEnd, indent := indent }

/-- Modelled from the spec: `newOpCode(op, typ, indent, next)` makes a node with the common
header (the constructor is declared elsewhere in the package). -/
def newOpCode (op : opType) (typ : Option Nat) (indent : Int) (next : Nat) (e : Encoder) :
    Nat × Encoder :=
  e.alloc { op := op, typ := typ, indent := indent, next := some next }

/-- Modelled from the spec: `newSliceHeaderCode(indent)` makes a sequence header. -/
def newSliceHeaderCode (indent : Int) (e : Encoder) : Nat × Encoder :=
  e.alloc { op := opSliceHead, indent := indent }

/-- Modelled from the spec: `newArrayHeaderCode(indent, alen)` makes a fixed-array header. -/
def newArrayHeaderCode (indent : Int) (alen : Nat) (e : Encoder) : Nat × Encoder :=
  e.alloc { op := opArrayHead, indent := indent, len := alen }

/-- Modelled from the spec: `newMapHeaderCode(typ, withLoad, indent)` makes a mapping
header; `withLoad` selects the map-head-load op. -/
def newMapHeaderCode (typ : Nat) (withLoad : Bool) (indent : Int) (e : Encoder) :
    Nat × Encoder :=
  e.alloc { op := if withLoad then opMapHeadLoad else opMapHead, typ := some typ,
            indent := indent }

/-- Modelled from the spec: `newMapKeyCode(indent)` makes the key marker of a mapping. -/
def newMapKeyCode (indent : Int) (e : Encoder) : Nat × Encoder :=
  e.alloc { op := opMapKey, indent := indent }

/-- Modelled from the spec: `newMapValueCode(indent)` makes the value marker of a mapping. -/
def newMapValueCode (indent : Int) (e : Encoder) : Nat × Encoder :=
  e.alloc { op := opMapValue, indent := indent }

/-- The ops of the element markers and key markers, whose `next` loops back into the
element program and whose `end` leaves the loop. -/
def opType.isLoopMarker (op : opType) : Bool :=
  op = opSliceElem || op = opSliceElemIndent || op = opRootSliceElemIndent ||
    op = opArrayElem || op = opArrayElemIndent ||
    op = opMapKey || op = opMapKeyIndent || op = opRootMapKeyIndent

/-- The walk of `beforeLastCode`, at most `fuel` nodes long. -/
def beforeLastCodeFrom (codes : List opcode) : Nat → Nat → Walk
  | 0, _ => .diverged
  | fuel + 1, code =>
    match codes[code]? with
    | none => .fault
    | some c =>
      match (if c.op.isLoopMarker then c.end_ else c.next) with
      | none => .fault
      | some nextCode =>
        match codes[nextCode]? with
        | none => .fault
        | some n =>
          if n.op = opEnd then .found code else beforeLastCodeFrom codes fuel nextCode

/-- Modelled from the spec: `code.beforeLastCode()` walks from `code` along `next` to the
last node before the `end` sentinel (the method is declared elsewhere in the package). At an
element marker or key marker, whose `next` loops back, the walk takes the escape edge `end`.
A walk that has not ended after more steps than there are nodes is in a cycle. -/
def beforeLastCode (codes : List opcode) (code : Nat) : Walk :=
  beforeLastCodeFrom codes (codes.length + 1) code

/-- Modelled from the spec: `strings.Split(s, sep)` for a separator of one character, on the
characters of `s`: the items between the separators, at least one. -/
def splitChars (sep : Char) : List Char → List (List Char)
  | [] => [[]]
  | c :: cs =>
    if c = sep then [] :: splitChars sep cs
    else
      match splitChars sep cs with
      | [] => [[c]]
      | item :: items => (c :: item) :: items

/-- Modelled from the spec: `strings.Split(s, sep)` for a separator of one character. -/
def strings.Split (s : String) (sep : Char) : List String :=
  (splitChars sep s.data).map String.mk

/-! ## `encode_compile.go` -/

/-- The method `optimizeStructFieldPtrHead`. -/
def optimizeStructFieldPtrHead (typ : Nat) (code : Nat) (e : Encoder) : Compile Nat :=
  match e.codes[code]? with
  | none => .fault
  | some c =>
    let ptrHeadOp := c.op.headToPtrHead
    if c.op ≠ ptrHeadOp then
      .ok code (e.assign code fun c => { c with op := ptrHeadOp })
    else
      let (code, e) := newOpCode opPtr (some typ) e.indent code e
      .ok code e

/-- The method `compilePtr`; `compile` is the method `e.compile` it calls. -/
def compilePtr (T : Types) (compile : Nat → Bool → Bool → Encoder → Compile Nat)
    (typ : Nat) (root withIndent : Bool) (e : Encoder) : Compile Nat :=
  match compile (T.Elem typ) root withIndent e with
  | .fault => .fault
  | .diverged => .diverged
  | .err err e => .err err e
  | .ok code e => optimizeStructFieldPtrHead typ code e

/-- The methods `compileInt`, `compileInt8`, ..., `compileBool`: the program `[op, end]`
of a primitive kind, `op` being `opInt`, `opInt8`, ..., `opBool`. -/
def compilePrim (op : opType) (typ : Nat) (e : Encoder) : Compile Nat :=
  let (endOp, e) := newEndOp e.indent e
  let (code, e) := newOpCode op (some typ) e.indent endOp e
  .ok code e

/-- The method `compileInterface`. -/
def compileInterface (typ : Nat) (root : Bool) (e : Encoder) : Compile Nat :=
  let (endOp, e) := newEndOp e.indent e
  let (code, e) :=
    e.alloc { op := opInterface, typ := some typ, indent := e.indent, next := some endOp,
              root := root }
  .ok code e

/-- The method `compileSlice`; `compile` is the method `e.compile` it calls. -/
def compileSlice (T : Types) (compile : Nat → Bool → Bool → Encoder → Compile Nat)
    (typ : Nat) (root withIndent : Bool) (e : Encoder) : Compile Nat :=
  let elem := T.Elem typ
  let size := T.Size elem
  let e := { e with indent := e.indent + 1 }
  match compile elem false withIndent e with
  | .fault => .fault
  | .diverged => .diverged
  | .err err e => .err err { e with indent := e.indent - 1 }
  | .ok code e =>
    let e := { e with indent := e.indent - 1 }
    -- header => opcode => elem => end
    --             ^        |
    --             |________|
    let (header, e) := newSliceHeaderCode e.indent e
    let (elemCode, e) := e.alloc { op := opSliceElem, indent := e.indent, size := size }
    let (endOp, e) := newEndOp e.indent e
    let (end_, e) := newOpCode opSliceEnd none e.indent endOp e
    let e :=
      if withIndent then
        let e :=
          if root then
            let e := e.assign header fun c => { c with op := opRootSliceHeadIndent }
            e.assign elemCode fun c => { c with op := opRootSliceElemIndent }
          else
            let e := e.assign header fun c => { c with op := opSliceHeadIndent }
            e.assign elemCode fun c => { c with op := opSliceElemIndent }
        e.assign end_ fun c => { c with op := opSliceEndIndent }
      else e
    let e := e.assign header fun c => { c with elem := some elemCode }
    let e := e.assign header fun c => { c with end_ := some end_ }
    let e := e.assign header fun c => { c with next := some code }
    match beforeLastCode e.codes code with
    | .fault => .fault
    | .diverged => .diverged
    | .found last =>
      let e := e.assign last fun c => { c with next := some elemCode }
      let e := e.assign elemCode fun c => { c with next := some code }
      let e := e.assign elemCode fun c => { c with end_ := some end_ }
      .ok header e

/-- The method `compileArray`; `compile` is the method `e.compile` it calls. -/
def compileArray (T : Types) (compile : Nat → Bool → Bool → Encoder → Compile Nat)
    (typ : Nat) (_root withIndent : Bool) (e : Encoder) : Compile Nat :=
  let elem := T.Elem typ
  let alen := T.Len typ
  let size := T.Size elem
  let e := { e with indent := e.indent + 1 }
  match compile elem false withIndent e with
  | .fault => .fault
  | .diverged => .diverged
  | .err err e => .err err { e with indent := e.indent - 1 }
  | .ok code e =>
    let e := { e with indent := e.indent - 1 }
    -- header => opcode => elem => end
    --             ^        |
    --             |________|
    let (header, e) := newArrayHeaderCode e.indent alen e
    let (elemCode, e) := e.alloc { op := opArrayElem, len := alen, size := size }
    let (endOp, e) := newEndOp e.indent e
    let (end_, e) := newOpCode opArrayEnd none e.indent endOp e
    let e :=
      if withIndent then
        let e := e.assign header fun c => { c with op := opArrayHeadIndent }
        let e := e.assign elemCode fun c => { c with op := opArrayElemIndent }
        e.assign end_ fun c => { c with op := opArrayEndIndent }
      else e
    let e := e.assign header fun c => { c with elem := some elemCode }
    let e := e.assign header fun c => { c with end_ := some end_ }
    let e := e.assign header fun c => { c with next := some code }
    match beforeLastCode e.codes code with
    | .fault => .fault
    | .diverged => .diverged
    | .found last =>
      let e := e.assign last fun c => { c with next := some elemCode }
      let e := e.assign elemCode fun c => { c with next := some code }
      let e := e.assign elemCode fun c => { c with end_ := some end_ }
      .ok header e

/-- The method `compileMap`; `compile` is the method `e.compile` it calls. -/
def compileMap (T : Types) (compile : Nat → Bool → Bool → Encoder → Compile Nat)
    (typ : Nat) (withLoad root withIndent : Bool) (e : Encoder) : Compile Nat :=
  -- header => code => value => code => key => code => value => code => end
  --                                     ^                       |
  --                                     |_______________________|
  let e := { e with indent := e.indent + 1 }
  let keyType := T.Key typ
  match compile keyType false withIndent e with
  | .fault => .fault
  | .diverged => .diverged
  | .err err e => .err err e
  | .ok keyCode e =>
    let valueType := T.Elem typ
    match compile valueType false withIndent e with
    | .fault => .fault
    | .diverged => .diverged
    | .err err e => .err err e
    | .ok valueCode e =>
      let (key, e) := newMapKeyCode e.indent e
      let (value, e) := newMapValueCode e.indent e
      let e := { e with indent := e.indent - 1 }
      let (header, e) := newMapHeaderCode typ withLoad e.indent e
      let e := e.assign header fun c => { c with mapKey := some key }
      let e := e.assign header fun c => { c with value := some value }
      let (endOp, e) := newEndOp e.indent e
      let (end_, e) := newOpCode opMapEnd none e.indent endOp e
      let e :=
        if withIndent then
          let e :=
            if (e.codes[header]?).map (fun c => c.op) = some opMapHead then
              if root then e.assign header fun c => { c with op := opRootMapHeadIndent }
              else e.assign header fun c => { c with op := opMapHeadIndent }
            else e.assign header fun c => { c with op := opMapHeadLoadIndent }
          let e :=
            if root then e.assign key fun c => { c with op := opRootMapKeyIndent }
            else e.assign key fun c => { c with op := opMapKeyIndent }
          let e := e.assign value fun c => { c with op := opMapValueIndent }
          e.assign end_ fun c => { c with op := opMapEndIndent }
        else e
      let e := e.assign header fun c => { c with next := some keyCode }
      match beforeLastCode e.codes keyCode with
      | .fault => .fault
      | .diverged => .diverged
      | .found last =>
        let e := e.assign last fun c => { c with next := some value }
        let e := e.assign value fun c => { c with next := some valueCode }
        match beforeLastCode e.codes valueCode with
        | .fault => .fault
        | .diverged => .diverged
        | .found last =>
          let e := e.assign last fun c => { c with next := some key }
          let e := e.assign key fun c => { c with next := some keyCode }
          let e := e.assign header fun c => { c with end_ := some end_ }
          let e := e.assign key fun c => { c with end_ := some end_ }
          .ok header e

/-- The method `getTag`: the value of the `json` key of the field's tag. -/
def getTag (field : StructField) : String := field.Tag

/-- The method `isIgnoredStructField`. -/
def isIgnoredStructField (field : StructField) : Bool :=
  if field.PkgPath ≠ "" && !field.Anonymous then
    -- private field
    true
  else
    let tag := getTag field
    if tag = "-" then true
    else false

/-- The method `typeToHeaderType`. -/
def typeToHeaderType (op : opType) : opType :=
  match op with
  | opInt => opStructFieldHeadInt
  | opInt8 => opStructFieldHeadInt8
  | opInt16 => opStructFieldHeadInt16
  | opInt32 => opStructFieldHeadInt32
  | opInt64 => opStructFieldHeadInt64
  | opUint => opStructFieldHeadUint
  | opUint8 => opStructFieldHeadUint8
  | opUint16 => opStructFieldHeadUint16
  | opUint32 => opStructFieldHeadUint32
  | opUint64 => opStructFieldHeadUint64
  | opFloat32 => opStructFieldHeadFloat32
  | opFloat64 => opStructFieldHeadFloat64
  | opString => opStructFieldHeadString
  | opBool => opStructFieldHeadBool
  | _ => opStructFieldHead

/-- The method `typeToFieldType`. -/
def typeToFieldType (op : opType) : opType :=
  match op with
  | opInt => opStructFieldInt
  | opInt8 => opStructFieldInt8
  | opInt16 => opStructFieldInt16
  | opInt32 => opStructFieldInt32
  | opInt64 => opStructFieldInt64
  | opUint => opStructFieldUint
  | opUint8 => opStructFieldUint8
  | opUint16 => opStructFieldUint16
  | opUint32 => opStructFieldUint32
  | opUint64 => opStructFieldUint64
  | opFloat32 => opStructFieldFloat32
  | opFloat64 => opStructFieldFloat64
  | opString => opStructFieldString
  | opBool => opStructFieldBool
  | _ => opStructField

/-- The method `optimizeStructHeader`. -/
def optimizeStructHeader (op : opType) (isOmitEmpty withIndent : Bool) : opType :=
  let headType := typeToHeaderType op
  let headType := if isOmitEmpty then headType.headToOmitEmptyHead else headType
  if withIndent then headType.toIndent
  else headType

/-- The method `optimizeStructField`. -/
def optimizeStructField (op : opType) (isOmitEmpty withIndent : Bool) : opType :=
  let fieldType := typeToFieldType op
  let fieldType := if isOmitEmpty then fieldType.fieldToOmitEmptyField else fieldType
  if withIndent then fieldType.toIndent
  else fieldType

/-- The method `recursiveCode`; `code` is the address of the memo entry. -/
def recursiveCode (typ : Nat) (code : Nat) (e : Encoder) : Nat × Encoder :=
  let (endOp, e) := newEndOp e.indent e
  e.alloc { op := opStructFieldRecursive, typ := some typ, indent := e.indent,
            next := some endOp, jmp := some code }

/-- The method `compiledCode`: the recursive node for a memoised record type, `none` (the
nil pointer) when the memo has no entry. -/
def Encoder.compiledCode (e : Encoder) (typ : Nat) (withIndent : Bool) :
    Option (Nat × Encoder) :=
  let typeptr := typ
  if withIndent then
    match e.structTypeToCompiledIndentCode.lookup typeptr with
    | some compiledCode => some (recursiveCode typ compiledCode e)
    | none => none
  else
    match e.structTypeToCompiledCode.lookup typeptr with
    | some compiledCode => some (recursiveCode typ compiledCode e)
    | none => none

/-- The method `keyNameAndOmitEmptyFromField`. -/
def keyNameAndOmitEmptyFromField (field : StructField) : String × Bool :=
  let keyName := field.Name
  let tag := getTag field
  let opts := strings.Split tag ','
  let keyName :=
    if opts.length > 0 then
      if opts.getD 0 "" ≠ "" then opts.getD 0 "" else keyName
    else keyName
  let isOmitEmpty := false
  let isOmitEmpty :=
    if opts.length > 1 then decide (opts.getD 1 "" = "omitempty") else isOmitEmpty
  (keyName, isOmitEmpty)

/-- The method `structHeader`; `fieldCode` and `valueCode` are addresses of nodes. -/
def structHeader (fieldCode valueCode : Nat) (isOmitEmpty withIndent : Bool) (e : Encoder) :
    Compile Nat :=
  let e := e.assign fieldCode fun c => { c with indent := c.indent - 1 }
  match e.codes[valueCode]? with
  | none => .fault
  | some v =>
    let op := optimizeStructHeader v.op isOmitEmpty withIndent
    let e := e.assign fieldCode fun c => { c with op := op }
    if op = opStructFieldHead ∨ op = opStructFieldHeadOmitEmpty ∨
        op = opStructFieldHeadIndent ∨ op = opStructFieldHeadOmitEmptyIndent then
      match beforeLastCode e.codes valueCode with
      | .fault => .fault
      | .diverged => .diverged
      | .found last => .ok last e
    else .ok fieldCode e

/-- The method `structField`; `fieldCode` and `valueCode` are addresses of nodes. -/
def structField (fieldCode valueCode : Nat) (isOmitEmpty withIndent : Bool) (e : Encoder) :
    Compile Nat :=
  let code := fieldCode
  match e.codes[valueCode]? with
  | none => .fault
  | some v =>
    let op := optimizeStructField v.op isOmitEmpty withIndent
    let e := e.assign fieldCode fun c => { c with op := op }
    if op = opStructField ∨ op = opStructFieldOmitEmpty ∨
        op = opStructFieldIndent ∨ op = opStructFieldOmitEmptyIndent then
      match beforeLastCode e.codes valueCode with
      | .fault => .fault
      | .diverged => .diverged
      | .found last => .ok last e
    else .ok code e

/-- The loop `for { f.op = f.op.headToAnonymousHead() ... }` of `compileStruct` over the
`nextField` chain that starts at `f`, at most `fuel` nodes long. A node that is not a
`structFieldCode` has no `nextField`. -/
def anonymousFrom : Nat → Nat → Encoder → Compile Unit
  | 0, _, _ => .diverged
  | fuel + 1, f, e =>
    match e.codes[f]? with
    | none => .fault
    | some c =>
      let e := e.assign f fun c => { c with op := c.op.headToAnonymousHead }
      let e :=
        if c.op.headToAnonymousHead = opStructEnd then
          e.assign f fun c => { c with op := opStructAnonymousEnd }
        else e
      match c.nextField with
      | none => .ok () e
      | some nextField => anonymousFrom fuel nextField e

/-- The variables of the field loop of `compileStruct`; `none` is the nil pointer. -/
structure structVars where
  fieldIdx : Nat
  head : Option Nat
  code : Option Nat
  prevField : Option Nat
  deriving DecidableEq, Repr

/-- The loop `for i := 0; i < fieldNum; i++ { ... }` of `compileStruct` over the fields that
are left; `compile` is the method `e.compile` it calls. -/
def compileStructFields (compile : Nat → Bool → Bool → Encoder → Compile Nat)
    (withIndent : Bool) : List StructField → structVars → Encoder → Compile structVars
  | [], v, e => .ok v e
  | field :: fields, v, e =>
    if isIgnoredStructField field then compileStructFields compile withIndent fields v e
    else
      let (keyName, isOmitEmpty) := keyNameAndOmitEmptyFromField field
      let fieldType := field.Typ
      match compile fieldType false withIndent e with
      | .fault => .fault
      | .diverged => .diverged
      | .err err e => .err err e
      | .ok valueCode e =>
        match (if field.Anonymous then anonymousFrom (e.codes.length + 1) valueCode e
               else .ok () e) with
        | .fault => .fault
        | .diverged => .diverged
        | .err err e => .err err e
        | .ok _ e =>
          let key := "\"" ++ keyName ++ "\":"
          let (fieldCode, e) :=
            e.alloc { op := opEnd, typ := some fieldType, next := some valueCode,
                      indent := e.indent, anonymousKey := field.Anonymous, key := key,
                      offset := field.Offset }
          if v.fieldIdx = 0 then
            match structHeader fieldCode valueCode isOmitEmpty withIndent e with
            | .fault => .fault
            | .diverged => .diverged
            | .err err e => .err err e
            | .ok code e =>
              compileStructFields compile withIndent fields
                { fieldIdx := v.fieldIdx + 1, head := some fieldCode, code := some code,
                  prevField := some fieldCode } e
          else
            let fcode := fieldCode
            match v.code, v.prevField with
            | some code, some prevField =>
              let e := e.assign code fun c => { c with next := some fcode }
              match structField fieldCode valueCode isOmitEmpty withIndent e with
              | .fault => .fault
              | .diverged => .diverged
              | .err err e => .err err e
              | .ok code e =>
                let e := e.assign prevField fun c => { c with nextField := some fcode }
                compileStructFields compile withIndent fields
                  { fieldIdx := v.fieldIdx + 1, head := v.head, code := some code,
                    prevField := some fieldCode } e
            | _, _ => .fault

/-- The method `compileStruct`; `compile` is the method `e.compile` it calls. -/
def compileStruct (T : Types) (compile : Nat → Bool → Bool → Encoder → Compile Nat)
    (typ : Nat) (_root withIndent : Bool) (e : Encoder) : Compile Nat :=
  match e.compiledCode typ withIndent with
  | some (code, e) => .ok code e
  | none =>
    let typeptr := typ
    let compiled := e.compiled.length
    let e := { e with compiled := e.compiled ++ [compiledCode.mk none] }
    let e :=
      if withIndent then
        { e with structTypeToCompiledIndentCode :=
                   (typeptr, compiled) :: e.structTypeToCompiledIndentCode }
      else
        { e with structTypeToCompiledCode := (typeptr, compiled) :: e.structTypeToCompiledCode }
    -- header => code => structField => code => end
    --                        ^          |
    --                        |__________|
    let e := { e with indent := e.indent + 1 }
    match compileStructFields compile withIndent (T.Fields typ)
        { fieldIdx := 0, head := none, code := none, prevField := none } e with
    | .fault => .fault
    | .diverged => .diverged
    | .err err e => .err err e
    | .ok v e =>
      let e := { e with indent := e.indent - 1 }
      let (structEndCode, e) := e.alloc { op := opStructEnd, typ := none, indent := e.indent }
      let (endOp, e) := newEndOp e.indent e
      let e := e.assign structEndCode fun c => { c with next := some endOp }
      let e :=
        if withIndent then e.assign structEndCode fun c => { c with op := opStructEndIndent }
        else e
      let e :=
        match v.prevField with
        | some prevField =>
          if (e.codes[prevField]?).bind (fun c => c.nextField) = none then
            e.assign prevField fun c => { c with nextField := some structEndCode }
          else e
        | none => e
      -- no struct field
      let (head, code, e) : Nat × Option Nat × Encoder :=
        match v.head with
        | none =>
          let (head, e) :=
            e.alloc { op := opStructFieldHead, typ := some typ, indent := e.indent,
                      nextField := some structEndCode }
          let e :=
            if withIndent then e.assign head fun c => { c with op := opStructFieldHeadIndent }
            else e
          (head, some head, e)
        | some head => (head, v.code, e)
      let e := e.assign head fun c => { c with end_ := some structEndCode }
      match code with
      | none => .fault
      | some code =>
        let e := e.assign code fun c => { c with next := some structEndCode }
        let ret := head
        let e :=
          { e with compiled := e.compiled.set compiled (compiledCode.mk (some ret)) }
        .ok ret e

/-- The method `compile`, with `fuel` nested calls of itself at most. -/
def compile (T : Types) : Nat → Nat → Bool → Bool → Encoder → Compile Nat
  | 0, _, _, _, _ => .diverged
  | fuel + 1, typ, root, withIndent, e =>
    if T.ImplementsMarshalJSON typ then
      let (endOp, e) := newEndOp e.indent e
      let (code, e) := newOpCode opMarshalJSON (some typ) e.indent endOp e
      .ok code e
    else if T.ImplementsMarshalText typ then
      let (endOp, e) := newEndOp e.indent e
      let (code, e) := newOpCode opMarshalText (some typ) e.indent endOp e
      .ok code e
    else
      match T.Kind typ with
      | .Ptr => compilePtr T (compile T fuel) typ root withIndent e
      | .Slice => compileSlice T (compile T fuel) typ root withIndent e
      | .Array => compileArray T (compile T fuel) typ root withIndent e
      | .Map => compileMap T (compile T fuel) typ true root withIndent e
      | .Struct => compileStruct T (compile T fuel) typ root withIndent e
      | .Interface => compileInterface typ root e
      | .Int => compilePrim opInt typ e
      | .Int8 => compilePrim opInt8 typ e
      | .Int16 => compilePrim opInt16 typ e
      | .Int32 => compilePrim opInt32 typ e
      | .Int64 => compilePrim opInt64 typ e
      | .Uint => compilePrim opUint typ e
      | .Uint8 => compilePrim opUint8 typ e
      | .Uint16 => compilePrim opUint16 typ e
      | .Uint32 => compilePrim opUint32 typ e
      | .Uint64 => compilePrim opUint64 typ e
      | .Uintptr => compilePrim opUint typ e
      | .Float32 => compilePrim opFloat32 typ e
      | .Float64 => compilePrim opFloat64 typ e
      | .String => compilePrim opString typ e
      | .Bool => compilePrim opBool typ e
      | _ => .err { Typ := typ } e

/-- The method `compileHead`; `fuel` is the budget of the calls of `compile` under it. -/
def compileHead (T : Types) (fuel : Nat) (typ : Nat) (withIndent : Bool) (e : Encoder) :
    Compile Nat :=
  if T.ImplementsMarshalJSON typ then
    let (endOp, e) := newEndOp e.indent e
    let (code, e) := newOpCode opMarshalJSON (some typ) e.indent endOp e
    .ok code e
  else if T.ImplementsMarshalText typ then
    let (endOp, e) := newEndOp e.indent e
    let (code, e) := newOpCode opMarshalText (some typ) e.indent endOp e
    .ok code e
  else
    let typ := if T.Kind typ = Kind.Ptr then T.Elem typ else typ
    let root := true
    if T.Kind typ = Kind.Map then compileMap T (compile T fuel) typ false root withIndent e
    else compile T fuel typ root withIndent e

/-! ## Vocabulary of the statements about the compiler -/

/-- The edge that `beforeLastCode` follows out of a node: `end` at an element marker or key
marker, `next` at every other node. -/
def opcode.succ (c : opcode) : Option Nat := if c.op.isLoopMarker then c.end_ else c.next

/-- The walk of `beforeLastCode` from `a` is at `t` after `k` steps: every node on the way is
at an address from `lo` on and below `hi`, none of them is an `end` sentinel, and `t` is not
passed before. -/
inductive WalkTo (codes : List opcode) (lo hi : Nat) : Nat → Nat → Nat → Prop where
  | here (a : Nat) (hlo : lo ≤ a) (hhi : a < hi) : WalkTo codes lo hi 0 a a
  | step {k a b t : Nat} (c cb : opcode) (ha : codes[a]? = some c) (hlo : lo ≤ a)
      (hhi : a < hi) (hat : a ≠ t) (hane : c.op ≠ opEnd) (hs : c.succ = some b)
      (hb : codes[b]? = some cb) (hne : cb.op ≠ opEnd) (rest : WalkTo codes lo hi k b t) :
      WalkTo codes lo hi (k + 1) a t

/-- The node `t` is the last node before the `end` sentinel `z`: it is no marker, and its
`next` is `z`. -/
def IsLast (codes : List opcode) (lo t z : Nat) : Prop :=
  ∃ ct cz, codes[t]? = some ct ∧ lo ≤ t ∧ ct.op.isLoopMarker = false ∧ ct.op ≠ opEnd ∧
    ct.next = some z ∧ lo ≤ z ∧ codes[z]? = some cz ∧ cz.op = opEnd

/-- The nodes from `lo` on are in `codes'` what they are in `codes` as far as the walk of
`beforeLastCode` sees them, the out-edge of `t` apart. -/
def SameWalk (codes codes' : List opcode) (lo t : Nat) : Prop :=
  ∀ a c, lo ≤ a → codes[a]? = some c →
    ∃ c', codes'[a]? = some c' ∧ (c'.op = opEnd ↔ c.op = opEnd) ∧ (a ≠ t → c'.succ = c.succ)

/-- The forward edges of a node: `next`, `elem`, `end`, `nextField`, and `key` and `value`
of a mapping header. -/
def opcode.edges (c : opcode) : List Nat :=
  [c.next, c.elem, c.end_, c.nextField, c.mapKey, c.value].reduceOption

/-- What a call of a compiler that returned the program `h` has done to the encoder `e`:
`e'` has the indent depth of `e`, the nodes and memo entries of `e` unchanged and new ones
after them, every entry of the memo tables of `e`; the new nodes point to new nodes only, and
the walk of `beforeLastCode` from `h` runs over new nodes to a last node before an `end`
sentinel. -/
structure Emits (e e' : Encoder) (h : Nat) : Prop where
  indent : e'.indent = e.indent
  codes : ∃ seg, e'.codes = e.codes ++ seg
  compiled : ∃ cs, e'.compiled = e.compiled ++ cs
  memo : ∀ t c, e.structTypeToCompiledCode.lookup t = some c →
    e'.structTypeToCompiledCode.lookup t = some c
  memoIndent : ∀ t c, e.structTypeToCompiledIndentCode.lookup t = some c →
    e'.structTypeToCompiledIndentCode.lookup t = some c
  closed : ∀ a c, e.codes.length ≤ a → e'.codes[a]? = some c →
    ∀ b ∈ c.edges, e.codes.length ≤ b ∧ b < e'.codes.length
  walk : ∃ t z k, WalkTo e'.codes e.codes.length e'.codes.length k h t ∧
    IsLast e'.codes e.codes.length t z ∧
    e.codes.length + k + 2 ≤ e'.codes.length

/-- What the callee `compile` of a compiler has to do: every successful call emits a
program. -/
def RecEmits (compile : Nat → Bool → Bool → Encoder → Compile Nat) : Prop :=
  ∀ typ root withIndent e code e1, compile typ root withIndent e = .ok code e1 →
    Emits e e1 code

/-- The nodes of `codes'` are those of `codes` with, from `lo` on, other ops that are an
`end` sentinel or a marker exactly when the old op is. -/
def SameShape (codes codes' : List opcode) (lo : Nat) : Prop :=
  codes'.length = codes.length ∧
    ∀ a c, codes[a]? = some c → ∃ op, codes'[a]? = some { c with op := op } ∧
      (op = opEnd ↔ c.op = opEnd) ∧ op.isLoopMarker = c.op.isLoopMarker ∧
      (a < lo → op = c.op)

/-- The key bytes of a record field: the key name between quotes, then a colon. -/
def fieldKey (field : StructField) : String :=
  "\"" ++ (keyNameAndOmitEmptyFromField field).1 ++ "\":"

/-- The nodes at the addresses of `chain`, which go up, are linked by `nextField` in that
order, each carries the key and the offset of the field given with it, and the `nextField`
of the last one is `stop`. -/
def FieldChain (codes : List opcode) : List (Nat × StructField) → Option Nat → Prop
  | [], _ => True
  | (a, f) :: rest, stop =>
    (∃ c, codes[a]? = some c ∧ c.key = fieldKey f ∧ c.offset = f.Offset ∧
      c.nextField = (match rest with
        | [] => stop
        | (b, _) :: _ => some b) ∧
      ∀ p ∈ rest, a < p.1) ∧ FieldChain codes rest stop

/-- The state of the field loop of `compileStruct` after some fields, `e0` being the encoder
at the start of the loop: the nodes and memo entries of `e0` are unchanged, the new nodes
point to new nodes only, `chain` lists the nodes of the fields kept so far with their
fields, and the walk of `beforeLastCode` from the head is at the cursor `code`. -/
structure StructInv (e0 e : Encoder) (v : structVars) (chain : List (Nat × StructField)) :
    Prop where
  indent : e.indent = e0.indent
  codes : ∃ seg, e.codes = e0.codes ++ seg
  compiled : ∃ cs, e.compiled = e0.compiled ++ cs
  memo : ∀ t c, e0.structTypeToCompiledCode.lookup t = some c →
    e.structTypeToCompiledCode.lookup t = some c
  memoIndent : ∀ t c, e0.structTypeToCompiledIndentCode.lookup t = some c →
    e.structTypeToCompiledIndentCode.lookup t = some c
  closed : ∀ a c, e0.codes.length ≤ a → e.codes[a]? = some c →
    ∀ b ∈ c.edges, e0.codes.length ≤ b ∧ b < e.codes.length
  links : FieldChain e.codes chain none
  chainLo : ∀ p ∈ chain, e0.codes.length ≤ p.1
  vars : (chain = [] ∧ v = { fieldIdx := 0, head := none, code := none, prevField := none }) ∨
    ∃ hd pf cur k cc, v.fieldIdx ≠ 0 ∧ v.head = some hd ∧ v.prevField = some pf ∧
      v.code = some cur ∧ chain.head?.map Prod.fst = some hd ∧
      chain.getLast?.map Prod.fst = some pf ∧
      WalkTo e.codes e0.codes.length e.codes.length k hd cur ∧
      e.codes[cur]? = some cc ∧ cc.op ≠ opEnd ∧ cc.op.isLoopMarker = false ∧
      e0.codes.length + k + 1 ≤ e.codes.length ∧
      ∃ ch, e.codes[hd]? = some ch ∧ ch.op.isLoopMarker = false

/-- What `compileStruct` returns for a record type that is not in the memo table: the field
nodes of the kept fields in declaration order, linked by `nextField` up to the record-end
node `se`; the head is the first of them (a node of its own when no field is kept), its
`end` is `se`; the memo entry of the type holds the head. -/
def StructProgram (T : Types) (typ : Nat) (withIndent : Bool) (e e' : Encoder) (h : Nat) :
    Prop :=
  ∃ chain se cs, chain.map Prod.snd = (T.Fields typ).filter (fun f => !isIgnoredStructField f) ∧
    FieldChain e'.codes chain (some se) ∧
    (chain.head?.map Prod.fst = some h ∨
      (chain = [] ∧ ∃ c, e'.codes[h]? = some c ∧ c.nextField = some se)) ∧
    (∃ ch, e'.codes[h]? = some ch ∧ ch.end_ = some se) ∧
    e'.codes[se]? = some cs ∧ cs.op = (if withIndent then opStructEndIndent else opStructEnd) ∧
    cs.nextField = none ∧
    e'.compiled[e.compiled.length]? = some (compiledCode.mk (some h)) ∧
    (if withIndent then e'.structTypeToCompiledIndentCode
      else e'.structTypeToCompiledCode).lookup typ = some e.compiled.length

/-! ## Example types and encoders -/

/-- A table of example types, by address: 0 `int`, 1 `string`,
2 `struct { A int; B string }`, 3 `struct { Next *T }` (the type itself at 3), 4 the
pointer to 3, 5 the slice of 6, 6 `struct { X int }`, 7 a record that embeds 6 as an
anonymous field, 8 a record with the field `A int` tagged `a,string,omitempty`, 9 a channel,
10 the slice of 11, 11 the slice of `int`, 12 `map[string]int`, 13 the mapping from `string`
to the channel 9, 14 a record with the field `C` of the channel type 9, 15 a record with the
field `A int` tagged `a,omitempty`, 16 `struct { Next *T }` with the field tagged `-`, 17 the
pointer to 16, 18 the slice of the channel 9, 19 the array of two channels 9, 20 the
pointer to the channel 9, 21 the mapping from the channel 9 to `int`. -/
def exampleTypes : Types where
  Kind := fun t =>
    match t with
    | 0 => .Int | 1 => .String | 2 => .Struct | 3 => .Struct | 4 => .Ptr | 5 => .Slice
    | 6 => .Struct | 7 => .Struct | 8 => .Struct | 9 => .Chan | 10 => .Slice | 11 => .Slice
    | 12 => .Map | 13 => .Map | 14 => .Struct | 15 => .Struct | 16 => .Struct | 17 => .Ptr
    | 18 => .Slice | 19 => .Array | 20 => .Ptr | 21 => .Map
    | _ => .Invalid
  Elem := fun t =>
    match t with
    | 4 => 3 | 5 => 6 | 10 => 11 | 11 => 0 | 12 => 0 | 13 => 9 | 17 => 16 | 18 => 9 | 19 => 9 | 20 => 9 | 21 => 0 | _ => 0
  Key := fun t =>
    match t with
    | 12 => 1 | 13 => 1 | 21 => 9 | _ => 0
  Len := fun t =>
    match t with
    | 19 => 2 | _ => 0
  Size := fun t =>
    match t with
    | 0 => 8 | 1 => 16 | 2 => 24 | 6 => 8 | 11 => 24 | _ => 8
  Fields := fun t =>
    match t with
    | 2 => [{ Name := "A", Typ := 0 }, { Name := "B", Typ := 1, Offset := 8 }]
    | 3 => [{ Name := "Next", Typ := 4 }]
    | 6 => [{ Name := "X", Typ := 0 }]
    | 7 => [{ Name := "Inner", Typ := 6, Anonymous := true }]
    | 8 => [{ Name := "A", Typ := 0, Tag := "a,string,omitempty" }]
    | 14 => [{ Name := "C", Typ := 9 }]
    | 15 => [{ Name := "A", Typ := 0, Tag := "a,omitempty" }]
    | 16 => [{ Name := "Next", Typ := 17, Tag := "-" }]
    | _ => []
  ImplementsMarshalJSON := fun _ => false
  ImplementsMarshalText := fun _ => false

/-- An encoder that has compiled nothing yet: indent depth 0, empty memo tables, no node. -/
def Encoder.empty : Encoder := ⟨0, [], [], [], []⟩

/-- The op of the node at `a`. -/
def Encoder.opAt (e : Encoder) (a : Nat) : Option opType := (e.codes[a]?).map (fun c => c.op)

/-- The returned program and the encoder of a call that returned a program. -/
def Compile.program {α : Type} : Compile α → Option (α × Encoder)
  | .ok v e => some (v, e)
  | _ => none

/-- The returned error and the encoder of a call that returned an error. -/
def Compile.error {α : Type} : Compile α → Option (UnsupportedTypeError × Encoder)
  | .err x e => some (x, e)
  | _ => none

/-- The kinds that `compile` has a case for: pointer, slice, array, map, struct, interface,
the integer and unsigned kinds, uintptr, float32, float64, string, bool. -/
def hasCompiler : Kind → Bool
  | .Ptr | .Slice | .Array | .Map | .Struct | .Interface
  | .Int | .Int8 | .Int16 | .Int32 | .Int64
  | .Uint | .Uint8 | .Uint16 | .Uint32 | .Uint64 | .Uintptr
  | .Float32 | .Float64 | .String | .Bool => true
  | _ => false

/-- The encoder at the start of the field loop of `compileStruct` for a record type that is
not in the memo table: the empty memo entry is allocated and registered for the type, and
the indent depth is one more. -/
def Encoder.enterStruct (e : Encoder) (typ : Nat) (withIndent : Bool) : Encoder :=
  let compiled := e.compiled.length
  let e := { e with compiled := e.compiled ++ [compiledCode.mk none] }
  let e :=
    if withIndent then
      { e with structTypeToCompiledIndentCode :=
                 (typ, compiled) :: e.structTypeToCompiledIndentCode }
    else
      { e with structTypeToCompiledCode := (typ, compiled) :: e.structTypeToCompiledCode }
  { e with indent := e.indent + 1 }

/-- The variables of the field loop of `compileStruct` before the first field. -/
def structVars.start : structVars :=
  { fieldIdx := 0, head := none, code := none, prevField := none }

/-! ## The forward edges that a node of each kind carries -/

/-- The ops of the headers of sequences and of fixed arrays, which carry `elem` and `end`. -/
def opType.isSeqHead (op : opType) : Bool :=
  op = opSliceHead || op = opSliceHeadIndent || op = opRootSliceHeadIndent ||
    op = opArrayHead || op = opArrayHeadIndent

/-- The ops of the headers of mappings, which carry `key`, `value` and `end`. -/
def opType.isMapHead (op : opType) : Bool :=
  op = opMapHead || op = opMapHeadLoad || op = opMapHeadIndent || op = opRootMapHeadIndent ||
    op = opMapHeadLoadIndent

/-- The ops of the record heads (the family `struct_field_head...`), which carry `nextField`
and `end`. -/
def opType.isStructHead : opType → Bool
  | structFieldHead _ _ _ _ _ => true
  | _ => false

/-- The ops of the record fields after the head (the family `struct_field...`), which carry
`nextField`. -/
def opType.isStructField : opType → Bool
  | opType.structField _ _ _ => true
  | _ => false

/-- The edges of a node that do not belong to a record are set: `next` unless the node is an
`end` sentinel, `elem` and `end` of a sequence or array header, `end` of an element marker or
key marker, and `key`, `value` and `end` of a mapping header. -/
def opcode.linkedBut (c : opcode) : Bool :=
  (c.op = opEnd || c.next.isSome) &&
    (!c.op.isSeqHead || (c.elem.isSome && c.end_.isSome)) &&
    (!c.op.isLoopMarker || c.end_.isSome) &&
    (!c.op.isMapHead || (c.mapKey.isSome && c.value.isSome && c.end_.isSome))

/-- The forward edges of the kind of the node are set (not nil): those of `linkedBut`, and
`nextField` and `end` of a record head and `nextField` of a record field. -/
def opcode.linked (c : opcode) : Bool :=
  c.linkedBut && (!c.op.isStructHead || (c.nextField.isSome && c.end_.isSome)) &&
    (!c.op.isStructField || c.nextField.isSome)

/-- Every node from `lo` on has the forward edges of its kind set. -/
def Linked (lo : Nat) (codes : List opcode) : Prop :=
  ∀ a c, lo ≤ a → codes[a]? = some c → c.linked = true

/-- The state of the nodes from `lo` on inside the field loop of `compileStruct`: every node
has the forward edges of its kind set, the nodes of the fields kept so far (`chain`) apart,
whose `nextField` and `end` the loop sets later; of these only the first one is a record
head. -/
def LinkedBut (lo : Nat) (codes : List opcode) (chain : List (Nat × StructField)) : Prop :=
  ∀ a c, lo ≤ a → codes[a]? = some c → c.linked = true ∨
    ((∃ p ∈ chain, p.1 = a) ∧ c.linkedBut = true ∧
      (chain.head?.map Prod.fst = some a ∨ c.op.isStructHead = false))

/-- What the callee `compile` of a compiler has to do for the edges: after every successful
call the new nodes have the forward edges of their kind set. -/
def RecLinked (compile : Nat → Bool → Bool → Encoder → Compile Nat) : Prop :=
  ∀ typ root withIndent e code e1, compile typ root withIndent e = .ok code e1 →
    Linked e.codes.length e1.codes

/-- The node at `b` is reached from the node at `a` by following forward edges (`next`,
`elem`, `end`, `nextField`, and `key` and `value` of a mapping header). -/
inductive Reach (codes : List opcode) : Nat → Nat → Prop where
  | refl (a : Nat) : Reach codes a a
  | step {a b t : Nat} (c : opcode) (ha : codes[a]? = some c) (hb : b ∈ c.edges)
      (rest : Reach codes b t) : Reach codes a t

theorem isWhiteSpace_iff (c : Nat) :
    isWhiteSpace c = true ↔ (c = 32 ∨ c = 10 ∨ c = 9 ∨ c = 13) := by
  simp [isWhiteSpace, or_assoc]

theorem lt_length_of_getElem? {α} {l : List α} {i : Nat} {a : α} (h : l[i]? = some a) :
    i < l.length := by
  rcases Nat.lt_or_ge i l.length with h1 | h1
  · exact h1
  · rw [List.getElem?_eq_none h1] at h; cases h

theorem skipWhiteSpace_ws {buf : List Nat} {c b : Nat} (h : buf[c]? = some b)
    (hb : isWhiteSpace b = true) : skipWhiteSpace buf c = skipWhiteSpace buf (c + 1) := by
  have hlt := lt_length_of_getElem? h
  have hb' : buf[c] = b := by
    rw [List.getElem?_eq_getElem hlt] at h; exact Option.some.inj h
  unfold skipWhiteSpace
  rw [List.drop_eq_getElem_cons hlt, hb', List.takeWhile_cons, hb]
  simp; omega

theorem skipWhiteSpace_stop {buf : List Nat} {c b : Nat} (h : buf[c]? = some b)
    (hb : isWhiteSpace b = false) : skipWhiteSpace buf c = c := by
  have hlt := lt_length_of_getElem? h
  have hb' : buf[c] = b := by
    rw [List.getElem?_eq_getElem hlt] at h; exact Option.some.inj h
  unfold skipWhiteSpace
  rw [List.drop_eq_getElem_cons hlt, hb', List.takeWhile_cons, hb]
  simp

theorem skipWhiteSpace_end {buf : List Nat} {c : Nat} (h : buf.length ≤ c) :
    skipWhiteSpace buf c = c := by
  unfold skipWhiteSpace
  rw [List.drop_eq_nil_of_le h]; simp

theorem getD_of_getElem? {buf : List Nat} {c b : Nat} (h : buf[c]? = some b) :
    buf.getD c 0 = b := by
  simp [List.getD, h]

theorem getElem?_of_lt_getD {buf : List Nat} {c : Nat} (h : c < buf.length) :
    buf[c]? = some (buf.getD c 0) := by
  simp [List.getD, List.getElem?_eq_getElem h]

theorem skipWhiteSpace_eq_of_firstNonSpace {buf : List Nat} :
    ∀ (k cursor i b : Nat), i = cursor + k → firstNonSpace buf cursor i b →
      skipWhiteSpace buf cursor = i := by
  intro k
  induction k with
  | zero =>
    intro cursor i b hi h
    obtain ⟨_, _, hb, hnw⟩ := h
    subst hi
    exact skipWhiteSpace_stop hb hnw
  | succ k ih =>
    intro cursor i b hi h
    obtain ⟨hle, hws, hb, hnw⟩ := h
    have hlt : cursor < buf.length := by
      have := lt_length_of_getElem? hb; omega
    have h1 := hws cursor (by omega) (le_refl _)
    rw [skipWhiteSpace_ws (getElem?_of_lt_getD hlt) h1]
    exact ih (cursor + 1) i b (by omega)
      ⟨by omega, fun j hj hc => hws j hj (by omega), hb, hnw⟩

theorem decodeFrom_skip (d : sliceDecoder) (buf : List Nat) (depth : Int) (p : Ptr) (w : World) :
    ∀ (k fuel cursor i : Nat), i = cursor + k →
      (∀ j, j < i → cursor ≤ j → isWhiteSpace (buf.getD j 0) = true) → i ≤ buf.length →
      k ≤ fuel →
      d.decodeFrom buf depth p fuel cursor w = d.decodeFrom buf depth p (fuel - k) i w := by
  intro k
  induction k with
  | zero => intro fuel cursor i hi _ _ _; subst hi; simp
  | succ k ih =>
    intro fuel cursor i hi hws hlen hfuel
    obtain ⟨f, rfl⟩ : ∃ f, fuel = f + 1 := ⟨fuel - 1, by omega⟩
    have hlt : cursor < buf.length := by omega
    have h1 := hws cursor (by omega) (le_refl _)
    have h2 := (isWhiteSpace_iff _).1 h1
    rw [sliceDecoder.decodeFrom]
    simp only [hlt, if_true, getElem?_of_lt_getD hlt, h2]
    rw [ih f (cursor + 1) i (by omega) (fun j hj hc => hws j hj (by omega)) hlen (by omega)]
    congr 1
    omega

theorem decode_eq_decodeFrom (maxDepth : Int) (d : sliceDecoder) (fuel : Nat) (buf : List Nat)
    (cursor i b : Nat) (depth : Int) (p : Ptr) (w : World)
    (hdepth : depth + 1 ≤ maxDepth) (hfirst : firstNonSpace buf cursor i b)
    (hfuel : i - cursor < fuel) :
    d.decode maxDepth fuel buf cursor depth p w =
      d.decodeFrom buf (depth + 1) p (fuel - (i - cursor) - 1 + 1) i w := by
  obtain ⟨hle, hws, hb, _⟩ := hfirst
  have hlen := lt_length_of_getElem? hb
  unfold sliceDecoder.decode
  simp only [not_lt.2 hdepth, if_false]
  rw [decodeFrom_skip d buf (depth + 1) p w (i - cursor) fuel cursor i (by omega) hws
    (by omega) (by omega)]
  congr 1
  omega

/-- Claim C6: when the first byte at or after the cursor that is not whitespace, at offset
`i`, is `-` or a decimal digit, a call of `decode` that passes the depth check fails with the
`UnmarshalTypeError` whose `Value` is "number", whose `Type` is the slice of the element type,
whose `Struct` and `Field` are the decoder's `structName` and `fieldName` and whose `Offset`
is `i`; the memory is as before. -/
theorem decode_number_error (maxDecodeNestingDepth : Int) (d : sliceDecoder) (fuel : Nat)
    (buf : List Nat) (cursor i b : Nat) (depth : Int) (p : Ptr) (w : World)
    (hdepth : depth + 1 ≤ maxDecodeNestingDepth) (hfirst : firstNonSpace buf cursor i b)
    (hnum : b = 45 ∨ (48 ≤ b ∧ b ≤ 57)) (hfuel : i - cursor < fuel) :
    d.decode maxDecodeNestingDepth fuel buf cursor depth p w =
      .ret (0, some (.UnmarshalTypeError "number" (.SliceOf (.rtype2type d.elemType))
        d.structName d.fieldName i)) w := by
  rw [decode_eq_decodeFrom maxDecodeNestingDepth d fuel buf cursor i b depth p w hdepth hfirst
    hfuel]
  obtain ⟨_, _, hb, hnw⟩ := hfirst
  have hlen := lt_length_of_getElem? hb
  rw [sliceDecoder.decodeFrom]
  have h1 : ¬ (b = 32 ∨ b = 10 ∨ b = 9 ∨ b = 13) := by
    rw [← isWhiteSpace_iff]; simp [hnw]
  have h2 : b ≠ 110 := by omega
  have h3 : b ≠ 91 := by omega
  simp only [hlen, if_true, hb, h1, if_false, h2, h3, hnum, sliceDecoder.errNumber]

theorem decode_number_error_witness :
    firstNonSpace [52, 50] 0 0 52 ∧
    intSliceDecoder.decode 100 1 [52, 50] 0 0 ⟨0, 0⟩ (World.init .zero [] []) =
      .ret (0, some (.UnmarshalTypeError "number" (.SliceOf (.rtype2type intType)) "" "" 0))
        (World.init .zero [] []) :=
  ⟨⟨by decide, by intro j hj; omega, by decide, by decide⟩,
   decode_number_error 100 intSliceDecoder 1 [52, 50] 0 0 52 0 ⟨0, 0⟩ (World.init .zero [] [])
    (by decide) ⟨by decide, by intro j hj; omega, by decide, by decide⟩ (Or.inr (by decide))
    (by decide)⟩

/-! ## The scratch array during the element loop -/

theorem World.store_eq {w : World} {p : Ptr} {cells : List Val} (v : Val)
    (hb : w.heap[p.block]? = some cells) (hi : p.index < cells.length) :
    w.store p v = some { w with heap := w.heap.set p.block (cells.set p.index v) } := by
  simp [World.store, hb, hi]

theorem World.store_inv {w w' : World} {p : Ptr} {v : Val} (h : w.store p v = some w') :
    ∃ cells, w.heap[p.block]? = some cells ∧ p.index < cells.length ∧
      w' = { w with heap := w.heap.set p.block (cells.set p.index v) } := by
  unfold World.store at h
  cases hb : w.heap[p.block]? with
  | none => simp [hb] at h
  | some cells =>
    simp only [hb] at h
    by_cases hi : p.index < cells.length
    · simp only [hi, if_true] at h
      exact ⟨cells, rfl, hi, (Option.some.inj h).symm⟩
    · simp [hi] at h

theorem World.writesOnly_refl (w : World) (b : Nat) : w.writesOnly w b :=
  ⟨rfl, rfl, le_refl _, fun _ _ _ => rfl, fun _ _ => rfl⟩

theorem World.writesOnly_trans {w w1 w2 : World} {b b1 : Nat} (h1 : w.writesOnly w1 b)
    (h2 : w1.writesOnly w2 b1) (hb : b1 = b ∨ w.heap.length ≤ b1) : w.writesOnly w2 b := by
  obtain ⟨p1, l1, n1, c1, s1⟩ := h1
  obtain ⟨p2, l2, n2, c2, s2⟩ := h2
  refine ⟨p2.trans p1, l2.trans l1, le_trans n1 n2, ?_, ?_⟩
  · intro a ha hab
    rw [c2 a (by omega) (by omega), c1 a ha hab]
  · intro a ha
    rw [s2 a (by omega), s1 a ha]

theorem World.writesOnly_mono {w w1 : World} {b : Nat} (h1 : w.writesOnly w1 b) (b' : Nat)
    (hb : w.heap.length ≤ b) : w.writesOnly w1 b' := by
  obtain ⟨p1, l1, n1, c1, s1⟩ := h1
  exact ⟨p1, l1, n1, fun a ha _ => c1 a ha (by omega), s1⟩

theorem World.store_block {w : World} {b idx : Nat} {cells : List Val} (v : Val)
    (hb : w.heap[b]? = some cells) (hi : idx < cells.length) :
    ∃ w', w.store ⟨b, idx⟩ v = some w' ∧ w'.heap[b]? = some (cells.set idx v) ∧
      w.writesOnly w' b := by
  have hlt := lt_length_of_getElem? hb
  refine ⟨_, World.store_eq v hb hi, ?_, rfl, rfl, by simp, ?_, ?_⟩
  · simp [hlt]
  · intro a _ hab
    simp [List.getElem?_set_ne (Ne.symm hab)]
  · intro a _
    by_cases hab : a = b
    · subst hab; simp [hlt, hb]
    · simp [List.getElem?_set_ne (Ne.symm hab)]

theorem newArray_spec (t : rtype) (n : Nat) (w : World) :
    (newArray t n w).1 = w.heap.length ∧
    (newArray t n w).2.heap = w.heap ++ [List.replicate n Val.zero] ∧
    (newArray t n w).2.heap[w.heap.length]? = some (List.replicate n Val.zero) ∧
    w.writesOnly (newArray t n w).2 w.heap.length := by
  refine ⟨rfl, rfl, by simp [newArray], rfl, rfl, by simp [newArray], ?_, ?_⟩
  · intro a ha _
    simp [newArray, List.getElem?_append_left ha]
  · intro a ha
    simp [newArray, List.getElem?_append_left ha]

theorem take_set_same {α} (l : List α) (i : Nat) (a : α) : (l.set i a).take i = l.take i := by
  induction l generalizing i with
  | nil => simp
  | cons x xs ih =>
    cases i with
    | zero => simp
    | succ i => simp [ih]

theorem take_succ_set {α} (l : List α) (i : Nat) (a : α) (h : i < l.length) :
    (l.set i a).take (i + 1) = l.take i ++ [a] := by
  induction l generalizing i with
  | nil => simp at h
  | cons x xs ih =>
    cases i with
    | zero => simp
    | succ i =>
      simp only [List.set_cons_succ, List.take_succ_cons, List.cons_append, List.cons.injEq,
        true_and]
      exact ih i (by simpa using h)

theorem copySlice_spec (t : rtype) (dst src : sliceHeader) {w : World} {a b : Nat}
    {da sb : List Val} (n : Nat) (hn : min dst.len src.len = n) (h0 : 0 < n)
    (hd : dst.data = some a) (hs : src.data = some b) (ha : w.heap[a]? = some da)
    (hb : w.heap[b]? = some sb) (h1 : n ≤ da.length) (h2 : n ≤ sb.length) :
    ∃ w', copySlice t dst src w = some w' ∧ w'.heap[a]? = some (sb.take n ++ da.drop n) ∧
      w.writesOnly w' a := by
  have halt := lt_length_of_getElem? ha
  have hne : ¬ n = 0 := by omega
  refine ⟨{ w with heap := w.heap.set a (sb.take n ++ da.drop n) }, ?_, ?_, rfl, rfl, by simp,
    ?_, ?_⟩
  · simp only [copySlice, hn, hne, if_false, hd, hs, ha, hb, h1, h2, and_self, if_true]
  · simp [halt]
  · intro c _ hca
    simp [List.getElem?_set_ne (Ne.symm hca)]
  · intro c _
    by_cases hca : c = a
    · subst hca
      simp [halt, ha]; omega
    · simp [List.getElem?_set_ne (Ne.symm hca)]

theorem grow_spec (d : sliceDecoder) {w : World} {b capacity idx : Nat} {done : List Val}
    (hinv : scratchInv w b capacity idx done) :
    ∃ cap' b' w1, d.grow idx capacity (some b) w = some (cap', some b', w1) ∧
      cap' = (if capacity ≤ idx then capacity * 2 else capacity) ∧
      (∃ cells, w1.heap[b']? = some cells ∧ cells.length = cap' ∧ idx < cap' ∧
        cells.take idx = done) ∧
      w.writesOnly w1 b ∧ (b' = b ∨ w.heap.length ≤ b') := by
  obtain ⟨cells, hb, hlen, hidx, hpos, htake⟩ := hinv
  have hblt := lt_length_of_getElem? hb
  unfold sliceDecoder.grow
  by_cases hc : capacity ≤ idx
  · have hi : idx = capacity := by omega
    simp only [hc, if_true]
    obtain ⟨hn1, _, e1, hw0⟩ := newArray_spec d.elemType (capacity * 2) w
    have e2 : (newArray d.elemType (capacity * 2) w).2.heap[b]? = some cells := by
      rw [hw0.2.2.2.1 b hblt (by omega), hb]
    obtain ⟨w1, hw1, hblock, hwo⟩ := copySlice_spec d.elemType
      ⟨some (newArray d.elemType (capacity * 2) w).1, idx, capacity * 2⟩
      ⟨some b, idx, capacity⟩ idx (by simp) (by omega)
      (by rw [hn1]) rfl e1 e2 (by simp; omega) (by omega)
    rw [hn1] at hw1
    refine ⟨capacity * 2, w.heap.length, w1, ?_, rfl, ?_, ?_, Or.inr (le_refl _)⟩
    · simp only [hn1, hw1]
    · refine ⟨_, hblock, ?_, by omega, ?_⟩
      · simp only [List.length_append, List.length_take, List.length_drop,
          List.length_replicate]
        omega
      · rw [List.take_append_of_le_length (by simp; omega)]
        rw [List.take_take]
        simpa using htake
    · exact World.writesOnly_mono (World.writesOnly_trans hw0 hwo (Or.inl rfl)) b (le_refl _)
  · simp only [hc, if_false]
    exact ⟨capacity, b, w, rfl, rfl, ⟨cells, hb, hlen, by omega, htake⟩,
      World.writesOnly_refl w b, Or.inl rfl⟩

theorem initElem_spec (d : sliceDecoder) {w : World} {b idx : Nat} {cells : List Val}
    (hb : w.heap[b]? = some cells) (hi : idx < cells.length) :
    ∃ w' cells', d.initElem ⟨b, idx⟩ w = some w' ∧ w'.heap[b]? = some cells' ∧
      cells'.length = cells.length ∧ cells'.take idx = cells.take idx ∧
      w.writesOnly w' b := by
  have hblt := lt_length_of_getElem? hb
  unfold sliceDecoder.initElem
  by_cases h1 : d.isElemUnmarshalJSONType = true
  · rw [if_pos h1]
    have e0 : (unsafe_New d.elemType w).2.heap[b]? = some cells := by
      simp [unsafe_New, List.getElem?_append_left hblt, hb]
    have hl : (unsafe_New d.elemType w).2.load ⟨(unsafe_New d.elemType w).1, 0⟩ =
        some Val.zero := by
      simp [unsafe_New, World.load]
    have hw0 : w.writesOnly (unsafe_New d.elemType w).2 b := by
      refine ⟨rfl, rfl, by simp [unsafe_New], ?_, ?_⟩
      · intro a ha _
        simp [unsafe_New, List.getElem?_append_left ha]
      · intro a ha
        simp [unsafe_New, List.getElem?_append_left ha]
    obtain ⟨w', hw', hblock, hwo⟩ := World.store_block Val.zero e0 hi
    refine ⟨w', cells.set idx Val.zero, ?_, hblock, by simp, take_set_same _ _ _,
      World.writesOnly_trans hw0 hwo (Or.inl rfl)⟩
    simp only [typedmemmove, hl, hw']
  · rw [if_neg h1]
    by_cases h2 : d.isElemPointerType = true
    · rw [if_pos h2]
      have hl : w.load ⟨b, idx⟩ = cells[idx]? := by simp [World.load, hb]
      rw [List.getElem?_eq_getElem hi] at hl
      obtain ⟨w', hw', hblock, hwo⟩ := World.store_block (cells[idx]).withNilFirstWord hb hi
      refine ⟨w', _, ?_, hblock, by simp, take_set_same _ _ _, hwo⟩
      simp only [World.storeNilPointer, hl, hw']
    · rw [if_neg h2]
      exact ⟨w, cells, rfl, hb, rfl, rfl, World.writesOnly_refl w b⟩

theorem fillElem_spec (d : sliceDecoder) (v : Val) {w : World} {b capacity idx : Nat}
    {done : List Val} (hinv : scratchInv w b capacity idx done) :
    ∃ cap' b' w', d.fillElem v idx capacity (some b) w = some (cap', some b', w') ∧
      cap' = (if capacity ≤ idx then capacity * 2 else capacity) ∧
      scratchInv w' b' cap' (idx + 1) (done ++ [v]) ∧
      w.writesOnly w' b ∧ (b' = b ∨ w.heap.length ≤ b') := by
  obtain ⟨cap', b', w1, hg, hcap, ⟨cells1, hb1, hlen1, hidx1, htake1⟩, hwo1, hbb⟩ :=
    grow_spec d hinv
  obtain ⟨w2, cells2, hi2, hb2, hlen2, htake2, hwo2⟩ :=
    initElem_spec d hb1 (by omega : idx < cells1.length)
  obtain ⟨w3, hs3, hb3, hwo3⟩ := World.store_block v hb2 (by omega : idx < cells2.length)
  refine ⟨cap', b', w3, ?_, hcap, ⟨_, hb3, by simp; omega, by omega, by omega, ?_⟩, ?_, hbb⟩
  · simp only [sliceDecoder.fillElem, hg, hi2, hs3]
  · rw [take_succ_set _ _ _ (by omega), htake2, htake1]
  · exact World.writesOnly_trans hwo1 (World.writesOnly_trans hwo2 hwo3 (Or.inl rfl)) hbb

theorem capAfter_succ (n idx capacity : Nat) :
    capAfter (n + 1) idx capacity =
      capAfter n (idx + 1) (if capacity ≤ idx then capacity * 2 else capacity) := rfl

theorem fillElems_spec (d : sliceDecoder) :
    ∀ (vs : List Val) (w : World) (b capacity idx : Nat) (done : List Val),
      scratchInv w b capacity idx done →
      ∃ cap' b' w', d.fillElems vs idx capacity (some b) w = some (cap', some b', w') ∧
        cap' = capAfter vs.length idx capacity ∧
        scratchInv w' b' cap' (idx + vs.length) (done ++ vs) ∧
        w.writesOnly w' b ∧ (b' = b ∨ w.heap.length ≤ b') := by
  intro vs
  induction vs with
  | nil =>
    intro w b capacity idx done hinv
    exact ⟨capacity, b, w, rfl, rfl, by simpa using hinv, World.writesOnly_refl w b, Or.inl rfl⟩
  | cons v vs ih =>
    intro w b capacity idx done hinv
    obtain ⟨cap1, b1, w1, h1, hcap1, hinv1, hwo1, hbb1⟩ := fillElem_spec d v hinv
    obtain ⟨cap2, b2, w2, h2, hcap2, hinv2, hwo2, hbb2⟩ := ih w1 b1 cap1 (idx + 1) _ hinv1
    refine ⟨cap2, b2, w2, ?_, ?_, ?_, World.writesOnly_trans hwo1 hwo2 hbb1, ?_⟩
    · simp only [sliceDecoder.fillElems, h1, h2]
    · rw [hcap2, hcap1]; rfl
    · have e : idx + (v :: vs).length = idx + 1 + vs.length := by simp; omega
      rw [e]; simpa using hinv2
    · have := hwo1.2.2.1
      rcases hbb2 with h | h
      · rcases hbb1 with h' | h'
        · exact Or.inl (h.trans h')
        · exact Or.inr (by omega)
      · exact Or.inr (by omega)

/-! ## The element loop of `decode` -/

theorem fillElem_inv {d : sliceDecoder} {v : Val} {idx capacity : Nat} {data data' : Option Nat}
    {w w' : World} {cap' : Nat}
    (h : d.fillElem v idx capacity data w = some (cap', data', w')) :
    ∃ a w1 w2, d.grow idx capacity data w = some (cap', some a, w1) ∧ data' = some a ∧
      d.initElem ⟨a, idx⟩ w1 = some w2 ∧ w2.store ⟨a, idx⟩ v = some w' := by
  unfold sliceDecoder.fillElem at h
  cases hg : d.grow idx capacity data w with
  | none => simp [hg] at h
  | some r =>
    obtain ⟨c, dat, w1⟩ := r
    simp only [hg] at h
    cases dat with
    | none => simp at h
    | some a =>
      simp only at h
      cases hi : d.initElem ⟨a, idx⟩ w1 with
      | none => simp [hi] at h
      | some w2 =>
        simp only [hi] at h
        cases hs : w2.store ⟨a, idx⟩ v with
        | none => simp [hs] at h
        | some w3 =>
          simp only [hs, Option.some.injEq, Prod.mk.injEq] at h
          obtain ⟨rfl, rfl, rfl⟩ := h
          exact ⟨a, w1, w2, rfl, rfl, hi, hs⟩

theorem decodeElems_step {d : sliceDecoder} {buf : List Nat} {depth : Int} {p : Ptr}
    {slice : sliceHeader} {v : Val} {idx capacity : Nat} {data data' : Option Nat}
    {w w' : World} {cap' cursor stop m b : Nat} (fuel : Nat)
    (hfe : d.fillElem v idx capacity data w = some (cap', data', w'))
    (hdec : decodesTo d.valueDecoder buf depth cursor stop v)
    (hsep : firstNonSpace buf stop m b) :
    d.decodeElems buf depth p slice (fuel + 1) idx capacity data cursor w =
      if b = 93 then
        match d.closeArray slice idx cap' data' p w' with
        | none => .fault
        | some w'' => .ret (m + 1, none) w''
      else if b = 44 then
        d.decodeElems buf depth p slice fuel (idx + 1) cap' data' (m + 1) w'
      else .ret (0, some (.errInvalidCharacter b "slice" m)) (d.abandon slice cap' data' w') := by
  obtain ⟨a, w1, w2, hg, rfl, hi, hs⟩ := fillElem_inv hfe
  have hskip := skipWhiteSpace_eq_of_firstNonSpace (m - stop) stop m b
    (by have := hsep.1; omega) hsep
  rw [sliceDecoder.decodeElems]
  simp only [hg, hi, hdec w2 w' ⟨a, idx⟩ hs, hskip, hsep.2.2.1]
  try rfl

theorem fillElems_cons_inv {d : sliceDecoder} {v : Val} {vs : List Val} {idx capacity : Nat}
    {data data' : Option Nat} {w w' : World} {cap' : Nat}
    (h : d.fillElems (v :: vs) idx capacity data w = some (cap', data', w')) :
    ∃ c1 d1 w1, d.fillElem v idx capacity data w = some (c1, d1, w1) ∧
      d.fillElems vs (idx + 1) c1 d1 w1 = some (cap', data', w') := by
  unfold sliceDecoder.fillElems at h
  cases hf : d.fillElem v idx capacity data w with
  | none => simp [hf] at h
  | some r =>
    obtain ⟨c1, d1, w1⟩ := r
    simp only [hf] at h
    exact ⟨c1, d1, w1, rfl, h⟩

/-- The element loop on a buffer that holds the values `es`: with too little fuel it is cut
off; otherwise it ends at the first byte `b` after the last value, in `case ']'` or in the
`default` case. -/
theorem decodeElems_eq (d : sliceDecoder) (buf : List Nat) (depth : Int) (p : Ptr)
    (slice : sliceHeader) (t b : Nat) (hb : b ≠ 44) :
    ∀ (es : List (Nat × Val)) (fuel idx capacity : Nat) (data : Option Nat) (cursor : Nat)
      (w : World) (cap' : Nat) (data' : Option Nat) (w' : World),
      elemsAt d.valueDecoder buf depth cursor es t b →
      d.fillElems (es.map Prod.snd) idx capacity data w = some (cap', data', w') →
      d.decodeElems buf depth p slice fuel idx capacity data cursor w =
        if fuel < es.length then .diverged
        else if b = 93 then
          match d.closeArray slice (idx + es.length - 1) cap' data' p w' with
          | none => .fault
          | some w'' => .ret (t + 1, none) w''
        else .ret (0, some (.errInvalidCharacter b "slice" t)) (d.abandon slice cap' data' w') := by
  intro es
  induction es with
  | nil => intro _ _ _ _ _ _ _ _ _ h; exact absurd h (by simp [elemsAt])
  | cons e es ih =>
    intro fuel idx capacity data cursor w cap' data' w' hes hfill
    obtain ⟨c1, d1, w1, hf1, hrest⟩ := fillElems_cons_inv hfill
    cases fuel with
    | zero => simp [sliceDecoder.decodeElems]
    | succ fuel =>
      cases es with
      | nil =>
        obtain ⟨hdec, hsep⟩ := hes
        simp only [List.map_nil, sliceDecoder.fillElems, Option.some.injEq,
          Prod.mk.injEq] at hrest
        obtain ⟨rfl, rfl, rfl⟩ := hrest
        rw [decodeElems_step fuel hf1 hdec hsep]
        simp [hb]
      | cons e' es =>
        obtain ⟨hdec, m, hsep, hes'⟩ := hes
        rw [decodeElems_step fuel hf1 hdec hsep]
        rw [ih fuel (idx + 1) c1 d1 (m + 1) w1 cap' data' w' hes' hrest]
        have e1 : idx + 1 + (e' :: es).length - 1 = idx + (e :: e' :: es).length - 1 := by
          simp only [List.length_cons]; omega
        simp only [e1, List.length_cons, Nat.add_lt_add_iff_right]
        have e2 : idx + 1 + es.length = idx + (es.length + 1) := by omega
        simp [e2]

/-! ## Headers and the pool -/

theorem World.load_inv {w : World} {p : Ptr} {v : Val} (h : w.load p = some v) :
    ∃ cells, w.heap[p.block]? = some cells ∧ cells[p.index]? = some v := by
  unfold World.load at h
  cases hb : w.heap[p.block]? with
  | none => simp [hb] at h
  | some cells => simp only [hb] at h; exact ⟨cells, rfl, h⟩

theorem World.load_eq_of_block {w w' : World} {q : Ptr}
    (h : w'.heap[q.block]? = w.heap[q.block]?) : w'.load q = w.load q := by
  simp [World.load, h]

theorem World.loadHeader_eq_of_block {w w' : World} {q : Ptr}
    (h : w'.heap[q.block]? = w.heap[q.block]?) : w'.loadHeader q = w.loadHeader q := by
  simp [World.loadHeader, World.load_eq_of_block h]

theorem World.loadHeader_inv {w : World} {p : Ptr} {h : sliceHeader}
    (hl : w.loadHeader p = some h) :
    ∃ cells, w.heap[p.block]? = some cells ∧ p.index < cells.length := by
  unfold World.loadHeader at hl
  cases hv : w.load p with
  | none => simp [hv] at hl
  | some v =>
    obtain ⟨cells, hc, hi⟩ := World.load_inv hv
    exact ⟨cells, hc, lt_length_of_getElem? hi⟩

theorem World.storeHeader_spec {w : World} {p : Ptr} {cells : List Val} (h : sliceHeader)
    (hb : w.heap[p.block]? = some cells) (hi : p.index < cells.length) :
    ∃ w', w.storeHeader p h = some w' ∧ w'.loadHeader p = some h ∧
      w.writesOnly w' p.block := by
  obtain ⟨w', hs, hblock, hwo⟩ :=
    @World.store_block w p.block p.index cells (Val.slice h) hb hi
  refine ⟨w', hs, ?_, hwo⟩
  simp [World.loadHeader, World.load, hblock, hi]

theorem newSlice_spec (d : sliceDecoder) (w : World) (p : Ptr) (hready : scratchReady d w p)
    (hp : p.block < w.heap.length) :
    ∃ b c h0, (d.newSlice w).1 = ⟨some b, 0, c⟩ ∧ b ≠ p.block ∧
      scratchInv (d.newSlice w).2 b c 0 [] ∧
      h0.cap = c ∧ (d.newSlice w).2.log = PoolEvent.get d.arrayPool h0 :: w.log ∧
      (d.newSlice w).2.pools =
        Function.update w.pools d.arrayPool (w.pools d.arrayPool).tail ∧
      w.heap.length ≤ (d.newSlice w).2.heap.length ∧
      (∀ a, a < w.heap.length → (d.newSlice w).2.heap[a]? = w.heap[a]?) ∧
      (w.pools d.arrayPool = [] → c = 2) ∧
      (∀ h rest, w.pools d.arrayPool = h :: rest → c = h.cap) := by
  unfold sliceDecoder.newSlice
  cases hpool : w.pools d.arrayPool with
  | nil =>
    refine ⟨w.heap.length, 2, ⟨some w.heap.length, 0, 2⟩, rfl, by omega, ?_, rfl, rfl, ?_,
      by simp [newArray], ?_, fun _ => rfl, by simp⟩
    · exact ⟨List.replicate 2 Val.zero, by simp [newArray, defaultSliceCapacity], by simp,
        by omega, by omega, by simp⟩
    · funext i
      by_cases hi : i = d.arrayPool
      · subst hi; simp [newArray, hpool]
      · simp [newArray, Function.update_noteq hi]
    · intro a ha
      simp [newArray, List.getElem?_append_left ha]
  | cons h rest =>
    obtain ⟨b, cells, hdata, hbp, hb, hlen, hpos⟩ := hready h rest hpool
    refine ⟨b, h.cap, h, ?_, hbp, ⟨cells, hb, hlen, by omega, hpos, by simp⟩, rfl, rfl, rfl,
      le_refl _, fun _ _ => rfl, by simp, ?_⟩
    · cases h; simp_all
    · intro h' rest' he
      cases he; rfl

/-! ## Closing the array -/

theorem dstValid_of_writesOnly {w w' : World} {p : Ptr} {dst : sliceHeader} {b : Nat}
    (hd : dstValid w p dst) (hwo : w.writesOnly w' b) (hb : b ≠ p.block) :
    dstValid w' p dst := by
  obtain ⟨hl, hdata⟩ := hd
  obtain ⟨pc, hpc, _⟩ := World.loadHeader_inv hl
  have hplt := lt_length_of_getElem? hpc
  refine ⟨?_, ?_⟩
  · rw [World.loadHeader_eq_of_block (hwo.2.2.2.1 p.block hplt (Ne.symm hb))]; exact hl
  · cases hdd : dst.data with
    | none => simpa [hdd] using hdata
    | some a =>
      simp only [hdd] at hdata ⊢
      obtain ⟨hap, cells, hc, hlen⟩ := hdata
      have halt := lt_length_of_getElem? hc
      have := hwo.2.2.2.2 a halt
      rw [hc] at this
      cases hc' : w'.heap[a]? with
      | none => simp [hc'] at this
      | some cells' =>
        simp only [hc', Option.map_some', Option.some.injEq] at this
        exact ⟨hap, cells', rfl, by omega⟩

theorem World.writesOnly.loadHeader_eq {w w' : World} {b : Nat} (h : w.writesOnly w' b)
    {q : Ptr} (hq : q.block < w.heap.length) (hne : q.block ≠ b) :
    w'.loadHeader q = w.loadHeader q :=
  World.loadHeader_eq_of_block (h.2.2.2.1 q.block hq hne)

/-- The effect of `case ']'` once `n = idx + 1` values `vs` sit in the scratch array. -/
theorem closeArray_spec (d : sliceDecoder) (slice : sliceHeader) {w : World} {p : Ptr}
    {dst : sliceHeader} {b capacity idx : Nat} {vs : List Val}
    (hinv : scratchInv w b capacity (idx + 1) vs) (hdst : dstValid w p dst)
    (hbp : b ≠ p.block) :
    ∃ w' dst' a cells,
      d.closeArray slice idx capacity (some b) p w = some w' ∧
      w'.log = PoolEvent.put d.arrayPool ⟨some b, idx + 1, capacity⟩ :: w.log ∧
      w'.pools = Function.update w.pools d.arrayPool
        (⟨some b, idx + 1, capacity⟩ :: w.pools d.arrayPool) ∧
      w'.loadHeader p = some dst' ∧ dst'.len = idx + 1 ∧ dst'.data = some a ∧
      w'.heap[a]? = some cells ∧ cells.take (idx + 1) = vs ∧
      (dst.cap < idx + 1 → dst'.cap = idx + 1 ∧ a = w.heap.length) ∧
      (idx + 1 ≤ dst.cap → dst'.data = dst.data ∧ dst'.cap = dst.cap) ∧
      w.heap.length ≤ w'.heap.length ∧
      (∀ c, c < w.heap.length → c ≠ p.block → dst.data ≠ some c →
        w'.heap[c]? = w.heap[c]?) ∧
      (∀ c, c < w.heap.length →
        (w'.heap[c]?).map List.length = (w.heap[c]?).map List.length) := by
  obtain ⟨sc, hsc, hsl, hsn, _, hst⟩ := hinv
  obtain ⟨hl, hdata⟩ := hdst
  obtain ⟨pc, hpc, hpi⟩ := World.loadHeader_inv hl
  have hplt := lt_length_of_getElem? hpc
  have hblt := lt_length_of_getElem? hsc
  unfold sliceDecoder.closeArray
  simp only [hl]
  by_cases hcap : idx + 1 > dst.cap
  · simp only [hcap, if_true]
    obtain ⟨hn1, _, e1, hw0⟩ := newArray_spec d.elemType (idx + 1) w
    have hlen0 := hw0.2.2.1
    have hpc1 : (newArray d.elemType (idx + 1) w).2.heap[p.block]? = some pc := by
      rw [hw0.2.2.2.1 p.block hplt (by omega), hpc]
    obtain ⟨w2, hs2, hl2, hwo2⟩ := World.storeHeader_spec
      ⟨some (newArray d.elemType (idx + 1) w).1, idx + 1, idx + 1⟩ hpc1 hpi
    have hlen2 := hwo2.2.2.1
    have hlt1 : w.heap.length < (newArray d.elemType (idx + 1) w).2.heap.length :=
      lt_length_of_getElem? e1
    have e2 : w2.heap[w.heap.length]? = some (List.replicate (idx + 1) Val.zero) := by
      rw [hwo2.2.2.2.1 w.heap.length hlt1 (by omega), e1]
    have e3 : w2.heap[b]? = some sc := by
      rw [hwo2.2.2.2.1 b (by omega) hbp, hw0.2.2.2.1 b hblt (by omega), hsc]
    obtain ⟨w3, hs3, hblock3, hwo3⟩ := copySlice_spec d.elemType
      ⟨some (newArray d.elemType (idx + 1) w).1, idx + 1, idx + 1⟩
      ⟨some b, idx + 1, capacity⟩ (idx + 1) (by simp) (by omega)
      (by rw [hn1]) rfl e2 e3 (by simp) (by omega)
    have hl3 : w3.loadHeader p =
        some ⟨some (newArray d.elemType (idx + 1) w).1, idx + 1, idx + 1⟩ := by
      rw [hwo3.loadHeader_eq (by omega) (by omega), hl2]
    have hlen3 := hwo3.2.2.1
    refine ⟨d.releaseSlice ⟨some b, idx + 1, capacity⟩ w3, _, w.heap.length, _, ?_, ?_, ?_,
      hl3, rfl, by rw [hn1], hblock3, ?_, fun _ => ⟨rfl, rfl⟩, fun h => by omega, ?_, ?_, ?_⟩
    · simp only [hs2, hs3]
    · simp only [sliceDecoder.releaseSlice]
      rw [hwo3.2.1, hwo2.2.1]
      rfl
    · simp only [sliceDecoder.releaseSlice]
      rw [hwo3.1, hwo2.1]
      rfl
    · rw [List.take_append_of_le_length (by simp; omega), List.take_take]
      simpa using hst
    · show w.heap.length ≤ w3.heap.length
      omega
    · intro c hc hcp _
      show w3.heap[c]? = w.heap[c]?
      rw [hwo3.2.2.2.1 c (by omega) (by omega), hwo2.2.2.2.1 c (by omega) hcp,
        hw0.2.2.2.1 c hc (by omega)]
    · intro c hc
      show (w3.heap[c]?).map List.length = (w.heap[c]?).map List.length
      rw [hwo3.2.2.2.2 c (by omega), hwo2.2.2.2.2 c (by omega), hw0.2.2.2.2 c hc]
  · simp only [hcap, if_false]
    have hex : ∃ a, dst.data = some a := by
      cases hdd : dst.data with
      | none => simp only [hdd] at hdata; omega
      | some a => exact ⟨a, rfl⟩
    obtain ⟨a, hdd⟩ := hex
    · simp only [hdd] at hdata
      obtain ⟨hap, da, hda, hdalen⟩ := hdata
      have halt := lt_length_of_getElem? hda
      obtain ⟨w2, hs2, hl2, hwo2⟩ := World.storeHeader_spec { dst with len := idx + 1 } hpc hpi
      have hlen2 := hwo2.2.2.1
      have e2 : w2.heap[a]? = some da := by
        rw [hwo2.2.2.2.1 a halt hap, hda]
      have e3 : w2.heap[b]? = some sc := by
        rw [hwo2.2.2.2.1 b hblt hbp, hsc]
      obtain ⟨w3, hs3, hblock3, hwo3⟩ := copySlice_spec d.elemType
        { dst with len := idx + 1 }
        ⟨some b, idx + 1, capacity⟩ (idx + 1) (by simp) (by omega)
        hdd rfl e2 e3 (by omega) (by omega)
      have hl3 : w3.loadHeader p = some { dst with len := idx + 1 } := by
        rw [hwo3.loadHeader_eq (by omega) (Ne.symm hap), hl2]
      refine ⟨d.releaseSlice ⟨some b, idx + 1, capacity⟩ w3, { dst with len := idx + 1 }, a, _,
        ?_, ?_, ?_, hl3, rfl, hdd, hblock3, ?_, ?_, fun _ => ⟨rfl, rfl⟩, ?_, ?_, ?_⟩
      · simp only [hs2, hs3]
      · simp only [sliceDecoder.releaseSlice]
        rw [hwo3.2.1, hwo2.2.1]
      · simp only [sliceDecoder.releaseSlice]
        rw [hwo3.1, hwo2.1]
      · rw [List.take_append_of_le_length (by simp; omega), List.take_take]
        simpa using hst
      · intro h; exact h.elim
      · show w.heap.length ≤ w3.heap.length
        have := hwo3.2.2.1
        omega
      · intro c hc hcp hcd
        show w3.heap[c]? = w.heap[c]?
        have hca : c ≠ a := fun e => hcd (by rw [hdd, e])
        rw [hwo3.2.2.2.1 c (by omega) hca, hwo2.2.2.2.1 c hc hcp]
      · intro c hc
        show (w3.heap[c]?).map List.length = (w.heap[c]?).map List.length
        rw [hwo3.2.2.2.2 c (by omega), hwo2.2.2.2.2 c hc]

/-! ## A whole array -/

theorem decodeFrom_open (d : sliceDecoder) (buf : List Nat) (depth : Int) (p : Ptr)
    (fuel i : Nat) (w : World) (hb : buf[i]? = some 91) :
    d.decodeFrom buf depth p (fuel + 1) i w = d.decodeArray buf depth p fuel i w := by
  have hlen := lt_length_of_getElem? hb
  rw [sliceDecoder.decodeFrom]
  simp [hlen, hb]

theorem decodeArray_elems (d : sliceDecoder) (buf : List Nat) (depth : Int) (p : Ptr)
    (fuel i c0 b0 : Nat) (w : World) (hfirst : firstNonSpace buf (i + 1) c0 b0)
    (hb0 : b0 ≠ 93) :
    d.decodeArray buf depth p fuel i w =
      d.decodeElems buf depth p (d.newSlice w).1 fuel 0 (d.newSlice w).1.cap
        (d.newSlice w).1.data c0 (d.newSlice w).2 := by
  have hskip := skipWhiteSpace_eq_of_firstNonSpace (c0 - (i + 1)) (i + 1) c0 b0
    (by have := hfirst.1; omega) hfirst
  unfold sliceDecoder.decodeArray
  simp only [hskip, hfirst.2.2.1, hb0, if_false]

theorem dstValid_of_heap {w w' : World} {p : Ptr} {dst : sliceHeader}
    (hd : dstValid w p dst) (hh : ∀ a, a < w.heap.length → w'.heap[a]? = w.heap[a]?) :
    dstValid w' p dst := by
  obtain ⟨hl, hdata⟩ := hd
  obtain ⟨pc, hpc, _⟩ := World.loadHeader_inv hl
  have hplt := lt_length_of_getElem? hpc
  refine ⟨?_, ?_⟩
  · rw [World.loadHeader_eq_of_block (hh p.block hplt)]; exact hl
  · cases hdd : dst.data with
    | none => simpa [hdd] using hdata
    | some a =>
      simp only [hdd] at hdata ⊢
      obtain ⟨hap, cells, hc, hlen⟩ := hdata
      exact ⟨hap, cells, by rw [hh a (lt_length_of_getElem? hc), hc], hlen⟩

theorem elemsAt_length_pos {dec : decoder} {buf : List Nat} {depth : Int} {c : Nat}
    {es : List (Nat × Val)} {t b : Nat} (h : elemsAt dec buf depth c es t b) :
    0 < es.length := by
  cases es with
  | nil => simp [elemsAt] at h
  | cons e es => simp

/-- What `decode` does on a well-formed array of one or more values. -/
theorem decode_array_full (maxDepth : Int) (d : sliceDecoder) (fuel : Nat)
    (buf : List Nat) (cursor i c0 b0 t : Nat) (depth : Int) (p : Ptr) (w : World)
    (dst : sliceHeader) (es : List (Nat × Val))
    (hdepth : depth + 1 ≤ maxDepth)
    (hopen : firstNonSpace buf cursor i 91)
    (hfirst : firstNonSpace buf (i + 1) c0 b0) (hb0 : b0 ≠ 93)
    (hes : elemsAt d.valueDecoder buf (depth + 1) c0 es t 93)
    (hdst : dstValid w p dst) (hpool : scratchReady d w p)
    (hfuel : i - cursor + es.length < fuel) :
    ∃ w' dst' a cells b' h0,
      d.decode maxDepth fuel buf cursor depth p w = .ret (t + 1, none) w' ∧
      w'.loadHeader p = some dst' ∧ dst'.len = es.length ∧ dst'.data = some a ∧
      w'.heap[a]? = some cells ∧ cells.take es.length = es.map Prod.snd ∧
      (dst.cap < es.length → dst'.cap = es.length ∧ w.heap.length ≤ a) ∧
      (es.length ≤ dst.cap → dst'.data = dst.data ∧ dst'.cap = dst.cap) ∧
      w'.log = PoolEvent.put d.arrayPool ⟨some b', es.length, capAfter es.length 0 h0.cap⟩ ::
        PoolEvent.get d.arrayPool h0 :: w.log ∧
      w'.pools = Function.update w.pools d.arrayPool
        (⟨some b', es.length, capAfter es.length 0 h0.cap⟩ :: (w.pools d.arrayPool).tail) ∧
      (w.pools d.arrayPool = [] → h0.cap = 2) ∧
      (∀ h rest, w.pools d.arrayPool = h :: rest → h0.cap = h.cap) ∧ 0 < h0.cap := by
  have hn := elemsAt_length_pos hes
  obtain ⟨pc, hpc, _⟩ := World.loadHeader_inv hdst.1
  have hplt := lt_length_of_getElem? hpc
  rw [decode_eq_decodeFrom maxDepth d fuel buf cursor i 91 depth p w hdepth hopen (by omega),
    decodeFrom_open d buf (depth + 1) p _ i w hopen.2.2.1,
    decodeArray_elems d buf (depth + 1) p _ i c0 b0 w hfirst hb0]
  obtain ⟨b, c, h0, hslice, hbp, hinv1, hc0, hlog1, hpools1, hlen1, hheap1, hnil, hcons⟩ :=
    newSlice_spec d w p hpool hplt
  obtain ⟨cap', b', w2, hfill, hcap', hinv2, hwo2, hbb⟩ :=
    fillElems_spec d (es.map Prod.snd) (d.newSlice w).2 b c 0 [] hinv1
  have hdst1 : dstValid (d.newSlice w).2 p dst := dstValid_of_heap hdst hheap1
  have hdst2 : dstValid w2 p dst := dstValid_of_writesOnly hdst1 hwo2 hbp
  have hbp' : b' ≠ p.block := by
    rcases hbb with h | h
    · rw [h]; exact hbp
    · omega
  obtain ⟨k, hk⟩ : ∃ k, es.length = k + 1 := ⟨es.length - 1, by omega⟩
  have hinv2' : scratchInv w2 b' cap' (k + 1) (es.map Prod.snd) := by
    simpa [hk] using hinv2
  obtain ⟨w', dst', a, cells, hclose, hlog, hpools, hl', hlen', hdata', hcells, htake, hlt, hge,
    _⟩ :=
    closeArray_spec d (d.newSlice w).1 hinv2' hdst2 hbp'
  have hlen2 := hwo2.2.2.1
  simp only [hslice] at hclose ⊢
  rw [decodeElems_eq d buf (depth + 1) p _ t 93 (by decide) es _ 0 c (some b) c0
    (d.newSlice w).2 cap' (some b') w2 hes hfill]
  have hf : ¬ (fuel - (i - cursor) - 1 < es.length) := by omega
  have hidx : 0 + es.length - 1 = k := by omega
  simp only [hf, if_false, if_true, hidx, hclose]
  refine ⟨w', dst', a, cells, b', h0, rfl, hl', by omega, hdata', hcells, by rw [hk]; exact htake,
    ?_, ?_, ?_, ?_, fun h => by rw [hc0]; exact hnil h, ?_,
    by rw [hc0]; exact hinv1.choose_spec.2.2.2.1⟩
  · intro h
    obtain ⟨h1, h2⟩ := hlt (by omega)
    exact ⟨by omega, by omega⟩
  · intro h
    exact hge (by omega)
  · rw [hlog, hwo2.2.1, hlog1, hk, hcap', hc0]
    simp [hk]
  · rw [hpools, hwo2.1, hpools1, hk, hcap', hc0]
    simp [hk]
  · intro h rest hh
    rw [hc0]; exact hcons h rest hh

/-- The well-formed array for an element decoder that stores a value in its slot and does
nothing else (`decodesTo`): on a buffer that holds, from the cursor, optional whitespace, `[`, the
`n >= 1` values `es` separated by commas (whitespace allowed around values and separators)
and a closing `]` at offset `t`, with an element decoder that succeeds on each value, a call
of `decode` that passes the depth check, on a valid destination `dst` and a usable pool,
returns the cursor `t + 1` and no error; afterwards `dst.len = n`, the first `n` elements of
the array of `dst` are the decoded values in input order, and if the incoming `dst.cap < n`
then `dst.data` is an array that did not exist before and `dst.cap = n`, otherwise `dst.data`
and `dst.cap` are as before. -/
theorem decode_array_correct (maxDecodeNestingDepth : Int) (d : sliceDecoder) (fuel : Nat)
    (buf : List Nat) (cursor i c0 b0 t : Nat) (depth : Int) (p : Ptr) (w : World)
    (dst : sliceHeader) (es : List (Nat × Val))
    (hdepth : depth + 1 ≤ maxDecodeNestingDepth)
    (hopen : firstNonSpace buf cursor i 91)
    (hfirst : firstNonSpace buf (i + 1) c0 b0) (hb0 : b0 ≠ 93)
    (hes : elemsAt d.valueDecoder buf (depth + 1) c0 es t 93)
    (hdst : dstValid w p dst) (hpool : scratchReady d w p)
    (hfuel : i - cursor + es.length < fuel) :
    ∃ w' dst' a cells,
      d.decode maxDecodeNestingDepth fuel buf cursor depth p w = .ret (t + 1, none) w' ∧
      w'.loadHeader p = some dst' ∧ dst'.len = es.length ∧ dst'.data = some a ∧
      w'.heap[a]? = some cells ∧ cells.take es.length = es.map Prod.snd ∧
      (dst.cap < es.length → dst'.cap = es.length ∧ w.heap.length ≤ a) ∧
      (es.length ≤ dst.cap → dst'.data = dst.data ∧ dst'.cap = dst.cap) := by
  obtain ⟨w', dst', a, cells, _, _, h1, h2, h3, h4, h5, h6, h7, h8, _⟩ :=
    decode_array_full maxDecodeNestingDepth d fuel buf cursor i c0 b0 t depth p w dst es
      hdepth hopen hfirst hb0 hes hdst hpool hfuel
  exact ⟨w', dst', a, cells, h1, h2, h3, h4, h5, h6, h7, h8⟩

theorem digitDecoder_decodesTo (buf : List Nat) (depth : Int) (start c b : Nat)
    (h : firstNonSpace buf start c b) (hb : 48 ≤ b ∧ b ≤ 57) :
    decodesTo digitDecoder buf depth start (c + 1) (.scalar ((b - 48 : Nat) : Int)) := by
  intro w w' ep hs
  have hskip := skipWhiteSpace_eq_of_firstNonSpace (c - start) start c b
    (by have := h.1; omega) h
  simp only [digitDecoder, hskip, h.2.2.1, hb, and_self, if_true, hs]

theorem firstNonSpace_here {buf : List Nat} {c b : Nat} (h : buf[c]? = some b)
    (hb : isWhiteSpace b = false) : firstNonSpace buf c c b :=
  ⟨le_refl _, fun j hj hc => absurd hc (by omega), h, hb⟩

theorem firstNonSpace_step {buf : List Nat} {c i b : Nat} (h : firstNonSpace buf (c + 1) i b)
    (hc : isWhiteSpace (buf.getD c 0) = true) : firstNonSpace buf c i b := by
  obtain ⟨h1, h2, h3, h4⟩ := h
  refine ⟨by omega, ?_, h3, h4⟩
  intro j hj hcj
  by_cases e : j = c
  · subst e; exact hc
  · exact h2 j hj (by omega)

theorem decode_array_correct_witness :
    firstNonSpace [32, 32, 91, 32, 32, 49, 32, 44, 32, 50, 32, 44, 32, 51, 32, 93] 0 2 91 ∧
    elemsAt intSliceDecoder.valueDecoder
      [32, 32, 91, 32, 32, 49, 32, 44, 32, 50, 32, 44, 32, 51, 32, 93] (0 + 1) 5
      [(6, .scalar 1), (10, .scalar 2), (14, .scalar 3)] 15 93 ∧
    dstValid (World.init .zero [] []) ⟨0, 0⟩ ⟨none, 0, 0⟩ ∧
    ∃ w' dst' a cells,
      intSliceDecoder.decode 100 20
        [32, 32, 91, 32, 32, 49, 32, 44, 32, 50, 32, 44, 32, 51, 32, 93] 0 0 ⟨0, 0⟩
        (World.init .zero [] []) = .ret (15 + 1, none) w' ∧
      w'.loadHeader ⟨0, 0⟩ = some dst' ∧ dst'.len = 3 ∧ dst'.data = some a ∧
      w'.heap[a]? = some cells ∧ cells.take 3 = [.scalar 1, .scalar 2, .scalar 3] ∧
      ((0 : Nat) < 3 → dst'.cap = 3 ∧ 1 ≤ a) ∧
      (3 ≤ (0 : Nat) → dst'.data = none ∧ dst'.cap = 0) := by
  have hopen : firstNonSpace
      [32, 32, 91, 32, 32, 49, 32, 44, 32, 50, 32, 44, 32, 51, 32, 93] 0 2 91 :=
    firstNonSpace_step (firstNonSpace_step (firstNonSpace_here (by decide) (by decide))
      (by decide)) (by decide)
  have hfirst : firstNonSpace
      [32, 32, 91, 32, 32, 49, 32, 44, 32, 50, 32, 44, 32, 51, 32, 93] (2 + 1) 5 49 :=
    firstNonSpace_step (firstNonSpace_step (firstNonSpace_here (by decide) (by decide))
      (by decide)) (by decide)
  have hes : elemsAt intSliceDecoder.valueDecoder
      [32, 32, 91, 32, 32, 49, 32, 44, 32, 50, 32, 44, 32, 51, 32, 93] (0 + 1) 5
      [(6, .scalar 1), (10, .scalar 2), (14, .scalar 3)] 15 93 :=
    ⟨digitDecoder_decodesTo _ _ 5 5 49 (firstNonSpace_here (by decide) (by decide))
        (by decide),
      7, firstNonSpace_step (firstNonSpace_here (by decide) (by decide)) (by decide),
      digitDecoder_decodesTo _ _ 8 9 50
        (firstNonSpace_step (firstNonSpace_here (by decide) (by decide)) (by decide))
        (by decide),
      11, firstNonSpace_step (firstNonSpace_here (by decide) (by decide)) (by decide),
      digitDecoder_decodesTo _ _ 12 13 51
        (firstNonSpace_step (firstNonSpace_here (by decide) (by decide)) (by decide))
        (by decide),
      firstNonSpace_step (firstNonSpace_here (by decide) (by decide)) (by decide)⟩
  have hdst : dstValid (World.init .zero [] []) ⟨0, 0⟩ ⟨none, 0, 0⟩ := ⟨rfl, rfl⟩
  have hpool : scratchReady intSliceDecoder (World.init .zero [] []) ⟨0, 0⟩ := by
    intro h rest hh
    simp [World.init, intSliceDecoder, newSliceDecoder] at hh
  exact ⟨hopen, hes, hdst,
    decode_array_correct 100 intSliceDecoder 20 _ 0 2 5 49 15 0 ⟨0, 0⟩ (World.init .zero [] [])
      ⟨none, 0, 0⟩ [(6, .scalar 1), (10, .scalar 2), (14, .scalar 3)] (by decide) hopen hfirst
      (by decide) hes hdst hpool (by decide)⟩

/-- Claim C7: when, after `[` and the successfully decoded values `es` (one or more), the
next byte `b` that is not whitespace, at offset `t`, is neither `]` nor `,`, `decode` fails
with `errInvalidCharacter(b, "slice", t)`, and the scratch header it took from the pool has
been put back: the two last pool calls are that `Get` and then the `Put`, and the released
header heads the pool. The destination header is as before. -/
theorem decode_invalid_separator (maxDecodeNestingDepth : Int) (d : sliceDecoder) (fuel : Nat)
    (buf : List Nat) (cursor i c0 b0 t b : Nat) (depth : Int) (p : Ptr) (w : World)
    (dst : sliceHeader) (es : List (Nat × Val))
    (hdepth : depth + 1 ≤ maxDecodeNestingDepth)
    (hopen : firstNonSpace buf cursor i 91)
    (hfirst : firstNonSpace buf (i + 1) c0 b0) (hb0 : b0 ≠ 93)
    (hes : elemsAt d.valueDecoder buf (depth + 1) c0 es t b)
    (hb : b ≠ 93 ∧ b ≠ 44)
    (hdst : w.loadHeader p = some dst) (hpool : scratchReady d w p)
    (hfuel : i - cursor + es.length < fuel) :
    ∃ w' h0 h1,
      d.decode maxDecodeNestingDepth fuel buf cursor depth p w =
        .ret (0, some (.errInvalidCharacter b "slice" t)) w' ∧
      w'.log = PoolEvent.put d.arrayPool h1 :: PoolEvent.get d.arrayPool h0 :: w.log ∧
      w'.pools d.arrayPool = h1 :: (w.pools d.arrayPool).tail ∧
      w'.loadHeader p = some dst := by
  obtain ⟨pc, hpc, _⟩ := World.loadHeader_inv hdst
  have hplt := lt_length_of_getElem? hpc
  rw [decode_eq_decodeFrom maxDecodeNestingDepth d fuel buf cursor i 91 depth p w hdepth hopen
      (by omega),
    decodeFrom_open d buf (depth + 1) p _ i w hopen.2.2.1,
    decodeArray_elems d buf (depth + 1) p _ i c0 b0 w hfirst hb0]
  obtain ⟨b1, c, h0, hslice, hbp, hinv1, hc0, hlog1, hpools1, hlen1, hheap1, hnil, hcons⟩ :=
    newSlice_spec d w p hpool hplt
  obtain ⟨cap', b', w2, hfill, hcap', hinv2, hwo2, hbb⟩ :=
    fillElems_spec d (es.map Prod.snd) (d.newSlice w).2 b1 c 0 [] hinv1
  rw [decodeElems_eq d buf (depth + 1) p _ t b hb.2 es _ 0 _ _ c0
    (d.newSlice w).2 cap' (some b') w2 hes (by rw [hslice]; exact hfill)]
  have hf : ¬ (fuel - (i - cursor) - 1 < es.length) := by omega
  simp only [hf, if_false, hb.1]
  refine ⟨_, h0, { (d.newSlice w).1 with cap := cap', data := some b' }, rfl, ?_, ?_, ?_⟩
  · simp only [sliceDecoder.abandon, sliceDecoder.releaseSlice]
    rw [hwo2.2.1, hlog1]
  · simp only [sliceDecoder.abandon, sliceDecoder.releaseSlice, Function.update_same]
    rw [hwo2.1, hpools1, Function.update_same]
  · have e1 : (d.abandon (d.newSlice w).1 cap' (some b') w2).loadHeader p = w2.loadHeader p :=
      rfl
    rw [e1, hwo2.loadHeader_eq (by omega) (Ne.symm hbp),
      World.loadHeader_eq_of_block (hheap1 p.block hplt), hdst]

theorem decode_invalid_separator_witness :
    elemsAt intSliceDecoder.valueDecoder [91, 49, 32, 50, 93] (0 + 1) 1 [(2, .scalar 1)] 3 50 ∧
    ∃ w' h0 h1,
      intSliceDecoder.decode 100 20 [91, 49, 32, 50, 93] 0 0 ⟨0, 0⟩ (World.init .zero [] []) =
        .ret (0, some (.errInvalidCharacter 50 "slice" 3)) w' ∧
      w'.log = PoolEvent.put intSliceDecoder.arrayPool h1 ::
        PoolEvent.get intSliceDecoder.arrayPool h0 :: (World.init .zero [] []).log ∧
      w'.pools intSliceDecoder.arrayPool =
        h1 :: ((World.init .zero [] []).pools intSliceDecoder.arrayPool).tail ∧
      w'.loadHeader ⟨0, 0⟩ = some ⟨none, 0, 0⟩ := by
  have hes : elemsAt intSliceDecoder.valueDecoder [91, 49, 32, 50, 93] (0 + 1) 1
      [(2, .scalar 1)] 3 50 :=
    ⟨digitDecoder_decodesTo _ _ 1 1 49 (firstNonSpace_here (by decide) (by decide))
        (by decide),
      firstNonSpace_step (firstNonSpace_here (by decide) (by decide)) (by decide)⟩
  have hpool : scratchReady intSliceDecoder (World.init .zero [] []) ⟨0, 0⟩ := by
    intro h rest hh
    simp [World.init, intSliceDecoder, newSliceDecoder] at hh
  exact ⟨hes,
    decode_invalid_separator 100 intSliceDecoder 20 _ 0 0 1 49 3 50 0 ⟨0, 0⟩
      (World.init .zero [] []) ⟨none, 0, 0⟩ [(2, .scalar 1)] (by decide)
      (firstNonSpace_here (by decide) (by decide))
      (firstNonSpace_here (by decide) (by decide)) (by decide) hes (by decide) rfl hpool
      (by decide)⟩

/-! ## The growth of the capacity -/

theorem capAfter_inv (c0 : Nat) (hc : 0 < c0) :
    ∀ (n idx capacity j : Nat), capacity = c0 * 2 ^ j → idx ≤ capacity →
      (∀ j', j' < j → c0 * 2 ^ j' < idx) →
      ∃ k, capAfter n idx capacity = c0 * 2 ^ k ∧ idx + n ≤ capAfter n idx capacity ∧
        ∀ j', j' < k → c0 * 2 ^ j' < idx + n := by
  intro n
  induction n with
  | zero =>
    intro idx capacity j hcap hle hlow
    exact ⟨j, hcap, hle, hlow⟩
  | succ n ih =>
    intro idx capacity j hcap hle hlow
    have hpos : 0 < capacity := by
      rw [hcap]; exact Nat.mul_pos hc (Nat.pow_pos (by decide))
    rw [capAfter_succ]
    by_cases h : capacity ≤ idx
    · simp only [h, if_true]
      obtain ⟨k, h1, h2, h3⟩ := ih (idx + 1) (capacity * 2) (j + 1)
        (by rw [hcap, pow_succ, Nat.mul_assoc]) (by omega)
        (by
          intro j' hj'
          by_cases e : j' = j
          · subst e; omega
          · have := hlow j' (by omega); omega)
      exact ⟨k, h1, by omega, fun j' hj' => by have := h3 j' hj'; omega⟩
    · simp only [h, if_false]
      obtain ⟨k, h1, h2, h3⟩ := ih (idx + 1) capacity j hcap (by omega)
        (fun j' hj' => by have := hlow j' hj'; omega)
      exact ⟨k, h1, by omega, fun j' hj' => by have := h3 j' hj'; omega⟩

theorem capAfter_leastDoubling (c n : Nat) (hc : 0 < c) : leastDoubling c n (capAfter n 0 c) := by
  obtain ⟨k, h1, h2, h3⟩ := capAfter_inv c hc n 0 c 0 (by simp) (by omega)
    (fun j' hj' => absurd hj' (by omega))
  refine ⟨k, h1, by omega, ?_⟩
  intro j' hj'
  rw [h1]
  by_cases hk : k ≤ j'
  · exact Nat.mul_le_mul_left c (Nat.pow_le_pow_right (by decide) hk)
  · have := h3 j' (by omega)
    omega

theorem smallestPowerOfTwo_of_leastDoubling {n r : Nat} (hn : 2 ≤ n) (h : leastDoubling 2 n r) :
    smallestPowerOfTwo n r := by
  obtain ⟨j, h1, h2, h3⟩ := h
  refine ⟨j + 1, by rw [h1, pow_succ, Nat.mul_comm], h2, ?_⟩
  intro j' hj'
  cases j' with
  | zero => simp at hj'; omega
  | succ j' =>
    have := h3 j' (by rw [pow_succ, Nat.mul_comm] at hj'; exact hj')
    rw [pow_succ, Nat.mul_comm]; exact this

/-- The capacity of the scratch array for an element decoder that stores a value in its slot
and does nothing else (`decodesTo`): for a successful parse by `decode` of an array of `n >= 3` values,
the capacity stored in the scratch header when it is released is the first member that is at
least `n` of the doubling sequence `c, 2c, 4c, ...` starting at the capacity `c` the header
had when the pool handed it out; that is the smallest power of 2 that is at least `n` when
`c = 2`, as for a header the pool creates (empty pool); and the destination capacity after
the parse is `n` whenever the incoming capacity was less than `n`. -/
theorem scratch_capacity_law (maxDecodeNestingDepth : Int) (d : sliceDecoder) (fuel : Nat)
    (buf : List Nat) (cursor i c0 b0 t : Nat) (depth : Int) (p : Ptr) (w : World)
    (dst : sliceHeader) (es : List (Nat × Val))
    (hdepth : depth + 1 ≤ maxDecodeNestingDepth)
    (hopen : firstNonSpace buf cursor i 91)
    (hfirst : firstNonSpace buf (i + 1) c0 b0) (hb0 : b0 ≠ 93)
    (hes : elemsAt d.valueDecoder buf (depth + 1) c0 es t 93)
    (hn : 3 ≤ es.length)
    (hdst : dstValid w p dst) (hpool : scratchReady d w p)
    (hfuel : i - cursor + es.length < fuel) :
    ∃ w' dst' h0 h1,
      d.decode maxDecodeNestingDepth fuel buf cursor depth p w = .ret (t + 1, none) w' ∧
      w'.log = PoolEvent.put d.arrayPool h1 :: PoolEvent.get d.arrayPool h0 :: w.log ∧
      leastDoubling h0.cap es.length h1.cap ∧
      (h0.cap = 2 → smallestPowerOfTwo es.length h1.cap) ∧
      (w.pools d.arrayPool = [] → h0.cap = 2) ∧
      (∀ h rest, w.pools d.arrayPool = h :: rest → h0.cap = h.cap) ∧
      w'.loadHeader p = some dst' ∧ (dst.cap < es.length → dst'.cap = es.length) := by
  obtain ⟨w', dst', a, cells, b', h0, h1, h2, h3, h4, h5, h6, h7, h8, h9, h10, h11, h12, h13⟩ :=
    decode_array_full maxDecodeNestingDepth d fuel buf cursor i c0 b0 t depth p w dst es
      hdepth hopen hfirst hb0 hes hdst hpool hfuel
  have hl := capAfter_leastDoubling h0.cap es.length h13
  refine ⟨w', dst', h0, _, h1, h9, hl, ?_, h11, h12, h2, fun h => (h7 h).1⟩
  intro h2'
  rw [h2'] at hl ⊢
  exact smallestPowerOfTwo_of_leastDoubling (by omega) hl

theorem scratch_capacity_law_witness :
    elemsAt intSliceDecoder.valueDecoder [91, 49, 44, 50, 44, 51, 93] (0 + 1) 1
      [(2, .scalar 1), (4, .scalar 2), (6, .scalar 3)] 6 93 ∧
    ∃ w' dst' h0 h1,
      intSliceDecoder.decode 100 20 [91, 49, 44, 50, 44, 51, 93] 0 0 ⟨0, 0⟩
        (World.init .zero [] []) = .ret (6 + 1, none) w' ∧
      w'.log = PoolEvent.put intSliceDecoder.arrayPool h1 ::
        PoolEvent.get intSliceDecoder.arrayPool h0 :: (World.init .zero [] []).log ∧
      leastDoubling h0.cap 3 h1.cap ∧
      (h0.cap = 2 → smallestPowerOfTwo 3 h1.cap) ∧
      ((World.init .zero [] []).pools intSliceDecoder.arrayPool = [] → h0.cap = 2) ∧
      (∀ h rest, (World.init .zero [] []).pools intSliceDecoder.arrayPool = h :: rest →
        h0.cap = h.cap) ∧
      w'.loadHeader ⟨0, 0⟩ = some dst' ∧ ((0 : Nat) < 3 → dst'.cap = 3) := by
  have hes : elemsAt intSliceDecoder.valueDecoder [91, 49, 44, 50, 44, 51, 93] (0 + 1) 1
      [(2, .scalar 1), (4, .scalar 2), (6, .scalar 3)] 6 93 :=
    ⟨digitDecoder_decodesTo _ _ 1 1 49 (firstNonSpace_here (by decide) (by decide))
        (by decide),
      2, firstNonSpace_here (by decide) (by decide),
      digitDecoder_decodesTo _ _ 3 3 50 (firstNonSpace_here (by decide) (by decide))
        (by decide),
      4, firstNonSpace_here (by decide) (by decide),
      digitDecoder_decodesTo _ _ 5 5 51 (firstNonSpace_here (by decide) (by decide))
        (by decide),
      firstNonSpace_here (by decide) (by decide)⟩
  have hpool : scratchReady intSliceDecoder (World.init .zero [] []) ⟨0, 0⟩ := by
    intro h rest hh
    simp [World.init, intSliceDecoder, newSliceDecoder] at hh
  exact ⟨hes,
    scratch_capacity_law 100 intSliceDecoder 20 _ 0 0 1 49 6 0 ⟨0, 0⟩
      (World.init .zero [] []) ⟨none, 0, 0⟩ [(2, .scalar 1), (4, .scalar 2), (6, .scalar 3)]
      (by decide) (firstNonSpace_here (by decide) (by decide))
      (firstNonSpace_here (by decide) (by decide)) (by decide) hes (by decide) ⟨rfl, rfl⟩ hpool
      (by decide)⟩

/-- Claim C5 fails as stated: the decoder for `[]int` parses `[1,2,3,4,5]` and then, with the
same pool, `[1,2,3]`; the second parse succeeds and releases its scratch header with capacity
8, which is not the smallest power of 2 that is at least 3. -/
theorem scratch_capacity_after_reuse :
    ((intSliceDecoder.decode 100 20 [91, 49, 44, 50, 44, 51, 93] 0 0 ⟨0, 0⟩
        (((intSliceDecoder.decode 100 20 [91, 49, 44, 50, 44, 51, 44, 52, 44, 53, 93] 0 0
          ⟨0, 0⟩ (World.init .zero [] [])).world).getD (World.init .zero [] []))).value
      = some (7, none)) ∧
    ((intSliceDecoder.decode 100 20 [91, 49, 44, 50, 44, 51, 93] 0 0 ⟨0, 0⟩
        (((intSliceDecoder.decode 100 20 [91, 49, 44, 50, 44, 51, 44, 52, 44, 53, 93] 0 0
          ⟨0, 0⟩ (World.init .zero [] [])).world).getD (World.init .zero [] []))).world.map
        (fun w => w.log.head?)
      = some (some (PoolEvent.put 0 ⟨some 3, 3, 8⟩))) ∧
    ¬ smallestPowerOfTwo 3 8 := by
  refine ⟨by decide, by decide, ?_⟩
  rintro ⟨j, _, _, h3⟩
  have := h3 2 (by decide)
  omega

/-- The effect of the empty-array branch on a destination that holds a slice header. -/
theorem emptyArray_spec (d : sliceDecoder) (p : Ptr) (w : World) (dst : sliceHeader)
    (hdst : w.loadHeader p = some dst) :
    ∃ w', d.emptyArray p w = some w' ∧
      w'.pools = w.pools ∧ w'.log = w.log ∧
      (dst.data = none →
        w'.loadHeader p = some { dst with data := some w.heap.length } ∧
        w'.heap[w.heap.length]? = some [] ∧ w'.heap.length = w.heap.length + 1) ∧
      (dst.data ≠ none →
        w'.loadHeader p = some { dst with len := 0 } ∧
        w'.heap.length = w.heap.length) ∧
      (∀ c, c < w.heap.length → c ≠ p.block → w'.heap[c]? = w.heap[c]?) ∧
      (∀ c, c < w.heap.length →
        (w'.heap[c]?).map List.length = (w.heap[c]?).map List.length) := by
  obtain ⟨pc, hpc, hpi⟩ := World.loadHeader_inv hdst
  have hplt := lt_length_of_getElem? hpc
  unfold sliceDecoder.emptyArray
  simp only [hdst]
  by_cases hdd : dst.data = none
  · obtain ⟨hn1, _, e1, hw0⟩ := newArray_spec d.elemType 0 w
    have hpc1 : (newArray d.elemType 0 w).2.heap[p.block]? = some pc := by
      rw [hw0.2.2.2.1 p.block hplt (by omega), hpc]
    obtain ⟨w2, hs2, hl2, hwo2⟩ := World.storeHeader_spec
      { dst with data := some (newArray d.elemType 0 w).1 } hpc1 hpi
    have hlen0 := hw0.2.2.1
    refine ⟨w2, ?_, ?_, ?_, ?_, fun h => absurd hdd h, ?_, ?_⟩
    · simp only [hdd, if_true, hs2]
    · rw [hwo2.1]; rfl
    · rw [hwo2.2.1]; rfl
    · intro _
      refine ⟨?_, ?_, ?_⟩
      · rw [hl2, hn1]
      · rw [hwo2.2.2.2.1 w.heap.length (lt_length_of_getElem? e1) (by omega), e1]; rfl
      · obtain ⟨cells, _, _, e⟩ := World.store_inv hs2
        rw [e]; simp [newArray]
    · intro c hc hcp
      rw [hwo2.2.2.2.1 c (by omega) hcp, hw0.2.2.2.1 c hc (by omega)]
    · intro c hc
      rw [hwo2.2.2.2.2 c (by omega), hw0.2.2.2.2 c hc]
  · obtain ⟨w2, hs2, hl2, hwo2⟩ := World.storeHeader_spec { dst with len := 0 } hpc hpi
    refine ⟨w2, ?_, hwo2.1, hwo2.2.1, fun h => absurd h hdd, ?_, ?_, ?_⟩
    · simp only [hdd, if_false, hs2]
    · intro _
      refine ⟨hl2, ?_⟩
      obtain ⟨cells, _, _, e⟩ := World.store_inv hs2
      rw [e]; simp
    · intro c hc hcp
      exact hwo2.2.2.2.1 c hc hcp
    · intro c hc
      exact hwo2.2.2.2.2 c hc

/-- What `decode` does on `[`, whitespace, `]`. -/
theorem decode_empty_array_full (maxDepth : Int) (d : sliceDecoder) (fuel : Nat)
    (buf : List Nat) (cursor i j : Nat) (depth : Int) (p : Ptr) (w : World) (dst : sliceHeader)
    (hdepth : depth + 1 ≤ maxDepth)
    (hopen : firstNonSpace buf cursor i 91) (hclose : firstNonSpace buf (i + 1) j 93)
    (hdst : w.loadHeader p = some dst)
    (hfuel : i - cursor < fuel) :
    ∃ w', d.decode maxDepth fuel buf cursor depth p w = .ret (j + 1, none) w' ∧
      w'.pools = w.pools ∧ w'.log = w.log ∧
      (dst.data = none →
        w'.loadHeader p = some { dst with data := some w.heap.length } ∧
        w'.heap[w.heap.length]? = some [] ∧ w'.heap.length = w.heap.length + 1) ∧
      (dst.data ≠ none →
        w'.loadHeader p = some { dst with len := 0 } ∧
        w'.heap.length = w.heap.length) ∧
      (∀ c, c < w.heap.length → c ≠ p.block → w'.heap[c]? = w.heap[c]?) ∧
      (∀ c, c < w.heap.length →
        (w'.heap[c]?).map List.length = (w.heap[c]?).map List.length) := by
  rw [decode_eq_decodeFrom maxDepth d fuel buf cursor i 91 depth p w hdepth hopen hfuel,
    decodeFrom_open d buf (depth + 1) p _ i w hopen.2.2.1]
  have hskip := skipWhiteSpace_eq_of_firstNonSpace (j - (i + 1)) (i + 1) j 93
    (by have := hclose.1; omega) hclose
  obtain ⟨w', he, hrest⟩ := emptyArray_spec d p w dst hdst
  refine ⟨w', ?_, hrest⟩
  unfold sliceDecoder.decodeArray
  simp only [hskip, hclose.2.2.1, if_true, he]

/-- The empty array on a nil slice and on a destination that has an array: on `[`, whitespace,
`]` (optional whitespace in front), a call of `decode` that
passes the depth check returns the cursor just past `]` without any pool call; a destination
whose `data` is nil (a nil slice, so `len = 0` and `cap = 0`) ends with `data` a new array of
length 0, `len = 0` and `cap = 0`; a destination whose `data` is not nil ends with `len = 0`
and `data` and `cap` as before, and no array is allocated. -/
theorem decode_empty_array_correct (maxDecodeNestingDepth : Int) (d : sliceDecoder) (fuel : Nat)
    (buf : List Nat) (cursor i j : Nat) (depth : Int) (p : Ptr) (w : World) (dst : sliceHeader)
    (hdepth : depth + 1 ≤ maxDecodeNestingDepth)
    (hopen : firstNonSpace buf cursor i 91) (hclose : firstNonSpace buf (i + 1) j 93)
    (hdst : w.loadHeader p = some dst)
    (hnil : dst.data = none → dst.len = 0 ∧ dst.cap = 0)
    (hfuel : i - cursor < fuel) :
    ∃ w', d.decode maxDecodeNestingDepth fuel buf cursor depth p w = .ret (j + 1, none) w' ∧
      w'.pools = w.pools ∧ w'.log = w.log ∧
      (dst.data = none →
        w'.loadHeader p = some ⟨some w.heap.length, 0, 0⟩ ∧
        w'.heap[w.heap.length]? = some [] ∧ w'.heap.length = w.heap.length + 1) ∧
      (dst.data ≠ none →
        w'.loadHeader p = some ⟨dst.data, 0, dst.cap⟩ ∧
        w'.heap.length = w.heap.length) := by
  obtain ⟨w', h1, h2, h3, h4, h5, _⟩ :=
    decode_empty_array_full maxDecodeNestingDepth d fuel buf cursor i j depth p w dst hdepth
      hopen hclose hdst hfuel
  refine ⟨w', h1, h2, h3, ?_, h5⟩
  intro hd
  obtain ⟨hl, hc⟩ := hnil hd
  obtain ⟨e1, e2, e3⟩ := h4 hd
  refine ⟨?_, e2, e3⟩
  rw [e1, hl, hc]

theorem decode_empty_array_correct_witness :
    firstNonSpace [91, 32, 93] 0 0 91 ∧ firstNonSpace [91, 32, 93] (0 + 1) 2 93 ∧
    ∃ w', intSliceDecoder.decode 100 1 [91, 32, 93] 0 0 ⟨0, 0⟩
        (World.init (.slice ⟨some 1, 2, 2⟩) [[.scalar 7, .scalar 8]] []) = .ret (2 + 1, none) w' ∧
      w'.pools = (World.init (.slice ⟨some 1, 2, 2⟩) [[.scalar 7, .scalar 8]] []).pools ∧
      w'.log = (World.init (.slice ⟨some 1, 2, 2⟩) [[.scalar 7, .scalar 8]] []).log ∧
      ((some 1 : Option Nat) = none →
        w'.loadHeader ⟨0, 0⟩ = some ⟨some 2, 0, 0⟩ ∧
        w'.heap[2]? = some [] ∧ w'.heap.length = 2 + 1) ∧
      ((some 1 : Option Nat) ≠ none →
        w'.loadHeader ⟨0, 0⟩ = some ⟨some 1, 0, 2⟩ ∧ w'.heap.length = 2) :=
  ⟨firstNonSpace_here (by decide) (by decide),
    firstNonSpace_step (firstNonSpace_here (by decide) (by decide)) (by decide),
    decode_empty_array_correct 100 intSliceDecoder 1 [91, 32, 93] 0 0 2 0 ⟨0, 0⟩
      (World.init (.slice ⟨some 1, 2, 2⟩) [[.scalar 7, .scalar 8]] []) ⟨some 1, 2, 2⟩
      (by decide) (firstNonSpace_here (by decide) (by decide))
      (firstNonSpace_step (firstNonSpace_here (by decide) (by decide)) (by decide)) rfl
      (by intro h; cases h) (by decide)⟩

/-- Claim C3, the code at the failing input: `decode` on `null` with the destination
`(data = array 1, len = 3, cap = 3)` returns cursor 4 and no error and leaves the header
`(data = nil, len = 3, cap = 3)`: only the first word is written. Parsing `[]` into that
destination next gives `(data = a new array of length 0, len = 3, cap = 3)`. -/
theorem null_keeps_len_and_cap :
    (intSliceDecoder.decode 100 1 [110, 117, 108, 108] 0 0 ⟨0, 0⟩
        (World.init (.slice ⟨some 1, 3, 3⟩) [[.scalar 1, .scalar 2, .scalar 3]] [])).value
      = some (4, none) ∧
    (intSliceDecoder.decode 100 1 [110, 117, 108, 108] 0 0 ⟨0, 0⟩
        (World.init (.slice ⟨some 1, 3, 3⟩) [[.scalar 1, .scalar 2, .scalar 3]] [])).world.bind
        (fun w => w.loadHeader ⟨0, 0⟩)
      = some ⟨none, 3, 3⟩ ∧
    (intSliceDecoder.decode 100 1 [91, 93] 0 0 ⟨0, 0⟩
        (((intSliceDecoder.decode 100 1 [110, 117, 108, 108] 0 0 ⟨0, 0⟩
          (World.init (.slice ⟨some 1, 3, 3⟩) [[.scalar 1, .scalar 2, .scalar 3]] [])).world).getD
          (World.init .zero [] []))).world.map
        (fun w => (w.loadHeader ⟨0, 0⟩, w.heap[2]?))
      = some (some ⟨some 2, 3, 3⟩, some []) := by
  decide

/-- Claim C2, the code at the failing input: on `[x]` the element decoder reports an error;
`decode` and `decodeStream` return that error with one `Get` and no `Put` on the pool of the
decoder: the scratch header is not released. -/
theorem element_error_leaks_scratch :
    (intSliceDecoder.decode 100 20 [91, 120, 93] 0 0 ⟨0, 0⟩ (World.init .zero [] [])).value
      = some (0, some (.external 120)) ∧
    (intSliceDecoder.decode 100 20 [91, 120, 93] 0 0 ⟨0, 0⟩
        (World.init .zero [] [])).world.map (fun w => (getCount 0 w.log, putCount 0 w.log))
      = some (1, 0) ∧
    (intSliceDecoder.decodeStream 100 20 ⟨[91, 120, 93], 0, 0, [], 0⟩ 0 ⟨0, 0⟩
        (World.init .zero [] [])).value.map (fun r => r.1)
      = some (some (.external 120)) ∧
    (intSliceDecoder.decodeStream 100 20 ⟨[91, 120, 93], 0, 0, [], 0⟩ 0 ⟨0, 0⟩
        (World.init .zero [] [])).world.map (fun w => (getCount 0 w.log, putCount 0 w.log))
      = some (1, 0) := by
  decide

/-! ## The element loop of `decodeStream` -/

theorem decodeStreamElems_step {d : sliceDecoder} {depth : Int} {p : Ptr}
    {slice : sliceHeader} {v : Val} {idx capacity : Nat} {data data' : Option Nat}
    {w w' : World} {cap' : Nat} {s s1 : stream} (fuel : Nat)
    (hfe : d.fillElem v idx capacity data w = some (cap', data', w'))
    (hdec : decodesToStream d.valueDecoder depth s s1 v) :
    d.decodeStreamElems depth p slice (fuel + 1) idx capacity data s w =
      d.decodeStreamRetry depth p slice fuel idx cap' data' s1.skipWhiteSpace w' := by
  obtain ⟨a, w1, w2, hg, rfl, hi, hs⟩ := fillElem_inv hfe
  rw [sliceDecoder.decodeStreamElems]
  simp only [hg, hi, hdec w2 w' ⟨a, idx⟩ hs]

theorem decodeStreamRetry_comma {d : sliceDecoder} {depth : Int} {p : Ptr}
    {slice : sliceHeader} {idx capacity : Nat} {data : Option Nat} {w : World} {s : stream}
    (fuel : Nat) (hc : s.char = 44) :
    d.decodeStreamRetry depth p slice (fuel + 1) idx capacity data s w =
      d.decodeStreamElems depth p slice fuel (idx + 1) capacity data
        { s with cursor := s.cursor + 1 } w := by
  rw [sliceDecoder.decodeStreamRetry]
  simp [hc]

/-- The element loop of `decodeStream` on a stream that delivers the values `es`: it reaches
the label `RETRY` after the last value, having spent two units of fuel per value but the
last, and one for the last. -/
theorem decodeStreamElems_eq (d : sliceDecoder) (depth : Int) (p : Ptr)
    (slice : sliceHeader) (last : stream) :
    ∀ (es : List (stream × Val)) (fuel idx capacity : Nat) (data : Option Nat) (s : stream)
      (w : World) (cap' : Nat) (data' : Option Nat) (w' : World),
      streamElemsAt d.valueDecoder depth s es last →
      d.fillElems (es.map Prod.snd) idx capacity data w = some (cap', data', w') →
      d.decodeStreamElems depth p slice (fuel + (2 * es.length - 1)) idx capacity data s w =
        d.decodeStreamRetry depth p slice fuel (idx + es.length - 1) cap' data' last w' := by
  intro es
  induction es with
  | nil => intro _ _ _ _ _ _ _ _ _ h; exact absurd h (by simp [streamElemsAt])
  | cons e es ih =>
    intro fuel idx capacity data s w cap' data' w' hes hfill
    obtain ⟨c1, d1, w1, hf1, hrest⟩ := fillElems_cons_inv hfill
    cases es with
    | nil =>
      obtain ⟨hdec, hlast⟩ := hes
      simp only [List.map_nil, sliceDecoder.fillElems, Option.some.injEq,
        Prod.mk.injEq] at hrest
      obtain ⟨rfl, rfl, rfl⟩ := hrest
      have e1 : fuel + (2 * [e].length - 1) = fuel + 1 := by simp
      rw [e1, decodeStreamElems_step fuel hf1 hdec, hlast]
      simp
    | cons e' es =>
      obtain ⟨hdec, hsep, hes'⟩ := hes
      have e1 : fuel + (2 * (e :: e' :: es).length - 1) =
          (fuel + (2 * (e' :: es).length - 1)) + 1 + 1 := by
        simp only [List.length_cons]; omega
      rw [e1, decodeStreamElems_step _ hf1 hdec, decodeStreamRetry_comma _ hsep,
        ih fuel (idx + 1) c1 d1 _ w1 cap' data' w' hes' hrest]
      have e2 : idx + 1 + (e' :: es).length - 1 = idx + (e :: e' :: es).length - 1 := by
        simp only [List.length_cons]; omega
      rw [e2]

theorem decodeStreamFrom_open (d : sliceDecoder) (depth : Int) (p : Ptr)
    (fuel : Nat) (s : stream) (w : World) (hb : s.char = 91) :
    d.decodeStreamFrom depth p (fuel + 1) s w = d.decodeStreamArray depth p fuel s w := by
  rw [sliceDecoder.decodeStreamFrom]
  simp [hb]

theorem decodeStreamArray_elems (d : sliceDecoder) (depth : Int) (p : Ptr)
    (fuel : Nat) (s : stream) (w : World)
    (hb0 : ({ s with cursor := s.cursor + 1 } : stream).skipWhiteSpace.char ≠ 93) :
    d.decodeStreamArray depth p fuel s w =
      d.decodeStreamElems depth p (d.newSlice w).1 fuel 0 (d.newSlice w).1.cap
        (d.newSlice w).1.data ({ s with cursor := s.cursor + 1 } : stream).skipWhiteSpace
        (d.newSlice w).2 := by
  unfold sliceDecoder.decodeStreamArray
  simp only [hb0, if_false]

/-- Claim C9: when the stream holds `[` and then delivers the values `es` (one or more)
separated by commas, and after the last value the window is exhausted (`char()` is `nul`) and
no refill will come, a call of `decodeStream` that passes the depth check fails with
`errUnexpectedEndOfJSON("slice", totalOffset)` after one more refill attempt (`reads` is one
higher), and the scratch header it took from the pool has been put back. The destination
header is as before. -/
theorem decodeStream_unexpected_end (maxDecodeNestingDepth : Int) (d : sliceDecoder)
    (fuel : Nat) (s last : stream) (depth : Int) (p : Ptr) (w : World) (dst : sliceHeader)
    (es : List (stream × Val))
    (hdepth : depth + 1 ≤ maxDecodeNestingDepth)
    (hopen : s.char = 91)
    (hb0 : ({ s with cursor := s.cursor + 1 } : stream).skipWhiteSpace.char ≠ 93)
    (hes : streamElemsAt d.valueDecoder (depth + 1)
      ({ s with cursor := s.cursor + 1 } : stream).skipWhiteSpace es last)
    (hend : last.char = nul) (hnomore : last.pending = [])
    (hdst : w.loadHeader p = some dst) (hpool : scratchReady d w p)
    (hfuel : 2 * es.length + 1 ≤ fuel) :
    ∃ w' h0 h1,
      d.decodeStream maxDecodeNestingDepth fuel s depth p w =
        .ret (some (.errUnexpectedEndOfJSON "slice" last.totalOffset),
          { last with reads := last.reads + 1 }) w' ∧
      w'.log = PoolEvent.put d.arrayPool h1 :: PoolEvent.get d.arrayPool h0 :: w.log ∧
      w'.pools d.arrayPool = h1 :: (w.pools d.arrayPool).tail ∧
      w'.loadHeader p = some dst := by
  have hn : 0 < es.length := by
    cases es with
    | nil => simp [streamElemsAt] at hes
    | cons e es => simp
  obtain ⟨pc, hpc, _⟩ := World.loadHeader_inv hdst
  have hplt := lt_length_of_getElem? hpc
  obtain ⟨b1, c, h0, hslice, hbp, hinv1, hc0, hlog1, hpools1, hlen1, hheap1, hnil, hcons⟩ :=
    newSlice_spec d w p hpool hplt
  obtain ⟨cap', b', w2, hfill, hcap', hinv2, hwo2, hbb⟩ :=
    fillElems_spec d (es.map Prod.snd) (d.newSlice w).2 b1 c 0 [] hinv1
  obtain ⟨f, rfl⟩ : ∃ f, fuel = (f + 1 + (2 * es.length - 1)) + 1 :=
    ⟨fuel - 2 * es.length - 1, by omega⟩
  unfold sliceDecoder.decodeStream
  simp only [not_lt.2 hdepth, if_false]
  rw [decodeStreamFrom_open d (depth + 1) p _ s w hopen,
    decodeStreamArray_elems d (depth + 1) p _ s w hb0,
    decodeStreamElems_eq d (depth + 1) p _ last es (f + 1) 0 _ _ _ _ cap' (some b') w2 hes
      (by rw [hslice]; exact hfill)]
  rw [sliceDecoder.decodeStreamRetry]
  have hread : last.read = (false, { last with reads := last.reads + 1 }) := by
    simp [stream.read, hnomore]
  have h93 : last.char ≠ 93 := by rw [hend]; decide
  have h44 : last.char ≠ 44 := by rw [hend]; decide
  rw [if_neg h93, if_neg h44, if_pos hend, hread]
  refine ⟨d.abandon (d.newSlice w).1 cap' (some b') w2, h0,
    { (d.newSlice w).1 with cap := cap', data := some b' }, ?_, ?_, ?_, ?_⟩
  · simp [stream.totalOffset]
  · simp only [sliceDecoder.abandon, sliceDecoder.releaseSlice]
    rw [hwo2.2.1, hlog1]
  · simp only [sliceDecoder.abandon, sliceDecoder.releaseSlice, Function.update_same]
    rw [hwo2.1, hpools1, Function.update_same]
  · have e1 : (d.abandon (d.newSlice w).1 cap' (some b') w2).loadHeader p = w2.loadHeader p :=
      rfl
    rw [e1, hwo2.loadHeader_eq (by omega) (Ne.symm hbp),
      World.loadHeader_eq_of_block (hheap1 p.block hplt), hdst]

theorem digitDecoder_decodesToStream (depth : Int) (s : stream) (b : Nat)
    (h : s.skipWhiteSpace.char = b) (hb : 48 ≤ b ∧ b ≤ 57) :
    decodesToStream digitDecoder depth s
      { s.skipWhiteSpace with cursor := s.skipWhiteSpace.cursor + 1 }
      (.scalar ((b - 48 : Nat) : Int)) := by
  intro w w' ep hs
  simp only [digitDecoder, h, hb, and_self, if_true, hs]

theorem decodeStream_unexpected_end_witness :
    streamElemsAt intSliceDecoder.valueDecoder (0 + 1)
      ({ (⟨[91, 49, 44, 50], 0, 0, [], 0⟩ : stream) with cursor := 0 + 1 } :
        stream).skipWhiteSpace
      [(⟨[91, 49, 44, 50], 2, 0, [], 0⟩, .scalar 1), (⟨[91, 49, 44, 50], 4, 0, [], 0⟩, .scalar 2)]
      ⟨[91, 49, 44, 50], 4, 0, [], 0⟩ ∧
    ∃ w' h0 h1,
      intSliceDecoder.decodeStream 100 5 ⟨[91, 49, 44, 50], 0, 0, [], 0⟩ 0 ⟨0, 0⟩
          (World.init .zero [] []) =
        .ret (some (.errUnexpectedEndOfJSON "slice"
            (⟨[91, 49, 44, 50], 4, 0, [], 0⟩ : stream).totalOffset),
          { (⟨[91, 49, 44, 50], 4, 0, [], 0⟩ : stream) with reads := 0 + 1 }) w' ∧
      w'.log = PoolEvent.put intSliceDecoder.arrayPool h1 ::
        PoolEvent.get intSliceDecoder.arrayPool h0 :: (World.init .zero [] []).log ∧
      w'.pools intSliceDecoder.arrayPool =
        h1 :: ((World.init .zero [] []).pools intSliceDecoder.arrayPool).tail ∧
      w'.loadHeader ⟨0, 0⟩ = some ⟨none, 0, 0⟩ := by
  have hes : streamElemsAt intSliceDecoder.valueDecoder (0 + 1)
      ({ (⟨[91, 49, 44, 50], 0, 0, [], 0⟩ : stream) with cursor := 0 + 1 } :
        stream).skipWhiteSpace
      [(⟨[91, 49, 44, 50], 2, 0, [], 0⟩, .scalar 1),
        (⟨[91, 49, 44, 50], 4, 0, [], 0⟩, .scalar 2)]
      ⟨[91, 49, 44, 50], 4, 0, [], 0⟩ :=
    ⟨digitDecoder_decodesToStream 1 ⟨[91, 49, 44, 50], 1, 0, [], 0⟩ 49 (by decide) (by decide),
      by decide,
      digitDecoder_decodesToStream 1 ⟨[91, 49, 44, 50], 3, 0, [], 0⟩ 50 (by decide) (by decide),
      by decide⟩
  have hpool : scratchReady intSliceDecoder (World.init .zero [] []) ⟨0, 0⟩ := by
    intro h rest hh
    simp [World.init, intSliceDecoder, newSliceDecoder] at hh
  exact ⟨hes,
    decodeStream_unexpected_end 100 intSliceDecoder 5 ⟨[91, 49, 44, 50], 0, 0, [], 0⟩
      ⟨[91, 49, 44, 50], 4, 0, [], 0⟩ 0 ⟨0, 0⟩ (World.init .zero [] []) ⟨none, 0, 0⟩
      [(⟨[91, 49, 44, 50], 2, 0, [], 0⟩, .scalar 1), (⟨[91, 49, 44, 50], 4, 0, [], 0⟩, .scalar 2)]
      (by decide) (by decide) (by decide) hes (by decide) rfl rfl hpool (by decide)⟩

/-- Claim C8, the code at the failing input: on the stream `[1 2]`, `decodeStream` releases
the scratch header (one `Get`, one `Put`) and fails with
`errUnexpectedEndOfJSON("slice", 3)`, where `decode` on the same bytes fails with
`errInvalidCharacter('2', "slice", 3)`. -/
theorem decodeStream_separator_reports_end :
    (intSliceDecoder.decodeStream 100 20 ⟨[91, 49, 32, 50, 93], 0, 0, [], 0⟩ 0 ⟨0, 0⟩
        (World.init .zero [] [])).value.map (fun r => r.1)
      = some (some (.errUnexpectedEndOfJSON "slice" 3)) ∧
    (intSliceDecoder.decodeStream 100 20 ⟨[91, 49, 32, 50, 93], 0, 0, [], 0⟩ 0 ⟨0, 0⟩
        (World.init .zero [] [])).world.map (fun w => (getCount 0 w.log, putCount 0 w.log))
      = some (1, 1) ∧
    (intSliceDecoder.decode 100 20 [91, 49, 32, 50, 93] 0 0 ⟨0, 0⟩
        (World.init .zero [] [])).value
      = some (0, some (.errInvalidCharacter 50 "slice" 3)) := by
  decide

/-! ## The depth check -/

theorem decodeElems_not_raisesDepth (d : sliceDecoder) (buf : List Nat) (depth : Int) (p : Ptr)
    (slice : sliceHeader)
    (hvd : ∀ c ep w, ¬ raisesDepth (d.valueDecoder.decode buf c depth ep w)) :
    ∀ (fuel idx capacity : Nat) (data : Option Nat) (cursor : Nat) (w : World),
      ¬ raisesDepth (d.decodeElems buf depth p slice fuel idx capacity data cursor w) := by
  intro fuel
  induction fuel with
  | zero =>
    intro idx capacity data cursor w
    rintro ⟨v, w', c, k, h⟩
    simp [sliceDecoder.decodeElems] at h
  | succ fuel ih =>
    intro idx capacity data cursor w
    rw [sliceDecoder.decodeElems]
    rintro ⟨v, w', c, k, h⟩
    cases hg : d.grow idx capacity data w with
    | none => simp [hg] at h
    | some r =>
      obtain ⟨cap1, data1, w1⟩ := r
      cases data1 with
      | none => simp [hg] at h
      | some a =>
        cases hi : d.initElem ⟨a, idx⟩ w1 with
        | none => simp [hg, hi] at h
        | some w2 =>
          cases hd : d.valueDecoder.decode buf cursor depth ⟨a, idx⟩ w2 with
          | fault => simp [hg, hi, hd] at h
          | diverged => simp [hg, hi, hd] at h
          | ret r w3 =>
            obtain ⟨c1, err⟩ := r
            cases err with
            | some e =>
              simp only [hg, hi, hd, Exec.ret.injEq, Prod.mk.injEq, Option.some.injEq] at h
              exact hvd _ _ _ ⟨c1, w3, c, k, by rw [hd, h.1.2]⟩
            | none =>
              simp only [hg, hi, hd] at h
              cases hb : buf[skipWhiteSpace buf c1]? with
              | none => simp [hb] at h
              | some b =>
                simp only [hb] at h
                by_cases h93 : b = 93
                · simp only [h93, if_true] at h
                  cases hc : d.closeArray slice idx cap1 (some a) p w3 with
                  | none => simp [hc] at h
                  | some w4 => simp [hc] at h
                · by_cases h44 : b = 44
                  · simp only [h93, h44, if_true, if_false] at h
                    exact ih _ _ _ _ _ ⟨v, w', c, k, by simpa using h⟩
                  · simp [h93, h44] at h

theorem decodeFrom_not_raisesDepth (d : sliceDecoder) (buf : List Nat) (depth : Int) (p : Ptr)
    (hvd : ∀ c ep w, ¬ raisesDepth (d.valueDecoder.decode buf c depth ep w)) :
    ∀ (fuel cursor : Nat) (w : World),
      ¬ raisesDepth (d.decodeFrom buf depth p fuel cursor w) := by
  intro fuel
  induction fuel with
  | zero =>
    intro cursor w
    rintro ⟨v, w', c, k, h⟩
    simp [sliceDecoder.decodeFrom] at h
  | succ fuel ih =>
    intro cursor w
    rw [sliceDecoder.decodeFrom]
    rintro ⟨v, w', c, k, h⟩
    by_cases hlt : cursor < buf.length
    · simp only [hlt, if_true] at h
      cases hb : buf[cursor]? with
      | none => simp [hb] at h
      | some b =>
        simp only [hb] at h
        by_cases hws : b = 32 ∨ b = 10 ∨ b = 9 ∨ b = 13
        · simp only [hws, if_true] at h
          exact ih _ _ ⟨v, w', c, k, h⟩
        · simp only [hws, if_false] at h
          by_cases hn : b = 110
          · simp only [hn, if_true] at h
            split at h
            · simp at h
            · split at h
              · simp at h
              · split at h
                · simp at h
                · split at h
                  · simp at h
                  · split at h
                    · simp at h
                    · simp at h
          · simp only [hn, if_false] at h
            by_cases ho : b = 91
            · simp only [ho, if_true] at h
              unfold sliceDecoder.decodeArray at h
              simp only at h
              split at h
              · simp at h
              · split at h
                · split at h
                  · simp at h
                  · simp at h
                · exact decodeElems_not_raisesDepth d buf depth p _ hvd _ _ _ _ _ _
                    ⟨v, w', c, k, h⟩
            · simp only [ho, if_false] at h
              split at h
              · simp [sliceDecoder.errNumber] at h
              · simp at h
    · simp [hlt] at h

theorem decodeStreamLoops_not_raisesDepth (d : sliceDecoder) (depth : Int) (p : Ptr)
    (slice : sliceHeader)
    (hvd : ∀ s ep w, ¬ raisesDepthStream (d.valueDecoder.decodeStream s depth ep w)) :
    ∀ (fuel idx capacity : Nat) (data : Option Nat) (s : stream) (w : World),
      ¬ raisesDepthStream (d.decodeStreamElems depth p slice fuel idx capacity data s w) ∧
      ¬ raisesDepthStream (d.decodeStreamRetry depth p slice fuel idx capacity data s w) := by
  intro fuel
  induction fuel with
  | zero =>
    intro idx capacity data s w
    constructor
    · rintro ⟨v, w', c, k, h⟩
      simp [sliceDecoder.decodeStreamElems] at h
    · rintro ⟨v, w', c, k, h⟩
      simp [sliceDecoder.decodeStreamRetry] at h
  | succ fuel ih =>
    intro idx capacity data s w
    constructor
    · rw [sliceDecoder.decodeStreamElems]
      rintro ⟨v, w', c, k, h⟩
      cases hg : d.grow idx capacity data w with
      | none => simp [hg] at h
      | some r =>
        obtain ⟨cap1, data1, w1⟩ := r
        cases data1 with
        | none => simp [hg] at h
        | some a =>
          cases hi : d.initElem ⟨a, idx⟩ w1 with
          | none => simp [hg, hi] at h
          | some w2 =>
            cases hd : d.valueDecoder.decodeStream s depth ⟨a, idx⟩ w2 with
            | fault => simp [hg, hi, hd] at h
            | diverged => simp [hg, hi, hd] at h
            | ret r w3 =>
              obtain ⟨err, s1⟩ := r
              cases err with
              | some e =>
                simp only [hg, hi, hd, Exec.ret.injEq, Prod.mk.injEq, Option.some.injEq] at h
                exact hvd _ _ _ ⟨s1, w3, c, k, by rw [hd, h.1.1]⟩
              | none =>
                simp only [hg, hi, hd] at h
                exact (ih _ _ _ _ _).2 ⟨v, w', c, k, h⟩
    · rw [sliceDecoder.decodeStreamRetry]
      rintro ⟨v, w', c, k, h⟩
      by_cases h93 : s.char = 93
      · simp only [h93, if_true] at h
        cases hc : d.closeArray slice idx capacity data p w with
        | none => simp [hc] at h
        | some w4 => simp [hc] at h
      · by_cases h44 : s.char = 44
        · simp only [h93, h44, if_true, if_false] at h
          exact (ih _ _ _ _ _).1 ⟨v, w', c, k, by simpa using h⟩
        · simp only [h93, h44, if_false] at h
          split at h
          · split at h
            · exact (ih _ _ _ _ _).2 ⟨v, w', c, k, h⟩
            · simp at h
          · simp at h

theorem nullBytes_not_depth (s : stream) (c k : Nat) :
    (nullBytes s).1 ≠ some (.errExceededMaxDepth c k) := by
  unfold nullBytes
  simp only
  generalize (if s.cursor + 3 < s.buf.length then s else s.read.2) = s1
  split
  · simp
  · split
    · simp
    · split
      · simp
      · simp

theorem decodeStreamFrom_not_raisesDepth (d : sliceDecoder) (depth : Int) (p : Ptr)
    (hvd : ∀ s ep w, ¬ raisesDepthStream (d.valueDecoder.decodeStream s depth ep w)) :
    ∀ (fuel : Nat) (s : stream) (w : World),
      ¬ raisesDepthStream (d.decodeStreamFrom depth p fuel s w) := by
  intro fuel
  induction fuel with
  | zero =>
    intro s w
    rintro ⟨v, w', c, k, h⟩
    simp [sliceDecoder.decodeStreamFrom] at h
  | succ fuel ih =>
    intro s w
    rw [sliceDecoder.decodeStreamFrom]
    rintro ⟨v, w', c, k, h⟩
    by_cases hws : s.char = 32 ∨ s.char = 10 ∨ s.char = 9 ∨ s.char = 13
    · simp only [hws, if_true] at h
      exact ih _ _ ⟨v, w', c, k, h⟩
    · simp only [hws, if_false] at h
      by_cases hn : s.char = 110
      · simp only [hn, if_true] at h
        have hnb := nullBytes_not_depth s c k
        cases hnull : nullBytes s with
        | mk e s1 =>
          rw [hnull] at h hnb
          cases e with
          | some e =>
            simp only [Exec.ret.injEq, Prod.mk.injEq, Option.some.injEq] at h
            exact hnb (by rw [h.1.1])
          | none =>
            simp only at h
            split at h
            · simp at h
            · simp at h
      · simp only [hn, if_false] at h
        by_cases ho : s.char = 91
        · simp only [ho, if_true] at h
          unfold sliceDecoder.decodeStreamArray at h
          simp only at h
          split at h
          · split at h
            · simp at h
            · simp at h
          · exact (decodeStreamLoops_not_raisesDepth d depth p _ hvd _ _ _ _ _ _).1
              ⟨v, w', c, k, h⟩
        · simp only [ho, if_false] at h
          split at h
          · simp [sliceDecoder.errNumber] at h
          · split at h
            · split at h
              · exact ih _ _ ⟨v, w', c, k, h⟩
              · simp at h
            · simp at h

theorem decodeElems_congr (d : sliceDecoder) (vd' : decoder) (buf : List Nat) (depth : Int)
    (p : Ptr) (slice : sliceHeader)
    (h : ∀ c ep w, d.valueDecoder.decode buf c depth ep w = vd'.decode buf c depth ep w) :
    ∀ (fuel idx capacity : Nat) (data : Option Nat) (cursor : Nat) (w : World),
      d.decodeElems buf depth p slice fuel idx capacity data cursor w =
        ({ d with valueDecoder := vd' } : sliceDecoder).decodeElems buf depth p slice fuel idx
          capacity data cursor w := by
  have e1 : ∀ i c dt w, ({ d with valueDecoder := vd' } : sliceDecoder).grow i c dt w =
      d.grow i c dt w := fun _ _ _ _ => rfl
  have e2 : ∀ ep w, ({ d with valueDecoder := vd' } : sliceDecoder).initElem ep w =
      d.initElem ep w := fun _ _ => rfl
  have e3 : ∀ s i c dt q w, ({ d with valueDecoder := vd' } : sliceDecoder).closeArray s i c dt q w
      = d.closeArray s i c dt q w := fun _ _ _ _ _ _ => rfl
  have e4 : ∀ s c dt w, ({ d with valueDecoder := vd' } : sliceDecoder).abandon s c dt w =
      d.abandon s c dt w := fun _ _ _ _ => rfl
  have e5 : ({ d with valueDecoder := vd' } : sliceDecoder).valueDecoder = vd' := rfl
  intro fuel
  induction fuel with
  | zero => intro _ _ _ _ _; simp [sliceDecoder.decodeElems]
  | succ fuel ih =>
    intro idx capacity data cursor w
    rw [sliceDecoder.decodeElems, sliceDecoder.decodeElems]
    simp only [e1, e2, e3, e4, e5, h, ih]

theorem decode_congr (maxDepth : Int) (d : sliceDecoder) (vd' : decoder) (fuel : Nat)
    (buf : List Nat) (cursor : Nat) (depth : Int) (p : Ptr) (w : World)
    (h : ∀ c ep w, d.valueDecoder.decode buf c (depth + 1) ep w =
      vd'.decode buf c (depth + 1) ep w) :
    d.decode maxDepth fuel buf cursor depth p w =
      ({ d with valueDecoder := vd' } : sliceDecoder).decode maxDepth fuel buf cursor depth p
        w := by
  have e1 : ∀ w, ({ d with valueDecoder := vd' } : sliceDecoder).newSlice w = d.newSlice w :=
    fun _ => rfl
  have e0 : ∀ q w, ({ d with valueDecoder := vd' } : sliceDecoder).emptyArray q w =
      d.emptyArray q w := fun _ _ => rfl
  have e2 : ∀ o, ({ d with valueDecoder := vd' } : sliceDecoder).errNumber o = d.errNumber o :=
    fun _ => rfl
  have harr : ∀ f c w, d.decodeArray buf (depth + 1) p f c w =
      ({ d with valueDecoder := vd' } : sliceDecoder).decodeArray buf (depth + 1) p f c w := by
    intro f c w
    unfold sliceDecoder.decodeArray
    simp only [e0, e1, ← decodeElems_congr d vd' buf (depth + 1) p _ h]
  have hfrom : ∀ f c w, d.decodeFrom buf (depth + 1) p f c w =
      ({ d with valueDecoder := vd' } : sliceDecoder).decodeFrom buf (depth + 1) p f c w := by
    intro f
    induction f with
    | zero => intro _ _; simp [sliceDecoder.decodeFrom]
    | succ f ih =>
      intro c w
      rw [sliceDecoder.decodeFrom, sliceDecoder.decodeFrom]
      simp only [e2, ← harr, ← ih]
  unfold sliceDecoder.decode
  simp only [hfrom]

theorem decodeStreamLoops_congr (d : sliceDecoder) (vd' : decoder) (depth : Int)
    (p : Ptr) (slice : sliceHeader)
    (h : ∀ s ep w, d.valueDecoder.decodeStream s depth ep w = vd'.decodeStream s depth ep w) :
    ∀ (fuel idx capacity : Nat) (data : Option Nat) (s : stream) (w : World),
      d.decodeStreamElems depth p slice fuel idx capacity data s w =
        ({ d with valueDecoder := vd' } : sliceDecoder).decodeStreamElems depth p slice fuel idx
          capacity data s w ∧
      d.decodeStreamRetry depth p slice fuel idx capacity data s w =
        ({ d with valueDecoder := vd' } : sliceDecoder).decodeStreamRetry depth p slice fuel idx
          capacity data s w := by
  have e1 : ∀ i c dt w, ({ d with valueDecoder := vd' } : sliceDecoder).grow i c dt w =
      d.grow i c dt w := fun _ _ _ _ => rfl
  have e2 : ∀ ep w, ({ d with valueDecoder := vd' } : sliceDecoder).initElem ep w =
      d.initElem ep w := fun _ _ => rfl
  have e3 : ∀ s i c dt q w, ({ d with valueDecoder := vd' } : sliceDecoder).closeArray s i c dt q w
      = d.closeArray s i c dt q w := fun _ _ _ _ _ _ => rfl
  have e4 : ∀ s c dt w, ({ d with valueDecoder := vd' } : sliceDecoder).abandon s c dt w =
      d.abandon s c dt w := fun _ _ _ _ => rfl
  have e5 : ({ d with valueDecoder := vd' } : sliceDecoder).valueDecoder = vd' := rfl
  intro fuel
  induction fuel with
  | zero =>
    intro _ _ _ _ _
    simp [sliceDecoder.decodeStreamElems, sliceDecoder.decodeStreamRetry]
  | succ fuel ih =>
    intro idx capacity data s w
    constructor
    · rw [sliceDecoder.decodeStreamElems, sliceDecoder.decodeStreamElems]
      simp only [e1, e2, e5, h, fun i c dt s w => (ih i c dt s w).2]
    · rw [sliceDecoder.decodeStreamRetry, sliceDecoder.decodeStreamRetry]
      simp only [e3, e4, fun i c dt s w => (ih i c dt s w).1,
        fun i c dt s w => (ih i c dt s w).2]

theorem decodeStream_congr (maxDepth : Int) (d : sliceDecoder) (vd' : decoder) (fuel : Nat)
    (s : stream) (depth : Int) (p : Ptr) (w : World)
    (h : ∀ s ep w, d.valueDecoder.decodeStream s (depth + 1) ep w =
      vd'.decodeStream s (depth + 1) ep w) :
    d.decodeStream maxDepth fuel s depth p w =
      ({ d with valueDecoder := vd' } : sliceDecoder).decodeStream maxDepth fuel s depth p
        w := by
  have e1 : ∀ w, ({ d with valueDecoder := vd' } : sliceDecoder).newSlice w = d.newSlice w :=
    fun _ => rfl
  have e0 : ∀ q w, ({ d with valueDecoder := vd' } : sliceDecoder).emptyArray q w =
      d.emptyArray q w := fun _ _ => rfl
  have e2 : ∀ o, ({ d with valueDecoder := vd' } : sliceDecoder).errNumber o = d.errNumber o :=
    fun _ => rfl
  have harr : ∀ f s w, d.decodeStreamArray (depth + 1) p f s w =
      ({ d with valueDecoder := vd' } : sliceDecoder).decodeStreamArray (depth + 1) p f s
        w := by
    intro f s w
    unfold sliceDecoder.decodeStreamArray
    simp only [e0, e1, fun sl fuel i c dt s w =>
      ((decodeStreamLoops_congr d vd' (depth + 1) p sl h fuel i c dt s w).1).symm]
  have hfrom : ∀ f s w, d.decodeStreamFrom (depth + 1) p f s w =
      ({ d with valueDecoder := vd' } : sliceDecoder).decodeStreamFrom (depth + 1) p f s w := by
    intro f
    induction f with
    | zero => intro _ _; simp [sliceDecoder.decodeStreamFrom]
    | succ f ih =>
      intro s w
      rw [sliceDecoder.decodeStreamFrom, sliceDecoder.decodeStreamFrom]
      simp only [e2, ← harr, ← ih]
  unfold sliceDecoder.decodeStream
  simp only [hfrom]

/-! ## Towers of slice decoders -/

theorem newSlice_empty (d : sliceDecoder) (w : World) (h : w.pools d.arrayPool = []) :
    d.newSlice w = (⟨some w.heap.length, 0, 2⟩,
      { heap := w.heap ++ [List.replicate 2 Val.zero], pools := w.pools,
        log := PoolEvent.get d.arrayPool ⟨some w.heap.length, 0, 2⟩ :: w.log }) := by
  simp [sliceDecoder.newSlice, h, newArray, defaultSliceCapacity]

theorem decodeElems_first (d : sliceDecoder) (buf : List Nat) (depth : Int) (p : Ptr)
    (slice : sliceHeader) (fuel a cursor : Nat) (w : World)
    (hptr : d.isElemPointerType = false) (hum : d.isElemUnmarshalJSONType = false) :
    d.decodeElems buf depth p slice (fuel + 1) 0 2 (some a) cursor w =
      match d.valueDecoder.decode buf cursor depth ⟨a, 0⟩ w with
      | .fault => .fault
      | .diverged => .diverged
      | .ret (_, some err) w => .ret (0, some err) w
      | .ret (c, none) w =>
        match buf[skipWhiteSpace buf c]? with
        | none => .fault
        | some b =>
          if b = 93 then
            match d.closeArray slice 0 2 (some a) p w with
            | none => .fault
            | some w => .ret (skipWhiteSpace buf c + 1, none) w
          else if b = 44 then
            d.decodeElems buf depth p slice fuel (0 + 1) 2 (some a) (skipWhiteSpace buf c + 1) w
          else
            .ret (0, some (.errInvalidCharacter b "slice" (skipWhiteSpace buf c)))
              (d.abandon slice 2 (some a) w) := by
  rw [sliceDecoder.decodeElems]
  simp [sliceDecoder.grow, sliceDecoder.initElem, hptr, hum]
  try rfl

theorem towerSlice_flags (maxDepth : Int) (fuel : Nat) (leaf : decoder) (leafType : rtype)
    (m : Nat) :
    (towerSlice maxDepth fuel leaf leafType (m + 1)).isElemPointerType = false ∧
    (towerSlice maxDepth fuel leaf leafType (m + 1)).isElemUnmarshalJSONType = false := by
  simp [towerSlice, newSliceDecoder, towerType, sliceType, rtype.Kind]

theorem towerSlice_valueDecoder (maxDepth : Int) (fuel : Nat) (leaf : decoder)
    (leafType : rtype) (m : Nat) (buf : List Nat) (c : Nat) (depth : Int) (ep : Ptr)
    (w : World) :
    (towerSlice maxDepth fuel leaf leafType (m + 1)).valueDecoder.decode buf c depth ep w =
      (towerSlice maxDepth fuel leaf leafType m).decode maxDepth fuel buf c depth ep w := rfl

/-- A tower of more than `r` slice decoders, entered `r` levels above the bound on input
that opens more than `r` brackets: the decoder `r` levels down fails the depth check. -/
theorem tower_fail (maxDepth : Nat) (fuel : Nat) (hf : 2 ≤ fuel) (leaf : decoder)
    (leafType : rtype) (buf : List Nat) :
    ∀ (r m cursor : Nat) (depth : Int) (p : Ptr) (w : World),
      depth = (maxDepth : Int) - r → r ≤ m →
      (∀ i, i ≤ r → buf[cursor + i]? = some 91) →
      (∀ i, i ≤ m → w.pools i = []) →
      ∃ w', (towerSlice maxDepth fuel leaf leafType m).decode maxDepth fuel buf cursor depth p w
          = .ret (0, some (.errExceededMaxDepth 91 (cursor + r))) w' ∧
        w.heap.length ≤ w'.heap.length ∧
        (∀ a, a < w.heap.length → w'.heap[a]? = w.heap[a]?) := by
  intro r
  induction r with
  | zero =>
    intro m cursor depth p w hd _ hb _
    refine ⟨w, ?_, le_refl _, fun _ _ => rfl⟩
    have h1 : depth + 1 > (maxDepth : Int) := by omega
    have h2 := hb 0 (le_refl _)
    simp only [Nat.add_zero] at h2
    simp [sliceDecoder.decode, h1, h2]
  | succ r ih =>
    intro m cursor depth p w hd hm hb hpools
    obtain ⟨m', rfl⟩ : ∃ m', m = m' + 1 := ⟨m - 1, by omega⟩
    obtain ⟨f, rfl⟩ : ∃ f, fuel = f + 1 + 1 := ⟨fuel - 2, by omega⟩
    have h0 := hb 0 (by omega)
    simp only [Nat.add_zero] at h0
    have h1 := hb 1 (by omega)
    have hpool : w.pools (towerSlice maxDepth (f + 1 + 1) leaf leafType (m' + 1)).arrayPool
        = [] := hpools (m' + 1) (le_refl _)
    obtain ⟨hptr, hum⟩ := towerSlice_flags maxDepth (f + 1 + 1) leaf leafType m'
    obtain ⟨w', hw', hlen', hheap'⟩ := ih m' (cursor + 1) (depth + 1) ⟨w.heap.length, 0⟩
      { heap := w.heap ++ [List.replicate 2 Val.zero], pools := w.pools,
        log := PoolEvent.get (m' + 1) ⟨some w.heap.length, 0, 2⟩ :: w.log }
      (by push_cast at hd ⊢; omega) (by omega)
      (fun i hi => by rw [Nat.add_assoc, Nat.add_comm 1 i]; exact hb (i + 1) (by omega))
      (fun i hi => hpools i (by omega))
    refine ⟨w', ?_, ?_, ?_⟩
    · rw [decode_eq_decodeFrom maxDepth _ _ buf cursor cursor 91 depth p w
          (by push_cast at hd; omega) (firstNonSpace_here h0 (by decide)) (by omega),
        Nat.sub_self, Nat.sub_zero, Nat.add_sub_cancel,
        decodeFrom_open _ buf (depth + 1) p _ cursor w h0,
        decodeArray_elems _ buf (depth + 1) p _ cursor (cursor + 1) 91 w
          (firstNonSpace_here h1 (by decide)) (by decide),
        newSlice_empty _ w hpool]
      simp only
      rw [decodeElems_first _ buf (depth + 1) p _ f _ (cursor + 1) _ hptr hum,
        towerSlice_valueDecoder]
      have e : (towerSlice maxDepth (f + 1 + 1) leaf leafType (m' + 1)).arrayPool = m' + 1 :=
        rfl
      rw [e, hw']
      show Exec.ret (0, some (Error.errExceededMaxDepth 91 (cursor + 1 + r))) w' = _
      rw [Nat.add_assoc, Nat.add_comm 1 r]
    · have hl : (w.heap ++ [List.replicate 2 Val.zero]).length ≤ w'.heap.length := hlen'
      simp only [List.length_append, List.length_singleton] at hl
      omega
    · intro a ha
      have hl : a < (w.heap ++ [List.replicate 2 Val.zero]).length := by
        simp only [List.length_append, List.length_singleton]; omega
      rw [hheap' a hl]
      exact List.getElem?_append_left ha

/-- A tower of more than `k` slice decoders on `k + 1` nested brackets, entered at least
`k + 1` levels below the bound: the parse succeeds and stops after the last bracket. -/
theorem tower_ok (maxDepth : Nat) (fuel : Nat) (hf : 2 ≤ fuel) (leaf : decoder)
    (leafType : rtype) (buf : List Nat) :
    ∀ (k m cursor : Nat) (depth : Int) (p : Ptr) (w : World) (dst : sliceHeader),
      depth + k + 1 ≤ (maxDepth : Int) → k ≤ m →
      (∀ i, i ≤ k → buf[cursor + i]? = some 91) →
      (∀ i, i ≤ k → buf[cursor + k + 1 + i]? = some 93) →
      (∀ i, i ≤ m → w.pools i = []) → dstValid w p dst →
      ∃ w', (towerSlice maxDepth fuel leaf leafType m).decode maxDepth fuel buf cursor depth p w
          = .ret (cursor + 2 * (k + 1), none) w' ∧
        w.heap.length ≤ w'.heap.length ∧
        (∀ a, a < w.heap.length → a ≠ p.block → dst.data ≠ some a →
          w'.heap[a]? = w.heap[a]?) ∧
        (∀ a, a < w.heap.length →
          (w'.heap[a]?).map List.length = (w.heap[a]?).map List.length) := by
  intro k
  induction k with
  | zero =>
    intro m cursor depth p w dst hd _ ho hc _ hdst
    have h0 := ho 0 (le_refl _)
    have h1 := hc 0 (le_refl _)
    simp only [Nat.add_zero] at h0 h1
    obtain ⟨w', e1, _, _, e4, e5, e6, e7⟩ :=
      decode_empty_array_full maxDepth (towerSlice maxDepth fuel leaf leafType m) fuel buf
        cursor cursor (cursor + 1) depth p w dst (by omega)
        (firstNonSpace_here h0 (by decide)) (firstNonSpace_here h1 (by decide)) hdst.1
        (by omega)
    refine ⟨w', by rw [e1], ?_, fun a ha hap _ => e6 a ha hap, e7⟩
    by_cases hn : dst.data = none
    · have := (e4 hn).2.2; omega
    · have := (e5 hn).2; omega
  | succ k ih =>
    intro m cursor depth p w dst hd hm ho hc hpools hdst
    obtain ⟨m', rfl⟩ : ∃ m', m = m' + 1 := ⟨m - 1, by omega⟩
    obtain ⟨f, rfl⟩ : ∃ f, fuel = f + 1 + 1 := ⟨fuel - 2, by omega⟩
    have h0 := ho 0 (by omega)
    simp only [Nat.add_zero] at h0
    have h1 := ho 1 (by omega)
    obtain ⟨pc, hpc, _⟩ := World.loadHeader_inv hdst.1
    have hplt := lt_length_of_getElem? hpc
    have hpool : w.pools (towerSlice maxDepth (f + 1 + 1) leaf leafType (m' + 1)).arrayPool
        = [] := hpools (m' + 1) (le_refl _)
    obtain ⟨hptr, hum⟩ := towerSlice_flags maxDepth (f + 1 + 1) leaf leafType m'
    -- the memory after `newSlice`
    obtain ⟨w1, hw1⟩ : ∃ w1 : World, w1 =
        { heap := w.heap ++ [List.replicate 2 Val.zero], pools := w.pools,
          log := PoolEvent.get (m' + 1) ⟨some w.heap.length, 0, 2⟩ :: w.log } := ⟨_, rfl⟩
    have hlen1 : w1.heap.length = w.heap.length + 1 := by rw [hw1]; simp
    have hheap1 : ∀ a, a < w.heap.length → w1.heap[a]? = w.heap[a]? := by
      intro a ha; rw [hw1]; exact List.getElem?_append_left ha
    have hscr1 : w1.heap[w.heap.length]? = some (List.replicate 2 Val.zero) := by
      rw [hw1]; simp
    have hdst1 : dstValid w1 ⟨w.heap.length, 0⟩ ⟨none, 0, 0⟩ := by
      refine ⟨?_, rfl⟩
      simp [World.loadHeader, World.load, hscr1]
    obtain ⟨w2, hw2, hlen2, hheap2, hsize2⟩ := ih m' (cursor + 1) (depth + 1)
      ⟨w.heap.length, 0⟩ w1 ⟨none, 0, 0⟩ (by push_cast at hd ⊢; omega) (by omega)
      (fun i hi => by rw [Nat.add_assoc, Nat.add_comm 1 i]; exact ho (i + 1) (by omega))
      (fun i hi => by
        have := hc i (by omega)
        rw [← this]; congr 1; omega)
      (fun i hi => by rw [hw1]; exact hpools i (by omega)) hdst1
    -- the closing bracket
    have hcl : buf[cursor + 1 + 2 * (k + 1)]? = some 93 := by
      have := hc (k + 1) (le_refl _)
      rw [← this]; congr 1; omega
    have hskip := skipWhiteSpace_stop hcl (by decide)
    have hinv2 : ∃ cells, scratchInv w2 w.heap.length 2 (0 + 1) cells := by
      have := hsize2 w.heap.length (by omega)
      rw [hscr1] at this
      cases hc2 : w2.heap[w.heap.length]? with
      | none => simp [hc2] at this
      | some cells =>
        simp only [hc2, Option.map_some', List.length_replicate, Option.some.injEq] at this
        exact ⟨cells.take 1, cells, hc2, this, by omega, by omega, rfl⟩
    obtain ⟨vs, hinv2⟩ := hinv2
    have hdst2 : dstValid w2 p dst := by
      apply dstValid_of_heap hdst
      intro a ha
      rw [hheap2 a (by omega) (by simp; omega) (by simp), hheap1 a ha]
    obtain ⟨w3, dst', a3, cells3, hclose, _, _, _, _, _, _, _, _, _, hlen3, hheap3, hsize3⟩ :=
      closeArray_spec (towerSlice maxDepth (f + 1 + 1) leaf leafType (m' + 1))
        ⟨some w.heap.length, 0, 2⟩ hinv2 hdst2 (by omega : w.heap.length ≠ p.block)
    refine ⟨w3, ?_, by omega, ?_, ?_⟩
    · rw [decode_eq_decodeFrom maxDepth _ _ buf cursor cursor 91 depth p w
          (by push_cast at hd; omega) (firstNonSpace_here h0 (by decide)) (by omega),
        Nat.sub_self, Nat.sub_zero, Nat.add_sub_cancel,
        decodeFrom_open _ buf (depth + 1) p _ cursor w h0,
        decodeArray_elems _ buf (depth + 1) p _ cursor (cursor + 1) 91 w
          (firstNonSpace_here h1 (by decide)) (by decide),
        newSlice_empty _ w hpool]
      simp only
      rw [decodeElems_first _ buf (depth + 1) p _ f _ (cursor + 1) _ hptr hum,
        towerSlice_valueDecoder]
      have e : (towerSlice maxDepth (f + 1 + 1) leaf leafType (m' + 1)).arrayPool = m' + 1 :=
        rfl
      rw [e, ← hw1, hw2]
      simp only [hskip, hcl, if_true, hclose]
      congr 2
      omega
    · intro a ha hap had
      rw [hheap3 a (by omega) hap had, hheap2 a (by omega) (by simp; omega) (by simp),
        hheap1 a ha]
    · intro a ha
      rw [hsize3 a (by omega), hsize2 a (by omega), hheap1 a ha]

theorem stream_char_of_getElem? {s : stream} {b : Nat} (h : s.buf[s.cursor]? = some b) :
    s.char = b := by
  simp [stream.char, h]

theorem stream_skip_stop (s : stream) (b : Nat) (h : s.buf[s.cursor]? = some b)
    (hb : isWhiteSpace b = false) : s.skipWhiteSpace = s := by
  unfold stream.skipWhiteSpace
  rw [skipWhiteSpace_stop h hb]

theorem decodeStreamElems_first (d : sliceDecoder) (depth : Int) (p : Ptr)
    (slice : sliceHeader) (fuel a : Nat) (s : stream) (w : World)
    (hptr : d.isElemPointerType = false) (hum : d.isElemUnmarshalJSONType = false) :
    d.decodeStreamElems depth p slice (fuel + 1) 0 2 (some a) s w =
      match d.valueDecoder.decodeStream s depth ⟨a, 0⟩ w with
      | .fault => .fault
      | .diverged => .diverged
      | .ret (some err, s) w => .ret (some err, s) w
      | .ret (none, s) w =>
        d.decodeStreamRetry depth p slice fuel 0 2 (some a) s.skipWhiteSpace w := by
  rw [sliceDecoder.decodeStreamElems]
  simp [sliceDecoder.grow, sliceDecoder.initElem, hptr, hum]
  try rfl

theorem towerSlice_valueDecoderStream (maxDepth : Int) (fuel : Nat) (leaf : decoder)
    (leafType : rtype) (m : Nat) (s : stream) (depth : Int) (ep : Ptr) (w : World) :
    (towerSlice maxDepth fuel leaf leafType (m + 1)).valueDecoder.decodeStream s depth ep w =
      (towerSlice maxDepth fuel leaf leafType m).decodeStream maxDepth fuel s depth ep w := rfl

/-- The stream counterpart of `tower_fail`. -/
theorem tower_fail_stream (maxDepth : Nat) (fuel : Nat) (hf : 2 ≤ fuel) (leaf : decoder)
    (leafType : rtype) :
    ∀ (r m : Nat) (s : stream) (depth : Int) (p : Ptr) (w : World),
      depth = (maxDepth : Int) - r → r ≤ m →
      (∀ i, i ≤ r → s.buf[s.cursor + i]? = some 91) →
      (∀ i, i ≤ m → w.pools i = []) →
      ∃ w', (towerSlice maxDepth fuel leaf leafType m).decodeStream maxDepth fuel s depth p w
          = .ret (some (.errExceededMaxDepth 91 (s.cursor + r)),
              { s with cursor := s.cursor + r }) w' ∧
        w.heap.length ≤ w'.heap.length ∧
        (∀ a, a < w.heap.length → w'.heap[a]? = w.heap[a]?) := by
  intro r
  induction r with
  | zero =>
    intro m s depth p w hd _ hb _
    refine ⟨w, ?_, le_refl _, fun _ _ => rfl⟩
    have h1 : depth + 1 > (maxDepth : Int) := by omega
    have h2 := hb 0 (le_refl _)
    simp only [Nat.add_zero] at h2
    simp [sliceDecoder.decodeStream, h1, stream_char_of_getElem? h2]
  | succ r ih =>
    intro m s depth p w hd hm hb hpools
    obtain ⟨m', rfl⟩ : ∃ m', m = m' + 1 := ⟨m - 1, by omega⟩
    obtain ⟨f, rfl⟩ : ∃ f, fuel = f + 1 + 1 := ⟨fuel - 2, by omega⟩
    have h0 := hb 0 (by omega)
    simp only [Nat.add_zero] at h0
    have h1 := hb 1 (by omega)
    have hpool : w.pools (towerSlice maxDepth (f + 1 + 1) leaf leafType (m' + 1)).arrayPool
        = [] := hpools (m' + 1) (le_refl _)
    obtain ⟨hptr, hum⟩ := towerSlice_flags maxDepth (f + 1 + 1) leaf leafType m'
    have hs1 : ({ s with cursor := s.cursor + 1 } : stream).skipWhiteSpace =
        { s with cursor := s.cursor + 1 } := stream_skip_stop _ 91 h1 (by decide)
    have hc1 : ({ s with cursor := s.cursor + 1 } : stream).char = 91 :=
      @stream_char_of_getElem? { s with cursor := s.cursor + 1 } _ h1
    obtain ⟨w', hw', hlen', hheap'⟩ := ih m' { s with cursor := s.cursor + 1 } (depth + 1)
      ⟨w.heap.length, 0⟩
      { heap := w.heap ++ [List.replicate 2 Val.zero], pools := w.pools,
        log := PoolEvent.get (m' + 1) ⟨some w.heap.length, 0, 2⟩ :: w.log }
      (by push_cast at hd ⊢; omega) (by omega)
      (fun i hi => by
        show s.buf[s.cursor + 1 + i]? = some 91
        rw [Nat.add_assoc, Nat.add_comm 1 i]; exact hb (i + 1) (by omega))
      (fun i hi => hpools i (by omega))
    refine ⟨w', ?_, ?_, ?_⟩
    · unfold sliceDecoder.decodeStream
      have hd' : ¬ (depth + 1 > (maxDepth : Int)) := by push_cast at hd; omega
      simp only [hd', if_false]
      rw [decodeStreamFrom_open _ (depth + 1) p _ s w (stream_char_of_getElem? h0),
        decodeStreamArray_elems _ (depth + 1) p _ s w (by rw [hs1, hc1]; decide),
        newSlice_empty _ w hpool, hs1]
      simp only
      rw [decodeStreamElems_first _ (depth + 1) p _ f _ _ _ hptr hum,
        towerSlice_valueDecoderStream]
      have e : (towerSlice maxDepth (f + 1 + 1) leaf leafType (m' + 1)).arrayPool = m' + 1 :=
        rfl
      rw [e, hw']
      show Exec.ret (some (Error.errExceededMaxDepth 91 (s.cursor + 1 + r)),
        ({ s with cursor := s.cursor + 1 + r } : stream)) w' = _
      rw [Nat.add_assoc, Nat.add_comm 1 r]
    · have hl : (w.heap ++ [List.replicate 2 Val.zero]).length ≤ w'.heap.length := hlen'
      simp only [List.length_append, List.length_singleton] at hl
      omega
    · intro a ha
      have hl : a < (w.heap ++ [List.replicate 2 Val.zero]).length := by
        simp only [List.length_append, List.length_singleton]; omega
      rw [hheap' a hl]
      exact List.getElem?_append_left ha

/-- The stream counterpart of `tower_ok`. -/
theorem tower_ok_stream (maxDepth : Nat) (fuel : Nat) (hf : 3 ≤ fuel) (leaf : decoder)
    (leafType : rtype) :
    ∀ (k m : Nat) (s : stream) (depth : Int) (p : Ptr) (w : World) (dst : sliceHeader),
      depth + k + 1 ≤ (maxDepth : Int) → k ≤ m →
      (∀ i, i ≤ k → s.buf[s.cursor + i]? = some 91) →
      (∀ i, i ≤ k → s.buf[s.cursor + k + 1 + i]? = some 93) →
      (∀ i, i ≤ m → w.pools i = []) → dstValid w p dst →
      ∃ w', (towerSlice maxDepth fuel leaf leafType m).decodeStream maxDepth fuel s depth p w
          = .ret (none, { s with cursor := s.cursor + 2 * (k + 1) }) w' ∧
        w.heap.length ≤ w'.heap.length ∧
        (∀ a, a < w.heap.length → a ≠ p.block → dst.data ≠ some a →
          w'.heap[a]? = w.heap[a]?) ∧
        (∀ a, a < w.heap.length →
          (w'.heap[a]?).map List.length = (w.heap[a]?).map List.length) := by
  intro k
  induction k with
  | zero =>
    intro m s depth p w dst hd _ ho hc _ hdst
    obtain ⟨f, rfl⟩ : ∃ f, fuel = f + 1 := ⟨fuel - 1, by omega⟩
    have h0 := ho 0 (le_refl _)
    have h1 := hc 0 (le_refl _)
    simp only [Nat.add_zero] at h0 h1
    have hs1 : ({ s with cursor := s.cursor + 1 } : stream).skipWhiteSpace =
        { s with cursor := s.cursor + 1 } := stream_skip_stop _ 93 h1 (by decide)
    have hc1 : ({ s with cursor := s.cursor + 1 } : stream).char = 93 :=
      @stream_char_of_getElem? { s with cursor := s.cursor + 1 } _ h1
    obtain ⟨w', he, _, _, e4, e5, e6, e7⟩ :=
      emptyArray_spec (towerSlice maxDepth (f + 1) leaf leafType m) p w dst hdst.1
    refine ⟨w', ?_, ?_, fun a ha hap _ => e6 a ha hap, e7⟩
    · unfold sliceDecoder.decodeStream
      have hd' : ¬ (depth + 1 > (maxDepth : Int)) := by push_cast at hd; omega
      simp only [hd', if_false]
      rw [decodeStreamFrom_open _ (depth + 1) p _ s w (stream_char_of_getElem? h0)]
      unfold sliceDecoder.decodeStreamArray
      simp only [hs1, hc1, if_true, he]
    · by_cases hn : dst.data = none
      · have := (e4 hn).2.2; omega
      · have := (e5 hn).2; omega
  | succ k ih =>
    intro m s depth p w dst hd hm ho hc hpools hdst
    obtain ⟨m', rfl⟩ : ∃ m', m = m' + 1 := ⟨m - 1, by omega⟩
    obtain ⟨f, rfl⟩ : ∃ f, fuel = f + 1 + 1 + 1 := ⟨fuel - 3, by omega⟩
    have h0 := ho 0 (by omega)
    simp only [Nat.add_zero] at h0
    have h1 := ho 1 (by omega)
    obtain ⟨pc, hpc, _⟩ := World.loadHeader_inv hdst.1
    have hplt := lt_length_of_getElem? hpc
    have hpool :
        w.pools (towerSlice maxDepth (f + 1 + 1 + 1) leaf leafType (m' + 1)).arrayPool = [] :=
      hpools (m' + 1) (le_refl _)
    obtain ⟨hptr, hum⟩ := towerSlice_flags maxDepth (f + 1 + 1 + 1) leaf leafType m'
    have hs1 : ({ s with cursor := s.cursor + 1 } : stream).skipWhiteSpace =
        { s with cursor := s.cursor + 1 } := stream_skip_stop _ 91 h1 (by decide)
    have hc1 : ({ s with cursor := s.cursor + 1 } : stream).char = 91 :=
      @stream_char_of_getElem? { s with cursor := s.cursor + 1 } _ h1
    obtain ⟨w1, hw1⟩ : ∃ w1 : World, w1 =
        { heap := w.heap ++ [List.replicate 2 Val.zero], pools := w.pools,
          log := PoolEvent.get (m' + 1) ⟨some w.heap.length, 0, 2⟩ :: w.log } := ⟨_, rfl⟩
    have hlen1 : w1.heap.length = w.heap.length + 1 := by rw [hw1]; simp
    have hheap1 : ∀ a, a < w.heap.length → w1.heap[a]? = w.heap[a]? := by
      intro a ha; rw [hw1]; exact List.getElem?_append_left ha
    have hscr1 : w1.heap[w.heap.length]? = some (List.replicate 2 Val.zero) := by
      rw [hw1]; simp
    have hdst1 : dstValid w1 ⟨w.heap.length, 0⟩ ⟨none, 0, 0⟩ := by
      refine ⟨?_, rfl⟩
      simp [World.loadHeader, World.load, hscr1]
    obtain ⟨w2, hw2, hlen2, hheap2, hsize2⟩ := ih m' { s with cursor := s.cursor + 1 }
      (depth + 1) ⟨w.heap.length, 0⟩ w1 ⟨none, 0, 0⟩ (by push_cast at hd ⊢; omega) (by omega)
      (fun i hi => by
        show s.buf[s.cursor + 1 + i]? = some 91
        rw [Nat.add_assoc, Nat.add_comm 1 i]; exact ho (i + 1) (by omega))
      (fun i hi => by
        show s.buf[s.cursor + 1 + k + 1 + i]? = some 93
        have := hc i (by omega)
        rw [← this]; congr 1; omega)
      (fun i hi => by rw [hw1]; exact hpools i (by omega)) hdst1
    have hcl : s.buf[s.cursor + 1 + 2 * (k + 1)]? = some 93 := by
      have := hc (k + 1) (le_refl _)
      rw [← this]; congr 1; omega
    have hs2 : ({ s with cursor := s.cursor + 1 + 2 * (k + 1) } : stream).skipWhiteSpace =
        { s with cursor := s.cursor + 1 + 2 * (k + 1) } := stream_skip_stop _ 93 hcl (by decide)
    have hc2 : ({ s with cursor := s.cursor + 1 + 2 * (k + 1) } : stream).char = 93 :=
      @stream_char_of_getElem? { s with cursor := s.cursor + 1 + 2 * (k + 1) } _ hcl
    have hinv2 : ∃ cells, scratchInv w2 w.heap.length 2 (0 + 1) cells := by
      have := hsize2 w.heap.length (by omega)
      rw [hscr1] at this
      cases hc2 : w2.heap[w.heap.length]? with
      | none => simp [hc2] at this
      | some cells =>
        simp only [hc2, Option.map_some', List.length_replicate, Option.some.injEq] at this
        exact ⟨cells.take 1, cells, hc2, this, by omega, by omega, rfl⟩
    obtain ⟨vs, hinv2⟩ := hinv2
    have hdst2 : dstValid w2 p dst := by
      apply dstValid_of_heap hdst
      intro a ha
      rw [hheap2 a (by omega) (by simp; omega) (by simp), hheap1 a ha]
    obtain ⟨w3, dst', a3, cells3, hclose, _, _, _, _, _, _, _, _, _, hlen3, hheap3, hsize3⟩ :=
      closeArray_spec (towerSlice maxDepth (f + 1 + 1 + 1) leaf leafType (m' + 1))
        ⟨some w.heap.length, 0, 2⟩ hinv2 hdst2 (by omega : w.heap.length ≠ p.block)
    refine ⟨w3, ?_, by omega, ?_, ?_⟩
    · unfold sliceDecoder.decodeStream
      have hd' : ¬ (depth + 1 > (maxDepth : Int)) := by push_cast at hd; omega
      simp only [hd', if_false]
      rw [decodeStreamFrom_open _ (depth + 1) p _ s w (stream_char_of_getElem? h0),
        decodeStreamArray_elems _ (depth + 1) p _ s w (by rw [hs1, hc1]; decide),
        newSlice_empty _ w hpool, hs1]
      simp only
      rw [decodeStreamElems_first _ (depth + 1) p _ (f + 1) _ _ _ hptr hum,
        towerSlice_valueDecoderStream]
      have e :
          (towerSlice maxDepth (f + 1 + 1 + 1) leaf leafType (m' + 1)).arrayPool = m' + 1 :=
        rfl
      rw [e, ← hw1, hw2]
      simp only
      rw [hs2, sliceDecoder.decodeStreamRetry]
      simp only [hc2, if_true, hclose]
      congr 3
      omega
    · intro a ha hap had
      rw [hheap3 a (by omega) hap had, hheap2 a (by omega) (by simp; omega) (by simp),
        hheap1 a ha]
    · intro a ha
      rw [hsize3 a (by omega), hsize2 a (by omega), hheap1 a ha]

theorem nestedBrackets_open (k i : Nat) (h : i < k) : (nestedBrackets k)[i]? = some 91 := by
  unfold nestedBrackets
  rw [List.getElem?_append_left (by simpa using h)]
  simp [h]

theorem nestedBrackets_close (k i : Nat) (h : i < k) :
    (nestedBrackets k)[k + i]? = some 93 := by
  unfold nestedBrackets
  rw [List.getElem?_append_right (by simp)]
  simp [h]

/-- Claim C10: (1, 2) called with `depth + 1 > maxDecodeNestingDepth`, `decode` (on a cursor
inside the buffer) and `decodeStream` return `errExceededMaxDepth` and leave the memory, so
the destination and the pool, and the stream untouched; (3, 4) called with
`depth + 1 <= maxDecodeNestingDepth` they return `errExceededMaxDepth` only if the element
decoder does; (5, 6) the element decoder is only ever called with `depth + 1`: replacing it
by one that agrees with it at `depth + 1` changes nothing; (7, 9) a tower of more than
`maxDecodeNestingDepth` nested slice decoders started at depth 0 on `k > maxDecodeNestingDepth`
nested brackets fails with `errExceededMaxDepth` at the bracket of that depth, leaving the
arrays that existed untouched; (8, 10) a tower of at least `maxDecodeNestingDepth >= 1` slice
decoders started at depth 0 on exactly `maxDecodeNestingDepth` nested brackets succeeds and
stops after the last bracket. The towers use fresh pools. -/
theorem depth_check (maxDecodeNestingDepth : Nat) :
    (∀ (d : sliceDecoder) (fuel : Nat) (buf : List Nat) (cursor : Nat) (depth : Int) (p : Ptr)
        (w : World) (c : Nat),
      (maxDecodeNestingDepth : Int) < depth + 1 → buf[cursor]? = some c →
      d.decode maxDecodeNestingDepth fuel buf cursor depth p w =
        .ret (0, some (.errExceededMaxDepth c cursor)) w) ∧
    (∀ (d : sliceDecoder) (fuel : Nat) (s : stream) (depth : Int) (p : Ptr) (w : World),
      (maxDecodeNestingDepth : Int) < depth + 1 →
      d.decodeStream maxDecodeNestingDepth fuel s depth p w =
        .ret (some (.errExceededMaxDepth s.char s.cursor), s) w) ∧
    (∀ (d : sliceDecoder) (fuel : Nat) (buf : List Nat) (cursor : Nat) (depth : Int) (p : Ptr)
        (w : World),
      depth + 1 ≤ (maxDecodeNestingDepth : Int) →
      (∀ c ep w, ¬ raisesDepth (d.valueDecoder.decode buf c (depth + 1) ep w)) →
      ¬ raisesDepth (d.decode maxDecodeNestingDepth fuel buf cursor depth p w)) ∧
    (∀ (d : sliceDecoder) (fuel : Nat) (s : stream) (depth : Int) (p : Ptr) (w : World),
      depth + 1 ≤ (maxDecodeNestingDepth : Int) →
      (∀ s ep w, ¬ raisesDepthStream (d.valueDecoder.decodeStream s (depth + 1) ep w)) →
      ¬ raisesDepthStream (d.decodeStream maxDecodeNestingDepth fuel s depth p w)) ∧
    (∀ (d : sliceDecoder) (vd : decoder) (fuel : Nat) (buf : List Nat) (cursor : Nat)
        (depth : Int) (p : Ptr) (w : World),
      (∀ c ep w, d.valueDecoder.decode buf c (depth + 1) ep w =
        vd.decode buf c (depth + 1) ep w) →
      d.decode maxDecodeNestingDepth fuel buf cursor depth p w =
        ({ d with valueDecoder := vd } : sliceDecoder).decode maxDecodeNestingDepth fuel buf
          cursor depth p w) ∧
    (∀ (d : sliceDecoder) (vd : decoder) (fuel : Nat) (s : stream) (depth : Int) (p : Ptr)
        (w : World),
      (∀ s ep w, d.valueDecoder.decodeStream s (depth + 1) ep w =
        vd.decodeStream s (depth + 1) ep w) →
      d.decodeStream maxDecodeNestingDepth fuel s depth p w =
        ({ d with valueDecoder := vd } : sliceDecoder).decodeStream maxDecodeNestingDepth fuel s
          depth p w) ∧
    (∀ (m k fuel : Nat) (leaf : decoder) (leafType : rtype) (p : Ptr) (w : World),
      maxDecodeNestingDepth < k → maxDecodeNestingDepth ≤ m → 2 ≤ fuel →
      (∀ i, i ≤ m → w.pools i = []) →
      ∃ w', (towerSlice maxDecodeNestingDepth fuel leaf leafType m).decode
            maxDecodeNestingDepth fuel (nestedBrackets k) 0 0 p w =
          .ret (0, some (.errExceededMaxDepth 91 maxDecodeNestingDepth)) w' ∧
        ∀ a, a < w.heap.length → w'.heap[a]? = w.heap[a]?) ∧
    (∀ (m fuel : Nat) (leaf : decoder) (leafType : rtype) (p : Ptr) (w : World)
        (dst : sliceHeader),
      1 ≤ maxDecodeNestingDepth → maxDecodeNestingDepth ≤ m + 1 → 2 ≤ fuel →
      (∀ i, i ≤ m → w.pools i = []) → dstValid w p dst →
      ∃ w', (towerSlice maxDecodeNestingDepth fuel leaf leafType m).decode
            maxDecodeNestingDepth fuel (nestedBrackets maxDecodeNestingDepth) 0 0 p w =
          .ret (2 * maxDecodeNestingDepth, none) w') ∧
    (∀ (m k fuel : Nat) (leaf : decoder) (leafType : rtype) (p : Ptr) (w : World)
        (offset : Nat) (pending : List (List Nat)) (reads : Nat),
      maxDecodeNestingDepth < k → maxDecodeNestingDepth ≤ m → 2 ≤ fuel →
      (∀ i, i ≤ m → w.pools i = []) →
      ∃ w', (towerSlice maxDecodeNestingDepth fuel leaf leafType m).decodeStream
            maxDecodeNestingDepth fuel ⟨nestedBrackets k, 0, offset, pending, reads⟩ 0 p w =
          .ret (some (.errExceededMaxDepth 91 maxDecodeNestingDepth),
            ⟨nestedBrackets k, maxDecodeNestingDepth, offset, pending, reads⟩) w' ∧
        ∀ a, a < w.heap.length → w'.heap[a]? = w.heap[a]?) ∧
    (∀ (m fuel : Nat) (leaf : decoder) (leafType : rtype) (p : Ptr) (w : World)
        (dst : sliceHeader) (offset : Nat) (pending : List (List Nat)) (reads : Nat),
      1 ≤ maxDecodeNestingDepth → maxDecodeNestingDepth ≤ m + 1 → 3 ≤ fuel →
      (∀ i, i ≤ m → w.pools i = []) → dstValid w p dst →
      ∃ w', (towerSlice maxDecodeNestingDepth fuel leaf leafType m).decodeStream
            maxDecodeNestingDepth fuel
            ⟨nestedBrackets maxDecodeNestingDepth, 0, offset, pending, reads⟩ 0 p w =
          .ret (none, ⟨nestedBrackets maxDecodeNestingDepth, 2 * maxDecodeNestingDepth, offset,
            pending, reads⟩) w') := by
  refine ⟨?_, ?_, ?_, ?_, ?_, ?_, ?_, ?_, ?_, ?_⟩
  · intro d fuel buf cursor depth p w c hd hc
    simp [sliceDecoder.decode, hd, hc]
  · intro d fuel s depth p w hd
    simp [sliceDecoder.decodeStream, hd]
  · intro d fuel buf cursor depth p w hd hvd
    unfold sliceDecoder.decode
    simp only [not_lt.2 hd, if_false]
    exact decodeFrom_not_raisesDepth d buf (depth + 1) p hvd _ _ _
  · intro d fuel s depth p w hd hvd
    unfold sliceDecoder.decodeStream
    simp only [not_lt.2 hd, if_false]
    exact decodeStreamFrom_not_raisesDepth d (depth + 1) p hvd _ _ _
  · intro d vd fuel buf cursor depth p w h
    exact decode_congr maxDecodeNestingDepth d vd fuel buf cursor depth p w h
  · intro d vd fuel s depth p w h
    exact decodeStream_congr maxDecodeNestingDepth d vd fuel s depth p w h
  · intro m k fuel leaf leafType p w hk hm hf hpools
    obtain ⟨w', h1, _, h3⟩ := tower_fail maxDecodeNestingDepth fuel hf leaf leafType
      (nestedBrackets k) maxDecodeNestingDepth m 0 0 p w (by simp) hm
      (fun i hi => by rw [Nat.zero_add]; exact nestedBrackets_open k i (by omega)) hpools
    exact ⟨w', by simpa using h1, h3⟩
  · intro m fuel leaf leafType p w dst h1 hm hf hpools hdst
    obtain ⟨k, rfl⟩ : ∃ k, maxDecodeNestingDepth = k + 1 :=
      ⟨maxDecodeNestingDepth - 1, by omega⟩
    obtain ⟨w', h1, _⟩ := tower_ok (k + 1) fuel hf leaf leafType (nestedBrackets (k + 1)) k m 0 0
      p w dst (by push_cast; omega) (by omega)
      (fun i hi => by rw [Nat.zero_add]; exact nestedBrackets_open (k + 1) i (by omega))
      (fun i hi => by
        rw [Nat.zero_add]; exact nestedBrackets_close (k + 1) i (by omega))
      hpools hdst
    exact ⟨w', by simpa using h1⟩
  · intro m k fuel leaf leafType p w offset pending reads hk hm hf hpools
    obtain ⟨w', h1, _, h3⟩ := tower_fail_stream maxDecodeNestingDepth fuel hf leaf leafType
      maxDecodeNestingDepth m ⟨nestedBrackets k, 0, offset, pending, reads⟩ 0 p w (by simp) hm
      (fun i hi => by
        show (nestedBrackets k)[0 + i]? = some 91
        rw [Nat.zero_add]; exact nestedBrackets_open k i (by omega)) hpools
    exact ⟨w', by simpa using h1, h3⟩
  · intro m fuel leaf leafType p w dst offset pending reads h1 hm hf hpools hdst
    obtain ⟨k, rfl⟩ : ∃ k, maxDecodeNestingDepth = k + 1 :=
      ⟨maxDecodeNestingDepth - 1, by omega⟩
    obtain ⟨w', h1, _⟩ := tower_ok_stream (k + 1) fuel hf leaf leafType k m
      ⟨nestedBrackets (k + 1), 0, offset, pending, reads⟩ 0 p w dst (by push_cast; omega)
      (by omega)
      (fun i hi => by
        show (nestedBrackets (k + 1))[0 + i]? = some 91
        rw [Nat.zero_add]; exact nestedBrackets_open (k + 1) i (by omega))
      (fun i hi => by
        show (nestedBrackets (k + 1))[0 + k + 1 + i]? = some 93
        rw [Nat.zero_add]; exact nestedBrackets_close (k + 1) i (by omega))
      hpools hdst
    exact ⟨w', by simpa using h1⟩

theorem depth_check_witness :
    intSliceDecoder.decode (2 : Nat) 5 [91, 93] 0 2 ⟨0, 0⟩ (World.init .zero [] []) =
      .ret (0, some (.errExceededMaxDepth 91 0)) (World.init .zero [] []) ∧
    intSliceDecoder.decodeStream (2 : Nat) 5 ⟨[91, 93], 0, 0, [], 0⟩ 2 ⟨0, 0⟩
        (World.init .zero [] []) =
      .ret (some (.errExceededMaxDepth 91 0), ⟨[91, 93], 0, 0, [], 0⟩)
        (World.init .zero [] []) ∧
    (∃ w', (towerSlice (2 : Nat) 2 digitDecoder intType 2).decode (2 : Nat) 2
        (nestedBrackets 3) 0 0 ⟨0, 0⟩ (World.init .zero [] []) =
          .ret (0, some (.errExceededMaxDepth 91 2)) w' ∧
        ∀ a, a < (World.init .zero [] []).heap.length →
          w'.heap[a]? = (World.init .zero [] []).heap[a]?) ∧
    (∃ w', (towerSlice (2 : Nat) 2 digitDecoder intType 2).decode (2 : Nat) 2
        (nestedBrackets 2) 0 0 ⟨0, 0⟩ (World.init .zero [] []) = .ret (2 * 2, none) w') ∧
    (∃ w', (towerSlice (2 : Nat) 2 digitDecoder intType 2).decodeStream (2 : Nat) 2
        ⟨nestedBrackets 3, 0, 0, [], 0⟩ 0 ⟨0, 0⟩ (World.init .zero [] []) =
          .ret (some (.errExceededMaxDepth 91 2), ⟨nestedBrackets 3, 2, 0, [], 0⟩) w' ∧
        ∀ a, a < (World.init .zero [] []).heap.length →
          w'.heap[a]? = (World.init .zero [] []).heap[a]?) ∧
    (∃ w', (towerSlice (2 : Nat) 3 digitDecoder intType 2).decodeStream (2 : Nat) 3
        ⟨nestedBrackets 2, 0, 0, [], 0⟩ 0 ⟨0, 0⟩ (World.init .zero [] []) =
          .ret (none, ⟨nestedBrackets 2, 2 * 2, 0, [], 0⟩) w') :=
  ⟨(depth_check 2).1 intSliceDecoder 5 [91, 93] 0 2 ⟨0, 0⟩ (World.init .zero [] []) 91
      (by decide) (by decide),
    (depth_check 2).2.1 intSliceDecoder 5 ⟨[91, 93], 0, 0, [], 0⟩ 2 ⟨0, 0⟩
      (World.init .zero [] []) (by decide),
    (depth_check 2).2.2.2.2.2.2.1 2 3 2 digitDecoder intType ⟨0, 0⟩ (World.init .zero [] [])
      (by decide) (by decide) (by decide) (fun i _ => by simp [World.init]),
    (depth_check 2).2.2.2.2.2.2.2.1 2 2 digitDecoder intType ⟨0, 0⟩ (World.init .zero [] [])
      ⟨none, 0, 0⟩ (by decide) (by decide) (by decide) (fun i _ => by simp [World.init])
      ⟨rfl, rfl⟩,
    (depth_check 2).2.2.2.2.2.2.2.2.1 2 3 2 digitDecoder intType ⟨0, 0⟩
      (World.init .zero [] []) 0 [] 0 (by decide) (by decide) (by decide)
      (fun i _ => by simp [World.init]),
    (depth_check 2).2.2.2.2.2.2.2.2.2 2 3 digitDecoder intType ⟨0, 0⟩
      (World.init .zero [] []) ⟨none, 0, 0⟩ 0 [] 0 (by decide) (by decide) (by decide)
      (fun i _ => by simp [World.init]) ⟨rfl, rfl⟩⟩

theorem WalkTo.lo_le {codes : List opcode} {lo hi k a t : Nat}
    (h : WalkTo codes lo hi k a t) : lo ≤ a := by
  cases h with
  | here _ h _ => exact h
  | step _ _ _ h => exact h

theorem WalkTo.lt_hi {codes : List opcode} {lo hi k a t : Nat}
    (h : WalkTo codes lo hi k a t) : a < hi := by
  cases h with
  | here _ _ h => exact h
  | step _ _ _ _ h => exact h

theorem WalkTo.lo_le_last {codes : List opcode} {lo hi k a t : Nat}
    (h : WalkTo codes lo hi k a t) : lo ≤ t := by
  induction h with
  | here _ h _ => exact h
  | step _ _ _ _ _ _ _ _ _ _ _ ih => exact ih

theorem WalkTo.last_lt_hi {codes : List opcode} {lo hi k a t : Nat}
    (h : WalkTo codes lo hi k a t) : t < hi := by
  induction h with
  | here _ _ h => exact h
  | step _ _ _ _ _ _ _ _ _ _ _ ih => exact ih

theorem beforeLastCodeFrom_found {codes : List opcode} {lo hi k a t z : Nat}
    (h : WalkTo codes lo hi k a t) (hl : IsLast codes lo t z) (fuel : Nat) (hf : k < fuel) :
    beforeLastCodeFrom codes fuel a = .found t := by
  induction h generalizing fuel with
  | here a _ =>
    obtain ⟨ct, cz, h1, _, h3, _, h5, _, h7, h8⟩ := hl
    obtain ⟨f, rfl⟩ : ∃ f, fuel = f + 1 := ⟨fuel - 1, by omega⟩
    simp [beforeLastCodeFrom, h1, h3, h5, h7, h8]
  | step c cb ha _ _ _ _ hs hb hne _ ih =>
    obtain ⟨f, rfl⟩ : ∃ f, fuel = f + 1 := ⟨fuel - 1, by omega⟩
    have hs' : (if c.op.isLoopMarker then c.end_ else c.next) = some _ := hs
    simp only [beforeLastCodeFrom, ha, hs', hb, if_neg hne]
    exact ih hl f (by omega)

theorem WalkTo.weaken {codes : List opcode} {lo lo' hi hi' k a t : Nat}
    (h : WalkTo codes lo hi k a t) (hlo : lo' ≤ lo) (hhi : hi ≤ hi') :
    WalkTo codes lo' hi' k a t := by
  induction h with
  | here a h h' => exact .here a (by omega) (by omega)
  | step c cb ha h h' hat hane hs hb hne _ ih =>
    exact .step c cb ha (by omega) (by omega) hat hane hs hb hne ih

/-- A walk to `t` goes on from `t` to a node `t'` that is above all its nodes. -/
theorem WalkTo.append {codes : List opcode} {lo hi hi' k a t j u t' : Nat}
    (h : WalkTo codes lo hi k a t)
    (c cu : opcode) (ht : codes[t]? = some c) (hne : c.op ≠ opEnd)
    (hs : c.succ = some j) (hj : codes[j]? = some cu) (hju : cu.op ≠ opEnd)
    (h2 : WalkTo codes lo hi' u j t') (hhi : hi ≤ t') (hhi' : hi ≤ hi') :
    WalkTo codes lo hi' (k + 1 + u) a t' := by
  induction h with
  | here a hlo hlt =>
    have : 0 + 1 + u = u + 1 := by omega
    rw [this]
    exact .step c cu ht hlo (by omega) (by omega) hne hs hj hju h2
  | @step k a b t c' cb ha hlo hlt hat hane hs' hb hne' _ ih =>
    have : k + 1 + 1 + u = (k + 1 + u) + 1 := by omega
    rw [this]
    exact .step c' cb ha hlo (by omega) (by omega) hane hs' hb hne' (ih ht)

theorem WalkTo.congr {codes codes' : List opcode} {lo hi k a t : Nat}
    (h : WalkTo codes lo hi k a t) (hs : SameWalk codes codes' lo t) :
    WalkTo codes' lo hi k a t := by
  induction h with
  | here a hlo hhi => exact .here a hlo hhi
  | @step k a b t c cb ha hlo hhi hat hane hsa hb hne rest ih =>
    obtain ⟨c', hc', hop, hsucc⟩ := hs a c hlo ha
    have hblo : lo ≤ b := rest.lo_le
    obtain ⟨cb', hcb', hopb, _⟩ := hs b cb hblo hb
    exact .step c' cb' hc' hlo hhi hat (fun h => hane (hop.1 h)) ((hsucc hat).trans hsa) hcb'
      (fun h => hne (hopb.1 h)) (ih hs)

theorem IsLast.weaken_last {codes : List opcode} {lo lo' t z : Nat}
    (h : IsLast codes lo t z) (hlo : lo' ≤ lo) : IsLast codes lo' t z := by
  obtain ⟨ct, cz, h1, h2, h3, h4, h5, h6, h7, h8⟩ := h
  exact ⟨ct, cz, h1, by omega, h3, h4, h5, by omega, h7, h8⟩

/-- The head of a walk that has a last node is itself no `end` sentinel. -/
theorem WalkTo.head_ne_end {codes : List opcode} {lo hi k a t z : Nat}
    (h : WalkTo codes lo hi k a t) (hl : IsLast codes lo t z) :
    ∃ c, codes[a]? = some c ∧ c.op ≠ opEnd := by
  cases h with
  | here _ _ =>
    obtain ⟨ct, cz, h1, _, _, h4, _⟩ := hl
    exact ⟨ct, h1, h4⟩
  | step c _ ha _ _ _ hane _ _ _ _ => exact ⟨c, ha, hane⟩

theorem mem_edges (c : opcode) (b : Nat) :
    b ∈ c.edges ↔ c.next = some b ∨ c.elem = some b ∨ c.end_ = some b ∨
      c.nextField = some b ∨ c.mapKey = some b ∨ c.value = some b := by
  simp [opcode.edges, List.reduceOption_mem_iff, eq_comm]

theorem mem_of_getElem?_append {L M : List opcode} {a : Nat} {c : opcode}
    (ha : L.length ≤ a) (hc : (L ++ M)[a]? = some c) : c ∈ M := by
  rw [List.getElem?_append_right ha] at hc
  exact List.getElem?_mem hc

/-- A program of one node and its `end` sentinel, put after the nodes of `e`. -/
theorem getElem?_append_add (L M : List opcode) (i : Nat) :
    (L ++ M)[L.length + i]? = M[i]? := by
  rw [List.getElem?_append_right (by omega)]; simp

theorem getElem?_append_len (L M : List opcode) :
    (L ++ M)[L.length]? = M[0]? := getElem?_append_add L M 0

theorem emits_leaf (e e' : Encoder) (z c : opcode)
    (he : e' = { e with codes := e.codes ++ [z, c] })
    (hz : z.op = opEnd) (hze : z.edges = []) (hc : c.edges = [e.codes.length])
    (hn : c.next = some e.codes.length) (hop : c.op ≠ opEnd) (hm : c.op.isLoopMarker = false) :
    Emits e e' (e.codes.length + 1) := by
  subst he
  refine ⟨rfl, ⟨_, rfl⟩, ⟨[], by simp⟩, fun _ _ h => h, fun _ _ h => h, ?_, ?_⟩
  · intro a c' ha hc' b hb
    have := mem_of_getElem?_append ha hc'
    simp only [List.mem_cons, List.mem_singleton, List.not_mem_nil, or_false] at this
    rcases this with rfl | rfl
    · simp [hze] at hb
    · simp [hc] at hb; subst hb; simp
  · refine ⟨e.codes.length + 1, e.codes.length, 0, .here _ (by simp) (by simp), ?_, by simp⟩
    refine ⟨c, z, ?_, by omega, hm, hop, hn, by omega, ?_, hz⟩
    · rw [getElem?_append_add]; rfl
    · rw [getElem?_append_len]; rfl

theorem compilePrim_emits (op : opType) (typ : Nat) (e e' : Encoder) (h : Nat)
    (hop : op ≠ opEnd) (hm : op.isLoopMarker = false)
    (hc : compilePrim op typ e = .ok h e') : Emits e e' h := by
  simp only [compilePrim, newEndOp, newOpCode, Encoder.alloc, Compile.ok.injEq,
    List.append_assoc, List.singleton_append, List.length_append, List.length_singleton] at hc
  obtain ⟨rfl, rfl⟩ := hc
  exact emits_leaf e _ _ _ rfl rfl rfl rfl rfl hop hm

theorem compileInterface_emits (typ : Nat) (root : Bool) (e e' : Encoder) (h : Nat)
    (hc : compileInterface typ root e = .ok h e') : Emits e e' h := by
  simp only [compileInterface, newEndOp, Encoder.alloc, Compile.ok.injEq,
    List.append_assoc, List.singleton_append, List.length_append, List.length_singleton] at hc
  obtain ⟨rfl, rfl⟩ := hc
  exact emits_leaf e _ _ _ rfl rfl rfl rfl rfl (by simp) rfl

theorem recursiveCode_emits (typ code : Nat) (e : Encoder) :
    Emits e (recursiveCode typ code e).2 (recursiveCode typ code e).1 := by
  simp only [recursiveCode, newEndOp, Encoder.alloc,
    List.append_assoc, List.singleton_append, List.length_append, List.length_singleton]
  exact emits_leaf e _ _ _ rfl rfl rfl rfl rfl (by simp) rfl

theorem modify_append_add (L M : List opcode) (f : opcode → opcode) (i : Nat) :
    (L ++ M).modify f (L.length + i) = L ++ M.modify f i := by
  induction L with
  | nil => simp
  | cons x L ih =>
    have : (x :: L).length + i = (L.length + i) + 1 := by simp; omega
    rw [this]; simp [ih]

theorem modify_append_len (L M : List opcode) (f : opcode → opcode) :
    (L ++ M).modify f L.length = L ++ M.modify f 0 := modify_append_add L M f 0

theorem modify_append_lt (L M : List opcode) (f : opcode → opcode) (a : Nat)
    (h : a < L.length) : (L ++ M).modify f a = L.modify f a ++ M := by
  induction L generalizing a with
  | nil => simp at h
  | cons x L ih =>
    cases a with
    | zero => simp
    | succ a => simp at h; simp [ih a h]

theorem modify_append_ge (L M : List opcode) (f : opcode → opcode) (a : Nat)
    (h : L.length ≤ a) : (L ++ M).modify f a = L ++ M.modify f (a - L.length) := by
  obtain ⟨i, rfl⟩ : ∃ i, a = L.length + i := ⟨a - L.length, by omega⟩
  rw [modify_append_add]; simp

theorem getElem?_modify_append {L M : List opcode} {f : opcode → opcode} {t a : Nat}
    {c : opcode} (h : L[a]? = some c) :
    (L.modify f t ++ M)[a]? = some (if t = a then f c else c) := by
  have ha : a < L.length := lt_length_of_getElem? h
  rw [List.getElem?_append_left (by simpa using ha), List.getElem?_modify, h]
  rfl

theorem getElem?_modify_append_new (L M : List opcode) (f : opcode → opcode) (t i : Nat) :
    (L.modify f t ++ M)[L.length + i]? = M[i]? := by
  have := getElem?_append_add (L.modify f t) M i
  simpa using this

theorem getElem?_modify_append_len (L M : List opcode) (f : opcode → opcode) (t : Nat) :
    (L.modify f t ++ M)[L.length]? = M[0]? := getElem?_modify_append_new L M f t 0

theorem exists_append_of_getElem? (L codes : List opcode)
    (h : ∀ a, a < L.length → codes[a]? = L[a]?) : ∃ seg, codes = L ++ seg := by
  refine ⟨codes.drop L.length, ?_⟩
  apply List.ext_getElem?
  intro a
  by_cases ha : a < L.length
  · rw [List.getElem?_append_left ha, h a ha]
  · rw [List.getElem?_append_right (by omega), List.getElem?_drop]
    congr 1; omega

/-- Redirecting `next` of the last node and appending nodes leaves the walk as it was. -/
theorem sameWalk_redirect (L M : List opcode) (f : opcode → opcode) (lo t : Nat)
    (hf : ∀ c, (f c).op = c.op) :
    SameWalk L (L.modify f t ++ M) lo t := by
  intro a c _ hc
  refine ⟨_, getElem?_modify_append hc, ?_, ?_⟩
  · split <;> simp [hf]
  · intro hat
    rw [if_neg (fun h => hat h.symm)]

theorem sameWalk_append (L M : List opcode) (lo t : Nat) : SameWalk L (L ++ M) lo t := by
  intro a c _ hc
  exact ⟨c, by rw [List.getElem?_append_left (lt_length_of_getElem? hc)]; exact hc,
    Iff.rfl, fun _ => rfl⟩

theorem Emits.lt_of_walk {e e' : Encoder} {h : Nat} (he : Emits e e' h) :
    e.codes.length ≤ e'.codes.length := by
  obtain ⟨seg, hs⟩ := he.codes
  rw [hs]; simp

/-- The program of a sequence or of a fixed array: the element program `code` with its last
node redirected to the element marker, then the header, the element marker, an `end`
sentinel and the end node. -/
theorem emits_loop (e e0 e1 e' : Encoder) (code t z k : Nat) (hdr el zz en : opcode)
    (h0 : e0 = { e with indent := e.indent + 1 })
    (he : Emits e0 e1 code)
    (hw : WalkTo e1.codes e0.codes.length e1.codes.length k code t) (hl : IsLast e1.codes e0.codes.length t z)
    (hk : e0.codes.length + k + 2 ≤ e1.codes.length)
    (hfin : e' = { e1 with
      indent := e1.indent - 1
      codes := e1.codes.modify (fun c => { c with next := some (e1.codes.length + 1) }) t ++
        [hdr, el, zz, en] })
    (hdr1 : hdr.op ≠ opEnd) (hdr2 : hdr.op.isLoopMarker = false) (hdr3 : hdr.next = some code)
    (hdr4 : hdr.edges = [code, e1.codes.length + 1, e1.codes.length + 3])
    (el1 : el.op.isLoopMarker = true) (el2 : el.end_ = some (e1.codes.length + 3))
    (el3 : el.edges = [code, e1.codes.length + 3])
    (zz1 : zz.op = opEnd) (zz2 : zz.edges = [])
    (en1 : en.op ≠ opEnd) (en2 : en.op.isLoopMarker = false)
    (en3 : en.next = some (e1.codes.length + 2)) (en4 : en.edges = [e1.codes.length + 2]) :
    Emits e e' e1.codes.length := by
  subst h0 hfin
  obtain ⟨seg, hseg⟩ : ∃ seg, e1.codes = e.codes ++ seg := he.codes
  replace hw : WalkTo e1.codes e.codes.length e1.codes.length k code t := hw
  replace hl : IsLast e1.codes e.codes.length t z := hl
  replace hk : e.codes.length + k + 2 ≤ e1.codes.length := hk
  have hclosed : ∀ a c, e.codes.length ≤ a → e1.codes[a]? = some c →
      ∀ b ∈ c.edges, e.codes.length ≤ b ∧ b < e1.codes.length := he.closed
  have hindent : e1.indent = e.indent + 1 := he.indent
  have hlo : e.codes.length ≤ e1.codes.length := by rw [hseg]; simp
  have htlo : e.codes.length ≤ t := hw.lo_le_last
  obtain ⟨ct, cz, ht1, _, ht3, ht4, ht5, _, ht7, ht8⟩ := id hl
  have htlt : t < e1.codes.length := lt_length_of_getElem? ht1
  have hcode : e.codes.length ≤ code := hw.lo_le
  obtain ⟨cc, hcc1, hcc2⟩ := hw.head_ne_end hl
  have hcodelt : code < e1.codes.length := lt_length_of_getElem? hcc1
  refine ⟨?_, ?_, he.compiled, he.memo, he.memoIndent, ?_, ?_⟩
  · show e1.indent - 1 = e.indent; omega
  · refine ⟨seg.modify (fun c => { c with next := some (e1.codes.length + 1) })
      (t - e.codes.length) ++ [hdr, el, zz, en], ?_⟩
    simp only [hseg, modify_append_ge _ _ _ _ htlo, List.append_assoc]
  · intro a c ha hc b hb
    simp only [List.length_append, List.length_modify, List.length_cons, List.length_nil] at hc ⊢
    simp only at ha
    by_cases hlt : a < e1.codes.length
    · obtain ⟨c1, hc1⟩ : ∃ c1, e1.codes[a]? = some c1 :=
        ⟨e1.codes[a], List.getElem?_eq_getElem hlt⟩
      rw [getElem?_modify_append hc1] at hc
      have hcl := hclosed a c1 ha hc1
      injection hc with hc
      by_cases hta : t = a
      · rw [if_pos hta] at hc
        subst hc
        rw [mem_edges] at hb
        simp only at hb
        rcases hb with hb | hb
        · injection hb with hb; omega
        · have := hcl b ((mem_edges _ _).2 (Or.inr hb)); omega
      · rw [if_neg hta] at hc
        subst hc
        have := hcl b hb; omega
    · obtain ⟨i, rfl⟩ : ∃ i, a = e1.codes.length + i := ⟨a - e1.codes.length, by omega⟩
      rw [getElem?_modify_append_new] at hc
      have hmem := List.getElem?_mem hc
      simp only [List.mem_cons, List.mem_singleton, List.not_mem_nil, or_false] at hmem
      rcases hmem with rfl | rfl | rfl | rfl
      · rw [hdr4] at hb; simp at hb; omega
      · rw [el3] at hb; simp at hb; omega
      · rw [zz2] at hb; simp at hb
      · rw [en4] at hb; simp at hb; omega
  · refine ⟨e1.codes.length + 3, e1.codes.length + 2, k + 1 + 1 + 1, ?_, ?_, ?_⟩
    · have hsw := sameWalk_redirect e1.codes [hdr, el, zz, en]
        (fun c => { c with next := some (e1.codes.length + 1) }) e.codes.length t (fun _ => rfl)
      have hw' := hw.congr hsw
      have hend : WalkTo (e1.codes.modify
          (fun c => { c with next := some (e1.codes.length + 1) }) t ++ [hdr, el, zz, en])
          e.codes.length (e1.codes.length + 4) 1 (e1.codes.length + 1) (e1.codes.length + 3) :=
        .step el en (by rw [getElem?_modify_append_new]; rfl) (by omega) (by omega) (by omega)
          (by intro h; rw [h] at el1; cases el1)
          (by simp [opcode.succ, el1, el2]) (by rw [getElem?_modify_append_new]; rfl) en1
          (.here _ (by omega) (by omega))
      have hmid := hw'.append ({ ct with next := some (e1.codes.length + 1) }) el
        (by rw [getElem?_modify_append ht1, if_pos rfl]) ht4
        (by simp [opcode.succ, ht3]) (by rw [getElem?_modify_append_new]; rfl)
        (by intro h; rw [h] at el1; cases el1) hend (by omega) (by omega)
      have hcodeF : (e1.codes.modify
          (fun c => { c with next := some (e1.codes.length + 1) }) t ++ [hdr, el, zz, en])[code]?
          = some (if t = code then { cc with next := some (e1.codes.length + 1) } else cc) :=
        getElem?_modify_append hcc1
      have hFlen : (e1.codes.modify
          (fun c => { c with next := some (e1.codes.length + 1) }) t ++ [hdr, el, zz, en]).length
          = e1.codes.length + 4 := by simp
      show WalkTo _ _ (e1.codes.modify
          (fun c => { c with next := some (e1.codes.length + 1) }) t ++ [hdr, el, zz, en]).length
          _ _ _
      rw [hFlen]
      exact .step hdr _ (getElem?_modify_append_len _ _ _ _) hlo (by omega) (by omega) hdr1
        (by simp [opcode.succ, hdr2, hdr3]) hcodeF (by split <;> exact hcc2) hmid
    · refine ⟨en, zz, ?_, by omega, en2, en1, en3, by omega, ?_, zz1⟩
      · rw [getElem?_modify_append_new]; rfl
      · rw [getElem?_modify_append_new]; rfl
    · simp only [List.length_append, List.length_modify, List.length_cons, List.length_nil]
      omega

theorem modify_modify_append_add (L M : List opcode) (f g : opcode → opcode) (t i : Nat) :
    (L.modify g t ++ M).modify f (L.length + i) = L.modify g t ++ M.modify f i := by
  have := modify_append_add (L.modify g t) M f i
  simpa using this

theorem IsLast.append_nodes {L : List opcode} {lo t z : Nat} (h : IsLast L lo t z)
    (M : List opcode) : IsLast (L ++ M) lo t z := by
  obtain ⟨ct, cz, h1, h2, h3, h4, h5, h6, h7, h8⟩ := h
  refine ⟨ct, cz, ?_, h2, h3, h4, h5, h6, ?_, h8⟩
  · rw [List.getElem?_append_left (lt_length_of_getElem? h1)]; exact h1
  · rw [List.getElem?_append_left (lt_length_of_getElem? h7)]; exact h7

theorem beforeLastCode_append {L : List opcode} {lo hi k h t z : Nat}
    (hw : WalkTo L lo hi k h t) (hl : IsLast L lo t z) (hk : k ≤ L.length)
    (M : List opcode) : beforeLastCode (L ++ M) h = .found t := by
  unfold beforeLastCode
  exact beforeLastCodeFrom_found (hw.congr (sameWalk_append L M lo t)) (hl.append_nodes M) _
    (by simp; omega)

theorem compileSlice_emits (T : Types) (compile : Nat → Bool → Bool → Encoder → Compile Nat)
    (hrec : RecEmits compile) (typ : Nat) (root withIndent : Bool) (e e' : Encoder) (h : Nat)
    (hr : compileSlice T compile typ root withIndent e = .ok h e') : Emits e e' h := by
  cases hc : compile (T.Elem typ) false withIndent { e with indent := e.indent + 1 } with
  | fault => simp [compileSlice, hc] at hr
  | diverged => simp [compileSlice, hc] at hr
  | err x e1 => simp [compileSlice, hc] at hr
  | ok code e1 =>
    have he := hrec _ _ _ _ _ _ hc
    obtain ⟨t, z, k, hw, hl, hk⟩ := he.walk
    have hkl : k ≤ e1.codes.length := by omega
    obtain ⟨ct, _, ht1, _⟩ := id hl
    have htlt : t < e1.codes.length := lt_length_of_getElem? ht1
    cases withIndent <;> cases root <;>
    simp only [compileSlice, hc, Bool.false_eq_true, if_false, if_true, List.cons_append,
      List.nil_append, newSliceHeaderCode, newEndOp, newOpCode, Encoder.alloc,
      Encoder.assign,
      List.append_assoc, List.singleton_append, List.length_append, List.length_singleton,
      List.length_cons, List.length_nil, modify_append_add, modify_append_len,
      List.modify_succ_cons, List.modify_zero_cons, Nat.zero_add, Nat.reduceAdd,
      beforeLastCode_append hw hl hkl, modify_append_lt _ _ _ _ htlt, modify_modify_append_add,
      Compile.ok.injEq] at hr <;>
    obtain ⟨rfl, rfl⟩ := hr <;>
    exact emits_loop e _ e1 _ code t z k _ _ _ _ rfl he hw hl hk rfl (by simp) rfl rfl rfl
      rfl rfl rfl rfl rfl (by simp) rfl rfl rfl

theorem compileArray_emits (T : Types) (compile : Nat → Bool → Bool → Encoder → Compile Nat)
    (hrec : RecEmits compile) (typ : Nat) (root withIndent : Bool) (e e' : Encoder) (h : Nat)
    (hr : compileArray T compile typ root withIndent e = .ok h e') : Emits e e' h := by
  cases hc : compile (T.Elem typ) false withIndent { e with indent := e.indent + 1 } with
  | fault => simp [compileArray, hc] at hr
  | diverged => simp [compileArray, hc] at hr
  | err x e1 => simp [compileArray, hc] at hr
  | ok code e1 =>
    have he := hrec _ _ _ _ _ _ hc
    obtain ⟨t, z, k, hw, hl, hk⟩ := he.walk
    have hkl : k ≤ e1.codes.length := by omega
    obtain ⟨ct, _, ht1, _⟩ := id hl
    have htlt : t < e1.codes.length := lt_length_of_getElem? ht1
    cases withIndent <;>
    simp only [compileArray, hc, Bool.false_eq_true, if_false, if_true, List.cons_append,
      List.nil_append, newArrayHeaderCode, newEndOp, newOpCode, Encoder.alloc,
      Encoder.assign,
      List.append_assoc, List.singleton_append, List.length_append, List.length_singleton,
      List.length_cons, List.length_nil, modify_append_add, modify_append_len,
      List.modify_succ_cons, List.modify_zero_cons, Nat.zero_add, Nat.reduceAdd,
      beforeLastCode_append hw hl hkl, modify_append_lt _ _ _ _ htlt, modify_modify_append_add,
      Compile.ok.injEq] at hr <;>
    obtain ⟨rfl, rfl⟩ := hr <;>
    exact emits_loop e _ e1 _ code t z k _ _ _ _ rfl he hw hl hk rfl (by simp) rfl rfl rfl
      rfl rfl rfl rfl rfl (by simp) rfl rfl rfl

theorem SameShape.refl (codes : List opcode) (lo : Nat) : SameShape codes codes lo :=
  ⟨rfl, fun _ c h => ⟨c.op, h, Iff.rfl, rfl, fun _ => rfl⟩⟩

theorem SameShape.trans {c1 c2 c3 : List opcode} {lo : Nat} (h12 : SameShape c1 c2 lo)
    (h23 : SameShape c2 c3 lo) : SameShape c1 c3 lo := by
  refine ⟨h23.1.trans h12.1, fun a c hc => ?_⟩
  obtain ⟨op, h1, h2, h3, h4⟩ := h12.2 a c hc
  obtain ⟨op', h1', h2', h3', h4'⟩ := h23.2 a _ h1
  exact ⟨op', h1', h2'.trans h2, h3'.trans h3, fun hlt => (h4' hlt).trans (h4 hlt)⟩

theorem SameShape.modify (codes : List opcode) (lo a : Nat) (g : opType → opType)
    (hlo : lo ≤ a) (h1 : ∀ op, g op = opEnd ↔ op = opEnd)
    (h2 : ∀ op, (g op).isLoopMarker = op.isLoopMarker) :
    SameShape codes (codes.modify (fun c => { c with op := g c.op }) a) lo := by
  refine ⟨by simp, fun b c hc => ?_⟩
  rw [List.getElem?_modify, hc]
  by_cases hab : a = b
  · subst hab
    exact ⟨g c.op, by simp, h1 _, h2 _, fun h => absurd h (by omega)⟩
  · exact ⟨c.op, by simp [hab], Iff.rfl, rfl, fun _ => rfl⟩

theorem SameShape.sameWalk {codes codes' : List opcode} {lo : Nat}
    (h : SameShape codes codes' lo) (lo' t : Nat) : SameWalk codes codes' lo' t := by
  intro a c _ hc
  obtain ⟨op, h1, h2, h3, _⟩ := h.2 a c hc
  exact ⟨_, h1, h2, fun _ => by simp [opcode.succ, h3]⟩

theorem SameShape.isLast {codes codes' : List opcode} {lo lo' t z : Nat}
    (h : SameShape codes codes' lo) (hl : IsLast codes lo' t z) : IsLast codes' lo' t z := by
  obtain ⟨ct, cz, h1, h2, h3, h4, h5, h6, h7, h8⟩ := hl
  obtain ⟨op, g1, g2, g3, _⟩ := h.2 t ct h1
  obtain ⟨opz, k1, k2, k3, _⟩ := h.2 z cz h7
  exact ⟨_, _, g1, h2, g3.trans h3, fun hh => h4 (g2.1 hh), h5, h6, k1, k2.2 h8⟩

theorem SameShape.prefix {L seg codes' : List opcode} (h : SameShape (L ++ seg) codes' L.length) :
    ∃ seg', codes' = L ++ seg' := by
  refine ⟨codes'.drop L.length, ?_⟩
  apply List.ext_getElem?
  intro a
  by_cases ha : a < L.length
  · rw [List.getElem?_append_left ha]
    have hc : (L ++ seg)[a]? = some L[a] := by
      rw [List.getElem?_append_left ha]; exact List.getElem?_eq_getElem ha
    obtain ⟨op, h1, _, _, h4⟩ := h.2 a _ hc
    rw [h1, h4 ha, List.getElem?_eq_getElem ha]
  · rw [List.getElem?_append_right (by omega), List.getElem?_drop]
    congr 1; omega

theorem Emits.reshape {e e1 : Encoder} {h : Nat} (he : Emits e e1 h) (codes' : List opcode)
    (hs : SameShape e1.codes codes' e.codes.length) :
    Emits e { e1 with codes := codes' } h := by
  obtain ⟨seg, hseg⟩ := he.codes
  refine ⟨he.indent, ?_, he.compiled, he.memo, he.memoIndent, ?_, ?_⟩
  · rw [hseg] at hs; exact hs.prefix
  · intro a c ha hc b hb
    have halt : a < e1.codes.length := by
      have := lt_length_of_getElem? hc
      simpa [hs.1] using this
    obtain ⟨op, h1, _⟩ := hs.2 a _ (List.getElem?_eq_getElem halt)
    have hc' : codes'[a]? = some c := hc
    rw [h1] at hc'
    injection hc' with hc'
    subst hc'
    have := he.closed a _ ha (List.getElem?_eq_getElem halt) b
      (by rw [mem_edges] at hb ⊢; exact hb)
    simpa [hs.1] using this
  · obtain ⟨t, z, k, hw, hl, hk⟩ := he.walk
    refine ⟨t, z, k, ?_, hs.isLast hl, ?_⟩
    · show WalkTo codes' _ codes'.length _ _ _
      rw [hs.1]; exact hw.congr (hs.sameWalk _ t)
    · simpa [hs.1] using hk

theorem SameShape.modify_at (codes : List opcode) (lo a : Nat) (c0 : opcode) (op' : opType)
    (hc0 : codes[a]? = some c0) (hlo : lo ≤ a) (h1 : op' = opEnd ↔ c0.op = opEnd)
    (h2 : op'.isLoopMarker = c0.op.isLoopMarker) :
    SameShape codes (codes.modify (fun c => { c with op := op' }) a) lo := by
  refine ⟨by simp, fun b c hc => ?_⟩
  rw [List.getElem?_modify, hc]
  by_cases hab : a = b
  · subst hab
    rw [hc0] at hc; cases hc
    exact ⟨op', by simp, h1, h2, fun h => absurd h (by omega)⟩
  · exact ⟨c.op, by simp [hab], Iff.rfl, rfl, fun _ => rfl⟩

theorem headToPtrHead_end (op : opType) : op.headToPtrHead = opEnd ↔ op = opEnd := by
  cases op <;> simp [headToPtrHead]

theorem headToPtrHead_marker (op : opType) :
    op.headToPtrHead.isLoopMarker = op.isLoopMarker := by
  cases op <;> rfl

theorem headToAnonymousHead_end (op : opType) : op.headToAnonymousHead = opEnd ↔ op = opEnd := by
  cases op <;> simp [headToAnonymousHead]

theorem headToAnonymousHead_marker (op : opType) :
    op.headToAnonymousHead.isLoopMarker = op.isLoopMarker := by
  cases op <;> rfl

/-- A node `c` put in front of the program `code`. -/
theorem emits_wrap (e e1 e' : Encoder) (code : Nat) (c : opcode) (he : Emits e e1 code)
    (hfin : e' = { e1 with codes := e1.codes ++ [c] })
    (h1 : c.op ≠ opEnd) (h2 : c.op.isLoopMarker = false) (h3 : c.next = some code)
    (h4 : c.edges = [code]) : Emits e e' e1.codes.length := by
  subst hfin
  obtain ⟨seg, hseg⟩ := he.codes
  obtain ⟨t, z, k, hw, hl, hk⟩ := he.walk
  obtain ⟨cc, hcc1, hcc2⟩ := hw.head_ne_end hl
  have hlo : e.codes.length ≤ e1.codes.length := by rw [hseg]; simp
  refine ⟨he.indent, ⟨seg ++ [c], by simp [hseg]⟩, he.compiled, he.memo, he.memoIndent, ?_, ?_⟩
  · intro a c' ha hc' b hb
    simp only [List.length_append, List.length_singleton]
    by_cases hlt : a < e1.codes.length
    · have hc1 : e1.codes[a]? = some c' := by
        rw [← hc']; exact (List.getElem?_append_left hlt).symm
      have := he.closed a c' ha hc1 b hb
      omega
    · have := mem_of_getElem?_append (by omega) hc'
      simp only [List.mem_singleton] at this
      subst this
      rw [h4] at hb; simp at hb; subst hb
      exact ⟨hw.lo_le, by have := lt_length_of_getElem? hcc1; omega⟩
  · have hw' := (hw.congr (sameWalk_append e1.codes [c] e.codes.length t)).weaken
      (Nat.le_refl _) (show e1.codes.length ≤ (e1.codes ++ [c]).length by simp)
    refine ⟨t, z, k + 1, ?_, hl.append_nodes [c], ?_⟩
    · exact .step c cc (by rw [getElem?_append_len]; rfl) hlo (by simp)
        (by have := hw.last_lt_hi; omega) h1 (by simp [opcode.succ, h2, h3])
        (by rw [List.getElem?_append_left (lt_length_of_getElem? hcc1)]; exact hcc1) hcc2 hw'
    · simp only [List.length_append, List.length_singleton]; omega

theorem optimizeStructFieldPtrHead_emits (typ code : Nat) (e e1 e' : Encoder) (h : Nat)
    (he : Emits e e1 code) (hr : optimizeStructFieldPtrHead typ code e1 = .ok h e') :
    Emits e e' h := by
  obtain ⟨t, z, k, hw, hl, hk⟩ := he.walk
  obtain ⟨cc, hcc1, hcc2⟩ := hw.head_ne_end hl
  simp only [optimizeStructFieldPtrHead, hcc1] at hr
  split at hr
  · simp only [Encoder.assign, Compile.ok.injEq] at hr
    obtain ⟨rfl, rfl⟩ := hr
    exact he.reshape _ (SameShape.modify_at _ _ _ cc _ hcc1 hw.lo_le
      ((headToPtrHead_end _).trans Iff.rfl) (headToPtrHead_marker _))
  · simp only [newOpCode, Encoder.alloc, Compile.ok.injEq] at hr
    obtain ⟨rfl, rfl⟩ := hr
    exact emits_wrap e e1 _ code _ he rfl (by simp) rfl rfl rfl

theorem compilePtr_emits (T : Types) (compile : Nat → Bool → Bool → Encoder → Compile Nat)
    (hrec : RecEmits compile) (typ : Nat) (root withIndent : Bool) (e e' : Encoder) (h : Nat)
    (hr : compilePtr T compile typ root withIndent e = .ok h e') : Emits e e' h := by
  cases hc : compile (T.Elem typ) root withIndent e with
  | fault => simp [compilePtr, hc] at hr
  | diverged => simp [compilePtr, hc] at hr
  | err x e1 => simp [compilePtr, hc] at hr
  | ok code e1 =>
    simp only [compilePtr, hc] at hr
    exact optimizeStructFieldPtrHead_emits typ code e e1 e' h (hrec _ _ _ _ _ _ hc) hr

theorem getElem?_modify2_append {L M : List opcode} {f g : opcode → opcode} {t u a : Nat}
    {c : opcode} (h : L[a]? = some c) :
    ((L.modify f t).modify g u ++ M)[a]? =
      some (if u = a then g (if t = a then f c else c) else (if t = a then f c else c)) := by
  have h1 : (L.modify f t)[a]? = some (if t = a then f c else c) := by
    rw [List.getElem?_modify, h]; rfl
  exact getElem?_modify_append h1

theorem getElem?_modify2_append_new (L M : List opcode) (f g : opcode → opcode) (t u i : Nat) :
    ((L.modify f t).modify g u ++ M)[L.length + i]? = M[i]? := by
  have := getElem?_modify_append_new (L.modify f t) M g u i
  simpa using this

theorem getElem?_modify2_append_len (L M : List opcode) (f g : opcode → opcode) (t u : Nat) :
    ((L.modify f t).modify g u ++ M)[L.length]? = M[0]? :=
  getElem?_modify2_append_new L M f g t u 0

theorem modify2_append_add (L M : List opcode) (f g h : opcode → opcode) (t u i : Nat) :
    ((L.modify f t).modify g u ++ M).modify h (L.length + i) =
      (L.modify f t).modify g u ++ M.modify h i := by
  have := modify_append_add ((L.modify f t).modify g u) M h i
  simpa using this

theorem modify2_append_len (L M : List opcode) (f g h : opcode → opcode) (t u : Nat) :
    ((L.modify f t).modify g u ++ M).modify h L.length =
      (L.modify f t).modify g u ++ M.modify h 0 := modify2_append_add L M f g h t u 0

theorem modify_modify_append_lt (L M : List opcode) (f g : opcode → opcode) (t u : Nat)
    (h : u < L.length) : (L.modify f t ++ M).modify g u = (L.modify f t).modify g u ++ M :=
  modify_append_lt _ _ _ _ (by simpa using h)

/-- A walk over nodes from `lo` on is not touched by an assignment to a node below `lo`. -/
theorem beforeLastCode_modify_append {L : List opcode} {lo hi k h t z : Nat}
    (hw : WalkTo L lo hi k h t) (hl : IsLast L lo t z) (hk : k ≤ L.length)
    (f : opcode → opcode) (u : Nat) (hu : u < lo) (M : List opcode) :
    beforeLastCode (L.modify f u ++ M) h = .found t := by
  have hsw : SameWalk L (L.modify f u ++ M) lo t := by
    intro a c ha hc
    refine ⟨c, ?_, Iff.rfl, fun _ => rfl⟩
    rw [getElem?_modify_append hc, if_neg (by omega)]
  have hl' : IsLast (L.modify f u ++ M) lo t z := by
    obtain ⟨ct, cz, h1, h2, h3, h4, h5, h6, h7, h8⟩ := hl
    refine ⟨ct, cz, ?_, h2, h3, h4, h5, h6, ?_, h8⟩
    · rw [getElem?_modify_append h1, if_neg (by omega)]
    · rw [getElem?_modify_append h7, if_neg (by omega)]
  unfold beforeLastCode
  exact beforeLastCodeFrom_found (hw.congr hsw) hl' _ (by simp; omega)

theorem WalkTo.lt_length {codes : List opcode} {lo hi k a t z : Nat}
    (h : WalkTo codes lo hi k a t) (hl : IsLast codes lo t z) : a < codes.length := by
  obtain ⟨c, hc, _⟩ := h.head_ne_end hl
  exact lt_length_of_getElem? hc

theorem mem_edges_redirect {c : opcode} {x b : Nat}
    (h : b ∈ ({ c with next := some x } : opcode).edges) : b = x ∨ b ∈ c.edges := by
  rw [mem_edges] at h
  rcases h with h | h
  · left; injection h with h; exact h.symm
  · right; exact (mem_edges _ _).2 (Or.inr h)

/-- The program of a mapping: the key program and the value program, each with its last
node redirected, then the key marker, the value marker, the header, an `end` sentinel and the
end node. -/
theorem emits_map (e e0 e1 e2 e' : Encoder) (keyCode valueCode t1 z1 k1 t2 z2 k2 : Nat)
    (key value hdr zz en : opcode)
    (h0 : e0 = { e with indent := e.indent + 1 })
    (he1 : Emits e0 e1 keyCode) (he2 : Emits e1 e2 valueCode)
    (hw1 : WalkTo e1.codes e0.codes.length e1.codes.length k1 keyCode t1)
    (hl1 : IsLast e1.codes e0.codes.length t1 z1)
    (hk1 : e0.codes.length + k1 + 2 ≤ e1.codes.length)
    (hw2 : WalkTo e2.codes e1.codes.length e2.codes.length k2 valueCode t2)
    (hl2 : IsLast e2.codes e1.codes.length t2 z2)
    (hk2 : e1.codes.length + k2 + 2 ≤ e2.codes.length)
    (hfin : e' = { e2 with
      indent := e2.indent - 1
      codes := (e2.codes.modify (fun c => { c with next := some (e2.codes.length + 1) }) t1).modify
        (fun c => { c with next := some e2.codes.length }) t2 ++ [key, value, hdr, zz, en] })
    (key1 : key.op.isLoopMarker = true) (key2 : key.end_ = some (e2.codes.length + 4))
    (key3 : key.edges = [keyCode, e2.codes.length + 4])
    (val1 : value.op ≠ opEnd) (val2 : value.op.isLoopMarker = false)
    (val3 : value.next = some valueCode) (val4 : value.edges = [valueCode])
    (hdr1 : hdr.op ≠ opEnd) (hdr2 : hdr.op.isLoopMarker = false) (hdr3 : hdr.next = some keyCode)
    (hdr4 : hdr.edges = [keyCode, e2.codes.length + 4, e2.codes.length, e2.codes.length + 1])
    (zz1 : zz.op = opEnd) (zz2 : zz.edges = [])
    (en1 : en.op ≠ opEnd) (en2 : en.op.isLoopMarker = false)
    (en3 : en.next = some (e2.codes.length + 3)) (en4 : en.edges = [e2.codes.length + 3]) :
    Emits e e' (e2.codes.length + 2) := by
  subst h0 hfin
  obtain ⟨seg1, hseg1⟩ : ∃ seg, e1.codes = e.codes ++ seg := he1.codes
  obtain ⟨seg2, hseg2⟩ := he2.codes
  replace hw1 : WalkTo e1.codes e.codes.length e1.codes.length k1 keyCode t1 := hw1
  replace hl1 : IsLast e1.codes e.codes.length t1 z1 := hl1
  replace hk1 : e.codes.length + k1 + 2 ≤ e1.codes.length := hk1
  have hclosed1 : ∀ a c, e.codes.length ≤ a → e1.codes[a]? = some c →
      ∀ b ∈ c.edges, e.codes.length ≤ b ∧ b < e1.codes.length := he1.closed
  have hindent : e1.indent = e.indent + 1 := he1.indent
  have hlo1 : e.codes.length ≤ e1.codes.length := by rw [hseg1]; simp
  have hlo2 : e1.codes.length ≤ e2.codes.length := by rw [hseg2]; simp
  obtain ⟨ct1, cz1, ht11, _, ht13, ht14, ht15, _, ht17, ht18⟩ := id hl1
  obtain ⟨ct2, cz2, ht21, _, ht23, ht24, ht25, _, ht27, ht28⟩ := id hl2
  have ht1lt : t1 < e1.codes.length := lt_length_of_getElem? ht11
  have ht2lt : t2 < e2.codes.length := lt_length_of_getElem? ht21
  have ht1lo : e.codes.length ≤ t1 := hw1.lo_le_last
  have ht2lo : e1.codes.length ≤ t2 := hw2.lo_le_last
  have hkc : keyCode < e1.codes.length := hw1.lt_length hl1
  have hvc : valueCode < e2.codes.length := hw2.lt_length hl2
  have hkclo : e.codes.length ≤ keyCode := hw1.lo_le
  have hvclo : e1.codes.length ≤ valueCode := hw2.lo_le
  -- nodes of `e1` seen in `e2`
  have hin2 : ∀ (a : Nat) (c : opcode), e1.codes[a]? = some c → e2.codes[a]? = some c := by
    intro a c hc
    rw [hseg2, @List.getElem?_append_left _ e1.codes seg2 a (lt_length_of_getElem? hc)]
    exact hc
  refine ⟨?_, ?_, ?_, ?_, ?_, ?_, ?_⟩
  · show e2.indent - 1 = e.indent
    have := he2.indent; omega
  · apply exists_append_of_getElem?
    intro a ha
    have hc : e2.codes[a]? = some e.codes[a] := by
      apply hin2
      rw [hseg1, List.getElem?_append_left ha]
      exact List.getElem?_eq_getElem ha
    show ((e2.codes.modify _ t1).modify _ t2 ++ _)[a]? = _
    rw [getElem?_modify2_append hc, if_neg (by omega), if_neg (by omega),
      List.getElem?_eq_getElem ha]
  · obtain ⟨cs1, h1⟩ : ∃ cs, e1.compiled = e.compiled ++ cs := he1.compiled
    obtain ⟨cs2, h2⟩ := he2.compiled
    exact ⟨cs1 ++ cs2, by show e2.compiled = _; rw [h2, h1, List.append_assoc]⟩
  · exact fun t c h => he2.memo t c (he1.memo t c h)
  · exact fun t c h => he2.memoIndent t c (he1.memoIndent t c h)
  · intro a c ha hc b hb
    replace ha : e.codes.length ≤ a := ha
    replace hc : ((e2.codes.modify (fun c => { c with next := some (e2.codes.length + 1) })
      t1).modify (fun c => { c with next := some e2.codes.length }) t2 ++
        [key, value, hdr, zz, en])[a]? = some c := hc
    show e.codes.length ≤ b ∧ b < ((e2.codes.modify _ t1).modify _ t2 ++ _).length
    simp only [List.length_append, List.length_modify, List.length_cons, List.length_nil]
    by_cases hlt : a < e2.codes.length
    · have hc0 : e2.codes[a]? = some e2.codes[a] := List.getElem?_eq_getElem hlt
      have hin : ∀ b ∈ (e2.codes[a]).edges, e.codes.length ≤ b ∧ b < e2.codes.length := by
        intro b hb
        by_cases hlt1 : a < e1.codes.length
        · have h1 : e1.codes[a]? = some e2.codes[a] := by
            rw [← hc0, hseg2, @List.getElem?_append_left _ e1.codes seg2 a hlt1]
          have := hclosed1 a _ ha h1 b hb; omega
        · have := he2.closed a _ (by omega) hc0 b hb; omega
      rw [getElem?_modify2_append hc0] at hc
      injection hc with hc
      subst hc
      split at hb
      · rcases mem_edges_redirect hb with h | h
        · omega
        · split at h
          · rcases mem_edges_redirect h with h | h
            · omega
            · have := hin b h; omega
          · have := hin b h; omega
      · split at hb
        · rcases mem_edges_redirect hb with h | h
          · omega
          · have := hin b h; omega
        · have := hin b hb; omega
    · obtain ⟨i, rfl⟩ : ∃ i, a = e2.codes.length + i := ⟨a - e2.codes.length, by omega⟩
      rw [getElem?_modify2_append_new] at hc
      have hmem := List.getElem?_mem hc
      simp only [List.mem_cons, List.mem_singleton, List.not_mem_nil, or_false] at hmem
      rcases hmem with rfl | rfl | rfl | rfl | rfl
      · rw [key3] at hb; simp at hb; omega
      · rw [val4] at hb; simp at hb; omega
      · rw [hdr4] at hb; simp at hb; omega
      · rw [zz2] at hb; simp at hb
      · rw [en4] at hb; simp at hb; omega
  · show ∃ t z k, WalkTo ((e2.codes.modify (fun c => { c with next := some (e2.codes.length + 1) })
      t1).modify (fun c => { c with next := some e2.codes.length }) t2 ++
        [key, value, hdr, zz, en]) e.codes.length ((e2.codes.modify
        (fun c => { c with next := some (e2.codes.length + 1) })
      t1).modify (fun c => { c with next := some e2.codes.length }) t2 ++
        [key, value, hdr, zz, en]).length k (e2.codes.length + 2) t ∧
      IsLast ((e2.codes.modify (fun c => { c with next := some (e2.codes.length + 1) })
      t1).modify (fun c => { c with next := some e2.codes.length }) t2 ++
        [key, value, hdr, zz, en]) e.codes.length t z ∧
      e.codes.length + k + 2 ≤ ((e2.codes.modify
        (fun c => { c with next := some (e2.codes.length + 1) })
      t1).modify (fun c => { c with next := some e2.codes.length }) t2 ++
        [key, value, hdr, zz, en]).length
    generalize hF : ((e2.codes.modify (fun c => { c with next := some (e2.codes.length + 1) })
      t1).modify (fun c => { c with next := some e2.codes.length }) t2 ++
        [key, value, hdr, zz, en]) = F
    have hFold : ∀ (a : Nat) (c : opcode), e2.codes[a]? = some c → F[a]? =
        some (if t2 = a then { (if t1 = a then { c with next := some (e2.codes.length + 1) }
          else c) with next := some e2.codes.length }
          else (if t1 = a then { c with next := some (e2.codes.length + 1) } else c)) := by
      intro a c hc; rw [← hF]; exact getElem?_modify2_append hc
    have hFnew : ∀ i, F[e2.codes.length + i]? = [key, value, hdr, zz, en][i]? := by
      intro i; rw [← hF]; exact getElem?_modify2_append_new _ _ _ _ _ _ _
    have hFlen : F.length = e2.codes.length + 5 := by rw [← hF]; simp
    have hsw1 : SameWalk e1.codes F e.codes.length t1 := by
      intro a c _ hc
      have halt := lt_length_of_getElem? hc
      refine ⟨_, hFold a c (hin2 a c hc), ?_, ?_⟩
      · rw [if_neg (by omega)]; split <;> simp
      · intro hat; rw [if_neg (by omega), if_neg (fun h => hat h.symm)]
    have hsw2 : SameWalk e2.codes F e1.codes.length t2 := by
      intro a c ha hc
      refine ⟨_, hFold a c hc, ?_, ?_⟩
      · rw [if_neg (show ¬ t1 = a by omega)]; split <;> simp
      · intro hat; rw [if_neg (fun h => hat h.symm), if_neg (show ¬ t1 = a by omega)]
    rw [hFlen]
    have hw1F := hw1.congr hsw1
    have hw2F := (hw2.congr hsw2).weaken hlo1 (Nat.le_refl _)
    obtain ⟨ck, hck1, hck2⟩ := hw1.head_ne_end hl1
    obtain ⟨cv, hcv1, hcv2⟩ := hw2.head_ne_end hl2
    have hFop : ∀ (a : Nat) (c : opcode), e2.codes[a]? = some c →
        ∃ c', F[a]? = some c' ∧ c'.op = c.op := by
      intro a c hc
      refine ⟨_, hFold a c hc, ?_⟩
      by_cases h2 : t2 = a <;> by_cases h1 : t1 = a <;> simp [h1, h2]
    obtain ⟨ck', hkF, hkop⟩ := hFop keyCode ck (hin2 _ _ hck1)
    obtain ⟨cv', hvF, hvop⟩ := hFop valueCode cv hcv1
    have hend : WalkTo F e.codes.length (e2.codes.length + 5) 1 e2.codes.length
        (e2.codes.length + 4) :=
      .step key en (by have := hFnew 0; simpa using this) (by omega) (by omega) (by omega)
        (by intro h; rw [h] at key1; cases key1)
        (by simp [opcode.succ, key1, key2]) (hFnew 4) en1 (.here _ (by omega) (by omega))
    have ht2F := hFold t2 ct2 ht21
    rw [if_pos rfl, if_neg (show ¬ t1 = t2 by omega)] at ht2F
    have hw2' := hw2F.append _ key ht2F ht24 (by simp [opcode.succ, ht23])
      (by have := hFnew 0; simpa using this) (by intro h; rw [h] at key1; cases key1) hend
      (by omega) (by omega)
    have hval : WalkTo F e.codes.length (e2.codes.length + 5) (k2 + 1 + 1 + 1)
        (e2.codes.length + 1) (e2.codes.length + 4) :=
      .step value _ (hFnew 1) (by omega) (by omega) (by omega) val1 (by simp [opcode.succ, val2, val3]) hvF
        (by rw [hvop]; exact hcv2) hw2'
    have ht1F := hFold t1 ct1 (hin2 _ _ ht11)
    rw [if_neg (show ¬ t2 = t1 by omega), if_pos rfl] at ht1F
    have hw1' := hw1F.append _ value ht1F ht14 (by simp [opcode.succ, ht13]) (hFnew 1) val1 hval
      (by omega) (by omega)
    refine ⟨e2.codes.length + 4, e2.codes.length + 3, _,
      .step hdr _ (hFnew 2) (by omega) (by omega) (by omega) hdr1
        (by simp [opcode.succ, hdr2, hdr3]) hkF
        (by rw [hkop]; exact hck2) hw1', ?_, ?_⟩
    · exact ⟨en, zz, hFnew 4, by omega, en2, en1, en3, by omega, hFnew 3, zz1⟩
    · omega

theorem compileMap_emits (T : Types) (compile : Nat → Bool → Bool → Encoder → Compile Nat)
    (hrec : RecEmits compile) (typ : Nat) (withLoad root withIndent : Bool) (e e' : Encoder)
    (h : Nat) (hr : compileMap T compile typ withLoad root withIndent e = .ok h e') :
    Emits e e' h := by
  cases hc1 : compile (T.Key typ) false withIndent { e with indent := e.indent + 1 } with
  | fault => simp [compileMap, hc1] at hr
  | diverged => simp [compileMap, hc1] at hr
  | err x e1 => simp [compileMap, hc1] at hr
  | ok keyCode e1 =>
    cases hc2 : compile (T.Elem typ) false withIndent e1 with
    | fault => simp [compileMap, hc1, hc2] at hr
    | diverged => simp [compileMap, hc1, hc2] at hr
    | err x e2 => simp [compileMap, hc1, hc2] at hr
    | ok valueCode e2 =>
      have he1 := hrec _ _ _ _ _ _ hc1
      have he2 := hrec _ _ _ _ _ _ hc2
      obtain ⟨t1, z1, k1, hw1, hl1, hk1⟩ := he1.walk
      obtain ⟨t2, z2, k2, hw2, hl2, hk2⟩ := he2.walk
      obtain ⟨seg2, hseg2⟩ := he2.codes
      have hlo2 : e1.codes.length ≤ e2.codes.length := by rw [hseg2]; simp
      obtain ⟨ct1, _, ht11, _⟩ := id hl1
      obtain ⟨ct2, _, ht21, _⟩ := id hl2
      have ht1lt : t1 < e1.codes.length := lt_length_of_getElem? ht11
      have ht2lt : t2 < e2.codes.length := lt_length_of_getElem? ht21
      have hw1' : WalkTo e2.codes e.codes.length e1.codes.length k1 keyCode t1 := by
        rw [hseg2]; exact hw1.congr (sameWalk_append _ _ _ _)
      have hl1' : IsLast e2.codes e.codes.length t1 z1 := by
        rw [hseg2]; exact hl1.append_nodes _
      have hb1 := beforeLastCode_append hw1' hl1' (show k1 ≤ e2.codes.length by
        have : e.codes.length + k1 + 2 ≤ e1.codes.length := hk1
        omega)
      have hb2 := fun f M => beforeLastCode_modify_append hw2 hl2
        (show k2 ≤ e2.codes.length by omega) f t1 ht1lt M
      cases withLoad <;> cases withIndent <;> cases root <;>
      simp only [compileMap, hc1, hc2, Bool.false_eq_true, if_false, if_true, List.cons_append,
        List.nil_append, newMapHeaderCode, newMapKeyCode, newMapValueCode, newEndOp, newOpCode,
        Encoder.alloc, Encoder.assign,
        List.append_assoc, List.singleton_append, List.length_append, List.length_singleton,
        List.length_cons, List.length_nil, modify_append_add, modify_append_len,
        List.modify_succ_cons, List.modify_zero_cons, Nat.zero_add, Nat.reduceAdd,
        getElem?_append_add, List.getElem?_cons_succ, List.getElem?_cons_zero, Option.map_some',
        Option.some.injEq, reduceCtorEq,
        hb1, modify_append_lt _ _ _ _ (show t1 < e2.codes.length by omega), hb2,
        modify_modify_append_add, modify_modify_append_lt _ _ _ _ _ _ ht2lt,
        modify2_append_add, modify2_append_len,
        Compile.ok.injEq] at hr <;>
      obtain ⟨rfl, rfl⟩ := hr <;>
      exact emits_map e _ e1 e2 _ keyCode valueCode t1 z1 k1 t2 z2 k2 _ _ _ _ _ rfl he1 he2
        hw1 hl1 hk1 hw2 hl2 hk2 rfl rfl rfl rfl (by simp) rfl rfl rfl (by simp) rfl rfl rfl
        rfl rfl (by simp) rfl rfl rfl

theorem SameShape.nextField {codes codes' : List opcode} {lo : Nat}
    (h : SameShape codes codes' lo) {a : Nat} {c' : opcode} (hc' : codes'[a]? = some c') :
    ∃ c, codes[a]? = some c ∧ c.nextField = c'.nextField := by
  have halt : a < codes.length := by
    have := lt_length_of_getElem? hc'; rw [h.1] at this; exact this
  obtain ⟨op, h1, _⟩ := h.2 a _ (List.getElem?_eq_getElem halt)
  rw [h1] at hc'; injection hc' with hc'; subst hc'
  exact ⟨_, List.getElem?_eq_getElem halt, rfl⟩

/-- The rewriting of an embedded record's field chain changes ops only, and only of nodes
from `lo` on when the chain starts there and the `nextField` edges stay there. -/
theorem anonymousFrom_spec (lo : Nat) :
    ∀ (fuel f : Nat) (e e' : Encoder) (u : Unit), anonymousFrom fuel f e = .ok u e' →
      lo ≤ f →
      (∀ a c, lo ≤ a → e.codes[a]? = some c → ∀ b, c.nextField = some b → lo ≤ b) →
      ∃ codes', e' = { e with codes := codes' } ∧ SameShape e.codes codes' lo := by
  intro fuel
  induction fuel with
  | zero => intro f e e' u h; simp [anonymousFrom] at h
  | succ fuel ih =>
    intro f e e' u h hf hcl
    unfold anonymousFrom at h
    cases hc : e.codes[f]? with
    | none => simp [hc] at h
    | some c =>
      simp only [hc] at h
      have hs1 : SameShape e.codes
          (e.codes.modify (fun c => { c with op := c.op.headToAnonymousHead }) f) lo :=
        SameShape.modify _ _ _ _ hf headToAnonymousHead_end headToAnonymousHead_marker
      have hc1 : (e.codes.modify (fun c => { c with op := c.op.headToAnonymousHead }) f)[f]? =
          some { c with op := c.op.headToAnonymousHead } := by
        rw [List.getElem?_modify_eq, hc]; rfl
      -- the state after the two assignments
      obtain ⟨codes1, he1, hs⟩ : ∃ codes1,
          (if c.op.headToAnonymousHead = opStructEnd then
            (e.assign f fun c => { c with op := c.op.headToAnonymousHead }).assign f
              fun c => { c with op := opStructAnonymousEnd }
           else e.assign f fun c => { c with op := c.op.headToAnonymousHead }) =
            { e with codes := codes1 } ∧ SameShape e.codes codes1 lo := by
        split
        · rename_i hop
          refine ⟨_, rfl, hs1.trans ?_⟩
          exact SameShape.modify_at _ _ _ _ _ hc1 hf (by simp [hop]) (by simp [hop]; rfl)
        · exact ⟨_, rfl, hs1⟩
      rw [he1] at h
      cases hnf : c.nextField with
      | none =>
        simp only [hnf, Compile.ok.injEq] at h
        exact ⟨codes1, h.2.symm, hs⟩
      | some b =>
        simp only [hnf] at h
        have hb : lo ≤ b := hcl f c hf hc b hnf
        obtain ⟨codes', he', hs'⟩ := ih b _ e' u h hb (by
          intro a c' ha hc' b' hb'
          obtain ⟨c0, hc0, hnf0⟩ := hs.nextField hc'
          exact hcl a c0 ha hc0 b' (hnf0.trans hb'))
        exact ⟨codes', he', hs.trans hs'⟩

theorem typeToHeaderType_head (op : opType) :
    ∃ k, typeToHeaderType op = structFieldHead false false k false false := by
  cases op <;> first | exact ⟨_, rfl⟩ | (rename_i k; cases k <;> exact ⟨_, rfl⟩)

theorem typeToFieldType_field (op : opType) :
    ∃ k, typeToFieldType op = opType.structField k false false := by
  cases op <;> first | exact ⟨_, rfl⟩ | (rename_i k; cases k <;> exact ⟨_, rfl⟩)

theorem optimizeStructHeader_head (op : opType) (o i : Bool) :
    ∃ k o' i', optimizeStructHeader op o i = structFieldHead false false k o' i' := by
  obtain ⟨k, hk⟩ := typeToHeaderType_head op
  unfold optimizeStructHeader
  rw [hk]
  cases o <;> cases i <;> exact ⟨_, _, _, rfl⟩

theorem optimizeStructField_field (op : opType) (o i : Bool) :
    ∃ k o' i', optimizeStructField op o i = opType.structField k o' i' := by
  obtain ⟨k, hk⟩ := typeToFieldType_field op
  unfold optimizeStructField
  rw [hk]
  cases o <;> cases i <;> exact ⟨_, _, _, rfl⟩

theorem optimizeStructHeader_ne_end (op : opType) (o i : Bool) :
    optimizeStructHeader op o i ≠ opEnd := by
  obtain ⟨k, o', i', h⟩ := optimizeStructHeader_head op o i
  rw [h]; simp

theorem optimizeStructHeader_marker (op : opType) (o i : Bool) :
    (optimizeStructHeader op o i).isLoopMarker = false := by
  obtain ⟨k, o', i', h⟩ := optimizeStructHeader_head op o i
  rw [h]; rfl

theorem optimizeStructField_ne_end (op : opType) (o i : Bool) :
    optimizeStructField op o i ≠ opEnd := by
  obtain ⟨k, o', i', h⟩ := optimizeStructField_field op o i
  rw [h]; simp

theorem optimizeStructField_marker (op : opType) (o i : Bool) :
    (optimizeStructField op o i).isLoopMarker = false := by
  obtain ⟨k, o', i', h⟩ := optimizeStructField_field op o i
  rw [h]; rfl

/-- What `structHeader` does: the field node gets its op and an indent one less; the cursor
it returns is the field node, or the last node of the value program for a generic head. -/
theorem structHeader_spec (fieldCode valueCode : Nat) (o i : Bool) (e e' : Encoder)
    (code : Nat) (v : opcode) (hne : valueCode ≠ fieldCode)
    (hv : e.codes[valueCode]? = some v)
    (h : structHeader fieldCode valueCode o i e = .ok code e') :
    e' = { e with codes := (e.codes.modify (fun c => { c with indent := c.indent - 1 })
        fieldCode).modify (fun c => { c with op := optimizeStructHeader v.op o i }) fieldCode } ∧
      (code = fieldCode ∨ beforeLastCode e'.codes valueCode = .found code) := by
  have hv' : (e.codes.modify (fun c => { c with indent := c.indent - 1 }) fieldCode)[valueCode]?
      = some v := by
    rw [List.getElem?_modify_ne _ _ (Ne.symm hne)]; exact hv
  simp only [structHeader, Encoder.assign, hv'] at h
  split at h
  · cases hb : beforeLastCode ((e.codes.modify (fun c => { c with indent := c.indent - 1 })
        fieldCode).modify (fun c => { c with op := optimizeStructHeader v.op o i }) fieldCode)
        valueCode with
    | fault => simp [hb] at h
    | diverged => simp [hb] at h
    | found last =>
      simp only [hb, Compile.ok.injEq] at h
      obtain ⟨rfl, rfl⟩ := h
      exact ⟨rfl, Or.inr hb⟩
  · simp only [Compile.ok.injEq] at h
    obtain ⟨rfl, rfl⟩ := h
    exact ⟨rfl, Or.inl rfl⟩

/-- What `structField` does: the field node gets its op; the cursor it returns is the field
node, or the last node of the value program for a generic field. -/
theorem structField_spec (fieldCode valueCode : Nat) (o i : Bool) (e e' : Encoder)
    (code : Nat) (v : opcode) (hv : e.codes[valueCode]? = some v)
    (h : structField fieldCode valueCode o i e = .ok code e') :
    e' = { e with codes := (e.codes.modify
        (fun c => { c with op := optimizeStructField v.op o i }) fieldCode) } ∧
      (code = fieldCode ∨ beforeLastCode e'.codes valueCode = .found code) := by
  simp only [structField, Encoder.assign, hv] at h
  split at h
  · cases hb : beforeLastCode (e.codes.modify
        (fun c => { c with op := optimizeStructField v.op o i }) fieldCode) valueCode with
    | fault => simp [hb] at h
    | diverged => simp [hb] at h
    | found last =>
      simp only [hb, Compile.ok.injEq] at h
      obtain ⟨rfl, rfl⟩ := h
      exact ⟨rfl, Or.inr hb⟩
  · simp only [Compile.ok.injEq] at h
    obtain ⟨rfl, rfl⟩ := h
    exact ⟨rfl, Or.inl rfl⟩

theorem FieldChain.snoc {codes codes' : List opcode} {chain : List (Nat × StructField)}
    {pf n1 : Nat} {f : StructField}
    (h : FieldChain codes chain none)
    (hold : ∀ (a : Nat) (c : opcode), codes[a]? = some c → ∃ c', codes'[a]? = some c' ∧
      c'.key = c.key ∧ c'.offset = c.offset ∧
      c'.nextField = if a = pf then some n1 else c.nextField)
    (hlast : chain.getLast?.map Prod.fst = some pf)
    (hnew : ∃ c, codes'[n1]? = some c ∧ c.key = fieldKey f ∧ c.offset = f.Offset ∧
      c.nextField = none)
    (hlt : ∀ p ∈ chain, p.1 < n1) :
    FieldChain codes' (chain ++ [(n1, f)]) none := by
  induction chain with
  | nil => simp at hlast
  | cons p rest ih =>
    obtain ⟨a, g⟩ := p
    obtain ⟨⟨c, hc, hkey, hoff, hnf, hup⟩, hrest⟩ := h
    obtain ⟨c', hc', hkey', hoff', hnf'⟩ := hold a c hc
    cases rest with
    | nil =>
      simp only [List.getLast?_singleton, Option.map_some', Option.some.injEq] at hlast
      subst hlast
      refine ⟨⟨c', hc', hkey'.trans hkey, hoff'.trans hoff, ?_, ?_⟩, ?_⟩
      · rw [hnf', if_pos rfl]; rfl
      · intro p hp
        have hp' : p = (n1, f) := by simpa using hp
        subst hp'
        exact hlt _ (List.mem_singleton.2 rfl)
      · obtain ⟨cn, h1, h2, h3, h4⟩ := hnew
        exact ⟨⟨cn, h1, h2, h3, h4, by simp⟩, trivial⟩
    | cons q rest' =>
      obtain ⟨b, g'⟩ := q
      have hlast' : ((b, g') :: rest').getLast?.map Prod.fst = some pf := by
        rw [List.getLast?_cons_cons] at hlast; exact hlast
      have hpfmem : ∃ p ∈ ((b, g') :: rest'), p.1 = pf := by
        cases hgl : ((b, g') :: rest').getLast? with
        | none => rw [hgl] at hlast'; simp at hlast'
        | some p =>
          rw [hgl] at hlast'
          simp only [Option.map_some', Option.some.injEq] at hlast'
          exact ⟨p, List.mem_of_getLast?_eq_some hgl, hlast'⟩
      obtain ⟨p, hp, hpe⟩ := hpfmem
      have hapf : a ≠ pf := by
        have := hup p hp; omega
      refine ⟨⟨c', hc', hkey'.trans hkey, hoff'.trans hoff, ?_, ?_⟩, ?_⟩
      · rw [hnf', if_neg hapf]; exact hnf
      · intro p' hp'
        have hp'' : p' = (b, g') ∨ p' ∈ rest' ∨ p' = (n1, f) := by simpa using hp'
        rcases hp'' with rfl | hp' | rfl
        · exact hup _ (List.mem_cons_self _ _)
        · exact hup _ (List.mem_cons_of_mem _ hp')
        · exact hlt _ (List.mem_cons_self _ _)
      · exact ih hrest hlast' (fun p hp => hlt p (List.mem_cons_of_mem _ hp))

theorem FieldChain.mem_lt {codes : List opcode} {chain : List (Nat × StructField)}
    {stop : Option Nat} (h : FieldChain codes chain stop) :
    ∀ p ∈ chain, p.1 < codes.length := by
  induction chain with
  | nil => simp
  | cons q rest ih =>
    obtain ⟨a, g⟩ := q
    obtain ⟨⟨c, hc, _⟩, hrest⟩ := h
    intro p hp
    rcases List.mem_cons.1 hp with rfl | hp
    · exact lt_length_of_getElem? hc
    · exact ih hrest p hp

theorem mem_edges_redirectField {c : opcode} {x b : Nat}
    (h : b ∈ ({ c with nextField := some x } : opcode).edges) : b = x ∨ b ∈ c.edges := by
  rw [mem_edges] at h
  rcases h with h | h | h | h | h
  · right; exact (mem_edges _ _).2 (Or.inl h)
  · right; exact (mem_edges _ _).2 (Or.inr (Or.inl h))
  · right; exact (mem_edges _ _).2 (Or.inr (Or.inr (Or.inl h)))
  · left; injection h with h; exact h.symm
  · right; exact (mem_edges _ _).2 (Or.inr (Or.inr (Or.inr (Or.inr h))))

/-- The field loop after its first kept field. -/
theorem structInv_first (e0 e e1 : Encoder) (valueCode code : Nat) (field : StructField)
    (fc : opcode)
    (hinv : StructInv e0 e { fieldIdx := 0, head := none, code := none, prevField := none } [])
    (he : Emits e e1 valueCode)
    (hfc1 : fc.op ≠ opEnd) (hfc2 : fc.op.isLoopMarker = false)
    (hfc3 : fc.next = some valueCode) (hfc4 : fc.edges = [valueCode])
    (hfc5 : fc.key = fieldKey field) (hfc6 : fc.offset = field.Offset)
    (hfc7 : fc.nextField = none)
    (hcode : code = e1.codes.length ∨
      beforeLastCode (e1.codes ++ [fc]) valueCode = .found code) :
    StructInv e0 { e1 with codes := e1.codes ++ [fc] }
      { fieldIdx := 1, head := some e1.codes.length, code := some code,
        prevField := some e1.codes.length } [(e1.codes.length, field)] := by
  obtain ⟨seg, hseg⟩ := hinv.codes
  obtain ⟨seg1, hseg1⟩ := he.codes
  obtain ⟨t, z, k, hw, hl, hk⟩ := he.walk
  obtain ⟨cv, hcv1, hcv2⟩ := hw.head_ne_end hl
  have hlo0 : e0.codes.length ≤ e.codes.length := by rw [hseg]; simp
  have hlo1 : e.codes.length ≤ e1.codes.length := by rw [hseg1]; simp
  have hvlo : e.codes.length ≤ valueCode := hw.lo_le
  have hvlt : valueCode < e1.codes.length := hw.lt_hi
  refine ⟨he.indent.trans hinv.indent, ⟨seg ++ seg1 ++ [fc], by simp [hseg1, hseg]⟩, ?_,
    fun t c h => he.memo t c (hinv.memo t c h),
    fun t c h => he.memoIndent t c (hinv.memoIndent t c h), ?_, ?_, ?_, ?_⟩
  · obtain ⟨cs, h1⟩ := hinv.compiled
    obtain ⟨cs1, h2⟩ := he.compiled
    exact ⟨cs ++ cs1, by show e1.compiled = _; rw [h2, h1, List.append_assoc]⟩
  · intro a c ha hc b hb
    replace hc : (e1.codes ++ [fc])[a]? = some c := hc
    show e0.codes.length ≤ b ∧ b < (e1.codes ++ [fc]).length
    simp only [List.length_append, List.length_singleton]
    by_cases hlt : a < e1.codes.length
    · rw [List.getElem?_append_left hlt] at hc
      by_cases hlt0 : a < e.codes.length
      · have hc0 : e.codes[a]? = some c := by
          rw [← hc, hseg1, @List.getElem?_append_left _ e.codes seg1 a hlt0]
        have := hinv.closed a c ha hc0 b hb; omega
      · have := he.closed a c (by omega) hc b hb; omega
    · have := mem_of_getElem?_append (by omega) hc
      simp only [List.mem_singleton] at this
      subst this
      rw [hfc4] at hb; simp at hb; omega
  · exact ⟨⟨fc, by rw [getElem?_append_len]; rfl, hfc5, hfc6, hfc7, by simp⟩, trivial⟩
  · intro p hp
    simp only [List.mem_singleton] at hp
    subst hp; show e0.codes.length ≤ e1.codes.length; omega
  · right
    have hfcF : (e1.codes ++ [fc])[e1.codes.length]? = some fc := by
      rw [getElem?_append_len]; rfl
    have hlen : (e1.codes ++ [fc]).length = e1.codes.length + 1 := by simp
    rcases hcode with rfl | hb
    · refine ⟨e1.codes.length, e1.codes.length, e1.codes.length, 0, fc, by simp, rfl, rfl, rfl,
        rfl, rfl, ?_, hfcF, hfc1, hfc2, ?_, ⟨fc, hfcF, hfc2⟩⟩
      · exact .here _ (by omega) (by show _ < (e1.codes ++ [fc]).length; omega)
      · show _ ≤ (e1.codes ++ [fc]).length; omega
    · have hfound := beforeLastCode_append hw hl (show k ≤ e1.codes.length by omega) [fc]
      rw [hfound] at hb
      injection hb with hb
      subst hb
      obtain ⟨ct, cz, ht1, _, ht3, ht4, _⟩ := id hl
      have htlt : t < e1.codes.length := lt_length_of_getElem? ht1
      refine ⟨e1.codes.length, e1.codes.length, t, k + 1, ct, by simp, rfl, rfl, rfl, rfl, rfl,
        ?_, ?_, ht4, ht3, ?_, ⟨fc, hfcF, hfc2⟩⟩
      · show WalkTo (e1.codes ++ [fc]) _ (e1.codes ++ [fc]).length _ _ _
        rw [hlen]
        exact .step fc cv hfcF (by omega) (by omega) (by omega) hfc1
          (by simp [opcode.succ, hfc2, hfc3])
          (by rw [List.getElem?_append_left hvlt]; exact hcv1) hcv2
          ((hw.congr (sameWalk_append _ _ _ _)).weaken hlo0 (by omega))
      · show (e1.codes ++ [fc])[t]? = some ct
        rw [List.getElem?_append_left htlt]; exact ht1
      · show _ ≤ (e1.codes ++ [fc]).length; omega

/-- The field loop after a further kept field: the cursor `cur` is linked to the new field
node by `next`, the previous field node `pf` by `nextField`. -/
theorem structInv_later (e0 e e1 : Encoder) (v : structVars)
    (chain : List (Nat × StructField)) (valueCode code hd pf cur k : Nat) (cc : opcode)
    (field : StructField) (fc : opcode)
    (hinv : StructInv e0 e v chain)
    (hhd : chain.head?.map Prod.fst = some hd) (hpf : chain.getLast?.map Prod.fst = some pf)
    (hw0 : WalkTo e.codes e0.codes.length e.codes.length k hd cur)
    (hcc1 : e.codes[cur]? = some cc) (hcc2 : cc.op ≠ opEnd) (hcc3 : cc.op.isLoopMarker = false)
    (hk0 : e0.codes.length + k + 1 ≤ e.codes.length)
    (hch : ∃ ch, e.codes[hd]? = some ch ∧ ch.op.isLoopMarker = false)
    (he : Emits e e1 valueCode)
    (hfc1 : fc.op ≠ opEnd) (hfc2 : fc.op.isLoopMarker = false)
    (hfc3 : fc.next = some valueCode) (hfc4 : fc.edges = [valueCode])
    (hfc5 : fc.key = fieldKey field) (hfc6 : fc.offset = field.Offset)
    (hfc7 : fc.nextField = none)
    (hcode : code = e1.codes.length ∨
      beforeLastCode (e1.codes.modify (fun c => { c with next := some e1.codes.length })
        cur ++ [fc]) valueCode = .found code) :
    StructInv e0
      { e1 with codes := (e1.codes.modify (fun c => { c with next := some e1.codes.length })
        cur).modify (fun c => { c with nextField := some e1.codes.length }) pf ++ [fc] }
      { fieldIdx := v.fieldIdx + 1, head := some hd, code := some code,
        prevField := some e1.codes.length } (chain ++ [(e1.codes.length, field)]) := by
  obtain ⟨seg, hseg⟩ := hinv.codes
  obtain ⟨seg1, hseg1⟩ := he.codes
  obtain ⟨t, z, k1, hw, hl, hk⟩ := he.walk
  obtain ⟨cv, hcv1, hcv2⟩ := hw.head_ne_end hl
  have hlo0 : e0.codes.length ≤ e.codes.length := by rw [hseg]; simp
  have hlo1 : e.codes.length ≤ e1.codes.length := by rw [hseg1]; simp
  have hvlo : e.codes.length ≤ valueCode := hw.lo_le
  have hvlt : valueCode < e1.codes.length := hw.lt_hi
  have hcurlt : cur < e.codes.length := lt_length_of_getElem? hcc1
  have hcurlo : e0.codes.length ≤ cur := hw0.lo_le_last
  obtain ⟨plast, hplast, hplast1⟩ : ∃ p ∈ chain, p.1 = pf := by
    cases hgl : chain.getLast? with
    | none => rw [hgl] at hpf; simp at hpf
    | some p =>
      rw [hgl] at hpf
      simp only [Option.map_some', Option.some.injEq] at hpf
      exact ⟨p, List.mem_of_getLast?_eq_some hgl, hpf⟩
  have hpflt : pf < e.codes.length := by
    have := hinv.links.mem_lt plast hplast; omega
  have hpflo : e0.codes.length ≤ pf := by
    have := hinv.chainLo plast hplast; omega
  have hin1 : ∀ (a : Nat) (c : opcode), e.codes[a]? = some c → e1.codes[a]? = some c := by
    intro a c hc
    rw [hseg1, @List.getElem?_append_left _ e.codes seg1 a (lt_length_of_getElem? hc)]
    exact hc
  generalize hF : ((e1.codes.modify (fun c => { c with next := some e1.codes.length })
        cur).modify (fun c => { c with nextField := some e1.codes.length }) pf ++ [fc]) = F
  have hFold : ∀ (a : Nat) (c : opcode), e1.codes[a]? = some c → F[a]? =
      some (if pf = a then { (if cur = a then { c with next := some e1.codes.length }
        else c) with nextField := some e1.codes.length }
        else (if cur = a then { c with next := some e1.codes.length } else c)) := by
    intro a c hc; rw [← hF]; exact getElem?_modify2_append hc
  have hFnew : F[e1.codes.length]? = some fc := by
    rw [← hF, getElem?_modify2_append_len]; rfl
  have hFlen : F.length = e1.codes.length + 1 := by rw [← hF]; simp
  have hFsub : ∀ (a : Nat) (c : opcode), e.codes.length ≤ a → e1.codes[a]? = some c →
      F[a]? = some c := by
    intro a c ha hc
    rw [hFold a c hc, if_neg (by omega), if_neg (by omega)]
  refine ⟨he.indent.trans hinv.indent, ?_, ?_,
    fun t c h => he.memo t c (hinv.memo t c h),
    fun t c h => he.memoIndent t c (hinv.memoIndent t c h), ?_, ?_, ?_, ?_⟩
  · apply exists_append_of_getElem?
    intro a ha
    have hc : e1.codes[a]? = some e0.codes[a] := by
      apply hin1
      rw [hseg, List.getElem?_append_left ha]
      exact List.getElem?_eq_getElem ha
    show F[a]? = _
    rw [hFold a _ hc, if_neg (by omega), if_neg (by omega), List.getElem?_eq_getElem ha]
  · obtain ⟨cs, h1⟩ := hinv.compiled
    obtain ⟨cs1, h2⟩ := he.compiled
    exact ⟨cs ++ cs1, by show e1.compiled = _; rw [h2, h1, List.append_assoc]⟩
  · intro a c ha hc b hb
    replace hc : F[a]? = some c := hc
    show e0.codes.length ≤ b ∧ b < F.length
    rw [hFlen]
    by_cases hlt : a < e1.codes.length
    · have hc0 : e1.codes[a]? = some e1.codes[a] := List.getElem?_eq_getElem hlt
      have hin : ∀ b ∈ (e1.codes[a]).edges, e0.codes.length ≤ b ∧ b < e1.codes.length := by
        intro b hb
        by_cases hlt0 : a < e.codes.length
        · have h0 : e.codes[a]? = some e1.codes[a] := by
            rw [← hc0, hseg1, @List.getElem?_append_left _ e.codes seg1 a hlt0]
          have := hinv.closed a _ ha h0 b hb; omega
        · have := he.closed a _ (by omega) hc0 b hb; omega
      rw [hFold a _ hc0] at hc
      injection hc with hc
      subst hc
      split at hb
      · rcases mem_edges_redirectField hb with h | h
        · omega
        · split at h
          · rcases mem_edges_redirect h with h | h
            · omega
            · have := hin b h; omega
          · have := hin b h; omega
      · split at hb
        · rcases mem_edges_redirect hb with h | h
          · omega
          · have := hin b h; omega
        · have := hin b hb; omega
    · have hae : a = e1.codes.length := by
        have := lt_length_of_getElem? hc; omega
      subst hae
      rw [hFnew] at hc; injection hc with hc; subst hc
      rw [hfc4] at hb; simp at hb; omega
  · refine FieldChain.snoc hinv.links ?_ hpf ⟨fc, hFnew, hfc5, hfc6, hfc7⟩ ?_
    · intro a c hc
      refine ⟨_, hFold a c (hin1 a c hc), ?_, ?_, ?_⟩
      · by_cases h2 : pf = a <;> by_cases h1 : cur = a <;> simp [h1, h2]
      · by_cases h2 : pf = a <;> by_cases h1 : cur = a <;> simp [h1, h2]
      · by_cases h2 : pf = a
        · subst h2; simp
        · have h3 : ¬ a = pf := fun h => h2 h.symm
          by_cases h1 : cur = a <;> simp [h1, h2, h3]
    · intro p hp
      have := hinv.links.mem_lt p hp; omega
  · intro p hp
    rcases List.mem_append.1 hp with hp | hp
    · exact hinv.chainLo p hp
    · simp only [List.mem_singleton] at hp
      subst hp; show e0.codes.length ≤ e1.codes.length; omega
  · right
    have hne : chain ≠ [] := by rintro rfl; simp at hhd
    have hhd' : (chain ++ [(e1.codes.length, field)]).head?.map Prod.fst = some hd := by
      rw [List.head?_append_of_ne_nil _ hne]; exact hhd
    have hpf' : (chain ++ [(e1.codes.length, field)]).getLast?.map Prod.fst
        = some e1.codes.length := by
      simp
    -- the walk so far, seen in `F`
    have hsw0 : SameWalk e.codes F e0.codes.length cur := by
      intro a c _ hc
      refine ⟨_, hFold a c (hin1 a c hc), ?_, ?_⟩
      · by_cases h2 : pf = a <;> by_cases h1 : cur = a <;> simp [h1, h2]
      · intro hat
        have h1 : ¬ cur = a := fun h => hat h.symm
        by_cases h2 : pf = a <;> simp [h1, h2, opcode.succ]
    have hw0F := hw0.congr hsw0
    have hcurF : ∃ c', F[cur]? = some c' ∧ c'.op = cc.op ∧ c'.next = some e1.codes.length := by
      refine ⟨_, hFold cur cc (hin1 _ _ hcc1), ?_, ?_⟩
      · by_cases h2 : pf = cur <;> simp [h2]
      · by_cases h2 : pf = cur <;> simp [h2]
    obtain ⟨ccF, hccF1, hccF2, hccF3⟩ := hcurF
    have hchF : ∃ ch, F[hd]? = some ch ∧ ch.op.isLoopMarker = false := by
      obtain ⟨ch, hch1, hch2⟩ := hch
      refine ⟨_, hFold hd ch (hin1 _ _ hch1), ?_⟩
      by_cases h2 : pf = hd <;> by_cases h1 : cur = hd <;> simp [h1, h2, hch2]
    rcases hcode with rfl | hb
    · refine ⟨hd, e1.codes.length, e1.codes.length, k + 1 + 0, fc, by simp, rfl, rfl, rfl,
        hhd', hpf', ?_, hFnew, hfc1, hfc2, ?_, hchF⟩
      · show WalkTo F _ F.length _ _ _
        rw [hFlen]
        exact hw0F.append ccF fc hccF1 (by rw [hccF2]; exact hcc2)
          (by simp [opcode.succ, hccF2, hcc3, hccF3]) hFnew hfc1
          (.here _ (by omega) (by omega)) (by omega) (by omega)
      · show _ ≤ F.length; omega
    · -- the walk of the value program, seen in `F`
      have hsw1 : SameWalk e1.codes F e.codes.length t := by
        intro a c ha hc
        exact ⟨c, hFsub a c ha hc, Iff.rfl, fun _ => rfl⟩
      have hwF := (hw.congr hsw1).weaken hlo0 (show e1.codes.length ≤ e1.codes.length + 1 by omega)
      obtain ⟨ct, cz, ht1, htlo, ht3, ht4, ht5, hzlo, ht7, ht8⟩ := id hl
      have hlF : IsLast F e.codes.length t z :=
        ⟨ct, cz, hFsub t ct htlo ht1, htlo, ht3, ht4, ht5, hzlo, hFsub z cz hzlo ht7, ht8⟩
      have hfound := beforeLastCode_modify_append hw hl (show k1 ≤ e1.codes.length by omega)
        (fun c => { c with next := some e1.codes.length }) cur hcurlt [fc]
      rw [hfound] at hb
      injection hb with hb
      subst hb
      have htlt : t < e1.codes.length := lt_length_of_getElem? ht1
      have hstep : WalkTo F e0.codes.length (e1.codes.length + 1) (k1 + 1) e1.codes.length t :=
        .step fc cv hFnew (by omega) (by omega) (by omega) hfc1
          (by simp [opcode.succ, hfc2, hfc3]) (hFsub _ _ hvlo hcv1) hcv2 hwF
      refine ⟨hd, e1.codes.length, t, k + 1 + (k1 + 1), ct, by simp, rfl, rfl, rfl,
        hhd', hpf', ?_, hFsub t ct htlo ht1, ht4, ht3, ?_, hchF⟩
      · show WalkTo F _ F.length _ _ _
        rw [hFlen]
        exact hw0F.append ccF fc hccF1 (by rw [hccF2]; exact hcc2)
          (by simp [opcode.succ, hccF2, hcc3, hccF3]) hFnew hfc1 hstep (by omega) (by omega)
      · show _ ≤ F.length; omega

theorem Emits.after_anonymous {e e1 e1a : Encoder} {valueCode : Nat} {u : Unit}
    (he : Emits e e1 valueCode) (anonymous : Bool)
    (h : (if anonymous then anonymousFrom (e1.codes.length + 1) valueCode e1 else .ok () e1)
      = .ok u e1a) : Emits e e1a valueCode := by
  cases anonymous with
  | false =>
    simp only [Bool.false_eq_true, if_false, Compile.ok.injEq] at h
    rw [← h.2]; exact he
  | true =>
    simp only [if_true] at h
    obtain ⟨t, z, k, hw, hl, hk⟩ := he.walk
    obtain ⟨codes', he', hs⟩ := anonymousFrom_spec e.codes.length _ _ _ _ _ h hw.lo_le (by
      intro a c ha hc b hb
      exact (he.closed a c ha hc b ((mem_edges _ _).2 (Or.inr (Or.inr (Or.inr (Or.inl hb)))))).1)
    rw [he']
    exact he.reshape codes' hs

theorem compileStructFields_spec (compile : Nat → Bool → Bool → Encoder → Compile Nat)
    (hrec : RecEmits compile) (withIndent : Bool) (e0 : Encoder) :
    ∀ (fields : List StructField) (v : structVars) (e : Encoder)
      (chain : List (Nat × StructField)) (v' : structVars) (e' : Encoder),
      StructInv e0 e v chain →
      compileStructFields compile withIndent fields v e = .ok v' e' →
      ∃ chain', StructInv e0 e' v' chain' ∧
        chain'.map Prod.snd =
          chain.map Prod.snd ++ fields.filter (fun f => !isIgnoredStructField f) := by
  intro fields
  induction fields with
  | nil =>
    intro v e chain v' e' hinv h
    simp only [compileStructFields, Compile.ok.injEq] at h
    obtain ⟨rfl, rfl⟩ := h
    exact ⟨chain, hinv, by simp⟩
  | cons field fields ih =>
    intro v e chain v' e' hinv h
    rw [compileStructFields] at h
    by_cases hig : isIgnoredStructField field = true
    · rw [if_pos hig] at h
      obtain ⟨chain', h1, h2⟩ := ih v e chain v' e' hinv h
      exact ⟨chain', h1, by simp [h2, hig]⟩
    · rw [if_neg hig] at h
      simp only at h
      cases hc : compile field.Typ false withIndent e with
      | fault => simp [hc] at h
      | diverged => simp [hc] at h
      | err x e1 => simp [hc] at h
      | ok valueCode e1 =>
        simp only [hc] at h
        have hE1 := hrec _ _ _ _ _ _ hc
        cases hA : (if field.Anonymous then anonymousFrom (e1.codes.length + 1) valueCode e1
            else .ok () e1) with
        | fault => simp [hA] at h
        | diverged => simp [hA] at h
        | err x e1a => simp [hA] at h
        | ok u e1a =>
          simp only [hA] at h
          have hE := hE1.after_anonymous field.Anonymous hA
          obtain ⟨t, z, k1, hw, hl, hk⟩ := hE.walk
          obtain ⟨cv, hcv1, hcv2⟩ := hw.head_ne_end hl
          have hvlt : valueCode < e1a.codes.length := hw.lt_hi
          have hvlo : e.codes.length ≤ valueCode := hw.lo_le
          simp only [Encoder.alloc] at h
          have hkey' : "\"" ++ (keyNameAndOmitEmptyFromField field).1 ++ "\":" = fieldKey field :=
            rfl
          generalize "\"" ++ (keyNameAndOmitEmptyFromField field).1 ++ "\":" = key at h hkey'
          generalize (keyNameAndOmitEmptyFromField field).2 = om at h
          have hvA : ∀ fc0 : opcode, (e1a.codes ++ [fc0])[valueCode]? = some cv := by
            intro fc0; rw [List.getElem?_append_left hvlt]; exact hcv1
          rcases hinv.vars with ⟨hch, hv0⟩ | ⟨hd, pf, cur, k, cc, hidx, hhead, hprev, hcur, hhd,
              hpf, hw0, hcc1, hcc2, hcc3, hk0, hch⟩
          · subst hch hv0
            simp only [if_true] at h
            cases hsh : structHeader e1a.codes.length valueCode om withIndent
                { e1a with codes := e1a.codes ++
                  [{ op := opEnd, typ := some field.Typ, indent := e1a.indent,
                     next := some valueCode, key := key,
                     offset := field.Offset, anonymousKey := field.Anonymous }] } with
            | fault => simp [hsh] at h
            | diverged => simp [hsh] at h
            | err x e2 => simp [hsh] at h
            | ok code e2 =>
              simp only [hsh] at h
              obtain ⟨he2, hcode⟩ := structHeader_spec _ _ _ _ _ _ _ cv (by omega) (hvA _) hsh
              simp only [modify_append_len, List.modify_zero_cons] at he2
              rw [he2] at hcode h
              have hinv1 := structInv_first e0 e e1a valueCode code field
                { op := optimizeStructHeader cv.op om withIndent, typ := some field.Typ,
                  indent := e1a.indent - 1, next := some valueCode, key := key,
                  offset := field.Offset, anonymousKey := field.Anonymous } hinv hE
                (optimizeStructHeader_ne_end cv.op _ withIndent)
                (optimizeStructHeader_marker cv.op _ withIndent) rfl rfl hkey' rfl rfl hcode
              obtain ⟨chain', h1, h2⟩ := ih _ _ _ v' e' hinv1 h
              exact ⟨chain', h1, by simp [h2, hig]⟩
          · have hcurlt : cur < e.codes.length := lt_length_of_getElem? hcc1
            obtain ⟨seg1, hseg1⟩ := hE.codes
            have hlo1 : e.codes.length ≤ e1a.codes.length := by rw [hseg1]; simp
            obtain ⟨plast, hplast, hplast1⟩ : ∃ p ∈ chain, p.1 = pf := by
              cases hgl : chain.getLast? with
              | none => rw [hgl] at hpf; simp at hpf
              | some p =>
                rw [hgl] at hpf
                simp only [Option.map_some', Option.some.injEq] at hpf
                exact ⟨p, List.mem_of_getLast?_eq_some hgl, hpf⟩
            have hpflt : pf < e.codes.length := by
              have := hinv.links.mem_lt plast hplast; omega
            simp only [if_neg hidx, hcur, hprev, hhead, Encoder.assign,
              modify_append_lt _ _ _ _ (show cur < e1a.codes.length by omega)] at h
            have hvB : ∀ fc0 : opcode, (e1a.codes.modify
                (fun c => { c with next := some e1a.codes.length }) cur ++ [fc0])[valueCode]?
                = some cv := by
              intro fc0
              rw [getElem?_modify_append hcv1, if_neg (by omega)]
            cases hsf : structField e1a.codes.length valueCode om withIndent
                { e1a with codes := (e1a.codes.modify
                    (fun c => { c with next := some e1a.codes.length }) cur) ++
                  [{ op := opEnd, typ := some field.Typ, indent := e1a.indent,
                     next := some valueCode, key := key,
                     offset := field.Offset, anonymousKey := field.Anonymous }] } with
            | fault => simp [hsf] at h
            | diverged => simp [hsf] at h
            | err x e2 => simp [hsf] at h
            | ok code e2 =>
              simp only [hsf] at h
              obtain ⟨he2, hcode⟩ := structField_spec _ _ _ _ _ _ _ cv (hvB _) hsf
              simp only [modify_modify_append_add, List.modify_zero_cons] at he2
              have hlen0 := modify_modify_append_add e1a.codes
                [{ op := opEnd, typ := some field.Typ, indent := e1a.indent,
                   next := some valueCode, key := key,
                   offset := field.Offset, anonymousKey := field.Anonymous }]
                (fun c => { c with op := optimizeStructField cv.op om withIndent })
                (fun c => { c with next := some e1a.codes.length }) cur 0
              simp only [Nat.add_zero, List.modify_zero_cons] at hlen0
              rw [hlen0] at he2
              rw [he2] at hcode h
              simp only [modify_modify_append_lt _ _ _ _ _ _
                (show pf < e1a.codes.length by omega)] at h
              have hinv1 := structInv_later e0 e e1a v chain valueCode code hd pf cur k cc field
                { op := optimizeStructField cv.op om withIndent, typ := some field.Typ,
                  indent := e1a.indent, next := some valueCode, key := key,
                  offset := field.Offset, anonymousKey := field.Anonymous } hinv hhd hpf hw0
                hcc1 hcc2 hcc3 hk0 hch hE
                (optimizeStructField_ne_end cv.op _ withIndent)
                (optimizeStructField_marker cv.op _ withIndent) rfl rfl hkey' rfl rfl hcode
              obtain ⟨chain', h1, h2⟩ := ih _ _ _ v' e' hinv1 h
              exact ⟨chain', h1, by simp [h2, hig]⟩

theorem FieldChain.close {codes codes' : List opcode} {chain : List (Nat × StructField)}
    {pf n : Nat}
    (h : FieldChain codes chain none)
    (hold : ∀ (a : Nat) (c : opcode), codes[a]? = some c → ∃ c', codes'[a]? = some c' ∧
      c'.key = c.key ∧ c'.offset = c.offset ∧
      c'.nextField = if pf = a then some n else c.nextField)
    (hlast : chain.getLast?.map Prod.fst = some pf) :
    FieldChain codes' chain (some n) := by
  induction chain with
  | nil => simp at hlast
  | cons p rest ih =>
    obtain ⟨a, g⟩ := p
    obtain ⟨⟨c, hc, hkey, hoff, hnf, hup⟩, hrest⟩ := h
    obtain ⟨c', hc', hkey', hoff', hnf'⟩ := hold a c hc
    cases rest with
    | nil =>
      simp only [List.getLast?_singleton, Option.map_some', Option.some.injEq] at hlast
      subst hlast
      exact ⟨⟨c', hc', hkey'.trans hkey, hoff'.trans hoff, by rw [hnf', if_pos rfl], hup⟩,
        trivial⟩
    | cons q rest' =>
      obtain ⟨b, g'⟩ := q
      have hlast' : ((b, g') :: rest').getLast?.map Prod.fst = some pf := by
        rw [List.getLast?_cons_cons] at hlast; exact hlast
      obtain ⟨p, hp, hpe⟩ : ∃ p ∈ ((b, g') :: rest'), p.1 = pf := by
        cases hgl : ((b, g') :: rest').getLast? with
        | none => rw [hgl] at hlast'; simp at hlast'
        | some p =>
          rw [hgl] at hlast'
          simp only [Option.map_some', Option.some.injEq] at hlast'
          exact ⟨p, List.mem_of_getLast?_eq_some hgl, hlast'⟩
      have hapf : ¬ pf = a := by
        have := hup p hp; omega
      exact ⟨⟨c', hc', hkey'.trans hkey, hoff'.trans hoff, by rw [hnf', if_neg hapf]; exact hnf,
        hup⟩, ih hrest hlast'⟩

/-- What three assignments to nodes of `L`, a new `nextField` for `pf`, a new `end` for `hd`
and a new `next` for `cur`, leave at an address of `L`. -/
theorem getElem?_finish (L M : List opcode) (pf hd cur n a : Nat) (c : opcode)
    (hc : L[a]? = some c) :
    ∃ c', (((L.modify (fun c => { c with nextField := some n }) pf).modify
        (fun c => { c with end_ := some n }) hd).modify
        (fun c => { c with next := some n }) cur ++ M)[a]? = some c' ∧
      c'.op = c.op ∧ c'.key = c.key ∧ c'.offset = c.offset ∧ c'.elem = c.elem ∧
      c'.mapKey = c.mapKey ∧ c'.value = c.value ∧
      c'.next = (if cur = a then some n else c.next) ∧
      c'.nextField = (if pf = a then some n else c.nextField) ∧
      c'.end_ = (if hd = a then some n else c.end_) := by
  have h1 : (L.modify (fun c => { c with nextField := some n }) pf)[a]? =
      some (if pf = a then { c with nextField := some n } else c) := by
    rw [List.getElem?_modify, hc]; rfl
  have h2 := @getElem?_modify2_append _ M (fun c => { c with end_ := some n })
    (fun c => { c with next := some n }) hd cur a _ h1
  refine ⟨_, h2, ?_⟩
  by_cases hp : pf = a <;> by_cases hh : hd = a <;> by_cases hcu : cur = a <;>
    simp [hp, hh, hcu]

/-- The end of `compileStruct` for a record with a kept field: the record-end node and an
`end` sentinel are added, the last field node, the head and the cursor are linked to the
record-end node, and the memo entry is filled. -/
theorem struct_finish (e eb e' : Encoder) (m1 m2 : List (Nat × Nat)) (v : structVars)
    (chain : List (Nat × StructField)) (hd pf cur k : Nat) (cc se zz : opcode)
    (hm1 : ∀ t c, e.structTypeToCompiledCode.lookup t = some c → m1.lookup t = some c)
    (hm2 : ∀ t c, e.structTypeToCompiledIndentCode.lookup t = some c → m2.lookup t = some c)
    (hinv : StructInv
      { indent := e.indent + 1
        structTypeToCompiledCode := m1
        structTypeToCompiledIndentCode := m2
        codes := e.codes
        compiled := e.compiled ++ [compiledCode.mk none] } eb v chain)
    (hhd : chain.head?.map Prod.fst = some hd) (hpf : chain.getLast?.map Prod.fst = some pf)
    (hw0 : WalkTo eb.codes e.codes.length eb.codes.length k hd cur)
    (hcc1 : eb.codes[cur]? = some cc) (hcc2 : cc.op ≠ opEnd) (hcc3 : cc.op.isLoopMarker = false)
    (hk0 : e.codes.length + k + 1 ≤ eb.codes.length)
    (hch : ∃ ch, eb.codes[hd]? = some ch ∧ ch.op.isLoopMarker = false)
    (hfin : e' = { eb with
      indent := eb.indent - 1
      codes := ((eb.codes.modify (fun c => { c with nextField := some eb.codes.length }) pf).modify
        (fun c => { c with end_ := some eb.codes.length }) hd).modify
        (fun c => { c with next := some eb.codes.length }) cur ++ [se, zz]
      compiled := eb.compiled.set e.compiled.length (compiledCode.mk (some hd)) })
    (se1 : se.op ≠ opEnd) (se2 : se.op.isLoopMarker = false)
    (se3 : se.next = some (eb.codes.length + 1)) (se4 : se.edges = [eb.codes.length + 1])
    (zz1 : zz.op = opEnd) (zz2 : zz.edges = []) :
    Emits e e' hd ∧ FieldChain e'.codes chain (some eb.codes.length) ∧
      (∃ ch, e'.codes[hd]? = some ch ∧ ch.end_ = some eb.codes.length) ∧
      e'.codes[eb.codes.length]? = some se ∧
      e'.compiled[e.compiled.length]? = some (compiledCode.mk (some hd)) ∧
      e'.structTypeToCompiledCode = eb.structTypeToCompiledCode ∧
      e'.structTypeToCompiledIndentCode = eb.structTypeToCompiledIndentCode := by
  subst hfin
  obtain ⟨seg, hseg⟩ : ∃ seg, eb.codes = e.codes ++ seg := hinv.codes
  obtain ⟨cs, hcs⟩ : ∃ cs, eb.compiled = (e.compiled ++ [compiledCode.mk none]) ++ cs :=
    hinv.compiled
  have hindent : eb.indent = e.indent + 1 := hinv.indent
  have hclosed : ∀ a c, e.codes.length ≤ a → eb.codes[a]? = some c →
      ∀ b ∈ c.edges, e.codes.length ≤ b ∧ b < eb.codes.length := hinv.closed
  have hlo : e.codes.length ≤ eb.codes.length := by rw [hseg]; simp
  have hcurlt : cur < eb.codes.length := lt_length_of_getElem? hcc1
  have hcurlo : e.codes.length ≤ cur := hw0.lo_le_last
  have hhdlo : e.codes.length ≤ hd := hw0.lo_le
  have hhdlt : hd < eb.codes.length := hw0.lt_hi
  obtain ⟨plast, hplast, hplast1⟩ : ∃ p ∈ chain, p.1 = pf := by
    cases hgl : chain.getLast? with
    | none => rw [hgl] at hpf; simp at hpf
    | some p =>
      rw [hgl] at hpf
      simp only [Option.map_some', Option.some.injEq] at hpf
      exact ⟨p, List.mem_of_getLast?_eq_some hgl, hpf⟩
  have hpflt : pf < eb.codes.length := by
    have := hinv.links.mem_lt plast hplast; omega
  have hpflo : e.codes.length ≤ pf := by
    have := hinv.chainLo plast hplast
    have h2 : e.codes.length ≤ plast.1 := this
    omega
  generalize hF : (((eb.codes.modify (fun c => { c with nextField := some eb.codes.length })
      pf).modify (fun c => { c with end_ := some eb.codes.length }) hd).modify
        (fun c => { c with next := some eb.codes.length }) cur ++ [se, zz]) = F
  have hFold : ∀ (a : Nat) (c : opcode), eb.codes[a]? = some c →
      ∃ c', F[a]? = some c' ∧
      c'.op = c.op ∧ c'.key = c.key ∧ c'.offset = c.offset ∧ c'.elem = c.elem ∧
      c'.mapKey = c.mapKey ∧ c'.value = c.value ∧
      c'.next = (if cur = a then some eb.codes.length else c.next) ∧
      c'.nextField = (if pf = a then some eb.codes.length else c.nextField) ∧
      c'.end_ = (if hd = a then some eb.codes.length else c.end_) := by
    intro a c hc; rw [← hF]; exact getElem?_finish _ _ _ _ _ _ _ _ hc
  have hFnew : ∀ i, F[eb.codes.length + i]? = [se, zz][i]? := by
    intro i; rw [← hF]
    have := getElem?_append_add (((eb.codes.modify
      (fun c => { c with nextField := some eb.codes.length })
      pf).modify (fun c => { c with end_ := some eb.codes.length }) hd).modify
        (fun c => { c with next := some eb.codes.length }) cur) [se, zz] i
    simpa using this
  have hFlen : F.length = eb.codes.length + 2 := by rw [← hF]; simp
  have hse : F[eb.codes.length]? = some se := by have := hFnew 0; simpa using this
  refine ⟨⟨?_, ?_, ?_, ?_, ?_, ?_, ?_⟩, ?_, ?_, hse, ?_, rfl, rfl⟩
  · show eb.indent - 1 = e.indent; omega
  · apply exists_append_of_getElem?
    intro a ha
    have hc : eb.codes[a]? = some e.codes[a] := by
      rw [hseg, List.getElem?_append_left ha]; exact List.getElem?_eq_getElem ha
    show F[a]? = _
    rw [← hF]
    have h1 : ∀ (f : opcode → opcode) (u : Nat) (L : List opcode), e.codes.length ≤ u →
        (L.modify f u)[a]? = L[a]? := fun f u L hu =>
      List.getElem?_modify_ne _ _ (by omega)
    rw [List.getElem?_append_left (by simp; omega), h1 _ _ _ hcurlo, h1 _ _ _ hhdlo,
      h1 _ _ _ hpflo, hc, List.getElem?_eq_getElem ha]
  · refine ⟨[compiledCode.mk (some hd)] ++ cs, ?_⟩
    show eb.compiled.set e.compiled.length _ = _
    rw [hcs, List.append_assoc, List.set_append_right _ _ (Nat.le_refl _)]
    simp
  · exact fun t c h => hinv.memo t c (hm1 t c h)
  · exact fun t c h => hinv.memoIndent t c (hm2 t c h)
  · intro a c ha hc b hb
    replace hc : F[a]? = some c := hc
    show e.codes.length ≤ b ∧ b < F.length
    rw [hFlen]
    by_cases hlt : a < eb.codes.length
    · obtain ⟨c', hc', -, -, -, h4, h5, h6, h7, h8, h9⟩ :=
        hFold a _ (List.getElem?_eq_getElem hlt)
      rw [hc'] at hc; injection hc with hc; subst hc
      have hin := hclosed a _ ha (List.getElem?_eq_getElem hlt)
      rw [mem_edges] at hb
      rcases hb with hb | hb | hb | hb | hb | hb
      · rw [h7] at hb
        split at hb
        · injection hb with hb; omega
        · have := hin b ((mem_edges _ _).2 (Or.inl hb)); omega
      · rw [h4] at hb
        have := hin b ((mem_edges _ _).2 (Or.inr (Or.inl hb))); omega
      · rw [h9] at hb
        split at hb
        · injection hb with hb; omega
        · have := hin b ((mem_edges _ _).2 (Or.inr (Or.inr (Or.inl hb)))); omega
      · rw [h8] at hb
        split at hb
        · injection hb with hb; omega
        · have := hin b ((mem_edges _ _).2 (Or.inr (Or.inr (Or.inr (Or.inl hb))))); omega
      · rw [h5] at hb
        have := hin b ((mem_edges _ _).2 (Or.inr (Or.inr (Or.inr (Or.inr (Or.inl hb)))))); omega
      · rw [h6] at hb
        have := hin b ((mem_edges _ _).2 (Or.inr (Or.inr (Or.inr (Or.inr (Or.inr hb)))))); omega
    · obtain ⟨i, rfl⟩ : ∃ i, a = eb.codes.length + i := ⟨a - eb.codes.length, by omega⟩
      rw [hFnew] at hc
      have hmem := List.getElem?_mem hc
      simp only [List.mem_cons, List.mem_singleton, List.not_mem_nil, or_false] at hmem
      rcases hmem with rfl | rfl
      · rw [se4] at hb; simp at hb; omega
      · rw [zz2] at hb; simp at hb
  · have hsw : SameWalk eb.codes F e.codes.length cur := by
      intro a c _ hc
      obtain ⟨c', hc', h1, -, -, -, -, -, h7, -, h9⟩ := hFold a c hc
      refine ⟨c', hc', by rw [h1], ?_⟩
      intro hat
      have hne : ¬ cur = a := fun h => hat h.symm
      rw [if_neg hne] at h7
      unfold opcode.succ
      rw [h1, h7]
      by_cases hm : c.op.isLoopMarker = true
      · rw [if_pos hm, if_pos hm, h9]
        have hne2 : ¬ hd = a := by
          rintro rfl
          obtain ⟨ch, hch1, hch2⟩ := hch
          rw [hch1] at hc; injection hc with hc; subst hc
          rw [hch2] at hm; cases hm
        rw [if_neg hne2]
      · rw [if_neg hm, if_neg hm]
    have hw0F := hw0.congr hsw
    obtain ⟨ccF, hccF, hccop, -, -, -, -, -, hccnext, -, -⟩ := hFold cur cc hcc1
    rw [if_pos rfl] at hccnext
    refine ⟨eb.codes.length, eb.codes.length + 1, k + 1 + 0, ?_, ?_, ?_⟩
    · show WalkTo F _ F.length _ _ _
      rw [hFlen]
      exact hw0F.append ccF se hccF (by rw [hccop]; exact hcc2)
        (by simp [opcode.succ, hccop, hcc3, hccnext]) hse se1
        (.here _ (by omega) (by omega)) (by omega) (by omega)
    · exact ⟨se, zz, hse, by omega, se2, se1, se3, by omega, hFnew 1, zz1⟩
    · show _ ≤ F.length; omega
  · refine FieldChain.close hinv.links ?_ hpf
    intro a c hc
    obtain ⟨c', hc', -, h2, h3, -, -, -, -, h8, -⟩ := hFold a c hc
    exact ⟨c', hc', h2, h3, h8⟩
  · obtain ⟨ch, hch1, _⟩ := hch
    obtain ⟨c', hc', -, -, -, -, -, -, -, -, h9⟩ := hFold hd ch hch1
    exact ⟨c', hc', by rw [h9, if_pos rfl]⟩
  · show (eb.compiled.set e.compiled.length _)[e.compiled.length]? = _
    rw [List.getElem?_set_self (by rw [hcs]; simp)]

/-- The end of `compileStruct` for a record without a kept field: the record-end node, an
`end` sentinel and a head are added, and the memo entry is filled. -/
theorem struct_finish_empty (e eb e' : Encoder) (m1 m2 : List (Nat × Nat)) (v : structVars)
    (se zz hdn : opcode)
    (hm1 : ∀ t c, e.structTypeToCompiledCode.lookup t = some c → m1.lookup t = some c)
    (hm2 : ∀ t c, e.structTypeToCompiledIndentCode.lookup t = some c → m2.lookup t = some c)
    (hinv : StructInv
      { indent := e.indent + 1
        structTypeToCompiledCode := m1
        structTypeToCompiledIndentCode := m2
        codes := e.codes
        compiled := e.compiled ++ [compiledCode.mk none] } eb v [])
    (hfin : e' = { eb with
      indent := eb.indent - 1
      codes := eb.codes ++ [se, zz, hdn]
      compiled := eb.compiled.set e.compiled.length
        (compiledCode.mk (some (eb.codes.length + 2))) })
    (se1 : se.op ≠ opEnd) (se2 : se.op.isLoopMarker = false)
    (se3 : se.next = some (eb.codes.length + 1)) (se4 : se.edges = [eb.codes.length + 1])
    (zz1 : zz.op = opEnd) (zz2 : zz.edges = [])
    (hd1 : hdn.op ≠ opEnd) (hd2 : hdn.op.isLoopMarker = false)
    (hd3 : hdn.next = some eb.codes.length)
    (hd4 : hdn.edges = [eb.codes.length, eb.codes.length, eb.codes.length]) :
    Emits e e' (eb.codes.length + 2) ∧
      e'.codes[eb.codes.length + 2]? = some hdn ∧
      e'.codes[eb.codes.length]? = some se ∧
      e'.compiled[e.compiled.length]? = some (compiledCode.mk (some (eb.codes.length + 2))) ∧
      e'.structTypeToCompiledCode = eb.structTypeToCompiledCode ∧
      e'.structTypeToCompiledIndentCode = eb.structTypeToCompiledIndentCode := by
  subst hfin
  obtain ⟨seg, hseg⟩ : ∃ seg, eb.codes = e.codes ++ seg := hinv.codes
  obtain ⟨cs, hcs⟩ : ∃ cs, eb.compiled = (e.compiled ++ [compiledCode.mk none]) ++ cs :=
    hinv.compiled
  have hindent : eb.indent = e.indent + 1 := hinv.indent
  have hclosed : ∀ a c, e.codes.length ≤ a → eb.codes[a]? = some c →
      ∀ b ∈ c.edges, e.codes.length ≤ b ∧ b < eb.codes.length := hinv.closed
  have hlo : e.codes.length ≤ eb.codes.length := by rw [hseg]; simp
  have hFnew : ∀ i, (eb.codes ++ [se, zz, hdn])[eb.codes.length + i]? = [se, zz, hdn][i]? :=
    fun i => getElem?_append_add _ _ i
  have hse : (eb.codes ++ [se, zz, hdn])[eb.codes.length]? = some se := by
    have := hFnew 0; simpa using this
  refine ⟨⟨?_, ⟨seg ++ [se, zz, hdn], by simp [hseg]⟩, ?_, ?_, ?_, ?_, ?_⟩, hFnew 2, hse, ?_,
    rfl, rfl⟩
  · show eb.indent - 1 = e.indent; omega
  · refine ⟨[compiledCode.mk (some (eb.codes.length + 2))] ++ cs, ?_⟩
    show eb.compiled.set e.compiled.length _ = _
    rw [hcs, List.append_assoc, List.set_append_right _ _ (Nat.le_refl _)]
    simp
  · exact fun t c h => hinv.memo t c (hm1 t c h)
  · exact fun t c h => hinv.memoIndent t c (hm2 t c h)
  · intro a c ha hc b hb
    replace hc : (eb.codes ++ [se, zz, hdn])[a]? = some c := hc
    show e.codes.length ≤ b ∧ b < (eb.codes ++ [se, zz, hdn]).length
    simp only [List.length_append, List.length_cons, List.length_nil]
    by_cases hlt : a < eb.codes.length
    · rw [List.getElem?_append_left hlt] at hc
      have := hclosed a c ha hc b hb; omega
    · have hmem := mem_of_getElem?_append (by omega) hc
      simp only [List.mem_cons, List.mem_singleton, List.not_mem_nil, or_false] at hmem
      rcases hmem with rfl | rfl | rfl
      · rw [se4] at hb; simp at hb; omega
      · rw [zz2] at hb; simp at hb
      · rw [hd4] at hb; simp at hb; omega
  · refine ⟨eb.codes.length, eb.codes.length + 1, 1, ?_, ?_, ?_⟩
    · show WalkTo _ _ (eb.codes ++ [se, zz, hdn]).length _ _ _
      simp only [List.length_append, List.length_cons, List.length_nil]
      exact .step hdn se (hFnew 2) (by omega) (by omega) (by omega) hd1
        (by simp [opcode.succ, hd2, hd3]) hse se1 (.here _ (by omega) (by omega))
    · exact ⟨se, zz, hse, by omega, se2, se1, se3, by omega, hFnew 1, zz1⟩
    · show _ ≤ (eb.codes ++ [se, zz, hdn]).length
      simp only [List.length_append, List.length_cons, List.length_nil]; omega
  · show (eb.compiled.set e.compiled.length _)[e.compiled.length]? = _
    rw [List.getElem?_set_self (by rw [hcs]; simp)]

theorem structInv_start (e : Encoder) (m1 m2 : List (Nat × Nat)) (cs : List compiledCode)
    (i : Int) :
    StructInv { indent := i, structTypeToCompiledCode := m1,
                structTypeToCompiledIndentCode := m2, codes := e.codes, compiled := cs }
      { indent := i, structTypeToCompiledCode := m1,
        structTypeToCompiledIndentCode := m2, codes := e.codes, compiled := cs }
      { fieldIdx := 0, head := none, code := none, prevField := none } [] := by
  refine ⟨rfl, ⟨[], by simp⟩, ⟨[], by simp⟩, fun _ _ h => h, fun _ _ h => h, ?_, trivial,
    by simp, Or.inl ⟨rfl, rfl⟩⟩
  intro a c ha hc
  have := lt_length_of_getElem? hc
  exact absurd this (by show ¬ a < e.codes.length; exact Nat.not_lt.2 ha)

theorem lookup_cons_of_none {m : List (Nat × Nat)} {typ x t c : Nat}
    (hmiss : m.lookup typ = none) (h : m.lookup t = some c) :
    ((typ, x) :: m).lookup t = some c := by
  have hne : t ≠ typ := by rintro rfl; rw [hmiss] at h; cases h
  rw [List.lookup_cons]
  have : (t == typ) = false := by simpa using hne
  rw [this]; exact h

theorem FieldChain.last_nextField {codes : List opcode} {chain : List (Nat × StructField)}
    {stop : Option Nat} {pf : Nat} (h : FieldChain codes chain stop)
    (hlast : chain.getLast?.map Prod.fst = some pf) :
    ∃ c, codes[pf]? = some c ∧ c.nextField = stop := by
  induction chain with
  | nil => simp at hlast
  | cons p rest ih =>
    obtain ⟨a, g⟩ := p
    obtain ⟨⟨c, hc, _, _, hnf, _⟩, hrest⟩ := h
    cases rest with
    | nil =>
      simp only [List.getLast?_singleton, Option.map_some', Option.some.injEq] at hlast
      subst hlast
      exact ⟨c, hc, hnf⟩
    | cons q rest' =>
      rw [List.getLast?_cons_cons] at hlast
      exact ih hrest hlast

theorem compiledCode_none {e : Encoder} {typ : Nat} {withIndent : Bool}
    (h : e.compiledCode typ withIndent = none) :
    (if withIndent then e.structTypeToCompiledIndentCode
      else e.structTypeToCompiledCode).lookup typ = none := by
  unfold Encoder.compiledCode at h
  cases withIndent with
  | true =>
    simp only [if_true] at h ⊢
    cases hl : e.structTypeToCompiledIndentCode.lookup typ with
    | none => rfl
    | some c => simp [hl] at h
  | false =>
    simp only [Bool.false_eq_true, if_false] at h ⊢
    cases hl : e.structTypeToCompiledCode.lookup typ with
    | none => rfl
    | some c => simp [hl] at h

theorem compiledCode_emits {e e1 : Encoder} {typ code : Nat} {withIndent : Bool}
    (h : e.compiledCode typ withIndent = some (code, e1)) : Emits e e1 code := by
  unfold Encoder.compiledCode at h
  cases withIndent with
  | true =>
    simp only [if_true] at h
    cases hl : e.structTypeToCompiledIndentCode.lookup typ with
    | none => simp [hl] at h
    | some c =>
      simp only [hl, Option.some.injEq] at h
      have := recursiveCode_emits typ c e
      rw [h] at this; exact this
  | false =>
    simp only [Bool.false_eq_true, if_false] at h
    cases hl : e.structTypeToCompiledCode.lookup typ with
    | none => simp [hl] at h
    | some c =>
      simp only [hl, Option.some.injEq] at h
      have := recursiveCode_emits typ c e
      rw [h] at this; exact this

theorem compileStruct_spec (T : Types) (compile : Nat → Bool → Bool → Encoder → Compile Nat)
    (hrec : RecEmits compile) (typ : Nat) (root withIndent : Bool) (e e' : Encoder) (h : Nat)
    (hr : compileStruct T compile typ root withIndent e = .ok h e') :
    Emits e e' h ∧
      (e.compiledCode typ withIndent = none → StructProgram T typ withIndent e e' h) := by
  cases hm : e.compiledCode typ withIndent with
  | some p =>
    obtain ⟨code, e1⟩ := p
    simp only [compileStruct, hm, Compile.ok.injEq] at hr
    obtain ⟨rfl, rfl⟩ := hr
    exact ⟨compiledCode_emits hm, fun h => by cases h⟩
  | none =>
    have hmiss := compiledCode_none hm
    cases withIndent with
    | false =>
      simp only [Bool.false_eq_true, if_false] at hmiss
      simp only [compileStruct, hm, Bool.false_eq_true, if_false] at hr
      cases hloop : compileStructFields compile false (T.Fields typ)
          { fieldIdx := 0, head := none, code := none, prevField := none }
          { indent := e.indent + 1
            structTypeToCompiledCode := (typ, e.compiled.length) :: e.structTypeToCompiledCode
            structTypeToCompiledIndentCode := e.structTypeToCompiledIndentCode
            codes := e.codes
            compiled := e.compiled ++ [compiledCode.mk none] } with
      | fault => simp [hloop] at hr
      | diverged => simp [hloop] at hr
      | err x eb => simp [hloop] at hr
      | ok v eb =>
        obtain ⟨chain, hinv, hchain⟩ := compileStructFields_spec compile hrec false _ _ _ _ _ _ _
          (structInv_start e _ _ _ _) hloop
        simp only [List.map_nil, List.nil_append] at hchain
        have hmemo : eb.structTypeToCompiledCode.lookup typ = some e.compiled.length :=
          hinv.memo typ _ (by simp [List.lookup_cons])
        rcases hinv.vars with ⟨hch, hv0⟩ | ⟨hd, pf, cur, k, cc, hidx, hhead, hprev, hcur, hhd,
            hpf, hw0, hcc1, hcc2, hcc3, hk0, hch⟩
        · subst hch hv0
          simp only [hloop, Encoder.alloc, Encoder.assign, newEndOp,
            List.append_assoc, List.singleton_append, List.length_append,
            List.length_singleton, List.length_cons, List.length_nil, modify_append_add,
            modify_append_len, List.modify_succ_cons, List.modify_zero_cons, Nat.zero_add,
            Nat.reduceAdd, List.cons_append, List.nil_append, Compile.ok.injEq] at hr
          obtain ⟨rfl, rfl⟩ := hr
          obtain ⟨h1, h2, h3, h4, h5, h6⟩ := struct_finish_empty e eb _ _ _ _
            { op := opStructEnd, typ := none, indent := eb.indent - 1,
              next := some (eb.codes.length + 1) }
            { op := opEnd, indent := eb.indent - 1 }
            { op := opStructFieldHead, typ := some typ, indent := eb.indent - 1,
              nextField := some eb.codes.length, end_ := some eb.codes.length,
              next := some eb.codes.length }
            (fun t c h => lookup_cons_of_none hmiss h) (fun _ _ h => h) hinv rfl
            (by show opStructEnd ≠ opEnd; decide) rfl rfl rfl rfl rfl
            (by show opStructFieldHead ≠ opEnd; decide) rfl rfl rfl
          refine ⟨h1, fun _ => ⟨[], eb.codes.length, _, hchain, trivial,
            Or.inr ⟨rfl, _, h2, rfl⟩, ⟨_, h2, rfl⟩, h3, rfl, rfl, h4, ?_⟩⟩
          simp only [Bool.false_eq_true, if_false]
          rw [h5]; exact hmemo
        · obtain ⟨cpf, hcpf1, hcpf2⟩ := hinv.links.last_nextField hpf
          have hpflt : pf < eb.codes.length := lt_length_of_getElem? hcpf1
          have hhdlt : hd < eb.codes.length := hw0.lt_hi
          have hcurlt : cur < eb.codes.length := lt_length_of_getElem? hcc1
          have hpfn : ∀ M : List opcode,
              ((eb.codes ++ M)[pf]?).bind (fun c => c.nextField) = none := by
            intro M
            rw [List.getElem?_append_left hpflt, hcpf1]; exact hcpf2
          simp only [hloop, hhead, hprev, hcur, Encoder.alloc, Encoder.assign, newEndOp,
            List.append_assoc, List.singleton_append, List.length_append,
            List.length_singleton, List.length_cons, List.length_nil, modify_append_add,
            modify_append_len, List.modify_succ_cons, List.modify_zero_cons, Nat.zero_add,
            Nat.reduceAdd, List.cons_append, List.nil_append, hpfn, if_true,
            modify_append_lt _ _ _ _ hpflt, modify_modify_append_lt _ _ _ _ _ _ hhdlt,
            modify_append_lt _ _ _ _ (show cur < ((eb.codes.modify
              (fun c => { c with nextField := some eb.codes.length }) pf).modify
              (fun c => { c with end_ := some eb.codes.length }) hd).length by simpa using hcurlt),
            Compile.ok.injEq] at hr
          obtain ⟨rfl, rfl⟩ := hr
          obtain ⟨h1, h2, h3, h4, h5, h6⟩ := struct_finish e eb _ _ _ v chain hd pf cur k cc
            { op := opStructEnd, typ := none, indent := eb.indent - 1,
              next := some (eb.codes.length + 1) }
            { op := opEnd, indent := eb.indent - 1 }
            (fun t c h => lookup_cons_of_none hmiss h) (fun _ _ h => h) hinv hhd hpf hw0 hcc1
            hcc2 hcc3 hk0 hch rfl
            (by show opStructEnd ≠ opEnd; decide) rfl rfl rfl rfl rfl
          refine ⟨h1, fun _ => ⟨chain, eb.codes.length, _, hchain, h2, Or.inl hhd, h3, h4, rfl,
            rfl, h5, ?_⟩⟩
          simp only [Bool.false_eq_true, if_false, if_true]
          rw [h6.1]; exact hmemo
    | true =>
      simp only [if_true] at hmiss
      simp only [compileStruct, hm, if_true] at hr
      cases hloop : compileStructFields compile true (T.Fields typ)
          { fieldIdx := 0, head := none, code := none, prevField := none }
          { indent := e.indent + 1
            structTypeToCompiledCode := e.structTypeToCompiledCode
            structTypeToCompiledIndentCode :=
              (typ, e.compiled.length) :: e.structTypeToCompiledIndentCode
            codes := e.codes
            compiled := e.compiled ++ [compiledCode.mk none] } with
      | fault => simp [hloop] at hr
      | diverged => simp [hloop] at hr
      | err x eb => simp [hloop] at hr
      | ok v eb =>
        obtain ⟨chain, hinv, hchain⟩ := compileStructFields_spec compile hrec true _ _ _ _ _ _ _
          (structInv_start e _ _ _ _) hloop
        simp only [List.map_nil, List.nil_append] at hchain
        have hmemo : eb.structTypeToCompiledIndentCode.lookup typ = some e.compiled.length :=
          hinv.memoIndent typ _ (by simp [List.lookup_cons])
        rcases hinv.vars with ⟨hch, hv0⟩ | ⟨hd, pf, cur, k, cc, hidx, hhead, hprev, hcur, hhd,
            hpf, hw0, hcc1, hcc2, hcc3, hk0, hch⟩
        · subst hch hv0
          simp only [hloop, Encoder.alloc, Encoder.assign, newEndOp,
            List.append_assoc, List.singleton_append, List.length_append,
            List.length_singleton, List.length_cons, List.length_nil, modify_append_add,
            modify_append_len, List.modify_succ_cons, List.modify_zero_cons, Nat.zero_add,
            Nat.reduceAdd, List.cons_append, List.nil_append, Compile.ok.injEq] at hr
          obtain ⟨rfl, rfl⟩ := hr
          obtain ⟨h1, h2, h3, h4, h5, h6⟩ := struct_finish_empty e eb _ _ _ _
            { op := opStructEndIndent, typ := none, indent := eb.indent - 1,
              next := some (eb.codes.length + 1) }
            { op := opEnd, indent := eb.indent - 1 }
            { op := opStructFieldHeadIndent, typ := some typ, indent := eb.indent - 1,
              nextField := some eb.codes.length, end_ := some eb.codes.length,
              next := some eb.codes.length }
            (fun _ _ h => h) (fun t c h => lookup_cons_of_none hmiss h) hinv rfl
            (by show opStructEndIndent ≠ opEnd; decide) rfl rfl rfl rfl rfl
            (by show opStructFieldHeadIndent ≠ opEnd; decide) rfl rfl rfl
          refine ⟨h1, fun _ => ⟨[], eb.codes.length, _, hchain, trivial,
            Or.inr ⟨rfl, _, h2, rfl⟩, ⟨_, h2, rfl⟩, h3, rfl, rfl, h4, ?_⟩⟩
          simp only [if_true]
          rw [h6]; exact hmemo
        · obtain ⟨cpf, hcpf1, hcpf2⟩ := hinv.links.last_nextField hpf
          have hpflt : pf < eb.codes.length := lt_length_of_getElem? hcpf1
          have hhdlt : hd < eb.codes.length := hw0.lt_hi
          have hcurlt : cur < eb.codes.length := lt_length_of_getElem? hcc1
          have hpfn : ∀ M : List opcode,
              ((eb.codes ++ M)[pf]?).bind (fun c => c.nextField) = none := by
            intro M
            rw [List.getElem?_append_left hpflt, hcpf1]; exact hcpf2
          simp only [hloop, hhead, hprev, hcur, Encoder.alloc, Encoder.assign, newEndOp,
            List.append_assoc, List.singleton_append, List.length_append,
            List.length_singleton, List.length_cons, List.length_nil, modify_append_add,
            modify_append_len, List.modify_succ_cons, List.modify_zero_cons, Nat.zero_add,
            Nat.reduceAdd, List.cons_append, List.nil_append, hpfn, if_true,
            modify_append_lt _ _ _ _ hpflt, modify_modify_append_lt _ _ _ _ _ _ hhdlt,
            modify_append_lt _ _ _ _ (show cur < ((eb.codes.modify
              (fun c => { c with nextField := some eb.codes.length }) pf).modify
              (fun c => { c with end_ := some eb.codes.length }) hd).length by simpa using hcurlt),
            Compile.ok.injEq] at hr
          obtain ⟨rfl, rfl⟩ := hr
          obtain ⟨h1, h2, h3, h4, h5, h6⟩ := struct_finish e eb _ _ _ v chain hd pf cur k cc
            { op := opStructEndIndent, typ := none, indent := eb.indent - 1,
              next := some (eb.codes.length + 1) }
            { op := opEnd, indent := eb.indent - 1 }
            (fun _ _ h => h) (fun t c h => lookup_cons_of_none hmiss h) hinv hhd hpf hw0 hcc1
            hcc2 hcc3 hk0 hch rfl
            (by show opStructEndIndent ≠ opEnd; decide) rfl rfl rfl rfl rfl
          refine ⟨h1, fun _ => ⟨chain, eb.codes.length, _, hchain, h2, Or.inl hhd, h3, h4, rfl,
            rfl, h5, ?_⟩⟩
          simp only [Bool.false_eq_true, if_false, if_true]
          rw [h6.2]; exact hmemo

theorem marshal_emits (op : opType) (typ : Nat) (e : Encoder) (hop : op ≠ opEnd)
    (hm : op.isLoopMarker = false) :
    Emits e (newOpCode op (some typ) (newEndOp e.indent e).2.indent (newEndOp e.indent e).1
      (newEndOp e.indent e).2).2
      (newOpCode op (some typ) (newEndOp e.indent e).2.indent (newEndOp e.indent e).1
      (newEndOp e.indent e).2).1 := by
  simp only [newEndOp, newOpCode, Encoder.alloc,
    List.append_assoc, List.singleton_append, List.length_append, List.length_singleton]
  exact emits_leaf e _ _ _ rfl rfl rfl rfl rfl hop hm

/-- Every successful call of `compile` emits a program. -/
theorem compile_emits (T : Types) : ∀ fuel, RecEmits (compile T fuel) := by
  intro fuel
  induction fuel with
  | zero => intro typ root withIndent e code e1 h; simp [compile] at h
  | succ fuel ih =>
    intro typ root withIndent e code e1 h
    rw [compile] at h
    split at h
    · simp only [Compile.ok.injEq] at h
      obtain ⟨rfl, rfl⟩ := h
      exact marshal_emits _ _ _ (by decide) rfl
    · split at h
      · simp only [Compile.ok.injEq] at h
        obtain ⟨rfl, rfl⟩ := h
        exact marshal_emits _ _ _ (by decide) rfl
      · split at h
        · exact compilePtr_emits T _ ih _ _ _ _ _ _ h
        · exact compileSlice_emits T _ ih _ _ _ _ _ _ h
        · exact compileArray_emits T _ ih _ _ _ _ _ _ h
        · exact compileMap_emits T _ ih _ _ _ _ _ _ _ h
        · exact (compileStruct_spec T _ ih _ _ _ _ _ _ h).1
        · exact compileInterface_emits _ _ _ _ _ h
        all_goals first
          | (refine compilePrim_emits _ _ _ _ _ ?_ ?_ h <;> first | rfl | (intro hh; cases hh))
          | cases h

theorem compileHead_emits (T : Types) (fuel typ : Nat) (withIndent : Bool) (e e' : Encoder)
    (h : Nat) (hr : compileHead T fuel typ withIndent e = .ok h e') : Emits e e' h := by
  unfold compileHead at hr
  split at hr
  · simp only [Compile.ok.injEq] at hr
    obtain ⟨rfl, rfl⟩ := hr
    exact marshal_emits _ _ _ (by decide) rfl
  · split at hr
    · simp only [Compile.ok.injEq] at hr
      obtain ⟨rfl, rfl⟩ := hr
      exact marshal_emits _ _ _ (by decide) rfl
    · simp only at hr
      split at hr <;> split at hr <;> first
        | exact compileMap_emits T _ (compile_emits T fuel) _ _ _ _ _ _ _ hr
        | exact compile_emits T fuel _ _ _ _ _ _ hr

theorem skipWhiteSpace_all_ws (pre ws : List Nat) (hws : ∀ c ∈ ws, isWhiteSpace c = true) :
    skipWhiteSpace (pre ++ ws) pre.length = (pre ++ ws).length := by
  unfold skipWhiteSpace
  rw [List.drop_left, List.takeWhile_eq_self_iff.2 hws, List.length_append]

/-- Claim C20: on the truncated input `[` followed only by whitespace up to the end of `buf`,
`skipWhiteSpace` returns a cursor that is at least `len(buf)`, and the buffered
`sliceDecoder.decode`, which does not compare the cursor with the length again, indexes
`buf` there when it checks for `]`: the index is out of range, the call panics. -/
theorem decode_truncated_out_of_range (maxDecodeNestingDepth : Int) (d : sliceDecoder)
    (fuel : Nat) (ws : List Nat) (depth : Int) (p : Ptr) (w : World)
    (hws : ∀ c ∈ ws, isWhiteSpace c = true)
    (hdepth : depth + 1 ≤ maxDecodeNestingDepth) (hfuel : 0 < fuel) :
    (91 :: ws).length ≤ skipWhiteSpace (91 :: ws) (0 + 1) ∧
      (91 :: ws)[skipWhiteSpace (91 :: ws) (0 + 1)]? = none ∧
      d.decode maxDecodeNestingDepth fuel (91 :: ws) 0 depth p w = .fault := by
  have hs : skipWhiteSpace (91 :: ws) (0 + 1) = (91 :: ws).length :=
    skipWhiteSpace_all_ws [91] ws hws
  have hn : (91 :: ws)[skipWhiteSpace (91 :: ws) (0 + 1)]? = none := by
    rw [hs]; exact List.getElem?_eq_none (Nat.le_refl _)
  refine ⟨by rw [hs], hn, ?_⟩
  obtain ⟨f, rfl⟩ : ∃ f, fuel = f + 1 := ⟨fuel - 1, by omega⟩
  have hd : ¬ depth + 1 > maxDecodeNestingDepth := by omega
  simp only [sliceDecoder.decode, hd, if_false, sliceDecoder.decodeFrom, List.length_cons]
  simp only [sliceDecoder.decodeArray, hn]
  simp

theorem decode_truncated_out_of_range_witness :
    (91 :: [32, 10]).length ≤ skipWhiteSpace (91 :: [32, 10]) (0 + 1) ∧
      (91 :: [32, 10])[skipWhiteSpace (91 :: [32, 10]) (0 + 1)]? = none ∧
      intSliceDecoder.decode 100 1 (91 :: [32, 10]) 0 0 ⟨0, 0⟩ (World.init .zero [] [])
        = .fault :=
  decode_truncated_out_of_range 100 intSliceDecoder 1 [32, 10] 0 ⟨0, 0⟩
    (World.init .zero [] []) (by decide) (by decide) (by decide)

/-- Claim C19 (code bug): the slot handed to the element decoder is not all-zero when the
scratch array comes from the pool. Parsing `[7]` leaves the array with the element 7 in slot
0 and releases it to the pool; on the next parse, of `[5]`, the element decoder is handed
slot 0 still holding 7 (the probing decoder reports it as `external 8`), while on an empty
pool it is handed an all-zero slot and the parse succeeds. -/
theorem reused_slot_not_zero :
    ((intSliceDecoder.decode 100 20 [91, 55, 93] 0 0 ⟨0, 0⟩ (World.init .zero [] [])).value
      = some (3, none)) ∧
    ((intSliceDecoder.decode 100 20 [91, 55, 93] 0 0 ⟨0, 0⟩
        (World.init .zero [] [])).world.map (fun w => (w.pools 0, w.heap[1]?))
      = some ([⟨some 1, 1, 2⟩], some [.scalar 7, .zero])) ∧
    ((probeSliceDecoder.decode 100 20 [91, 53, 93] 0 0 ⟨0, 0⟩
        (((intSliceDecoder.decode 100 20 [91, 55, 93] 0 0 ⟨0, 0⟩
          (World.init .zero [] [])).world).getD (World.init .zero [] []))).value
      = some (0, some (.external 8))) ∧
    ((probeSliceDecoder.decode 100 20 [91, 53, 93] 0 0 ⟨0, 0⟩
        (World.init .zero [] [])).value = some (3, none)) := by
  refine ⟨by decide, by decide, by decide, by decide⟩

/-! ## The destination on the failing returns -/

theorem World.keepsExcept_refl (w : World) (b : Nat) : w.keepsExcept w b :=
  ⟨Nat.le_refl _, fun _ _ _ => rfl⟩

theorem World.keepsExcept.trans_keeps {w0 w1 w2 : World} {b0 b : Nat} (h1 : w0.keepsExcept w1 b0)
    (h2 : w1.keepsExcept w2 b) (hb : b = b0 ∨ w0.heap.length ≤ b) : w0.keepsExcept w2 b0 := by
  refine ⟨Nat.le_trans h1.1 h2.1, fun a ha hne => ?_⟩
  rw [h2.2 a (by have := h1.1; omega) (by omega), h1.2 a ha hne]

theorem World.store_keeps {w w' : World} {p : Ptr} {v : Val} (h : w.store p v = some w') :
    w.keepsExcept w' p.block := by
  obtain ⟨cells, _, _, rfl⟩ := World.store_inv h
  refine ⟨by simp, fun a _ hne => ?_⟩
  simp [List.getElem?_set_ne (Ne.symm hne)]

theorem copySlice_keeps {t : rtype} {dst src : sliceHeader} {w w' : World}
    (h : copySlice t dst src w = some w') :
    w'.heap.length = w.heap.length ∧
      ∀ a, dst.data ≠ some a → w'.heap[a]? = w.heap[a]? := by
  unfold copySlice at h
  simp only at h
  split at h
  · simp only [Option.some.injEq] at h
    subst h
    exact ⟨rfl, fun _ _ => rfl⟩
  · split at h
    · split at h
      · split at h
        · simp only [Option.some.injEq] at h
          subst h
          rename_i a b hda _ _ _ _ _ _ _ _
          refine ⟨by simp, fun c hc => ?_⟩
          have hne : a ≠ c := fun hh => hc (by rw [← hh]; exact hda)
          simp [List.getElem?_set_ne hne]
        · cases h
      · cases h
    · cases h

theorem newArray_keeps (t : rtype) (n : Nat) (w : World) :
    (newArray t n w).1 = w.heap.length ∧
      (newArray t n w).2.heap.length = w.heap.length + 1 ∧
      ∀ a, a < w.heap.length → (newArray t n w).2.heap[a]? = w.heap[a]? := by
  refine ⟨rfl, by simp [newArray], fun a ha => ?_⟩
  simp [newArray, List.getElem?_append_left ha]

theorem grow_keeps {d : sliceDecoder} {idx capacity cap' : Nat} {data data' : Option Nat}
    {w w' : World} (h : d.grow idx capacity data w = some (cap', data', w')) :
    w.heap.length ≤ w'.heap.length ∧ (∀ a, a < w.heap.length → w'.heap[a]? = w.heap[a]?) ∧
      (data' = data ∨ ∃ a, data' = some a ∧ w.heap.length ≤ a) := by
  unfold sliceDecoder.grow at h
  split at h
  · simp only at h
    split at h
    · rename_i w1 hc
      simp only [Option.some.injEq, Prod.mk.injEq] at h
      obtain ⟨_, hd, rfl⟩ := h
      obtain ⟨h1, h2, h3⟩ := newArray_keeps d.elemType (capacity * 2) w
      obtain ⟨hl, hk⟩ := copySlice_keeps hc
      refine ⟨by omega, fun a ha => ?_, Or.inr ⟨_, hd.symm, by rw [h1]⟩⟩
      rw [hk a (by simp only [h1, ne_eq, Option.some.injEq]; omega), h3 a ha]
    · cases h
  · simp only [Option.some.injEq, Prod.mk.injEq] at h
    obtain ⟨_, hd, rfl⟩ := h
    exact ⟨Nat.le_refl _, fun _ _ => rfl, Or.inl hd.symm⟩

theorem initElem_keeps {d : sliceDecoder} {ep : Ptr} {w w' : World}
    (h : d.initElem ep w = some w') : w.keepsExcept w' ep.block := by
  unfold sliceDecoder.initElem at h
  split at h
  · simp only [unsafe_New, typedmemmove] at h
    split at h
    · have hk := World.store_keeps h
      refine ⟨?_, fun a ha hne => ?_⟩
      · have := hk.1
        simp only [List.length_append, List.length_singleton] at this
        omega
      · rw [hk.2 a (by simp; omega) hne]
        exact List.getElem?_append_left ha
    · cases h
  · split at h
    · unfold World.storeNilPointer at h
      split at h
      · exact World.store_keeps h
      · cases h
    · simp only [Option.some.injEq] at h
      subst h
      exact World.keepsExcept_refl _ _

theorem abandon_heap (d : sliceDecoder) (slice : sliceHeader) (capacity : Nat)
    (data : Option Nat) (w : World) : (d.abandon slice capacity data w).heap = w.heap := rfl

theorem decodeElems_keeps (d : sliceDecoder) (hvd : d.valueDecoder.writesSlotOnly)
    (buf : List Nat) (depth : Int) (p : Ptr) (slice : sliceHeader) (w0 : World) (b0 : Nat) :
    ∀ (fuel idx capacity : Nat) (data : Option Nat) (cursor : Nat) (w : World) (c : Nat)
      (err : Error) (w' : World),
      (∀ b, data = some b → b = b0 ∨ w0.heap.length ≤ b) → w0.keepsExcept w b0 →
      d.decodeElems buf depth p slice fuel idx capacity data cursor w = .ret (c, some err) w' →
      w0.keepsExcept w' b0 := by
  intro fuel
  induction fuel with
  | zero => intro idx capacity data cursor w c err w' _ _ h; simp [sliceDecoder.decodeElems] at h
  | succ fuel ih =>
    intro idx capacity data cursor w c err w' hdata hk h
    rw [sliceDecoder.decodeElems] at h
    cases hg : d.grow idx capacity data w with
    | none => simp [hg] at h
    | some r =>
      obtain ⟨cap1, data1, w1⟩ := r
      obtain ⟨hlen1, hsame1, hd1⟩ := grow_keeps hg
      cases data1 with
      | none => simp [hg] at h
      | some a =>
        have ha : a = b0 ∨ w0.heap.length ≤ a := by
          rcases hd1 with hd1 | ⟨a', hd1, hge⟩
          · exact hdata a hd1.symm
          · simp only [Option.some.injEq] at hd1
            subst hd1
            exact Or.inr (Nat.le_trans hk.1 hge)
        have hk1 : w0.keepsExcept w1 b0 :=
          hk.trans_keeps ⟨hlen1, fun x hx _ => hsame1 x hx⟩ (Or.inl rfl)
        cases hi : d.initElem ⟨a, idx⟩ w1 with
        | none => simp [hg, hi] at h
        | some w2 =>
          have hk2 : w0.keepsExcept w2 b0 := hk1.trans_keeps (initElem_keeps hi) ha
          cases hd : d.valueDecoder.decode buf cursor depth ⟨a, idx⟩ w2 with
          | fault => simp [hg, hi, hd] at h
          | diverged => simp [hg, hi, hd] at h
          | ret r w3 =>
            have hk3 : w0.keepsExcept w3 b0 := hk2.trans_keeps (hvd.1 _ _ _ _ _ _ _ hd) ha
            obtain ⟨c1, e1⟩ := r
            cases e1 with
            | some e =>
              simp only [hg, hi, hd, Exec.ret.injEq, Prod.mk.injEq, Option.some.injEq] at h
              rw [← h.2]; exact hk3
            | none =>
              simp only [hg, hi, hd] at h
              split at h
              · cases h
              · split at h
                · split at h
                  · cases h
                  · simp at h
                · split at h
                  · exact ih _ _ _ _ _ _ _ _ (by
                      intro b hb
                      simp only [Option.some.injEq] at hb
                      subst hb; exact ha) hk3 h
                  · simp only [Exec.ret.injEq, Prod.mk.injEq, Option.some.injEq] at h
                    rw [← h.2]; exact hk3

theorem newSlice_keeps (d : sliceDecoder) (w : World) (a : Nat) (ha : a < w.heap.length)
    (hns : notScratch d w a) :
    (d.newSlice w).2.keepsExcept (d.newSlice w).2 a ∧
      w.heap.length ≤ (d.newSlice w).2.heap.length ∧
      (∀ x, x < w.heap.length → (d.newSlice w).2.heap[x]? = w.heap[x]?) ∧
      ∀ b, (d.newSlice w).1.data = some b → b ≠ a := by
  unfold sliceDecoder.newSlice
  cases hp : w.pools d.arrayPool with
  | nil =>
    simp only
    refine ⟨World.keepsExcept_refl _ _, by simp [newArray], fun x hx => ?_, fun b hb => ?_⟩
    · simp [newArray, List.getElem?_append_left hx]
    · simp only [newArray, Option.some.injEq] at hb
      omega
  | cons h rest =>
    refine ⟨World.keepsExcept_refl _ _, Nat.le_refl _, fun _ _ => rfl, fun b hb hba => ?_⟩
    exact hns h rest hp (by rw [← hba]; exact hb)

/-- When the element loop of `decode` returns an error, every array that was there at the
call and is not the scratch array is unchanged. -/
theorem decodeArray_keeps (d : sliceDecoder) (hvd : d.valueDecoder.writesSlotOnly)
    (buf : List Nat) (depth : Int) (p : Ptr) (fuel cursor : Nat) (w : World) (c : Nat)
    (err : Error) (w' : World)
    (h : d.decodeArray buf depth p fuel cursor w = .ret (c, some err) w') (a : Nat)
    (ha : a < w.heap.length) (hns : notScratch d w a) : w'.heap[a]? = w.heap[a]? := by
  unfold sliceDecoder.decodeArray at h
  simp only at h
  split at h
  · cases h
  · split at h
    · split at h
      · cases h
      · simp at h
    · obtain ⟨_, hlen, hsame, hdata⟩ := newSlice_keeps d w a ha hns
      cases hd : (d.newSlice w).1.data with
      | none =>
        have hk := decodeElems_keeps d hvd buf depth p _ (d.newSlice w).2
          (d.newSlice w).2.heap.length _ _ _ _ _ _ _ _ _
          (by intro b hb; rw [hd] at hb; cases hb) (World.keepsExcept_refl _ _) h
        rw [hk.2 a (by omega) (by omega), hsame a ha]
      | some b0 =>
        have hk := decodeElems_keeps d hvd buf depth p _ (d.newSlice w).2 b0 _ _ _ _ _ _ _ _ _
          (by intro b hb; rw [hd] at hb; simp only [Option.some.injEq] at hb; exact Or.inl hb.symm)
          (World.keepsExcept_refl _ _) h
        rw [hk.2 a (by omega) (Ne.symm (hdata b0 hd)), hsame a ha]

theorem decodeFrom_keeps (d : sliceDecoder) (hvd : d.valueDecoder.writesSlotOnly)
    (buf : List Nat) (depth : Int) (p : Ptr) (w : World) (a : Nat)
    (ha : a < w.heap.length) (hns : notScratch d w a) :
    ∀ (fuel cursor c : Nat) (err : Error) (w' : World),
      d.decodeFrom buf depth p fuel cursor w = .ret (c, some err) w' →
      w'.heap[a]? = w.heap[a]? := by
  intro fuel
  induction fuel with
  | zero => intro cursor c err w' h; simp [sliceDecoder.decodeFrom] at h
  | succ fuel ih =>
    intro cursor c err w' h
    rw [sliceDecoder.decodeFrom] at h
    split at h
    · split at h
      · cases h
      · split at h
        · exact ih _ _ _ _ h
        · split at h
          · split at h
            · simp only [Exec.ret.injEq] at h; rw [← h.2]
            · split at h
              · simp only [Exec.ret.injEq] at h; rw [← h.2]
              · split at h
                · simp only [Exec.ret.injEq] at h; rw [← h.2]
                · split at h
                  · simp only [Exec.ret.injEq] at h; rw [← h.2]
                  · split at h
                    · cases h
                    · simp at h
          · split at h
            · exact decodeArray_keeps d hvd buf depth p fuel cursor w c err w' h a ha hns
            · split at h
              · simp only [Exec.ret.injEq] at h; rw [← h.2]
              · simp only [Exec.ret.injEq] at h; rw [← h.2]
    · simp only [Exec.ret.injEq] at h; rw [← h.2]

theorem decode_keeps (maxDecodeNestingDepth : Int) (d : sliceDecoder)
    (hvd : d.valueDecoder.writesSlotOnly) (fuel : Nat) (buf : List Nat) (cursor : Nat)
    (depth : Int) (p : Ptr) (w : World) (c : Nat) (err : Error) (w' : World)
    (h : d.decode maxDecodeNestingDepth fuel buf cursor depth p w = .ret (c, some err) w')
    (a : Nat) (ha : a < w.heap.length) (hns : notScratch d w a) :
    w'.heap[a]? = w.heap[a]? := by
  unfold sliceDecoder.decode at h
  simp only at h
  split at h
  · split at h
    · cases h
    · simp only [Exec.ret.injEq] at h; rw [← h.2]
  · exact decodeFrom_keeps d hvd buf _ p w a ha hns _ _ _ _ _ h

theorem decodeStreamLoops_keeps (d : sliceDecoder) (hvd : d.valueDecoder.writesSlotOnly)
    (depth : Int) (p : Ptr) (slice : sliceHeader) (w0 : World) (b0 : Nat) :
    ∀ (fuel idx capacity : Nat) (data : Option Nat) (s : stream) (w : World)
      (err : Error) (s' : stream) (w' : World),
      (∀ b, data = some b → b = b0 ∨ w0.heap.length ≤ b) → w0.keepsExcept w b0 →
      (d.decodeStreamElems depth p slice fuel idx capacity data s w = .ret (some err, s') w' →
        w0.keepsExcept w' b0) ∧
      (d.decodeStreamRetry depth p slice fuel idx capacity data s w = .ret (some err, s') w' →
        w0.keepsExcept w' b0) := by
  intro fuel
  induction fuel with
  | zero =>
    intro idx capacity data s w err s' w' _ _
    constructor
    · intro h; simp [sliceDecoder.decodeStreamElems] at h
    · intro h; simp [sliceDecoder.decodeStreamRetry] at h
  | succ fuel ih =>
    intro idx capacity data s w err s' w' hdata hk
    constructor
    · intro h
      rw [sliceDecoder.decodeStreamElems] at h
      cases hg : d.grow idx capacity data w with
      | none => simp [hg] at h
      | some r =>
        obtain ⟨cap1, data1, w1⟩ := r
        obtain ⟨hlen1, hsame1, hd1⟩ := grow_keeps hg
        cases data1 with
        | none => simp [hg] at h
        | some a =>
          have ha : a = b0 ∨ w0.heap.length ≤ a := by
            rcases hd1 with hd1 | ⟨a', hd1, hge⟩
            · exact hdata a hd1.symm
            · simp only [Option.some.injEq] at hd1
              subst hd1
              exact Or.inr (Nat.le_trans hk.1 hge)
          have hk1 : w0.keepsExcept w1 b0 :=
            hk.trans_keeps ⟨hlen1, fun x hx _ => hsame1 x hx⟩ (Or.inl rfl)
          cases hi : d.initElem ⟨a, idx⟩ w1 with
          | none => simp [hg, hi] at h
          | some w2 =>
            have hk2 : w0.keepsExcept w2 b0 := hk1.trans_keeps (initElem_keeps hi) ha
            cases hd : d.valueDecoder.decodeStream s depth ⟨a, idx⟩ w2 with
            | fault => simp [hg, hi, hd] at h
            | diverged => simp [hg, hi, hd] at h
            | ret r w3 =>
              have hk3 : w0.keepsExcept w3 b0 := hk2.trans_keeps (hvd.2 _ _ _ _ _ _ hd) ha
              obtain ⟨e1, s1⟩ := r
              cases e1 with
              | some e =>
                simp only [hg, hi, hd, Exec.ret.injEq, Prod.mk.injEq, Option.some.injEq] at h
                rw [← h.2]; exact hk3
              | none =>
                simp only [hg, hi, hd] at h
                exact (ih _ _ _ _ _ _ _ _ (by
                  intro b hb
                  simp only [Option.some.injEq] at hb
                  subst hb; exact ha) hk3).2 h
    · intro h
      rw [sliceDecoder.decodeStreamRetry] at h
      split at h
      · split at h
        · cases h
        · simp at h
      · split at h
        · exact (ih _ _ _ _ _ _ _ _ hdata hk).1 h
        · split at h
          · split at h
            · exact (ih _ _ _ _ _ _ _ _ hdata hk).2 h
            · simp only [Exec.ret.injEq] at h
              rw [← h.2]; exact hk
          · simp only [Exec.ret.injEq] at h
            rw [← h.2]; exact hk

theorem decodeStreamArray_keeps (d : sliceDecoder) (hvd : d.valueDecoder.writesSlotOnly)
    (depth : Int) (p : Ptr) (fuel : Nat) (s : stream) (w : World)
    (err : Error) (s' : stream) (w' : World)
    (h : d.decodeStreamArray depth p fuel s w = .ret (some err, s') w') (a : Nat)
    (ha : a < w.heap.length) (hns : notScratch d w a) : w'.heap[a]? = w.heap[a]? := by
  unfold sliceDecoder.decodeStreamArray at h
  simp only at h
  split at h
  · split at h
    · cases h
    · simp at h
  · obtain ⟨_, hlen, hsame, hdata⟩ := newSlice_keeps d w a ha hns
    cases hd : (d.newSlice w).1.data with
    | none =>
      have hk := (decodeStreamLoops_keeps d hvd depth p _ (d.newSlice w).2
        (d.newSlice w).2.heap.length _ _ _ _ _ _ _ _ _
        (by intro b hb; rw [hd] at hb; cases hb) (World.keepsExcept_refl _ _)).1 h
      rw [hk.2 a (by omega) (by omega), hsame a ha]
    | some b0 =>
      have hk := (decodeStreamLoops_keeps d hvd depth p _ (d.newSlice w).2 b0 _ _ _ _ _ _ _ _ _
        (by intro b hb; rw [hd] at hb; simp only [Option.some.injEq] at hb; exact Or.inl hb.symm)
        (World.keepsExcept_refl _ _)).1 h
      rw [hk.2 a (by omega) (Ne.symm (hdata b0 hd)), hsame a ha]

theorem decodeStreamFrom_keeps (d : sliceDecoder) (hvd : d.valueDecoder.writesSlotOnly)
    (depth : Int) (p : Ptr) (w : World) (a : Nat)
    (ha : a < w.heap.length) (hns : notScratch d w a) :
    ∀ (fuel : Nat) (s : stream) (err : Error) (s' : stream) (w' : World),
      d.decodeStreamFrom depth p fuel s w = .ret (some err, s') w' →
      w'.heap[a]? = w.heap[a]? := by
  intro fuel
  induction fuel with
  | zero => intro s err s' w' h; simp [sliceDecoder.decodeStreamFrom] at h
  | succ fuel ih =>
    intro s err s' w' h
    rw [sliceDecoder.decodeStreamFrom] at h
    split at h
    · exact ih _ _ _ _ h
    · split at h
      · split at h
        · simp only [Exec.ret.injEq] at h; rw [← h.2]
        · split at h
          · cases h
          · simp at h
      · split at h
        · exact decodeStreamArray_keeps d hvd depth p fuel s w err s' w' h a ha hns
        · split at h
          · simp only [Exec.ret.injEq] at h; rw [← h.2]
          · split at h
            · split at h
              · exact ih _ _ _ _ h
              · simp only [Exec.ret.injEq] at h; rw [← h.2]
            · simp only [Exec.ret.injEq] at h; rw [← h.2]

theorem decodeStream_keeps (maxDecodeNestingDepth : Int) (d : sliceDecoder)
    (hvd : d.valueDecoder.writesSlotOnly) (fuel : Nat) (s : stream)
    (depth : Int) (p : Ptr) (w : World) (err : Error) (s' : stream) (w' : World)
    (h : d.decodeStream maxDecodeNestingDepth fuel s depth p w = .ret (some err, s') w')
    (a : Nat) (ha : a < w.heap.length) (hns : notScratch d w a) :
    w'.heap[a]? = w.heap[a]? := by
  unfold sliceDecoder.decodeStream at h
  simp only at h
  split at h
  · simp only [Exec.ret.injEq] at h; rw [← h.2]
  · exact decodeStreamFrom_keeps d hvd _ p w a ha hns _ _ _ _ _ h

theorem digitDecoder_writesSlotOnly : digitDecoder.writesSlotOnly := by
  constructor
  · intro buf cursor depth ep w r w' h
    simp only [digitDecoder] at h
    split at h
    · split at h
      · split at h
        · rename_i hs
          simp only [Exec.ret.injEq] at h
          rw [← h.2]; exact World.store_keeps hs
        · cases h
      · simp only [Exec.ret.injEq] at h
        rw [← h.2]; exact World.keepsExcept_refl _ _
    · simp only [Exec.ret.injEq] at h
      rw [← h.2]; exact World.keepsExcept_refl _ _
  · intro s depth ep w r w' h
    simp only [digitDecoder] at h
    split at h
    · split at h
      · rename_i hs
        simp only [Exec.ret.injEq] at h
        rw [← h.2]; exact World.store_keeps hs
      · cases h
    · simp only [Exec.ret.injEq] at h
      rw [← h.2]; exact World.keepsExcept_refl _ _

theorem Exec.eq_ret_of_value {α : Type} {x : Exec α} {v : α} (h : x.value = some v) :
    ∃ w, x = .ret v w := by
  cases x with
  | ret v' w => simp only [Exec.value, Option.some.injEq] at h; exact ⟨w, by rw [h]⟩
  | fault => cases h
  | diverged => cases h

/-- Claim C21: when `sliceDecoder.decode` or `sliceDecoder.decodeStream` returns an error,
the destination header and the destination's array are what they were before the call, for
every input, depth and valid destination; the element decoder writes only into the array of
the slot it is handed, and the scratch array that the pool hands out is neither the array
that holds the header nor the destination's array. -/
theorem error_keeps_destination (maxDecodeNestingDepth : Int) (d : sliceDecoder) (fuel : Nat)
    (depth : Int) (p : Ptr) (w : World) (dst : sliceHeader)
    (hvd : d.valueDecoder.writesSlotOnly) (hdst : dstValid w p dst)
    (hp : notScratch d w p.block) (hd : ∀ a, dst.data = some a → notScratch d w a) :
    (∀ buf cursor c err,
      (d.decode maxDecodeNestingDepth fuel buf cursor depth p w).value = some (c, some err) →
      ∃ w', d.decode maxDecodeNestingDepth fuel buf cursor depth p w = .ret (c, some err) w' ∧
        w'.loadHeader p = some dst ∧ w'.heap[p.block]? = w.heap[p.block]? ∧
        ∀ a, dst.data = some a → w'.heap[a]? = w.heap[a]?) ∧
    ∀ s err s',
      (d.decodeStream maxDecodeNestingDepth fuel s depth p w).value = some (some err, s') →
      ∃ w', d.decodeStream maxDecodeNestingDepth fuel s depth p w = .ret (some err, s') w' ∧
        w'.loadHeader p = some dst ∧ w'.heap[p.block]? = w.heap[p.block]? ∧
        ∀ a, dst.data = some a → w'.heap[a]? = w.heap[a]? := by
  obtain ⟨pc, hpc, _⟩ := World.loadHeader_inv hdst.1
  have hplt := lt_length_of_getElem? hpc
  have hdlt : ∀ a, dst.data = some a → a < w.heap.length := by
    intro a ha
    have h2 := hdst.2
    rw [ha] at h2
    obtain ⟨_, cells, hc, _⟩ := h2
    exact lt_length_of_getElem? hc
  constructor
  · intro buf cursor c err hv
    obtain ⟨w', hr⟩ := Exec.eq_ret_of_value hv
    have hb := decode_keeps maxDecodeNestingDepth d hvd fuel buf cursor depth p w c err w' hr
    refine ⟨w', hr, ?_, hb _ hplt hp, fun a ha => hb a (hdlt a ha) (hd a ha)⟩
    rw [World.loadHeader_eq_of_block (hb _ hplt hp), hdst.1]
  · intro s err s' hv
    obtain ⟨w', hr⟩ := Exec.eq_ret_of_value hv
    have hb := decodeStream_keeps maxDecodeNestingDepth d hvd fuel s depth p w err s' w' hr
    refine ⟨w', hr, ?_, hb _ hplt hp, fun a ha => hb a (hdlt a ha) (hd a ha)⟩
    rw [World.loadHeader_eq_of_block (hb _ hplt hp), hdst.1]

theorem error_keeps_destination_witness :
    (∃ w', intSliceDecoder.decode 100 20 [91, 49, 32, 50, 93] 0 0 ⟨0, 0⟩
        (World.init (.slice ⟨some 1, 3, 3⟩) [[.scalar 7, .scalar 8, .scalar 9]] []) =
          .ret (0, some (.errInvalidCharacter 50 "slice" 3)) w' ∧
        w'.loadHeader ⟨0, 0⟩ = some ⟨some 1, 3, 3⟩ ∧
        w'.heap[0]? = some [.slice ⟨some 1, 3, 3⟩] ∧
        w'.heap[1]? = some [.scalar 7, .scalar 8, .scalar 9]) ∧
    ∃ w', intSliceDecoder.decodeStream 100 20 ⟨[91, 49, 44, 120], 0, 0, [], 0⟩ 0 ⟨0, 0⟩
        (World.init (.slice ⟨some 1, 3, 3⟩) [[.scalar 7, .scalar 8, .scalar 9]] []) =
          .ret (some (.external 120), ⟨[91, 49, 44, 120], 3, 0, [], 0⟩) w' ∧
        w'.loadHeader ⟨0, 0⟩ = some ⟨some 1, 3, 3⟩ ∧
        w'.heap[0]? = some [.slice ⟨some 1, 3, 3⟩] ∧
        w'.heap[1]? = some [.scalar 7, .scalar 8, .scalar 9] := by
  have hns : ∀ a, notScratch intSliceDecoder
      (World.init (.slice ⟨some 1, 3, 3⟩) [[.scalar 7, .scalar 8, .scalar 9]] []) a := by
    intro a h rest hh
    simp [World.init, intSliceDecoder, newSliceDecoder] at hh
  have hdst : dstValid (World.init (.slice ⟨some 1, 3, 3⟩)
      [[.scalar 7, .scalar 8, .scalar 9]] []) ⟨0, 0⟩ ⟨some 1, 3, 3⟩ :=
    ⟨rfl, by decide, _, rfl, by decide⟩
  have h := error_keeps_destination 100 intSliceDecoder 20 0 ⟨0, 0⟩
    (World.init (.slice ⟨some 1, 3, 3⟩) [[.scalar 7, .scalar 8, .scalar 9]] [])
    ⟨some 1, 3, 3⟩ digitDecoder_writesSlotOnly hdst (hns _) (fun a _ => hns a)
  obtain ⟨w1, h1, h2, h3, h4⟩ := h.1 [91, 49, 32, 50, 93] 0 0
    (.errInvalidCharacter 50 "slice" 3) (by decide)
  obtain ⟨w2, k1, k2, k3, k4⟩ := h.2 ⟨[91, 49, 44, 120], 0, 0, [], 0⟩
    (.external 120) ⟨[91, 49, 44, 120], 3, 0, [], 0⟩ (by decide)
  exact ⟨⟨w1, h1, h2, h3, h4 1 rfl⟩, ⟨w2, k1, k2, k3, k4 1 rfl⟩⟩

/-! ## The JSON annotation of a field -/

/-- Claim C13 (code bug): `keyNameAndOmitEmptyFromField` compares only the second item of the
annotation with `omitempty`. For the annotation `a,string,omitempty`, whose third item is
`omitempty`, it returns omit_empty = false, and the head of the record's program is
`opStructFieldHeadInt`, not its omit-empty variant; for `a,omitempty` it returns true and the
head is the omit-empty variant. -/
theorem omitempty_after_second_item_missed :
    strings.Split "a,string,omitempty" ',' = ["a", "string", "omitempty"] ∧
    keyNameAndOmitEmptyFromField { Name := "A", Typ := 0, Tag := "a,string,omitempty" }
      = ("a", false) ∧
    keyNameAndOmitEmptyFromField { Name := "A", Typ := 0, Tag := "a,omitempty" }
      = ("a", true) ∧
    ((compileHead exampleTypes 2 8 false Encoder.empty).program.bind
      fun r => r.2.opAt r.1) = some opStructFieldHeadInt ∧
    ((compileHead exampleTypes 2 15 false Encoder.empty).program.bind
      fun r => r.2.opAt r.1) = some opStructFieldHeadInt.headToOmitEmptyHead := by
  refine ⟨by decide, by decide, by decide, by decide, by decide⟩

/-! ## Anonymous fields -/

/-- Claim C16 (code bug): the loop over the chain of an anonymous field rewrites the
record-end node only when its op is `opStructEnd`. For the record 7, which embeds
`struct { X int }`, compiled with indent, the embedded record's end node (at address 3, the
`nextField` of the embedded head at 2) keeps the op `opStructEndIndent`; without indent it
becomes `opStructAnonymousEnd`. The embedded head is rewritten to the anonymous-head variant
in both modes. -/
theorem anonymous_end_kept_with_indent :
    ((compileHead exampleTypes 3 7 true Encoder.empty).program.map fun r =>
        (r.1, r.2.opAt 2, (r.2.codes[2]?).bind (fun c => c.nextField), r.2.opAt 3))
      = some (5, some (structFieldHead false true (some .Int) false true), some 3,
          some opStructEndIndent) ∧
    ((compileHead exampleTypes 3 7 false Encoder.empty).program.map fun r =>
        (r.1, r.2.opAt 2, (r.2.codes[2]?).bind (fun c => c.nextField), r.2.opAt 3))
      = some (5, some (structFieldHead false true (some .Int) false false), some 3,
          some opStructAnonymousEnd) ∧
    ((compileHead exampleTypes 3 7 true Encoder.empty).program.bind fun r =>
        (r.2.codes[5]?).map (fun c => (c.op, c.key, c.anonymousKey, c.next)))
      = some (opStructFieldHeadIndent, "\"Inner\":", true, some 2) := by
  refine ⟨by decide, by decide, by decide⟩

/-! ## The indent depth on the failing returns -/

/-- Claim C22 (code bug): `compileMap` and `compileStruct` return the error of a key, value
or field type without `e.indent--`. Called with indent depth 0 for the mapping 13 from
`string` to a channel and for the record 14 with a channel field, they (and `compile`,
`compileHead` over them) return the `UnsupportedTypeError` with the encoder at indent depth
1; `compileSlice` on the slice 18 of channels and `compileArray` on the array 19 of channels
return it at depth 0. -/
theorem error_return_keeps_indent_raised :
    ((compileMap exampleTypes (compile exampleTypes 1) 13 true false false
        Encoder.empty).error.map fun r => (r.1, r.2.indent)) = some ({ Typ := 9 }, 1) ∧
    ((compileStruct exampleTypes (compile exampleTypes 1) 14 false false
        Encoder.empty).error.map fun r => (r.1, r.2.indent)) = some ({ Typ := 9 }, 1) ∧
    ((compile exampleTypes 2 13 false false Encoder.empty).error.map
        fun r => (r.1, r.2.indent)) = some ({ Typ := 9 }, 1) ∧
    ((compileHead exampleTypes 2 14 true Encoder.empty).error.map
        fun r => (r.1, r.2.indent)) = some ({ Typ := 9 }, 1) ∧
    ((compileSlice exampleTypes (compile exampleTypes 1) 18 false false
        Encoder.empty).error.map fun r => (r.1, r.2.indent)) = some ({ Typ := 9 }, 0) ∧
    ((compileArray exampleTypes (compile exampleTypes 1) 19 false false
        Encoder.empty).error.map fun r => (r.1, r.2.indent)) = some ({ Typ := 9 }, 0) := by
  refine ⟨by decide, by decide, by decide, by decide, by decide, by decide⟩

/-! ## Unsupported types -/

theorem compile_unsupported (T : Types) (fuel typ : Nat) (root withIndent : Bool)
    (e : Encoder) (hj : T.ImplementsMarshalJSON typ = false)
    (ht : T.ImplementsMarshalText typ = false) (hk : hasCompiler (T.Kind typ) = false) :
    compile T (fuel + 1) typ root withIndent e = .err { Typ := typ } e := by
  rw [compile]
  simp only [hj, ht, Bool.false_eq_true, if_false]
  cases hkind : T.Kind typ <;> simp [hkind, hasCompiler] at hk ⊢

theorem compileStructFields_append (compile : Nat → Bool → Bool → Encoder → Compile Nat)
    (withIndent : Bool) (pre rest : List StructField) :
    ∀ (v : structVars) (e : Encoder),
      compileStructFields compile withIndent (pre ++ rest) v e =
        match compileStructFields compile withIndent pre v e with
        | .ok v1 e1 => compileStructFields compile withIndent rest v1 e1
        | .err x e1 => .err x e1
        | .fault => .fault
        | .diverged => .diverged := by
  induction pre with
  | nil => intro v e; simp [compileStructFields]
  | cons f fs ih =>
    intro v e
    simp only [List.cons_append, compileStructFields]
    split
    · exact ih _ _
    · repeat (first | exact ih _ _ | rfl | split)

theorem compileStruct_enter (T : Types) (compile : Nat → Bool → Bool → Encoder → Compile Nat)
    (typ : Nat) (root withIndent : Bool) (e : Encoder) (x : UnsupportedTypeError)
    (e2 : Encoder) (hmemo : e.compiledCode typ withIndent = none)
    (h : compileStructFields compile withIndent (T.Fields typ) structVars.start
      (e.enterStruct typ withIndent) = .err x e2) :
    compileStruct T compile typ root withIndent e = .err x e2 := by
  unfold compileStruct
  simp only [hmemo]
  cases withIndent <;>
    simp only [Encoder.enterStruct, structVars.start, Bool.false_eq_true, if_false, if_true]
      at h ⊢ <;> rw [h]

/-- Claim C14: for a type that implements neither marshal capability and whose kind has no
compiler (channel, function, complex, ...), `compile` returns no program and the
`UnsupportedTypeError` carrying the type; and when the compile of the pointee, element, key,
value or a non-ignored field fails, `compilePtr`, `compileSlice`, `compileArray`,
`compileMap`, `compileStruct` and `compileHead` return that same error and no program.
`callee` is the method `e.compile` that the compilers call. -/
theorem unsupported_type_error (T : Types)
    (callee : Nat → Bool → Bool → Encoder → Compile Nat) :
    (∀ fuel typ root withIndent e, T.ImplementsMarshalJSON typ = false →
      T.ImplementsMarshalText typ = false → hasCompiler (T.Kind typ) = false →
      compile T (fuel + 1) typ root withIndent e = .err { Typ := typ } e) ∧
    (∀ typ root withIndent e x e1, callee (T.Elem typ) root withIndent e = .err x e1 →
      compilePtr T callee typ root withIndent e = .err x e1) ∧
    (∀ typ root withIndent e x e1,
      callee (T.Elem typ) false withIndent { e with indent := e.indent + 1 } = .err x e1 →
      compileSlice T callee typ root withIndent e =
        .err x { e1 with indent := e1.indent - 1 }) ∧
    (∀ typ root withIndent e x e1,
      callee (T.Elem typ) false withIndent { e with indent := e.indent + 1 } = .err x e1 →
      compileArray T callee typ root withIndent e =
        .err x { e1 with indent := e1.indent - 1 }) ∧
    (∀ typ withLoad root withIndent e x e1,
      callee (T.Key typ) false withIndent { e with indent := e.indent + 1 } = .err x e1 →
      compileMap T callee typ withLoad root withIndent e = .err x e1) ∧
    (∀ typ withLoad root withIndent e keyCode e1 x e2,
      callee (T.Key typ) false withIndent { e with indent := e.indent + 1 }
        = .ok keyCode e1 →
      callee (T.Elem typ) false withIndent e1 = .err x e2 →
      compileMap T callee typ withLoad root withIndent e = .err x e2) ∧
    (∀ typ root withIndent e pre f post v1 e1 x e2,
      e.compiledCode typ withIndent = none → T.Fields typ = pre ++ f :: post →
      compileStructFields callee withIndent pre structVars.start
        (e.enterStruct typ withIndent) = .ok v1 e1 →
      isIgnoredStructField f = false → callee f.Typ false withIndent e1 = .err x e2 →
      compileStruct T callee typ root withIndent e = .err x e2) ∧
    (∀ fuel typ withIndent e x e1, T.ImplementsMarshalJSON typ = false →
      T.ImplementsMarshalText typ = false →
      (if T.Kind (if T.Kind typ = Kind.Ptr then T.Elem typ else typ) = Kind.Map then
          compileMap T (compile T fuel) (if T.Kind typ = Kind.Ptr then T.Elem typ else typ)
            false true withIndent e
        else
          compile T fuel (if T.Kind typ = Kind.Ptr then T.Elem typ else typ) true
            withIndent e) = .err x e1 →
      compileHead T fuel typ withIndent e = .err x e1) := by
  refine ⟨fun fuel typ root withIndent e hj ht hk =>
      compile_unsupported T fuel typ root withIndent e hj ht hk, ?_, ?_, ?_, ?_, ?_, ?_, ?_⟩
  · intro typ root withIndent e x e1 h
    simp only [compilePtr, h]
  · intro typ root withIndent e x e1 h
    simp only [compileSlice, h]
  · intro typ root withIndent e x e1 h
    simp only [compileArray, h]
  · intro typ withLoad root withIndent e x e1 h
    simp only [compileMap, h]
  · intro typ withLoad root withIndent e keyCode e1 x e2 h1 h2
    simp only [compileMap, h1, h2]
  · intro typ root withIndent e pre f post v1 e1 x e2 hmemo hf hpre hign herr
    apply compileStruct_enter T callee typ root withIndent e x e2 hmemo
    rw [hf, compileStructFields_append, hpre]
    simp only [compileStructFields, hign, Bool.false_eq_true, if_false, herr]
  · intro fuel typ withIndent e x e1 hj ht h
    unfold compileHead
    simp only [hj, ht, Bool.false_eq_true, if_false]
    exact h

theorem unsupported_type_error_witness :
    compile exampleTypes (0 + 1) 9 false false Encoder.empty
      = .err { Typ := 9 } Encoder.empty ∧
    compilePtr exampleTypes (compile exampleTypes 1) 20 false false Encoder.empty
      = .err { Typ := 9 } Encoder.empty ∧
    compileSlice exampleTypes (compile exampleTypes 1) 18 false false Encoder.empty
      = .err { Typ := 9 } Encoder.empty ∧
    compileArray exampleTypes (compile exampleTypes 1) 19 false false Encoder.empty
      = .err { Typ := 9 } Encoder.empty ∧
    compileMap exampleTypes (compile exampleTypes 1) 21 true false false Encoder.empty
      = .err { Typ := 9 } { Encoder.empty with indent := 1 } ∧
    compileMap exampleTypes (compile exampleTypes 1) 13 true false false Encoder.empty
      = .err { Typ := 9 } ⟨1, [], [], [{ op := opEnd, indent := 1 },
          { op := opString, typ := some 1, indent := 1, next := some 0 }], []⟩ ∧
    compileStruct exampleTypes (compile exampleTypes 1) 14 false false Encoder.empty
      = .err { Typ := 9 } (Encoder.empty.enterStruct 14 false) ∧
    compileHead exampleTypes 1 20 false Encoder.empty = .err { Typ := 9 } Encoder.empty := by
  have h := unsupported_type_error exampleTypes (compile exampleTypes 1)
  obtain ⟨h1, h2, h3, h4, h5, h6, h7, h8⟩ := h
  refine ⟨h1 0 9 false false _ rfl rfl rfl, h2 20 false false _ _ _ (by decide),
    h3 18 false false Encoder.empty { Typ := 9 } { Encoder.empty with indent := 1 }
      (by decide),
    h4 19 false false Encoder.empty { Typ := 9 } { Encoder.empty with indent := 1 }
      (by decide),
    h5 21 true false false Encoder.empty _ _ (by decide),
    h6 13 true false false Encoder.empty 1 ⟨1, [], [], [{ op := opEnd, indent := 1 },
          { op := opString, typ := some 1, indent := 1, next := some 0 }], []⟩ _ _
      (by decide) (by decide),
    h7 14 false false Encoder.empty [] { Name := "C", Typ := 9 } [] structVars.start _ _ _
      rfl rfl rfl rfl (by decide),
    h8 1 20 false Encoder.empty _ _ rfl rfl (by decide)⟩

/-! ## The program of a sequence -/

theorem compileSlice_eq (T : Types) (compile : Nat → Bool → Bool → Encoder → Compile Nat)
    (typ : Nat) (root withIndent : Bool) (e e1 : Encoder) (code t z k : Nat)
    (hc : compile (T.Elem typ) false withIndent { e with indent := e.indent + 1 }
      = .ok code e1)
    (hw : WalkTo e1.codes e.codes.length e1.codes.length k code t)
    (hl : IsLast e1.codes e.codes.length t z) (hk : k ≤ e1.codes.length) :
    compileSlice T compile typ root withIndent e = .ok e1.codes.length
      { e1 with
        indent := e1.indent - 1
        codes := e1.codes.modify (fun c => { c with next := some (e1.codes.length + 1) }) t ++
          [{ op := if withIndent then (if root then opRootSliceHeadIndent
                else opSliceHeadIndent) else opSliceHead,
             indent := e1.indent - 1, next := some code, elem := some (e1.codes.length + 1),
             end_ := some (e1.codes.length + 3) },
           { op := if withIndent then (if root then opRootSliceElemIndent
                else opSliceElemIndent) else opSliceElem,
             indent := e1.indent - 1, size := T.Size (T.Elem typ), next := some code,
             end_ := some (e1.codes.length + 3) },
           { op := opEnd, indent := e1.indent - 1 },
           { op := if withIndent then opSliceEndIndent else opSliceEnd,
             indent := e1.indent - 1, next := some (e1.codes.length + 2) }] } := by
  obtain ⟨ct, _, ht1, _⟩ := id hl
  have htlt : t < e1.codes.length := lt_length_of_getElem? ht1
  cases withIndent <;> cases root <;>
  simp only [compileSlice, hc, Bool.false_eq_true, if_false, if_true, List.cons_append,
    List.nil_append, newSliceHeaderCode, newEndOp, newOpCode, Encoder.alloc,
    Encoder.assign,
    List.append_assoc, List.singleton_append, List.length_append, List.length_singleton,
    List.length_cons, List.length_nil, modify_append_add, modify_append_len,
    List.modify_succ_cons, List.modify_zero_cons, Nat.zero_add, Nat.reduceAdd,
    beforeLastCode_append hw hl hk, modify_append_lt _ _ _ _ htlt, modify_modify_append_add]

/-- Claim C18: for a sequence type whose element type compiles to the program `code`,
`compileSlice` returns a header whose `next` is `code`, whose `elem` is the element marker
and whose `end` is the slice-end node; the element marker has `next = code`, `end` the
slice-end node and `size` the size of the element type; the last node of the element
program before its `end` sentinel (what `beforeLastCode` finds) has `next` redirected to the
element marker; the three ops are the plain ones without indent, the indented ones with
indent, with the root variants of header and marker when `root` is set. -/
theorem compileSlice_program (T : Types) (fuel typ : Nat) (root withIndent : Bool)
    (e e1 : Encoder) (code : Nat)
    (hc : compile T fuel (T.Elem typ) false withIndent { e with indent := e.indent + 1 }
      = .ok code e1) :
    ∃ header elemCode end_ last e' hd el en cl,
      compileSlice T (compile T fuel) typ root withIndent e = .ok header e' ∧
      e'.codes[header]? = some hd ∧ e'.codes[elemCode]? = some el ∧
      e'.codes[end_]? = some en ∧
      hd.next = some code ∧ hd.elem = some elemCode ∧ hd.end_ = some end_ ∧
      el.next = some code ∧ el.end_ = some end_ ∧ el.size = T.Size (T.Elem typ) ∧
      beforeLastCode e1.codes code = .found last ∧
      e'.codes[last]? = some cl ∧ cl.next = some elemCode ∧
      (hd.op, el.op, en.op) =
        (if withIndent then
          (if root then (opRootSliceHeadIndent, opRootSliceElemIndent, opSliceEndIndent)
           else (opSliceHeadIndent, opSliceElemIndent, opSliceEndIndent))
         else (opSliceHead, opSliceElem, opSliceEnd)) := by
  have he := compile_emits T fuel _ _ _ _ _ _ hc
  obtain ⟨t, z, k, hw, hl, hk⟩ := he.walk
  replace hw : WalkTo e1.codes e.codes.length e1.codes.length k code t := hw
  replace hl : IsLast e1.codes e.codes.length t z := hl
  have hkl : k ≤ e1.codes.length := by omega
  obtain ⟨ct, _, ht1, _⟩ := id hl
  have hb : beforeLastCode e1.codes code = .found t := by
    have := beforeLastCode_append hw hl hkl []
    simpa using this
  refine ⟨_, e1.codes.length + 1, e1.codes.length + 3, t, _,
    { op := if withIndent then (if root then opRootSliceHeadIndent
        else opSliceHeadIndent) else opSliceHead,
      indent := e1.indent - 1, next := some code, elem := some (e1.codes.length + 1),
      end_ := some (e1.codes.length + 3) },
    { op := if withIndent then (if root then opRootSliceElemIndent
        else opSliceElemIndent) else opSliceElem,
      indent := e1.indent - 1, size := T.Size (T.Elem typ), next := some code,
      end_ := some (e1.codes.length + 3) },
    { op := if withIndent then opSliceEndIndent else opSliceEnd,
      indent := e1.indent - 1, next := some (e1.codes.length + 2) },
    { ct with next := some (e1.codes.length + 1) },
    compileSlice_eq T (compile T fuel) typ root withIndent e e1 code t z k hc hw hl hkl,
    ?_, ?_, ?_, ?_, ?_, ?_, ?_, ?_, ?_, hb, ?_, rfl, ?_⟩
  · exact getElem?_modify_append_len _ _ _ _
  · rw [getElem?_modify_append_new]; rfl
  · rw [getElem?_modify_append_new]; rfl
  · rfl
  · rfl
  · rfl
  · rfl
  · rfl
  · rfl
  · rw [getElem?_modify_append ht1, if_pos rfl]
  · cases withIndent <;> cases root <;> rfl

theorem compileSlice_program_witness :
    compile exampleTypes 1 (exampleTypes.Elem 11) false true
        { Encoder.empty with indent := Encoder.empty.indent + 1 }
      = .ok 1 ⟨1, [], [], [{ op := opEnd, indent := 1 },
          { op := opInt, typ := some 0, indent := 1, next := some 0 }], []⟩ ∧
    ∃ header elemCode end_ last e' hd el en cl,
      compileSlice exampleTypes (compile exampleTypes 1) 11 true true Encoder.empty
        = .ok header e' ∧
      e'.codes[header]? = some hd ∧ e'.codes[elemCode]? = some el ∧
      e'.codes[end_]? = some en ∧
      hd.next = some 1 ∧ hd.elem = some elemCode ∧ hd.end_ = some end_ ∧
      el.next = some 1 ∧ el.end_ = some end_ ∧ el.size = exampleTypes.Size (exampleTypes.Elem 11) ∧
      beforeLastCode [{ op := opEnd, indent := 1 },
          { op := opInt, typ := some 0, indent := 1, next := some 0 }] 1 = .found last ∧
      e'.codes[last]? = some cl ∧ cl.next = some elemCode ∧
      (hd.op, el.op, en.op) =
        (if true = true then
          (if true = true then (opRootSliceHeadIndent, opRootSliceElemIndent, opSliceEndIndent)
           else (opSliceHeadIndent, opSliceElemIndent, opSliceEndIndent))
         else (opSliceHead, opSliceElem, opSliceEnd)) :=
  ⟨by decide, compileSlice_program exampleTypes 1 11 true true Encoder.empty
    ⟨1, [], [], [{ op := opEnd, indent := 1 },
      { op := opInt, typ := some 0, indent := 1, next := some 0 }], []⟩ 1 (by decide)⟩

/-! ## The field chain of a record -/

/-- Claim C12: the program that `compileStruct` returns for a record type that is not in the
memo table has a head whose `nextField` chain visits the nodes of the non-ignored fields,
once each in declaration order, and then the record-end node; each field node carries the
key `"name":` and the offset of its field; `head.end` is the record-end node. For
`struct { A int; B string }` without indent the chain is `opStructFieldHeadInt` with key
`"A":`, `opStructFieldString` with key `"B":`, `opStructEnd`. -/
theorem compileStruct_field_chain :
    (∀ (T : Types) (fuel typ : Nat) (root withIndent : Bool) (e e' : Encoder) (h : Nat),
      e.compiledCode typ withIndent = none →
      compileStruct T (compile T fuel) typ root withIndent e = .ok h e' →
      StructProgram T typ withIndent e e' h) ∧
    ((compileStruct exampleTypes (compile exampleTypes 1) 2 false false
        Encoder.empty).program.map fun r =>
          (r.1, (r.2.codes[2]?).map (fun c => (c.op, c.key, c.offset)),
            (r.2.codes[2]?).map (fun c => (c.nextField, c.end_))))
      = some (2, some (opStructFieldHeadInt, "\"A\":", 0), some (some 5, some 6)) ∧
    ((compileStruct exampleTypes (compile exampleTypes 1) 2 false false
        Encoder.empty).program.map fun r =>
          ((r.2.codes[5]?).map (fun c => (c.op, c.key, c.offset)),
            (r.2.codes[5]?).map (fun c => c.nextField),
            (r.2.codes[6]?).map (fun c => (c.op, c.nextField))))
      = some (some (opStructFieldString, "\"B\":", 8), some (some 6),
          some (opStructEnd, none)) := by
  refine ⟨fun T fuel typ root withIndent e e' h hmemo hr =>
    (compileStruct_spec T _ (compile_emits T fuel) typ root withIndent e e' h hr).2 hmemo,
    rfl, rfl⟩

theorem compileStruct_field_chain_witness :
    ∃ e', compileStruct exampleTypes (compile exampleTypes 1) 2 false false Encoder.empty
        = .ok 2 e' ∧
      StructProgram exampleTypes 2 false Encoder.empty e' 2 := by
  have hr : compileStruct exampleTypes (compile exampleTypes 1) 2 false false Encoder.empty
      = .ok 2 (((compileStruct exampleTypes (compile exampleTypes 1) 2 false false
        Encoder.empty).program.map Prod.snd).getD Encoder.empty) := by decide
  exact ⟨_, hr, compileStruct_field_chain.1 _ _ _ _ _ _ _ _ (by decide) hr⟩

/-! ## Compiling a type twice -/

/-- Claim C15 (counterexample): the second call of `compileHead` for the record type
`struct { A int; B string }` on the same encoder does not return a program like the first.
The first call returns the field chain with head `opStructFieldHeadInt`; the second finds
the type in the memo table and returns a single `opStructFieldRecursive` node, followed by
an `end` sentinel, whose `jmp` is the memo entry 0. -/
theorem second_compile_differs :
    ((compileHead exampleTypes 2 2 false Encoder.empty).program.map fun r =>
        (r.1, r.2.opAt r.1, r.2.codes.length)) = some (2, some opStructFieldHeadInt, 8) ∧
    ((compileHead exampleTypes 2 2 false Encoder.empty).program.bind fun r =>
        (compileHead exampleTypes 2 2 false r.2).program.map fun r2 =>
          (r2.1, r2.2.opAt r2.1, r2.2.codes.length))
      = some (9, some opStructFieldRecursive, 10) ∧
    ((compileHead exampleTypes 2 2 false Encoder.empty).program.bind fun r =>
        (compileHead exampleTypes 2 2 false r.2).program.bind fun r2 =>
          (r2.2.codes[r2.1]?).map fun c => (c.jmp, c.next, c.next.bind r2.2.opAt))
      = some (some 0, some 8, some opEnd) := by
  refine ⟨by decide, by decide, by decide⟩

theorem compile_struct_eq (T : Types) (fuel typ : Nat) (root withIndent : Bool) (e : Encoder)
    (hj : T.ImplementsMarshalJSON typ = false) (ht : T.ImplementsMarshalText typ = false)
    (hk : T.Kind typ = Kind.Struct) :
    compile T (fuel + 1) typ root withIndent e =
      compileStruct T (compile T fuel) typ root withIndent e := by
  rw [compile]
  simp only [hj, ht, hk, Bool.false_eq_true, if_false]

theorem compileHead_struct_eq (T : Types) (fuel typ : Nat) (withIndent : Bool) (e : Encoder)
    (hj : T.ImplementsMarshalJSON typ = false) (ht : T.ImplementsMarshalText typ = false)
    (hk : T.Kind typ = Kind.Struct) :
    compileHead T fuel typ withIndent e = compile T fuel typ true withIndent e := by
  unfold compileHead
  simp [hj, ht, hk]

theorem compiledCode_of_lookup (e : Encoder) (typ cell : Nat) (withIndent : Bool)
    (h : (if withIndent then e.structTypeToCompiledIndentCode
      else e.structTypeToCompiledCode).lookup typ = some cell) :
    e.compiledCode typ withIndent = some (recursiveCode typ cell e) := by
  unfold Encoder.compiledCode
  cases withIndent with
  | true => simp only [if_true] at h ⊢; rw [h]
  | false => simp only [Bool.false_eq_true, if_false] at h ⊢; rw [h]

/-- Claim C15 (amended): for a record type that is not in the memo table and on which a
first call of `compileHead` returns the program `h`, a second call on the resulting encoder
returns a new `opStructFieldRecursive` node, followed by a new `end` sentinel, whose `jmp`
is the memo entry of the type, and the `code` slot of that entry holds `h`: the second
program is a jump to the first, not a copy of it. -/
theorem second_compile_is_jump (T : Types) (fuel typ : Nat) (withIndent : Bool)
    (e e1 : Encoder) (h : Nat)
    (hj : T.ImplementsMarshalJSON typ = false) (ht : T.ImplementsMarshalText typ = false)
    (hk : T.Kind typ = Kind.Struct) (hmemo : e.compiledCode typ withIndent = none)
    (h1 : compileHead T fuel typ withIndent e = .ok h e1) :
    ∃ cell, e1.compiled[cell]? = some (compiledCode.mk (some h)) ∧
      compileHead T fuel typ withIndent e1 = .ok (e1.codes.length + 1)
        { e1 with codes := e1.codes ++
            [{ op := opEnd, indent := e1.indent },
             { op := opStructFieldRecursive, typ := some typ, indent := e1.indent,
               next := some e1.codes.length, jmp := some cell }] } := by
  rw [compileHead_struct_eq T fuel typ withIndent e hj ht hk] at h1
  rw [compileHead_struct_eq T fuel typ withIndent e1 hj ht hk]
  cases fuel with
  | zero => simp [compile] at h1
  | succ fuel =>
    rw [compile_struct_eq T fuel typ true withIndent e hj ht hk] at h1
    rw [compile_struct_eq T fuel typ true withIndent e1 hj ht hk]
    obtain ⟨_, _, _, _, _, _, _, _, _, _, hcell, hlook⟩ :=
      (compileStruct_spec T _ (compile_emits T fuel) typ true withIndent e e1 h h1).2 hmemo
    refine ⟨e.compiled.length, hcell, ?_⟩
    unfold compileStruct
    rw [compiledCode_of_lookup e1 typ _ withIndent hlook]
    simp only [recursiveCode, newEndOp, Encoder.alloc, List.append_assoc,
      List.singleton_append, List.length_append, List.length_singleton]

theorem second_compile_is_jump_witness :
    ∃ e1 cell, compileHead exampleTypes 2 2 false Encoder.empty = .ok 2 e1 ∧
      e1.compiled[cell]? = some (compiledCode.mk (some 2)) ∧
      compileHead exampleTypes 2 2 false e1 = .ok (e1.codes.length + 1)
        { e1 with codes := e1.codes ++
            [{ op := opEnd, indent := e1.indent },
             { op := opStructFieldRecursive, typ := some 2, indent := e1.indent,
               next := some e1.codes.length, jmp := some cell }] } := by
  have h1 : compileHead exampleTypes 2 2 false Encoder.empty
      = .ok 2 (((compileHead exampleTypes 2 2 false Encoder.empty).program.map
        Prod.snd).getD Encoder.empty) := by decide
  obtain ⟨cell, h2, h3⟩ := second_compile_is_jump exampleTypes 2 2 false Encoder.empty _ 2
    rfl rfl rfl (by decide) h1
  exact ⟨_, cell, h1, h2, h3⟩

/-! ## The forward edges of the nodes of a program -/

theorem not_or_eq_true (a b : Bool) : ((!a) || b) = true ↔ (a = true → b = true) := by
  cases a <;> cases b <;> decide

theorem decide_or_eq_true (p : Prop) [Decidable p] (b : Bool) :
    (decide p || b) = true ↔ (¬ p → b = true) := by
  by_cases hp : p <;> cases b <;> simp [hp]

theorem linkedBut_iff (c : opcode) : c.linkedBut = true ↔
    (c.op ≠ opEnd → c.next.isSome = true) ∧
    (c.op.isSeqHead = true → c.elem.isSome = true ∧ c.end_.isSome = true) ∧
    (c.op.isLoopMarker = true → c.end_.isSome = true) ∧
    (c.op.isMapHead = true →
      c.mapKey.isSome = true ∧ c.value.isSome = true ∧ c.end_.isSome = true) := by
  simp only [opcode.linkedBut, Bool.and_eq_true, not_or_eq_true, decide_or_eq_true, and_assoc,
    ne_eq]

theorem linked_iff (c : opcode) : c.linked = true ↔
    c.linkedBut = true ∧
    (c.op.isStructHead = true → c.nextField.isSome = true ∧ c.end_.isSome = true) ∧
    (c.op.isStructField = true → c.nextField.isSome = true) := by
  simp only [opcode.linked, Bool.and_eq_true, not_or_eq_true, and_assoc]

theorem linkedBut_setNext {c : opcode} (x : Nat) (h : c.linkedBut = true) :
    ({ c with next := some x } : opcode).linkedBut = true := by
  rw [linkedBut_iff] at h ⊢
  exact ⟨fun _ => rfl, h.2⟩

theorem linked_setNext {c : opcode} (x : Nat) (h : c.linked = true) :
    ({ c with next := some x } : opcode).linked = true := by
  rw [linked_iff] at h ⊢
  exact ⟨linkedBut_setNext x h.1, h.2⟩

theorem linkedBut_setNextField {c : opcode} (x : Nat) (h : c.linkedBut = true) :
    ({ c with nextField := some x } : opcode).linkedBut = true := h

theorem linked_setNextField {c : opcode} (x : Nat) (h : c.linked = true) :
    ({ c with nextField := some x } : opcode).linked = true := by
  rw [linked_iff] at h ⊢
  exact ⟨h.1, fun hh => ⟨rfl, (h.2.1 hh).2⟩, fun _ => rfl⟩

theorem linkedBut_setEnd {c : opcode} (x : Nat) (h : c.linkedBut = true) :
    ({ c with end_ := some x } : opcode).linkedBut = true := by
  rw [linkedBut_iff] at h ⊢
  exact ⟨h.1, fun hh => ⟨(h.2.1 hh).1, rfl⟩, fun _ => rfl,
    fun hh => ⟨(h.2.2.2 hh).1, (h.2.2.2 hh).2.1, rfl⟩⟩

theorem linked_setEnd {c : opcode} (x : Nat) (h : c.linked = true) :
    ({ c with end_ := some x } : opcode).linked = true := by
  rw [linked_iff] at h ⊢
  exact ⟨linkedBut_setEnd x h.1, fun hh => ⟨(h.2.1 hh).1, rfl⟩, h.2.2⟩

/-- A node keeps its edges when its op is replaced by one of the same kind. -/
theorem linked_setOp {c : opcode} (op : opType) (h : c.linked = true)
    (h1 : c.op = opEnd → op = opEnd) (h2 : op.isSeqHead = c.op.isSeqHead)
    (h3 : op.isLoopMarker = c.op.isLoopMarker) (h4 : op.isMapHead = c.op.isMapHead)
    (h5 : op.isStructHead = c.op.isStructHead) (h6 : op.isStructField = c.op.isStructField) :
    ({ c with op := op } : opcode).linked = true := by
  rw [linked_iff, linkedBut_iff] at h ⊢
  obtain ⟨⟨a1, a2, a3, a4⟩, a5, a6⟩ := h
  exact ⟨⟨fun hh => a1 (fun h' => hh (h1 h')), fun hh => a2 (h2 ▸ hh), fun hh => a3 (h3 ▸ hh),
    fun hh => a4 (h4 ▸ hh)⟩, fun hh => a5 (h5 ▸ hh), fun hh => a6 (h6 ▸ hh)⟩

theorem linked_of_linkedBut {c : opcode} (h : c.linkedBut = true)
    (h1 : c.op.isStructHead = true → c.end_.isSome = true)
    (h2 : c.nextField.isSome = true) : c.linked = true := by
  rw [linked_iff]
  exact ⟨h, fun hh => ⟨h2, h1 hh⟩, fun _ => h2⟩

theorem linkedBut_of_linked {c : opcode} (h : c.linked = true) : c.linkedBut = true :=
  ((linked_iff c).1 h).1

/-! ### Lists of nodes -/

theorem Linked.append_linked {lo : Nat} {L : List opcode} (h : Linked lo L) (M : List opcode)
    (hM : ∀ c ∈ M, c.linked = true) : Linked lo (L ++ M) := by
  intro a c ha hc
  by_cases hlt : a < L.length
  · rw [List.getElem?_append_left hlt] at hc
    exact h a c ha hc
  · exact hM c (mem_of_getElem?_append (by omega) hc)

theorem Linked.modify_node {lo : Nat} {L : List opcode} (h : Linked lo L) (f : opcode → opcode)
    (t : Nat) (hf : ∀ c, L[t]? = some c → c.linked = true → (f c).linked = true) :
    Linked lo (L.modify f t) := by
  intro a c ha hc
  rw [List.getElem?_modify] at hc
  cases hL : L[a]? with
  | none => rw [hL] at hc; simp at hc
  | some c0 =>
    rw [hL] at hc
    replace hc : (if t = a then f c0 else c0) = c := by
      simpa using hc
    subst hc
    split
    · rename_i hta
      subst hta
      exact hf c0 hL (h t c0 ha hL)
    · exact h a c0 ha hL

/-- The nodes of a callee that started at the end of `L`, together with those of `L`. -/
theorem Linked.extend_nodes {lo : Nat} {L L' : List opcode} (h : Linked lo L)
    (hseg : ∃ seg, L' = L ++ seg) (h' : Linked L.length L') : Linked lo L' := by
  obtain ⟨seg, rfl⟩ := hseg
  intro a c ha hc
  by_cases hlt : a < L.length
  · rw [List.getElem?_append_left hlt] at hc
    exact h a c ha hc
  · exact h' a c (by omega) hc

theorem Linked.fresh (L M : List opcode) (hM : M.all opcode.linked = true) :
    Linked L.length (L ++ M) := by
  intro a c ha hc
  exact List.all_eq_true.1 hM c (mem_of_getElem?_append ha hc)

/-- The nodes of a program whose last node is redirected, and new nodes after them. -/
theorem Linked.loop {lo : Nat} {L : List opcode} (h : Linked lo L) (t x : Nat)
    (M : List opcode) (hM : M.all opcode.linked = true) :
    Linked lo (L.modify (fun c => { c with next := some x }) t ++ M) :=
  (h.modify_node _ t (fun _ _ hc => linked_setNext x hc)).append_linked M (List.all_eq_true.1 hM)

theorem Linked.mono {lo lo' : Nat} {L : List opcode} (h : Linked lo L) (hle : lo ≤ lo') :
    Linked lo' L := fun a c ha hc => h a c (by omega) hc

/-! ## The edges of the programs of the compilers without a record -/

theorem compilePrim_linked (op : opType) (typ : Nat) (e e' : Encoder) (h : Nat)
    (h2 : op.isSeqHead = false) (h3 : op.isLoopMarker = false) (h4 : op.isMapHead = false)
    (h5 : op.isStructHead = false) (h6 : op.isStructField = false)
    (hc : compilePrim op typ e = .ok h e') : Linked e.codes.length e'.codes := by
  simp only [compilePrim, newEndOp, newOpCode, Encoder.alloc, Compile.ok.injEq,
    List.append_assoc, List.singleton_append, List.length_append, List.length_singleton] at hc
  obtain ⟨rfl, rfl⟩ := hc
  refine Linked.fresh _ _ ?_
  simp only [List.all_cons, List.all_nil, Bool.and_true, Bool.and_eq_true]
  exact ⟨rfl, by simp [opcode.linked, opcode.linkedBut, h2, h3, h4, h5, h6]⟩

theorem marshal_linked (op : opType) (typ : Nat) (e : Encoder)
    (h2 : op.isSeqHead = false) (h3 : op.isLoopMarker = false) (h4 : op.isMapHead = false)
    (h5 : op.isStructHead = false) (h6 : op.isStructField = false) :
    Linked e.codes.length (newOpCode op (some typ) (newEndOp e.indent e).2.indent
      (newEndOp e.indent e).1 (newEndOp e.indent e).2).2.codes := by
  simp only [newEndOp, newOpCode, Encoder.alloc,
    List.append_assoc, List.singleton_append, List.length_append, List.length_singleton]
  refine Linked.fresh _ _ ?_
  simp only [List.all_cons, List.all_nil, Bool.and_true, Bool.and_eq_true]
  exact ⟨rfl, by simp [opcode.linked, opcode.linkedBut, h2, h3, h4, h5, h6]⟩

theorem compileInterface_linked (typ : Nat) (root : Bool) (e e' : Encoder) (h : Nat)
    (hc : compileInterface typ root e = .ok h e') : Linked e.codes.length e'.codes := by
  simp only [compileInterface, newEndOp, Encoder.alloc, Compile.ok.injEq,
    List.append_assoc, List.singleton_append, List.length_append, List.length_singleton] at hc
  obtain ⟨rfl, rfl⟩ := hc
  exact Linked.fresh _ _ rfl

theorem recursiveCode_linked (typ code : Nat) (e : Encoder) :
    Linked e.codes.length (recursiveCode typ code e).2.codes := by
  simp only [recursiveCode, newEndOp, Encoder.alloc,
    List.append_assoc, List.singleton_append, List.length_append, List.length_singleton]
  exact Linked.fresh _ _ rfl

theorem headToPtrHead_linked {c : opcode} (h : c.linked = true) :
    ({ c with op := c.op.headToPtrHead } : opcode).linked = true := by
  refine linked_setOp _ h ?_ ?_ ?_ ?_ ?_ ?_
  · intro h0; rw [h0]; rfl
  all_goals cases c.op <;> rfl

theorem headToAnonymousHead_linked {c : opcode} (h : c.linked = true) :
    ({ c with op := c.op.headToAnonymousHead } : opcode).linked = true := by
  refine linked_setOp _ h ?_ ?_ ?_ ?_ ?_ ?_
  · intro h0; rw [h0]; rfl
  all_goals cases c.op <;> rfl

theorem optimizeStructFieldPtrHead_linked (typ code : Nat) (e e1 e' : Encoder) (h : Nat)
    (he : Emits e e1 code) (hl : Linked e.codes.length e1.codes)
    (hr : optimizeStructFieldPtrHead typ code e1 = .ok h e') :
    Linked e.codes.length e'.codes := by
  obtain ⟨t, z, k, hw, hl', hk⟩ := he.walk
  obtain ⟨cc, hcc1, hcc2⟩ := hw.head_ne_end hl'
  simp only [optimizeStructFieldPtrHead, hcc1] at hr
  split at hr
  · simp only [Encoder.assign, Compile.ok.injEq] at hr
    obtain ⟨rfl, rfl⟩ := hr
    refine hl.modify_node _ _ ?_
    intro c hc hlc
    rw [hcc1] at hc
    injection hc with hc
    subst hc
    exact headToPtrHead_linked hlc
  · simp only [newOpCode, Encoder.alloc, Compile.ok.injEq] at hr
    obtain ⟨rfl, rfl⟩ := hr
    exact hl.append_linked _ (List.all_eq_true.1 (by rfl))

theorem compilePtr_linked (T : Types) (compile : Nat → Bool → Bool → Encoder → Compile Nat)
    (hrec : RecEmits compile) (hlk : RecLinked compile) (typ : Nat) (root withIndent : Bool)
    (e e' : Encoder) (h : Nat)
    (hr : compilePtr T compile typ root withIndent e = .ok h e') :
    Linked e.codes.length e'.codes := by
  cases hc : compile (T.Elem typ) root withIndent e with
  | fault => simp [compilePtr, hc] at hr
  | diverged => simp [compilePtr, hc] at hr
  | err x e1 => simp [compilePtr, hc] at hr
  | ok code e1 =>
    simp only [compilePtr, hc] at hr
    exact optimizeStructFieldPtrHead_linked typ code e e1 e' h (hrec _ _ _ _ _ _ hc)
      (hlk _ _ _ _ _ _ hc) hr

theorem compileSlice_linked (T : Types) (compile : Nat → Bool → Bool → Encoder → Compile Nat)
    (hrec : RecEmits compile) (hlk : RecLinked compile) (typ : Nat) (root withIndent : Bool)
    (e e' : Encoder) (h : Nat)
    (hr : compileSlice T compile typ root withIndent e = .ok h e') :
    Linked e.codes.length e'.codes := by
  cases hc : compile (T.Elem typ) false withIndent { e with indent := e.indent + 1 } with
  | fault => simp [compileSlice, hc] at hr
  | diverged => simp [compileSlice, hc] at hr
  | err x e1 => simp [compileSlice, hc] at hr
  | ok code e1 =>
    have he := hrec _ _ _ _ _ _ hc
    have hl1 : Linked e.codes.length e1.codes := by
      have := hlk _ _ _ _ _ _ hc
      exact this
    obtain ⟨t, z, k, hw, hl, hk⟩ := he.walk
    have hkl : k ≤ e1.codes.length := by omega
    obtain ⟨ct, _, ht1, _⟩ := id hl
    have htlt : t < e1.codes.length := lt_length_of_getElem? ht1
    cases withIndent <;> cases root <;>
    simp only [compileSlice, hc, Bool.false_eq_true, if_false, if_true, List.cons_append,
      List.nil_append, newSliceHeaderCode, newEndOp, newOpCode, Encoder.alloc,
      Encoder.assign,
      List.append_assoc, List.singleton_append, List.length_append, List.length_singleton,
      List.length_cons, List.length_nil, modify_append_add, modify_append_len,
      List.modify_succ_cons, List.modify_zero_cons, Nat.zero_add, Nat.reduceAdd,
      beforeLastCode_append hw hl hkl, modify_append_lt _ _ _ _ htlt, modify_modify_append_add,
      Compile.ok.injEq] at hr <;>
    obtain ⟨rfl, rfl⟩ := hr <;>
    exact hl1.loop _ _ _ rfl

theorem compileArray_linked (T : Types) (compile : Nat → Bool → Bool → Encoder → Compile Nat)
    (hrec : RecEmits compile) (hlk : RecLinked compile) (typ : Nat) (root withIndent : Bool)
    (e e' : Encoder) (h : Nat)
    (hr : compileArray T compile typ root withIndent e = .ok h e') :
    Linked e.codes.length e'.codes := by
  cases hc : compile (T.Elem typ) false withIndent { e with indent := e.indent + 1 } with
  | fault => simp [compileArray, hc] at hr
  | diverged => simp [compileArray, hc] at hr
  | err x e1 => simp [compileArray, hc] at hr
  | ok code e1 =>
    have he := hrec _ _ _ _ _ _ hc
    have hl1 : Linked e.codes.length e1.codes := by
      have := hlk _ _ _ _ _ _ hc
      exact this
    obtain ⟨t, z, k, hw, hl, hk⟩ := he.walk
    have hkl : k ≤ e1.codes.length := by omega
    obtain ⟨ct, _, ht1, _⟩ := id hl
    have htlt : t < e1.codes.length := lt_length_of_getElem? ht1
    cases withIndent <;>
    simp only [compileArray, hc, Bool.false_eq_true, if_false, if_true, List.cons_append,
      List.nil_append, newArrayHeaderCode, newEndOp, newOpCode, Encoder.alloc,
      Encoder.assign,
      List.append_assoc, List.singleton_append, List.length_append, List.length_singleton,
      List.length_cons, List.length_nil, modify_append_add, modify_append_len,
      List.modify_succ_cons, List.modify_zero_cons, Nat.zero_add, Nat.reduceAdd,
      beforeLastCode_append hw hl hkl, modify_append_lt _ _ _ _ htlt, modify_modify_append_add,
      Compile.ok.injEq] at hr <;>
    obtain ⟨rfl, rfl⟩ := hr <;>
    exact hl1.loop _ _ _ rfl

theorem compileMap_linked (T : Types) (compile : Nat → Bool → Bool → Encoder → Compile Nat)
    (hrec : RecEmits compile) (hlk : RecLinked compile) (typ : Nat)
    (withLoad root withIndent : Bool) (e e' : Encoder)
    (h : Nat) (hr : compileMap T compile typ withLoad root withIndent e = .ok h e') :
    Linked e.codes.length e'.codes := by
  cases hc1 : compile (T.Key typ) false withIndent { e with indent := e.indent + 1 } with
  | fault => simp [compileMap, hc1] at hr
  | diverged => simp [compileMap, hc1] at hr
  | err x e1 => simp [compileMap, hc1] at hr
  | ok keyCode e1 =>
    cases hc2 : compile (T.Elem typ) false withIndent e1 with
    | fault => simp [compileMap, hc1, hc2] at hr
    | diverged => simp [compileMap, hc1, hc2] at hr
    | err x e2 => simp [compileMap, hc1, hc2] at hr
    | ok valueCode e2 =>
      have he1 := hrec _ _ _ _ _ _ hc1
      have he2 := hrec _ _ _ _ _ _ hc2
      have hlk1 : Linked e.codes.length e1.codes := by
        have := hlk _ _ _ _ _ _ hc1
        exact this
      have hlk2 : Linked e.codes.length e2.codes :=
        hlk1.extend_nodes he2.codes (hlk _ _ _ _ _ _ hc2)
      obtain ⟨t1, z1, k1, hw1, hl1, hk1⟩ := he1.walk
      obtain ⟨t2, z2, k2, hw2, hl2, hk2⟩ := he2.walk
      obtain ⟨seg2, hseg2⟩ := he2.codes
      have hlo2 : e1.codes.length ≤ e2.codes.length := by rw [hseg2]; simp
      obtain ⟨ct1, _, ht11, _⟩ := id hl1
      obtain ⟨ct2, _, ht21, _⟩ := id hl2
      have ht1lt : t1 < e1.codes.length := lt_length_of_getElem? ht11
      have ht2lt : t2 < e2.codes.length := lt_length_of_getElem? ht21
      have hw1' : WalkTo e2.codes e.codes.length e1.codes.length k1 keyCode t1 := by
        rw [hseg2]; exact hw1.congr (sameWalk_append _ _ _ _)
      have hl1' : IsLast e2.codes e.codes.length t1 z1 := by
        rw [hseg2]; exact hl1.append_nodes _
      have hb1 := beforeLastCode_append hw1' hl1' (show k1 ≤ e2.codes.length by
        have : e.codes.length + k1 + 2 ≤ e1.codes.length := hk1
        omega)
      have hb2 := fun f M => beforeLastCode_modify_append hw2 hl2
        (show k2 ≤ e2.codes.length by omega) f t1 ht1lt M
      cases withLoad <;> cases withIndent <;> cases root <;>
      simp only [compileMap, hc1, hc2, Bool.false_eq_true, if_false, if_true, List.cons_append,
        List.nil_append, newMapHeaderCode, newMapKeyCode, newMapValueCode, newEndOp, newOpCode,
        Encoder.alloc, Encoder.assign,
        List.append_assoc, List.singleton_append, List.length_append, List.length_singleton,
        List.length_cons, List.length_nil, modify_append_add, modify_append_len,
        List.modify_succ_cons, List.modify_zero_cons, Nat.zero_add, Nat.reduceAdd,
        getElem?_append_add, List.getElem?_cons_succ, List.getElem?_cons_zero, Option.map_some',
        Option.some.injEq, reduceCtorEq,
        hb1, modify_append_lt _ _ _ _ (show t1 < e2.codes.length by omega), hb2,
        modify_modify_append_add, modify_modify_append_lt _ _ _ _ _ _ ht2lt,
        modify2_append_add, modify2_append_len,
        Compile.ok.injEq] at hr <;>
      obtain ⟨rfl, rfl⟩ := hr <;>
      exact ((hlk2.modify_node _ t1 (fun _ _ hc => linked_setNext _ hc)).modify_node _ t2
        (fun _ _ hc => linked_setNext _ hc)).append_linked _ (List.all_eq_true.1 (by rfl))

/-! ## The edges of the program of a record -/

theorem LinkedBut.to_linked {lo : Nat} {L : List opcode} (h : LinkedBut lo L []) :
    Linked lo L := by
  intro a c ha hc
  rcases h a c ha hc with h1 | ⟨⟨p, hp, _⟩, _⟩
  · exact h1
  · cases hp

theorem LinkedBut.extend_but {lo : Nat} {L L' : List opcode} {chain : List (Nat × StructField)}
    (h : LinkedBut lo L chain) (hseg : ∃ seg, L' = L ++ seg) (h' : Linked L.length L') :
    LinkedBut lo L' chain := by
  obtain ⟨seg, rfl⟩ := hseg
  intro a c ha hc
  by_cases hlt : a < L.length
  · rw [List.getElem?_append_left hlt] at hc
    exact h a c ha hc
  · exact Or.inl (h' a c (by omega) hc)

theorem LinkedBut.modify_same {lo : Nat} {L : List opcode} {chain : List (Nat × StructField)}
    (h : LinkedBut lo L chain) (f : opcode → opcode) (t : Nat)
    (hf1 : ∀ c, c.linked = true → (f c).linked = true)
    (hf2 : ∀ c, c.linkedBut = true → (f c).linkedBut = true)
    (hf3 : ∀ c, (f c).op = c.op) : LinkedBut lo (L.modify f t) chain := by
  intro a c ha hc
  rw [List.getElem?_modify] at hc
  cases hL : L[a]? with
  | none => rw [hL] at hc; simp at hc
  | some c0 =>
    rw [hL] at hc
    replace hc : (if t = a then f c0 else c0) = c := by
      simpa using hc
    subst hc
    split
    · rcases h a c0 ha hL with h1 | ⟨h1, h2, h3⟩
      · exact Or.inl (hf1 c0 h1)
      · exact Or.inr ⟨h1, hf2 c0 h2, h3.imp id (fun hh => by rw [hf3]; exact hh)⟩
    · exact h a c0 ha hL

theorem LinkedBut.append_all {lo : Nat} {L : List opcode} {chain : List (Nat × StructField)}
    (h : LinkedBut lo L chain) (M : List opcode) (hM : M.all opcode.linked = true) :
    LinkedBut lo (L ++ M) chain := by
  intro a c ha hc
  by_cases hlt : a < L.length
  · rw [List.getElem?_append_left hlt] at hc
    exact h a c ha hc
  · exact Or.inl (List.all_eq_true.1 hM c (mem_of_getElem?_append (by omega) hc))

/-- The node of a further kept field is added. -/
theorem LinkedBut.snoc_field {lo : Nat} {L : List opcode} {chain : List (Nat × StructField)}
    (h : LinkedBut lo L chain) (fc : opcode) (n : Nat) (field : StructField)
    (hn : n = L.length) (h1 : fc.linkedBut = true)
    (h2 : chain = [] ∨ fc.op.isStructHead = false) :
    LinkedBut lo (L ++ [fc]) (chain ++ [(n, field)]) := by
  subst hn
  intro a c ha hc
  by_cases hlt : a < L.length
  · rw [List.getElem?_append_left hlt] at hc
    rcases h a c ha hc with h' | ⟨⟨p, hp, hpa⟩, h4, h5⟩
    · exact Or.inl h'
    · refine Or.inr ⟨⟨p, List.mem_append_left _ hp, hpa⟩, h4, h5.imp (fun hh => ?_) id⟩
      cases chain with
      | nil => cases hp
      | cons q rest => exact hh
  · have := mem_of_getElem?_append (by omega) hc
    simp only [List.mem_singleton] at this
    subst this
    have ha' : a = L.length := by
      have := lt_length_of_getElem? hc
      simp only [List.length_append, List.length_singleton] at this
      omega
    subst ha'
    refine Or.inr ⟨⟨_, List.mem_append_right _ (List.mem_singleton_self _), rfl⟩, h1, ?_⟩
    rcases h2 with rfl | h2
    · exact Or.inl rfl
    · exact Or.inr h2

theorem FieldChain.nextField_isSome {codes : List opcode} {chain : List (Nat × StructField)}
    {se : Nat} (h : FieldChain codes chain (some se)) :
    ∀ p ∈ chain, ∃ c, codes[p.1]? = some c ∧ c.nextField.isSome = true := by
  induction chain with
  | nil => simp
  | cons q rest ih =>
    obtain ⟨a, g⟩ := q
    obtain ⟨⟨c, hc, _, _, hnf, _⟩, hrest⟩ := h
    intro p hp
    rcases List.mem_cons.1 hp with rfl | hp
    · refine ⟨c, hc, ?_⟩
      rw [hnf]
      cases rest with
      | nil => rfl
      | cons r rest' => rfl
    · exact ih hrest p hp

/-- The end of the field loop: every field node has its `nextField`, the head its `end`. -/
theorem LinkedBut.close_chain {lo : Nat} {L : List opcode} {chain : List (Nat × StructField)}
    (h : LinkedBut lo L chain)
    (h1 : ∀ p ∈ chain, ∃ c, L[p.1]? = some c ∧ c.nextField.isSome = true)
    (h2 : ∀ hd, chain.head?.map Prod.fst = some hd →
      ∃ ch, L[hd]? = some ch ∧ ch.end_.isSome = true) : Linked lo L := by
  intro a c ha hc
  rcases h a c ha hc with h' | ⟨⟨p, hp, rfl⟩, h4, h5⟩
  · exact h'
  · obtain ⟨c1, hc1, hnf⟩ := h1 p hp
    rw [hc] at hc1
    injection hc1 with hc1
    subst hc1
    refine linked_of_linkedBut h4 ?_ hnf
    intro hsh
    rcases h5 with h5 | h5
    · obtain ⟨ch, hch, hend⟩ := h2 _ h5
      rw [hc] at hch
      injection hch with hch
      subst hch
      exact hend
    · rw [h5] at hsh; cases hsh

theorem anonymousFrom_linked (lo : Nat) :
    ∀ (fuel f : Nat) (e e' : Encoder) (u : Unit), anonymousFrom fuel f e = .ok u e' →
      Linked lo e.codes → Linked lo e'.codes := by
  intro fuel
  induction fuel with
  | zero => intro f e e' u h; simp [anonymousFrom] at h
  | succ fuel ih =>
    intro f e e' u h hl
    unfold anonymousFrom at h
    cases hc : e.codes[f]? with
    | none => simp [hc] at h
    | some c =>
      simp only [hc] at h
      have hl1 : Linked lo
          (e.assign f fun c => { c with op := c.op.headToAnonymousHead }).codes :=
        hl.modify_node _ f (fun _ _ h => headToAnonymousHead_linked h)
      have hc1 : (e.codes.modify (fun c => { c with op := c.op.headToAnonymousHead }) f)[f]? =
          some { c with op := c.op.headToAnonymousHead } := by
        rw [List.getElem?_modify_eq, hc]; rfl
      have hl2 : Linked lo
          (if c.op.headToAnonymousHead = opStructEnd then
            (e.assign f fun c => { c with op := c.op.headToAnonymousHead }).assign f
              fun c => { c with op := opStructAnonymousEnd }
           else e.assign f fun c => { c with op := c.op.headToAnonymousHead }).codes := by
        split
        · rename_i hop
          refine hl1.modify_node _ f ?_
          intro c' hc' hlc'
          replace hc' : (e.codes.modify (fun c => { c with op := c.op.headToAnonymousHead })
            f)[f]? = some c' := hc'
          rw [hc1] at hc'
          injection hc' with hc'
          subst hc'
          refine linked_setOp _ hlc' ?_ ?_ ?_ ?_ ?_ ?_
          · intro h0
            replace h0 : c.op.headToAnonymousHead = opEnd := h0
            rw [hop] at h0; cases h0
          all_goals (dsimp only; rw [hop]; rfl)
        · exact hl1
      cases hnf : c.nextField with
      | none =>
        simp only [hnf, Compile.ok.injEq] at h
        rw [← h.2]; exact hl2
      | some b =>
        simp only [hnf] at h
        exact ih b _ e' u h hl2

theorem optimizeStructHeader_linkedBut (c : opcode) (op : opType) (o i : Bool)
    (h : c.op = optimizeStructHeader op o i) (hn : c.next.isSome = true) :
    c.linkedBut = true := by
  obtain ⟨k, o', i', hk⟩ := optimizeStructHeader_head op o i
  rw [hk] at h
  rw [linkedBut_iff, h]
  refine ⟨fun _ => hn, fun hh => ?_, fun hh => ?_, fun hh => ?_⟩ <;>
    exact absurd hh (by simp [opType.isSeqHead, opType.isLoopMarker, opType.isMapHead])

theorem optimizeStructField_linkedBut (c : opcode) (op : opType) (o i : Bool)
    (h : c.op = optimizeStructField op o i) (hn : c.next.isSome = true) :
    c.linkedBut = true := by
  obtain ⟨k, o', i', hk⟩ := optimizeStructField_field op o i
  rw [hk] at h
  rw [linkedBut_iff, h]
  refine ⟨fun _ => hn, fun hh => ?_, fun hh => ?_, fun hh => ?_⟩ <;>
    exact absurd hh (by simp [opType.isSeqHead, opType.isLoopMarker, opType.isMapHead])

theorem optimizeStructField_not_head (op : opType) (o i : Bool) :
    (optimizeStructField op o i).isStructHead = false := by
  obtain ⟨k, o', i', hk⟩ := optimizeStructField_field op o i
  rw [hk]; rfl

theorem Linked.after_anonymousFrom {lo : Nat} {e1 e1a : Encoder} {valueCode : Nat} {u : Unit}
    (hl : Linked lo e1.codes) (anonymous : Bool)
    (h : (if anonymous then anonymousFrom (e1.codes.length + 1) valueCode e1 else .ok () e1)
      = .ok u e1a) : Linked lo e1a.codes := by
  cases anonymous with
  | false =>
    simp only [Bool.false_eq_true, if_false, Compile.ok.injEq] at h
    rw [← h.2]; exact hl
  | true =>
    simp only [if_true] at h
    exact anonymousFrom_linked lo _ _ _ _ _ h hl

/-- The field loop of `compileStruct` keeps the edges of the nodes in order, the `nextField`
and `end` of the field nodes apart, which are set later. -/
theorem compileStructFields_linked (compile : Nat → Bool → Bool → Encoder → Compile Nat)
    (hrec : RecEmits compile) (hlk : RecLinked compile) (withIndent : Bool) (e0 : Encoder) :
    ∀ (fields : List StructField) (v : structVars) (e : Encoder)
      (chain : List (Nat × StructField)) (v' : structVars) (e' : Encoder),
      StructInv e0 e v chain → LinkedBut e0.codes.length e.codes chain →
      compileStructFields compile withIndent fields v e = .ok v' e' →
      ∃ chain', StructInv e0 e' v' chain' ∧ LinkedBut e0.codes.length e'.codes chain' := by
  intro fields
  induction fields with
  | nil =>
    intro v e chain v' e' hinv hlb h
    simp only [compileStructFields, Compile.ok.injEq] at h
    obtain ⟨rfl, rfl⟩ := h
    exact ⟨chain, hinv, hlb⟩
  | cons field fields ih =>
    intro v e chain v' e' hinv hlb h
    rw [compileStructFields] at h
    by_cases hig : isIgnoredStructField field = true
    · rw [if_pos hig] at h
      exact ih v e chain v' e' hinv hlb h
    · rw [if_neg hig] at h
      simp only at h
      cases hc : compile field.Typ false withIndent e with
      | fault => simp [hc] at h
      | diverged => simp [hc] at h
      | err x e1 => simp [hc] at h
      | ok valueCode e1 =>
        simp only [hc] at h
        have hE1 := hrec _ _ _ _ _ _ hc
        have hL1 : Linked e.codes.length e1.codes := hlk _ _ _ _ _ _ hc
        cases hA : (if field.Anonymous then anonymousFrom (e1.codes.length + 1) valueCode e1
            else .ok () e1) with
        | fault => simp [hA] at h
        | diverged => simp [hA] at h
        | err x e1a => simp [hA] at h
        | ok u e1a =>
          simp only [hA] at h
          have hE := hE1.after_anonymous field.Anonymous hA
          have hL1a : Linked e.codes.length e1a.codes := hL1.after_anonymousFrom field.Anonymous hA
          have hlb1 : LinkedBut e0.codes.length e1a.codes chain := hlb.extend_but hE.codes hL1a
          obtain ⟨t, z, k1, hw, hl, hk⟩ := hE.walk
          obtain ⟨cv, hcv1, hcv2⟩ := hw.head_ne_end hl
          have hvlt : valueCode < e1a.codes.length := hw.lt_hi
          have hvlo : e.codes.length ≤ valueCode := hw.lo_le
          simp only [Encoder.alloc] at h
          have hkey' : "\"" ++ (keyNameAndOmitEmptyFromField field).1 ++ "\":" = fieldKey field :=
            rfl
          generalize "\"" ++ (keyNameAndOmitEmptyFromField field).1 ++ "\":" = key at h hkey'
          generalize (keyNameAndOmitEmptyFromField field).2 = om at h
          have hvA : ∀ fc0 : opcode, (e1a.codes ++ [fc0])[valueCode]? = some cv := by
            intro fc0; rw [List.getElem?_append_left hvlt]; exact hcv1
          rcases hinv.vars with ⟨hch, hv0⟩ | ⟨hd, pf, cur, k, cc, hidx, hhead, hprev, hcur, hhd,
              hpf, hw0, hcc1, hcc2, hcc3, hk0, hch⟩
          · subst hch hv0
            simp only [if_true] at h
            cases hsh : structHeader e1a.codes.length valueCode om withIndent
                { e1a with codes := e1a.codes ++
                  [{ op := opEnd, typ := some field.Typ, indent := e1a.indent,
                     next := some valueCode, key := key,
                     offset := field.Offset, anonymousKey := field.Anonymous }] } with
            | fault => simp [hsh] at h
            | diverged => simp [hsh] at h
            | err x e2 => simp [hsh] at h
            | ok code e2 =>
              simp only [hsh] at h
              obtain ⟨he2, hcode⟩ := structHeader_spec _ _ _ _ _ _ _ cv (by omega) (hvA _) hsh
              simp only [modify_append_len, List.modify_zero_cons] at he2
              rw [he2] at hcode h
              have hinv1 := structInv_first e0 e e1a valueCode code field
                { op := optimizeStructHeader cv.op om withIndent, typ := some field.Typ,
                  indent := e1a.indent - 1, next := some valueCode, key := key,
                  offset := field.Offset, anonymousKey := field.Anonymous } hinv hE
                (optimizeStructHeader_ne_end cv.op _ withIndent)
                (optimizeStructHeader_marker cv.op _ withIndent) rfl rfl hkey' rfl rfl hcode
              have hlb2 := hlb1.snoc_field
                { op := optimizeStructHeader cv.op om withIndent, typ := some field.Typ,
                  indent := e1a.indent - 1, next := some valueCode, key := key,
                  offset := field.Offset, anonymousKey := field.Anonymous }
                e1a.codes.length field rfl
                (optimizeStructHeader_linkedBut _ cv.op om withIndent rfl rfl) (Or.inl rfl)
              exact ih _ _ _ v' e' hinv1 hlb2 h
          · have hcurlt : cur < e.codes.length := lt_length_of_getElem? hcc1
            obtain ⟨seg1, hseg1⟩ := hE.codes
            have hlo1 : e.codes.length ≤ e1a.codes.length := by rw [hseg1]; simp
            obtain ⟨plast, hplast, hplast1⟩ : ∃ p ∈ chain, p.1 = pf := by
              cases hgl : chain.getLast? with
              | none => rw [hgl] at hpf; simp at hpf
              | some p =>
                rw [hgl] at hpf
                simp only [Option.map_some', Option.some.injEq] at hpf
                exact ⟨p, List.mem_of_getLast?_eq_some hgl, hpf⟩
            have hpflt : pf < e.codes.length := by
              have := hinv.links.mem_lt plast hplast; omega
            simp only [if_neg hidx, hcur, hprev, hhead, Encoder.assign,
              modify_append_lt _ _ _ _ (show cur < e1a.codes.length by omega)] at h
            have hvB : ∀ fc0 : opcode, (e1a.codes.modify
                (fun c => { c with next := some e1a.codes.length }) cur ++ [fc0])[valueCode]?
                = some cv := by
              intro fc0
              rw [getElem?_modify_append hcv1, if_neg (by omega)]
            cases hsf : structField e1a.codes.length valueCode om withIndent
                { e1a with codes := (e1a.codes.modify
                    (fun c => { c with next := some e1a.codes.length }) cur) ++
                  [{ op := opEnd, typ := some field.Typ, indent := e1a.indent,
                     next := some valueCode, key := key,
                     offset := field.Offset, anonymousKey := field.Anonymous }] } with
            | fault => simp [hsf] at h
            | diverged => simp [hsf] at h
            | err x e2 => simp [hsf] at h
            | ok code e2 =>
              simp only [hsf] at h
              obtain ⟨he2, hcode⟩ := structField_spec _ _ _ _ _ _ _ cv (hvB _) hsf
              simp only [modify_modify_append_add, List.modify_zero_cons] at he2
              have hlen0 := modify_modify_append_add e1a.codes
                [{ op := opEnd, typ := some field.Typ, indent := e1a.indent,
                   next := some valueCode, key := key,
                   offset := field.Offset, anonymousKey := field.Anonymous }]
                (fun c => { c with op := optimizeStructField cv.op om withIndent })
                (fun c => { c with next := some e1a.codes.length }) cur 0
              simp only [Nat.add_zero, List.modify_zero_cons] at hlen0
              rw [hlen0] at he2
              rw [he2] at hcode h
              simp only [modify_modify_append_lt _ _ _ _ _ _
                (show pf < e1a.codes.length by omega)] at h
              have hinv1 := structInv_later e0 e e1a v chain valueCode code hd pf cur k cc field
                { op := optimizeStructField cv.op om withIndent, typ := some field.Typ,
                  indent := e1a.indent, next := some valueCode, key := key,
                  offset := field.Offset, anonymousKey := field.Anonymous } hinv hhd hpf hw0
                hcc1 hcc2 hcc3 hk0 hch hE
                (optimizeStructField_ne_end cv.op _ withIndent)
                (optimizeStructField_marker cv.op _ withIndent) rfl rfl hkey' rfl rfl hcode
              have hlb2 := (((hlb1.modify_same (fun c => { c with next := some e1a.codes.length })
                cur (fun _ hc => linked_setNext _ hc) (fun _ hc => linkedBut_setNext _ hc)
                (fun _ => rfl)).modify_same
                (fun c => { c with nextField := some e1a.codes.length }) pf
                (fun _ hc => linked_setNextField _ hc)
                (fun _ hc => linkedBut_setNextField _ hc) (fun _ => rfl))).snoc_field
                { op := optimizeStructField cv.op om withIndent, typ := some field.Typ,
                  indent := e1a.indent, next := some valueCode, key := key,
                  offset := field.Offset, anonymousKey := field.Anonymous }
                e1a.codes.length field (by simp)
                (optimizeStructField_linkedBut _ cv.op om withIndent rfl rfl)
                (Or.inr (optimizeStructField_not_head cv.op om withIndent))
              exact ih _ _ _ v' e' hinv1 hlb2 h

theorem LinkedBut.start (L : List opcode) : LinkedBut L.length L [] := by
  intro a c ha hc
  have := lt_length_of_getElem? hc
  omega

theorem compiledCode_linked {e e1 : Encoder} {typ code : Nat} {withIndent : Bool}
    (h : e.compiledCode typ withIndent = some (code, e1)) :
    Linked e.codes.length e1.codes := by
  unfold Encoder.compiledCode at h
  cases withIndent with
  | true =>
    simp only [if_true] at h
    cases hl : e.structTypeToCompiledIndentCode.lookup typ with
    | none => simp [hl] at h
    | some c =>
      simp only [hl, Option.some.injEq] at h
      have := recursiveCode_linked typ c e
      rw [h] at this; exact this
  | false =>
    simp only [Bool.false_eq_true, if_false] at h
    cases hl : e.structTypeToCompiledCode.lookup typ with
    | none => simp [hl] at h
    | some c =>
      simp only [hl, Option.some.injEq] at h
      have := recursiveCode_linked typ c e
      rw [h] at this; exact this

/-- The end of `compileStruct` for a record with a kept field, for the edges. -/
theorem linked_finish {lo : Nat} {L : List opcode} {chain : List (Nat × StructField)}
    (h : LinkedBut lo L chain) (pf hd cur n : Nat) (M : List opcode)
    (hM : M.all opcode.linked = true)
    (h1 : FieldChain (((L.modify (fun c => { c with nextField := some n }) pf).modify
        (fun c => { c with end_ := some n }) hd).modify
        (fun c => { c with next := some n }) cur ++ M) chain (some n))
    (hhd : chain.head?.map Prod.fst = some hd)
    (h2 : ∃ ch, (((L.modify (fun c => { c with nextField := some n }) pf).modify
        (fun c => { c with end_ := some n }) hd).modify
        (fun c => { c with next := some n }) cur ++ M)[hd]? = some ch ∧ ch.end_ = some n) :
    Linked lo (((L.modify (fun c => { c with nextField := some n }) pf).modify
        (fun c => { c with end_ := some n }) hd).modify
        (fun c => { c with next := some n }) cur ++ M) := by
  refine LinkedBut.close_chain ((((h.modify_same _ pf (fun _ hc => linked_setNextField _ hc)
    (fun _ hc => linkedBut_setNextField _ hc) (fun _ => rfl)).modify_same _ hd
    (fun _ hc => linked_setEnd _ hc) (fun _ hc => linkedBut_setEnd _ hc) (fun _ => rfl)).modify_same
    _ cur (fun _ hc => linked_setNext _ hc) (fun _ hc => linkedBut_setNext _ hc)
    (fun _ => rfl)).append_all M hM) h1.nextField_isSome ?_
  intro hd' hhd'
  rw [hhd] at hhd'
  injection hhd' with hhd'
  subst hhd'
  obtain ⟨ch, hch, hend⟩ := h2
  exact ⟨ch, hch, by rw [hend]; rfl⟩

theorem compileStruct_linked (T : Types) (compile : Nat → Bool → Bool → Encoder → Compile Nat)
    (hrec : RecEmits compile) (hlk : RecLinked compile) (typ : Nat) (root withIndent : Bool)
    (e e' : Encoder) (h : Nat)
    (hr : compileStruct T compile typ root withIndent e = .ok h e') :
    Linked e.codes.length e'.codes := by
  cases hm : e.compiledCode typ withIndent with
  | some p =>
    obtain ⟨code, e1⟩ := p
    simp only [compileStruct, hm, Compile.ok.injEq] at hr
    obtain ⟨rfl, rfl⟩ := hr
    exact compiledCode_linked hm
  | none =>
    have hmiss := compiledCode_none hm
    cases withIndent with
    | false =>
      simp only [Bool.false_eq_true, if_false] at hmiss
      simp only [compileStruct, hm, Bool.false_eq_true, if_false] at hr
      cases hloop : compileStructFields compile false (T.Fields typ)
          { fieldIdx := 0, head := none, code := none, prevField := none }
          { indent := e.indent + 1
            structTypeToCompiledCode := (typ, e.compiled.length) :: e.structTypeToCompiledCode
            structTypeToCompiledIndentCode := e.structTypeToCompiledIndentCode
            codes := e.codes
            compiled := e.compiled ++ [compiledCode.mk none] } with
      | fault => simp [hloop] at hr
      | diverged => simp [hloop] at hr
      | err x eb => simp [hloop] at hr
      | ok v eb =>
        have hs := structInv_start e ((typ, e.compiled.length) :: e.structTypeToCompiledCode)
          e.structTypeToCompiledIndentCode (e.compiled ++ [compiledCode.mk none]) (e.indent + 1)
        obtain ⟨chain, hinv, hlb⟩ := compileStructFields_linked compile hrec hlk false _ _ _ _
          _ _ _ hs (LinkedBut.start e.codes) hloop
        replace hlb : LinkedBut e.codes.length eb.codes chain := hlb
        rcases hinv.vars with ⟨hch, hv0⟩ | ⟨hd, pf, cur, k, cc, hidx, hhead, hprev, hcur, hhd,
            hpf, hw0, hcc1, hcc2, hcc3, hk0, hch⟩
        · subst hch hv0
          simp only [hloop, Encoder.alloc, Encoder.assign, newEndOp,
            List.append_assoc, List.singleton_append, List.length_append,
            List.length_singleton, List.length_cons, List.length_nil, modify_append_add,
            modify_append_len, List.modify_succ_cons, List.modify_zero_cons, Nat.zero_add,
            Nat.reduceAdd, List.cons_append, List.nil_append, Compile.ok.injEq] at hr
          obtain ⟨rfl, rfl⟩ := hr
          exact hlb.to_linked.append_linked _ (List.all_eq_true.1 (by rfl))
        · obtain ⟨cpf, hcpf1, hcpf2⟩ := hinv.links.last_nextField hpf
          have hpflt : pf < eb.codes.length := lt_length_of_getElem? hcpf1
          have hhdlt : hd < eb.codes.length := hw0.lt_hi
          have hcurlt : cur < eb.codes.length := lt_length_of_getElem? hcc1
          have hpfn : ∀ M : List opcode,
              ((eb.codes ++ M)[pf]?).bind (fun c => c.nextField) = none := by
            intro M
            rw [List.getElem?_append_left hpflt, hcpf1]; exact hcpf2
          simp only [hloop, hhead, hprev, hcur, Encoder.alloc, Encoder.assign, newEndOp,
            List.append_assoc, List.singleton_append, List.length_append,
            List.length_singleton, List.length_cons, List.length_nil, modify_append_add,
            modify_append_len, List.modify_succ_cons, List.modify_zero_cons, Nat.zero_add,
            Nat.reduceAdd, List.cons_append, List.nil_append, hpfn, if_true,
            modify_append_lt _ _ _ _ hpflt, modify_modify_append_lt _ _ _ _ _ _ hhdlt,
            modify_append_lt _ _ _ _ (show cur < ((eb.codes.modify
              (fun c => { c with nextField := some eb.codes.length }) pf).modify
              (fun c => { c with end_ := some eb.codes.length }) hd).length by simpa using hcurlt),
            Compile.ok.injEq] at hr
          obtain ⟨rfl, rfl⟩ := hr
          obtain ⟨h1, h2, h3, h4, h5, h6⟩ := struct_finish e eb _ _ _ v chain hd pf cur k cc
            { op := opStructEnd, typ := none, indent := eb.indent - 1,
              next := some (eb.codes.length + 1) }
            { op := opEnd, indent := eb.indent - 1 }
            (fun t c h => lookup_cons_of_none hmiss h) (fun _ _ h => h) hinv hhd hpf hw0 hcc1
            hcc2 hcc3 hk0 hch rfl
            (by show opStructEnd ≠ opEnd; decide) rfl rfl rfl rfl rfl
          exact linked_finish hlb pf hd cur eb.codes.length _ rfl h2 hhd h3
    | true =>
      simp only [if_true] at hmiss
      simp only [compileStruct, hm, if_true] at hr
      cases hloop : compileStructFields compile true (T.Fields typ)
          { fieldIdx := 0, head := none, code := none, prevField := none }
          { indent := e.indent + 1
            structTypeToCompiledCode := e.structTypeToCompiledCode
            structTypeToCompiledIndentCode :=
              (typ, e.compiled.length) :: e.structTypeToCompiledIndentCode
            codes := e.codes
            compiled := e.compiled ++ [compiledCode.mk none] } with
      | fault => simp [hloop] at hr
      | diverged => simp [hloop] at hr
      | err x eb => simp [hloop] at hr
      | ok v eb =>
        have hs := structInv_start e e.structTypeToCompiledCode
          ((typ, e.compiled.length) :: e.structTypeToCompiledIndentCode)
          (e.compiled ++ [compiledCode.mk none]) (e.indent + 1)
        obtain ⟨chain, hinv, hlb⟩ := compileStructFields_linked compile hrec hlk true _ _ _ _
          _ _ _ hs (LinkedBut.start e.codes) hloop
        replace hlb : LinkedBut e.codes.length eb.codes chain := hlb
        rcases hinv.vars with ⟨hch, hv0⟩ | ⟨hd, pf, cur, k, cc, hidx, hhead, hprev, hcur, hhd,
            hpf, hw0, hcc1, hcc2, hcc3, hk0, hch⟩
        · subst hch hv0
          simp only [hloop, Encoder.alloc, Encoder.assign, newEndOp,
            List.append_assoc, List.singleton_append, List.length_append,
            List.length_singleton, List.length_cons, List.length_nil, modify_append_add,
            modify_append_len, List.modify_succ_cons, List.modify_zero_cons, Nat.zero_add,
            Nat.reduceAdd, List.cons_append, List.nil_append, Compile.ok.injEq] at hr
          obtain ⟨rfl, rfl⟩ := hr
          exact hlb.to_linked.append_linked _ (List.all_eq_true.1 (by rfl))
        · obtain ⟨cpf, hcpf1, hcpf2⟩ := hinv.links.last_nextField hpf
          have hpflt : pf < eb.codes.length := lt_length_of_getElem? hcpf1
          have hhdlt : hd < eb.codes.length := hw0.lt_hi
          have hcurlt : cur < eb.codes.length := lt_length_of_getElem? hcc1
          have hpfn : ∀ M : List opcode,
              ((eb.codes ++ M)[pf]?).bind (fun c => c.nextField) = none := by
            intro M
            rw [List.getElem?_append_left hpflt, hcpf1]; exact hcpf2
          simp only [hloop, hhead, hprev, hcur, Encoder.alloc, Encoder.assign, newEndOp,
            List.append_assoc, List.singleton_append, List.length_append,
            List.length_singleton, List.length_cons, List.length_nil, modify_append_add,
            modify_append_len, List.modify_succ_cons, List.modify_zero_cons, Nat.zero_add,
            Nat.reduceAdd, List.cons_append, List.nil_append, hpfn, if_true,
            modify_append_lt _ _ _ _ hpflt, modify_modify_append_lt _ _ _ _ _ _ hhdlt,
            modify_append_lt _ _ _ _ (show cur < ((eb.codes.modify
              (fun c => { c with nextField := some eb.codes.length }) pf).modify
              (fun c => { c with end_ := some eb.codes.length }) hd).length by simpa using hcurlt),
            Compile.ok.injEq] at hr
          obtain ⟨rfl, rfl⟩ := hr
          obtain ⟨h1, h2, h3, h4, h5, h6⟩ := struct_finish e eb _ _ _ v chain hd pf cur k cc
            { op := opStructEndIndent, typ := none, indent := eb.indent - 1,
              next := some (eb.codes.length + 1) }
            { op := opEnd, indent := eb.indent - 1 }
            (fun _ _ h => h) (fun t c h => lookup_cons_of_none hmiss h) hinv hhd hpf hw0 hcc1
            hcc2 hcc3 hk0 hch rfl
            (by show opStructEndIndent ≠ opEnd; decide) rfl rfl rfl rfl rfl
          exact linked_finish hlb pf hd cur eb.codes.length _ rfl h2 hhd h3

/-- After every successful call of `compile` the new nodes have the forward edges of their
kind set. -/
theorem compile_linked (T : Types) : ∀ fuel, RecLinked (compile T fuel) := by
  intro fuel
  induction fuel with
  | zero => intro typ root withIndent e code e1 h; simp [compile] at h
  | succ fuel ih =>
    intro typ root withIndent e code e1 h
    have hrec := compile_emits T fuel
    rw [compile] at h
    split at h
    · simp only [Compile.ok.injEq] at h
      obtain ⟨rfl, rfl⟩ := h
      exact marshal_linked _ _ _ rfl rfl rfl rfl rfl
    · split at h
      · simp only [Compile.ok.injEq] at h
        obtain ⟨rfl, rfl⟩ := h
        exact marshal_linked _ _ _ rfl rfl rfl rfl rfl
      · split at h
        · exact compilePtr_linked T _ hrec ih _ _ _ _ _ _ h
        · exact compileSlice_linked T _ hrec ih _ _ _ _ _ _ h
        · exact compileArray_linked T _ hrec ih _ _ _ _ _ _ h
        · exact compileMap_linked T _ hrec ih _ _ _ _ _ _ _ h
        · exact compileStruct_linked T _ hrec ih _ _ _ _ _ _ h
        · exact compileInterface_linked _ _ _ _ _ h
        all_goals first
          | (refine compilePrim_linked _ _ _ _ _ ?_ ?_ ?_ ?_ ?_ h <;> rfl)
          | cases h

theorem compileHead_linked (T : Types) (fuel typ : Nat) (withIndent : Bool) (e e' : Encoder)
    (h : Nat) (hr : compileHead T fuel typ withIndent e = .ok h e') :
    Linked e.codes.length e'.codes := by
  unfold compileHead at hr
  split at hr
  · simp only [Compile.ok.injEq] at hr
    obtain ⟨rfl, rfl⟩ := hr
    exact marshal_linked _ _ _ rfl rfl rfl rfl rfl
  · split at hr
    · simp only [Compile.ok.injEq] at hr
      obtain ⟨rfl, rfl⟩ := hr
      exact marshal_linked _ _ _ rfl rfl rfl rfl rfl
    · simp only at hr
      split at hr <;> split at hr <;> first
        | exact compileMap_linked T _ (compile_emits T fuel) (compile_linked T fuel) _ _ _ _ _
            _ _ hr
        | exact compile_linked T fuel _ _ _ _ _ _ hr

/-- The nodes reached from a node of the program are nodes of the program. -/
theorem Reach.in_program {codes : List opcode} {lo hi : Nat}
    (hclosed : ∀ a c, lo ≤ a → codes[a]? = some c → ∀ b ∈ c.edges, lo ≤ b ∧ b < hi)
    {a t : Nat} (h : Reach codes a t) (ha : lo ≤ a) (ha' : a < hi) : lo ≤ t ∧ t < hi := by
  induction h with
  | refl a => exact ⟨ha, ha'⟩
  | step c hc hb _ ih =>
    have := hclosed _ c ha hc _ hb
    exact ih this.1 this.2

/-! ## The edges of a program -/

/-- Claim C17 (counterexample): in the program of `struct { A int; B string }` the node of
the field `B` (at address 5, the `nextField` of the head) has a nil `end`, and the record-end
node (at address 6, the `nextField` of that node and the `end` of the head) has a nil
`nextField` and a nil `end`: record nodes reachable from the head have nil forward edges. -/
theorem record_nodes_have_nil_edges :
    ((compileHead exampleTypes 2 2 false Encoder.empty).program.map fun r =>
        (r.1, (r.2.codes[r.1]?).map (fun c => (c.op, c.nextField, c.end_))))
      = some (2, some (opStructFieldHeadInt, some 5, some 6)) ∧
    ((compileHead exampleTypes 2 2 false Encoder.empty).program.map fun r =>
        (r.2.codes[5]?).map (fun c => (c.op, c.nextField, c.end_)))
      = some (some (opStructFieldString, some 6, none)) ∧
    ((compileHead exampleTypes 2 2 false Encoder.empty).program.map fun r =>
        (r.2.codes[6]?).map (fun c => (c.op, c.nextField, c.end_)))
      = some (some (opStructEnd, none, none)) := by
  refine ⟨by decide, by decide, by decide⟩

/-- Claim C17 (amended): the head returned by `compileHead` reaches an `end` sentinel by
following `next`, and `end` at the element markers and key markers: the walk runs from the
head over nodes that are no sentinel to a node `t` whose `next` is an `end` sentinel. Every
node `a` reached from the head by forward edges (`next`, `elem`, `end`, `nextField`, `key`
and `value`) is a node of the program, and the forward edges of its kind are not nil: `next`
unless the node is an `end` sentinel, `elem` and `end` of a sequence or array header, `end`
of an element marker or key marker, `key`, `value` and `end` of a mapping header,
`nextField` and `end` of a record head, `nextField` of a record field; and every edge of the
node that is not nil points to a node of the program. -/
theorem head_reaches_end (T : Types) (fuel typ : Nat) (withIndent : Bool) (e e' : Encoder)
    (h : Nat) (hr : compileHead T fuel typ withIndent e = .ok h e') :
    (∃ t z k ct cz, WalkTo e'.codes e.codes.length e'.codes.length k h t ∧
      e'.codes[t]? = some ct ∧ ct.op ≠ opEnd ∧ ct.next = some z ∧
      e'.codes[z]? = some cz ∧ cz.op = opEnd) ∧
    ∀ a, Reach e'.codes h a → ∃ c, e'.codes[a]? = some c ∧ e.codes.length ≤ a ∧
      (c.op ≠ opEnd → c.next ≠ none) ∧
      (c.op.isSeqHead = true → c.elem ≠ none ∧ c.end_ ≠ none) ∧
      (c.op.isLoopMarker = true → c.end_ ≠ none) ∧
      (c.op.isMapHead = true → c.mapKey ≠ none ∧ c.value ≠ none ∧ c.end_ ≠ none) ∧
      (c.op.isStructHead = true → c.nextField ≠ none ∧ c.end_ ≠ none) ∧
      (c.op.isStructField = true → c.nextField ≠ none) ∧
      ∀ b ∈ c.edges, e.codes.length ≤ b ∧ b < e'.codes.length := by
  have he := compileHead_emits T fuel typ withIndent e e' h hr
  have hl := compileHead_linked T fuel typ withIndent e e' h hr
  obtain ⟨t, z, k, hw, ⟨ct, cz, h1, _, _, h4, h5, _, h7, h8⟩, _⟩ := he.walk
  refine ⟨⟨t, z, k, ct, cz, hw, h1, h4, h5, h7, h8⟩, ?_⟩
  intro a ha
  obtain ⟨halo, hahi⟩ := ha.in_program he.closed hw.lo_le hw.lt_hi
  have hc : e'.codes[a]? = some (e'.codes.get ⟨a, hahi⟩) := List.getElem?_eq_getElem hahi
  have hlc := hl a _ halo hc
  rw [linked_iff, linkedBut_iff] at hlc
  obtain ⟨⟨a1, a2, a3, a4⟩, a5, a6⟩ := hlc
  simp only [← Option.isSome_iff_ne_none]
  exact ⟨_, hc, halo, a1, a2, a3, a4, a5, a6, he.closed a _ halo hc⟩

theorem head_reaches_end_witness :
    ∃ e', compileHead exampleTypes 3 5 true Encoder.empty = .ok 5 e' ∧
      (∃ t z k ct cz, WalkTo e'.codes Encoder.empty.codes.length e'.codes.length k 5 t ∧
        e'.codes[t]? = some ct ∧ ct.op ≠ opEnd ∧ ct.next = some z ∧
        e'.codes[z]? = some cz ∧ cz.op = opEnd) ∧
      ∀ a, Reach e'.codes 5 a → ∃ c, e'.codes[a]? = some c ∧ Encoder.empty.codes.length ≤ a ∧
        (c.op ≠ opEnd → c.next ≠ none) ∧
        (c.op.isSeqHead = true → c.elem ≠ none ∧ c.end_ ≠ none) ∧
        (c.op.isLoopMarker = true → c.end_ ≠ none) ∧
        (c.op.isMapHead = true → c.mapKey ≠ none ∧ c.value ≠ none ∧ c.end_ ≠ none) ∧
        (c.op.isStructHead = true → c.nextField ≠ none ∧ c.end_ ≠ none) ∧
        (c.op.isStructField = true → c.nextField ≠ none) ∧
        ∀ b ∈ c.edges, Encoder.empty.codes.length ≤ b ∧ b < e'.codes.length := by
  have hr : compileHead exampleTypes 3 5 true Encoder.empty
      = .ok 5 (((compileHead exampleTypes 3 5 true Encoder.empty).program.map
        Prod.snd).getD Encoder.empty) := by decide
  exact ⟨_, hr, head_reaches_end exampleTypes 3 5 true Encoder.empty _ 5 hr⟩

/-! ## Element decoders that allocate -/

theorem set_get_self {α : Type} (l : List α) (i : Nat) (h : i < l.length) :
    l.set i (l.get ⟨i, h⟩) = l := by
  induction l generalizing i with
  | nil => simp at h
  | cons x xs ih =>
    cases i with
    | zero => rfl
    | succ i =>
      simp only [List.set_cons_succ, List.cons.injEq, true_and]
      exact ih i (by simpa using h)

theorem grow_under (d : sliceDecoder) (Sl : Val → Prop) (hSl0 : Sl Val.zero) {w : World}
    {b capacity idx : Nat} {cells : List Val} (hb : w.heap[b]? = some cells)
    (hlen : cells.length = capacity) (hidx : idx ≤ capacity) (hpos : 0 < capacity)
    (htail : ∀ v ∈ cells.drop idx, Sl v) :
    ∃ cap' b' w1 cells1, d.grow idx capacity (some b) w = some (cap', some b', w1) ∧
      cap' = (if capacity ≤ idx then capacity * 2 else capacity) ∧
      w1.heap[b']? = some cells1 ∧ cells1.length = cap' ∧ idx < cap' ∧
      cells1.take idx = cells.take idx ∧ (∀ v ∈ cells1.drop idx, Sl v) ∧
      w.writesOnly w1 b ∧ (b' = b ∨ w.heap.length ≤ b') := by
  have hblt := lt_length_of_getElem? hb
  unfold sliceDecoder.grow
  by_cases hc : capacity ≤ idx
  · have hi : idx = capacity := by omega
    simp only [hc, if_true]
    obtain ⟨hn1, _, e1, hw0⟩ := newArray_spec d.elemType (capacity * 2) w
    have e2 : (newArray d.elemType (capacity * 2) w).2.heap[b]? = some cells := by
      rw [hw0.2.2.2.1 b hblt (by omega), hb]
    obtain ⟨w1, hw1, hblock, hwo⟩ := copySlice_spec d.elemType
      ⟨some (newArray d.elemType (capacity * 2) w).1, idx, capacity * 2⟩
      ⟨some b, idx, capacity⟩ idx (by simp) (by omega)
      (by rw [hn1]) rfl e1 e2 (by simp; omega) (by omega)
    rw [hn1] at hw1
    refine ⟨capacity * 2, w.heap.length, w1, _, ?_, rfl, hblock, ?_, by omega, ?_, ?_, ?_,
      Or.inr (le_refl _)⟩
    · simp only [hn1, hw1]
    · simp only [List.length_append, List.length_take, List.length_drop,
        List.length_replicate]
      omega
    · rw [List.take_append_of_le_length (by simp; omega), List.take_take]
      simp
    · intro v hv
      rw [List.drop_append_of_le_length (by simp; omega)] at hv
      simp only [List.drop_take, List.mem_append] at hv
      rcases hv with hv | hv
      · have : idx - idx = 0 := by omega
        rw [this] at hv; simp at hv
      · have := List.mem_of_mem_drop hv
        rw [List.mem_replicate] at this
        rw [this.2]; exact hSl0
    · exact World.writesOnly_mono (World.writesOnly_trans hw0 hwo (Or.inl rfl)) b (le_refl _)
  · simp only [hc, if_false]
    exact ⟨capacity, b, w, cells, rfl, rfl, hb, hlen, by omega, rfl, htail,
      World.writesOnly_refl w b, Or.inl rfl⟩

theorem initElem_under (d : sliceDecoder) (Sl : Val → Prop) (hSl0 : Sl Val.zero)
    (hSlNil : d.isElemPointerType = true → ∀ v, Sl v → Sl v.withNilFirstWord) {w : World}
    {b idx : Nat} {cells : List Val} (hb : w.heap[b]? = some cells) (hi : idx < cells.length)
    (hslot : Sl (cells.get ⟨idx, hi⟩)) :
    ∃ w' v1, d.initElem ⟨b, idx⟩ w = some w' ∧ w'.heap[b]? = some (cells.set idx v1) ∧
      Sl v1 ∧ w.writesOnly w' b := by
  have hblt := lt_length_of_getElem? hb
  unfold sliceDecoder.initElem
  by_cases h1 : d.isElemUnmarshalJSONType = true
  · rw [if_pos h1]
    have e0 : (unsafe_New d.elemType w).2.heap[b]? = some cells := by
      simp [unsafe_New, List.getElem?_append_left hblt, hb]
    have hl : (unsafe_New d.elemType w).2.load ⟨(unsafe_New d.elemType w).1, 0⟩ =
        some Val.zero := by
      simp [unsafe_New, World.load]
    have hw0 : w.writesOnly (unsafe_New d.elemType w).2 b := by
      refine ⟨rfl, rfl, by simp [unsafe_New], ?_, ?_⟩
      · intro a ha _
        simp [unsafe_New, List.getElem?_append_left ha]
      · intro a ha
        simp [unsafe_New, List.getElem?_append_left ha]
    obtain ⟨w', hw', hblock, hwo⟩ := World.store_block Val.zero e0 hi
    refine ⟨w', Val.zero, ?_, hblock, hSl0, World.writesOnly_trans hw0 hwo (Or.inl rfl)⟩
    simp only [typedmemmove, hl, hw']
  · rw [if_neg h1]
    by_cases h2 : d.isElemPointerType = true
    · rw [if_pos h2]
      have hl : w.load ⟨b, idx⟩ = cells[idx]? := by simp [World.load, hb]
      rw [List.getElem?_eq_getElem hi] at hl
      obtain ⟨w', hw', hblock, hwo⟩ := World.store_block (cells[idx]).withNilFirstWord hb hi
      refine ⟨w', _, ?_, hblock, hSlNil h2 _ hslot, hwo⟩
      simp only [World.storeNilPointer, hl, hw']
    · rw [if_neg h2]
      refine ⟨w, cells.get ⟨idx, hi⟩, rfl, ?_, hslot, World.writesOnly_refl w b⟩
      rw [hb, set_get_self]

theorem drop_succ_set {α : Type} (l : List α) (i : Nat) (a : α) :
    (l.set i a).drop (i + 1) = l.drop (i + 1) := by
  induction l generalizing i with
  | nil => simp
  | cons x xs ih =>
    cases i with
    | zero => simp
    | succ i => simp [ih]

theorem get_mem_drop {α : Type} (l : List α) (i : Nat) (h : i < l.length) :
    l.get ⟨i, h⟩ ∈ l.drop i := by
  induction l generalizing i with
  | nil => simp at h
  | cons x xs ih =>
    cases i with
    | zero => simp
    | succ i =>
      simp only [List.drop_succ_cons, List.get_cons_succ]
      exact ih i (by simpa using h)

theorem mem_drop_of_succ {α : Type} {l : List α} {i : Nat} {u : α}
    (h : u ∈ l.drop (i + 1)) : u ∈ l.drop i := by
  induction l generalizing i with
  | nil => simp at h
  | cons x xs ih =>
    cases i with
    | zero =>
      simp only [List.drop_succ_cons, List.drop_zero] at h ⊢
      exact List.mem_cons_of_mem _ h
    | succ i =>
      simp only [List.drop_succ_cons] at h ⊢
      exact ih h

/-- One round of the element loop with an element decoder in general: the scratch array
grows if needed, the slot is initialised, the element decoder stores its value. -/
theorem elem_round (d : sliceDecoder) (I : World → (Nat → Prop) → Prop) (Sl : Val → Prop)
    (hst : stableFor I d.arrayPool) (hSl0 : Sl Val.zero)
    (hSlNil : d.isElemPointerType = true → ∀ v, Sl v → Sl v.withNilFirstWord)
    (buf : List Nat) (depth : Int) (cursor stop : Nat) (R : Val → Prop)
    (hdec : decodesUnder d.valueDecoder I Sl buf depth cursor stop R)
    (idx capacity b : Nat) (w : World) (X : Nat → Prop) (cells : List Val)
    (hI : I w X) (hX : ∀ a, X a → a < w.heap.length) (hXb : X b)
    (hb : w.heap[b]? = some cells) (hlen : cells.length = capacity) (hidx : idx ≤ capacity)
    (hpos : 0 < capacity) (htail : ∀ v ∈ cells.drop idx, Sl v) :
    ∃ (cap1 b1 : Nat) (w1 w2 w3 : World) (cells1 : List Val) (v : Val),
      d.grow idx capacity (some b) w = some (cap1, some b1, w1) ∧
      d.initElem ⟨b1, idx⟩ w1 = some w2 ∧
      d.valueDecoder.decode buf cursor depth ⟨b1, idx⟩ w2 = .ret (stop, none) w3 ∧
      cap1 = (if capacity ≤ idx then capacity * 2 else capacity) ∧ R v ∧
      w3.heap[b1]? = some (cells1.set idx v) ∧ cells1.length = cap1 ∧ idx < cap1 ∧
      cells1.take idx = cells.take idx ∧ (∀ u ∈ cells1.drop (idx + 1), Sl u) ∧
      I w3 (fun a => X a ∨ a = b1) ∧ (∀ a, (X a ∨ a = b1) → a < w3.heap.length) ∧
      (∀ a, X a → a ≠ b → a ≠ b1 ∧ w3.heap[a]? = w.heap[a]?) ∧
      w.heap.length ≤ w3.heap.length ∧ (b1 = b ∨ w.heap.length ≤ b1) := by
  obtain ⟨cap1, b1, w1, cells1, hg, hcap1, hb1, hlen1, hidx1, htake1, htail1, hwo1, hbb⟩ :=
    grow_under d Sl hSl0 hb hlen hidx hpos htail
  have hi1 : idx < cells1.length := by omega
  have hslot : Sl (cells1.get ⟨idx, hi1⟩) := htail1 _ (get_mem_drop cells1 idx hi1)
  obtain ⟨w2, v1, hinit, hb2, hv1, hwo2⟩ := initElem_under d Sl hSl0 hSlNil hb1 hi1 hslot
  have hX1 : ∀ a, (X a ∨ a = b1) → X a ∨ w.heap.length ≤ a := by
    intro a ha
    rcases ha with ha | ha
    · exact Or.inl ha
    · rcases hbb with h | h
      · left; rw [ha, h]; exact hXb
      · right; rw [ha]; exact h
  have hI1 : I w1 (fun a => X a ∨ a = b1) :=
    hst w w1 X _ hI hwo1.2.2.1
      (fun a ha hna => hwo1.2.2.2.1 a ha (fun hab => hna (hab ▸ hXb)))
      (fun q _ => by rw [hwo1.1]) hX1
  have hI2 : I w2 (fun a => X a ∨ a = b1) :=
    hst w1 w2 _ _ hI1 hwo2.2.2.1
      (fun a ha hna => hwo2.2.2.2.1 a ha (fun hab => hna (Or.inr hab)))
      (fun q _ => by rw [hwo2.1]) (fun a ha => Or.inl ha)
  have hb1lt : b1 < w1.heap.length := lt_length_of_getElem? hb1
  have hlen12 : w1.heap.length ≤ w2.heap.length := hwo2.2.2.1
  have hlen01 : w.heap.length ≤ w1.heap.length := hwo1.2.2.1
  have hXb2 : ∀ a, (X a ∨ a = b1) → a < w2.heap.length := by
    intro a ha
    rcases ha with ha | ha
    · have := hX a ha; omega
    · omega
  have hi2 : idx < (cells1.set idx v1).length := by simpa using hi1
  obtain ⟨w3, v, hd, hRv, hb3, hlen23, hkeep, hI3⟩ :=
    hdec w2 (fun a => X a ∨ a = b1) ⟨b1, idx⟩ (cells1.set idx v1) v1 hI2 hXb2 (Or.inr rfl)
      hb2 (by simp [List.getElem?_set_self hi1]) hv1
  refine ⟨cap1, b1, w1, w2, w3, cells1, v, hg, hinit, hd, hcap1, hRv, ?_, hlen1, hidx1,
    htake1, ?_, hI3, ?_, ?_, by omega, hbb⟩
  · rw [hb3]; simp
  · intro u hu
    exact htail1 u (mem_drop_of_succ hu)
  · intro a ha
    have := hXb2 a ha; omega
  · intro a ha hab
    have halt := hX a ha
    have hab1 : a ≠ b1 := by
      rcases hbb with h | h
      · rw [h]; exact hab
      · omega
    refine ⟨hab1, ?_⟩
    rw [hkeep a (Or.inl ha) hab1, hwo2.2.2.2.1 a (by omega) hab1, hwo1.2.2.2.1 a halt hab]

/-- The element loop on a buffer that holds the values `es` up to a closing `]`, with an
element decoder in general: it runs into `case ']'` with the scratch array holding the values
the element decoder stored, the arrays of the caller other than the scratch array
unchanged. -/
theorem decodeElems_under (d : sliceDecoder) (I : World → (Nat → Prop) → Prop)
    (Sl : Val → Prop) (hst : stableFor I d.arrayPool) (hSl0 : Sl Val.zero)
    (hSlNil : d.isElemPointerType = true → ∀ v, Sl v → Sl v.withNilFirstWord)
    (buf : List Nat) (depth : Int) (p : Ptr) (slice : sliceHeader) (t : Nat) :
    ∀ (es : List (Nat × (Val → Prop))) (fuel idx capacity b cursor : Nat) (w : World)
      (X : Nat → Prop) (cells : List Val),
      elemsUnder d.valueDecoder I Sl buf depth cursor es t 93 →
      I w X → (∀ a, X a → a < w.heap.length) → X b →
      w.heap[b]? = some cells → cells.length = capacity → idx ≤ capacity → 0 < capacity →
      (∀ v ∈ cells.drop idx, Sl v) → es.length ≤ fuel →
      ∃ (cap' b' : Nat) (w' : World) (cells' vs : List Val),
        d.decodeElems buf depth p slice fuel idx capacity (some b) cursor w =
          (match d.closeArray slice (idx + es.length - 1) cap' (some b') p w' with
            | none => .fault
            | some w'' => .ret (t + 1, none) w'') ∧
        cap' = capAfter es.length idx capacity ∧
        w'.heap[b']? = some cells' ∧ cells'.length = cap' ∧ idx + es.length ≤ cap' ∧
        0 < cap' ∧ cells'.take (idx + es.length) = cells.take idx ++ vs ∧
        List.Forall₂ (fun e v => e.2 v) es vs ∧
        (∀ a, X a → a ≠ b → a ≠ b' ∧ w'.heap[a]? = w.heap[a]?) ∧
        w.heap.length ≤ w'.heap.length ∧ (b' = b ∨ w.heap.length ≤ b') := by
  intro es
  induction es with
  | nil => intro _ _ _ _ _ _ _ _ h; exact absurd h (by simp [elemsUnder])
  | cons e es ih =>
    intro fuel idx capacity b cursor w X cells hes hI hX hXb hb hlen hidx hpos htail hfuel
    obtain ⟨fuel, rfl⟩ : ∃ f, fuel = f + 1 := ⟨fuel - 1, by simp at hfuel; omega⟩
    have hdec : decodesUnder d.valueDecoder I Sl buf depth cursor e.1 e.2 := by
      cases es with
      | nil => exact hes.1
      | cons e' es => exact hes.1
    obtain ⟨cap1, b1, w1, w2, w3, cells1, v, hg, hinit, hd, hcap1, hRv, hb3, hlen1, hidx1,
      htake1, htail1, hI3, hX3, hkeep, hlen03, hbb⟩ :=
      elem_round d I Sl hst hSl0 hSlNil buf depth cursor e.1 e.2 hdec idx capacity b w X
        cells hI hX hXb hb hlen hidx hpos htail
    have hi1 : idx < cells1.length := by omega
    cases es with
    | nil =>
      obtain ⟨_, hsep⟩ := hes
      have hskip := skipWhiteSpace_eq_of_firstNonSpace (t - e.1) e.1 t 93
        (by have := hsep.1; omega) hsep
      refine ⟨cap1, b1, w3, cells1.set idx v, [v], ?_, ?_, hb3, by simpa using hlen1,
        by simp; omega, by omega, ?_, ?_, hkeep, hlen03, hbb⟩
      · rw [sliceDecoder.decodeElems]
        simp only [hg, hinit, hd, hskip, hsep.2.2.1, if_true, List.length_singleton,
          Nat.add_sub_cancel]
        try rfl
      · rw [hcap1]; rfl
      · simp only [List.length_singleton]
        rw [take_succ_set _ _ _ hi1, htake1]
      · exact List.Forall₂.cons hRv List.Forall₂.nil
    | cons e' es =>
      obtain ⟨_, m, hsep, hes'⟩ := hes
      have hskip := skipWhiteSpace_eq_of_firstNonSpace (m - e.1) e.1 m 44
        (by have := hsep.1; omega) hsep
      obtain ⟨cap', b', w', cells', vs, heq, hcap', hb', hlen', hidx', hpos', htake', hall,
        hkeep', hlen3', hbb'⟩ :=
        ih fuel (idx + 1) cap1 b1 (m + 1) w3 (fun a => X a ∨ a = b1) (cells1.set idx v) hes'
          hI3 hX3 (Or.inr rfl) hb3 (by simpa using hlen1) (by omega) (by omega)
          (by rw [drop_succ_set]; exact htail1) (by simp at hfuel ⊢; omega)
      refine ⟨cap', b', w', cells', v :: vs, ?_, ?_, hb', hlen', ?_, hpos', ?_,
        List.Forall₂.cons hRv hall, ?_, by omega, ?_⟩
      · rw [sliceDecoder.decodeElems]
        simp only [hg, hinit, hd, hskip, hsep.2.2.1]
        have e1 : idx + 1 + (e' :: es).length - 1 = idx + (e :: e' :: es).length - 1 := by
          simp only [List.length_cons]; omega
        rw [← e1, ← heq]
        simp
      · rw [hcap', hcap1]; rfl
      · simp only [List.length_cons] at hidx' ⊢; omega
      · have e2 : idx + (e :: e' :: es).length = idx + 1 + (e' :: es).length := by
          simp only [List.length_cons]; omega
        rw [e2, htake', take_succ_set _ _ _ hi1, htake1]
        simp
      · intro a ha hab
        obtain ⟨hab1, h1⟩ := hkeep a ha hab
        obtain ⟨hab', h2⟩ := hkeep' a (Or.inl ha) hab1
        exact ⟨hab', h2.trans h1⟩
      · rcases hbb' with h | h
        · rw [h]; exact hbb
        · right; omega

/-- What `newSlice` hands out, with what is known of the slots of the scratch array. -/
theorem newSlice_under (d : sliceDecoder) (Sl : Val → Prop) (hSl0 : Sl Val.zero) (w : World)
    (p : Ptr) (hready : scratchReady d w p) (hp : p.block < w.heap.length)
    (hSlPool : ∀ h rest b cells, w.pools d.arrayPool = h :: rest → h.data = some b →
      w.heap[b]? = some cells → ∀ v ∈ cells, Sl v) :
    ∃ (b c : Nat) (cells : List Val), (d.newSlice w).1 = ⟨some b, 0, c⟩ ∧ b ≠ p.block ∧
      (d.newSlice w).2.heap[b]? = some cells ∧ cells.length = c ∧ 0 < c ∧
      (∀ v ∈ cells, Sl v) ∧
      ((∃ h rest, w.pools d.arrayPool = h :: rest ∧ h.data = some b) ∨
        (w.pools d.arrayPool = [] ∧ b = w.heap.length)) ∧
      w.heap.length ≤ (d.newSlice w).2.heap.length ∧
      (∀ a, a < w.heap.length → (d.newSlice w).2.heap[a]? = w.heap[a]?) ∧
      (∀ q, q ≠ d.arrayPool → (d.newSlice w).2.pools q = w.pools q) ∧
      (w.pools d.arrayPool = [] → c = 2) ∧
      (∀ h rest, w.pools d.arrayPool = h :: rest → c = h.cap) := by
  cases hpool : w.pools d.arrayPool with
  | nil =>
    have e : d.newSlice w =
        (⟨some w.heap.length, 0, 2⟩,
          { (newArray d.elemType 2 w).2 with
            log := PoolEvent.get d.arrayPool ⟨some w.heap.length, 0, 2⟩ ::
              (newArray d.elemType 2 w).2.log }) := by
      unfold sliceDecoder.newSlice
      rw [hpool]
      rfl
    rw [e]
    refine ⟨w.heap.length, 2, List.replicate 2 Val.zero, rfl, by omega, ?_, by simp,
      by decide, ?_, Or.inr ⟨rfl, rfl⟩, by simp [newArray], ?_, fun _ _ => rfl, fun _ => rfl, ?_⟩
    · simp [newArray]
    · intro v hv
      rw [(List.mem_replicate.1 hv).2]; exact hSl0
    · intro a ha
      simp [newArray, List.getElem?_append_left ha]
    · intro h rest hh; cases hh
  | cons h rest =>
    obtain ⟨b, cells, hdata, hbp, hb, hlen, hpos⟩ := hready h rest hpool
    have e : d.newSlice w =
        ({ h with len := 0 },
          { w with pools := Function.update w.pools d.arrayPool rest
                   log := PoolEvent.get d.arrayPool h :: w.log }) := by
      unfold sliceDecoder.newSlice
      rw [hpool]
    rw [e]
    refine ⟨b, h.cap, cells, ?_, hbp, hb, hlen, hpos, hSlPool h rest b cells hpool hdata hb,
      Or.inl ⟨h, rest, rfl, hdata⟩, Nat.le_refl _, fun _ _ => rfl, ?_, ?_, ?_⟩
    · rw [← hdata]
    · intro q hq
      simp [Function.update, hq]
    · intro hh; cases hh
    · intro h' rest' hh
      simp only [List.cons.injEq] at hh
      rw [hh.1]

/-- What `decode` does on a well-formed array of one or more values, with an element
decoder in general. -/
theorem decode_array_under (maxDepth : Int) (d : sliceDecoder)
    (I : World → (Nat → Prop) → Prop) (Sl : Val → Prop) (fuel : Nat)
    (buf : List Nat) (cursor i c0 b0 t : Nat) (depth : Int) (p : Ptr) (w : World)
    (dst : sliceHeader) (es : List (Nat × (Val → Prop)))
    (hdepth : depth + 1 ≤ maxDepth)
    (hopen : firstNonSpace buf cursor i 91)
    (hfirst : firstNonSpace buf (i + 1) c0 b0) (hb0 : b0 ≠ 93)
    (hes : elemsUnder d.valueDecoder I Sl buf (depth + 1) c0 es t 93)
    (hdst : dstValid w p dst) (hpool : scratchReady d w p)
    (hns : ∀ a, dst.data = some a → notScratch d w a)
    (hready : elemReady d I Sl w p dst)
    (hfuel : i - cursor + es.length < fuel) :
    ∃ (w' : World) (dst' : sliceHeader) (a : Nat) (cells vs : List Val) (h1 : sliceHeader)
      (l : List PoolEvent) (c : Nat),
      d.decode maxDepth fuel buf cursor depth p w = .ret (t + 1, none) w' ∧
      w'.loadHeader p = some dst' ∧ dst'.len = es.length ∧ dst'.data = some a ∧
      w'.heap[a]? = some cells ∧ cells.take es.length = vs ∧
      List.Forall₂ (fun e v => e.2 v) es vs ∧
      (dst.cap < es.length → dst'.cap = es.length ∧ w.heap.length ≤ a) ∧
      (es.length ≤ dst.cap → dst'.data = dst.data ∧ dst'.cap = dst.cap) ∧
      w'.log = PoolEvent.put d.arrayPool h1 :: l ∧ h1.cap = capAfter es.length 0 c ∧
      (w.pools d.arrayPool = [] → c = 2) ∧
      (∀ h rest, w.pools d.arrayPool = h :: rest → c = h.cap) ∧ 0 < c := by
  obtain ⟨hI, hst, hSl0, hSlNil, hSlPool⟩ := hready
  have hn : 0 < es.length := by
    cases es with
    | nil => exact absurd hes (by simp [elemsUnder])
    | cons e es => simp
  obtain ⟨pc, hpc, _⟩ := World.loadHeader_inv hdst.1
  have hplt := lt_length_of_getElem? hpc
  rw [decode_eq_decodeFrom maxDepth d fuel buf cursor i 91 depth p w hdepth hopen (by omega),
    decodeFrom_open d buf (depth + 1) p _ i w hopen.2.2.1,
    decodeArray_elems d buf (depth + 1) p _ i c0 b0 w hfirst hb0]
  obtain ⟨b, c, cells0, hslice, hbp, hb, hlen0, hpos0, hSl, hwhich, hlen1, hheap1, hpools1,
    hnil, hcons⟩ := newSlice_under d Sl hSl0 w p hpool hplt hSlPool
  -- the arrays of the caller
  have hXlt : ∀ a, callerArrays d w p dst a → a < w.heap.length := by
    intro a ha
    rcases ha with ha | ha | ⟨h, rest, hh, ha⟩
    · rw [ha]; exact hplt
    · have h2 := hdst.2
      rw [ha] at h2
      obtain ⟨_, cs, hc, _⟩ := h2
      exact lt_length_of_getElem? hc
    · obtain ⟨b2, cs, hd2, _, hc, _⟩ := hpool h rest hh
      rw [hd2] at ha
      injection ha with ha
      rw [← ha]; exact lt_length_of_getElem? hc
  have hI1 : I (d.newSlice w).2 (fun a => callerArrays d w p dst a ∨ a = b) := by
    refine hst w _ _ _ hI hlen1 (fun a ha _ => hheap1 a ha) hpools1 ?_
    intro a ha
    rcases ha with ha | ha
    · exact Or.inl ha
    · rcases hwhich with ⟨h, rest, hh, hd⟩ | ⟨_, hbn⟩
      · left; right; right; exact ⟨h, rest, hh, ha ▸ hd⟩
      · right; rw [ha, hbn]
  have hX1 : ∀ a, (callerArrays d w p dst a ∨ a = b) → a < (d.newSlice w).2.heap.length := by
    intro a ha
    rcases ha with ha | ha
    · have := hXlt a ha; omega
    · rw [ha]; exact lt_length_of_getElem? hb
  obtain ⟨cap', b', w2, cells', vs, heq, hcap', hb', hlen', hidx', hpos', htake', hall, hkeep,
    hlen2, hbb⟩ :=
    decodeElems_under d I Sl hst hSl0 hSlNil buf (depth + 1) p (d.newSlice w).1 t es
      (fuel - (i - cursor) - 1) 0 c b c0 (d.newSlice w).2 _ cells0 hes hI1 hX1 (Or.inr rfl) hb
      hlen0 (Nat.zero_le _) hpos0 (by simpa using hSl) (by omega)
  simp only [hslice] at heq ⊢
  rw [heq]
  -- the destination is as before
  have hpb : w2.heap[p.block]? = w.heap[p.block]? := by
    rw [(hkeep p.block (Or.inl (Or.inl rfl)) (Ne.symm hbp)).2, hheap1 p.block hplt]
  have hbp' : b' ≠ p.block :=
    Ne.symm (hkeep p.block (Or.inl (Or.inl rfl)) (Ne.symm hbp)).1
  have hdst2 : dstValid w2 p dst := by
    refine ⟨by rw [World.loadHeader_eq_of_block hpb]; exact hdst.1, ?_⟩
    have h2 := hdst.2
    cases hd : dst.data with
    | none => rw [hd] at h2; exact h2
    | some a =>
      rw [hd] at h2
      obtain ⟨hap, cs, hc, hcap⟩ := h2
      have halt := lt_length_of_getElem? hc
      have hab : a ≠ b := by
        rcases hwhich with ⟨h, rest, hh, hdd⟩ | ⟨_, hbn⟩
        · intro hab; exact hns a hd h rest hh (hab ▸ hdd)
        · omega
      exact ⟨hap, cs, by
        rw [(hkeep a (Or.inl (Or.inr (Or.inl hd))) hab).2, hheap1 a halt]; exact hc, hcap⟩
  obtain ⟨k, hk⟩ : ∃ k, es.length = k + 1 := ⟨es.length - 1, by omega⟩
  have hinv2 : scratchInv w2 b' cap' (k + 1) vs := by
    refine ⟨cells', hb', hlen', by omega, hpos', ?_⟩
    have := htake'
    simp only [Nat.zero_add, List.take_zero, List.nil_append] at this
    rw [← hk]; exact this
  obtain ⟨w', dst', a, cells, hclose, hlog, hpools, hl', hlen'', hdata', hcells, htake, hlt,
    hge, _⟩ :=
    closeArray_spec d ⟨some b, 0, c⟩ hinv2 hdst2 hbp'
  have hidx : 0 + es.length - 1 = k := by omega
  simp only [hidx, hclose]
  refine ⟨w', dst', a, cells, vs, ⟨some b', k + 1, cap'⟩, w2.log, c, rfl, hl', by omega,
    hdata', hcells, by rw [hk]; exact htake, hall, ?_, ?_, hlog, ?_, hnil, hcons, hpos0⟩
  · intro h
    obtain ⟨h1, h2⟩ := hlt (by omega)
    exact ⟨by omega, by omega⟩
  · intro h
    exact hge (by omega)
  · exact hcap'

/-! ## A slice decoder as element decoder -/

theorem closeArray_block (d : sliceDecoder) (slice : sliceHeader) (idx capacity : Nat)
    (data : Option Nat) (p : Ptr) (w w' : World) (dst : sliceHeader) (pc : List Val)
    (hl : w.loadHeader p = some dst) (hpc : w.heap[p.block]? = some pc)
    (hne : ∀ a, dst.data = some a → a ≠ p.block)
    (h : d.closeArray slice idx capacity data p w = some w') :
    ∃ dst', w'.heap[p.block]? = some (pc.set p.index (.slice dst')) := by
  have hplt := lt_length_of_getElem? hpc
  unfold sliceDecoder.closeArray at h
  simp only [hl] at h
  by_cases hcap : idx + 1 > dst.cap
  · simp only [hcap, if_true] at h
    cases hs : (newArray d.elemType (idx + 1) w).2.storeHeader p
        ⟨some (newArray d.elemType (idx + 1) w).1, idx + 1, idx + 1⟩ with
    | none => simp [hs] at h
    | some w2 =>
      simp only [hs] at h
      cases hc : copySlice d.elemType
          ⟨some (newArray d.elemType (idx + 1) w).1, idx + 1, idx + 1⟩
          { data := data, len := idx + 1, cap := capacity } w2 with
      | none => simp [hc] at h
      | some w3 =>
        simp only [hc, Option.some.injEq] at h
        obtain ⟨cells, hcells, _, rfl⟩ := World.store_inv hs
        have hk := (copySlice_keeps hc).2 p.block (by
          simp only [newArray, ne_eq, Option.some.injEq]; omega)
        refine ⟨⟨some (newArray d.elemType (idx + 1) w).1, idx + 1, idx + 1⟩, ?_⟩
        rw [← h]
        show w3.heap[p.block]? = _
        rw [hk]
        have hcells' : cells = pc := by
          have : (newArray d.elemType (idx + 1) w).2.heap[p.block]? = some pc := by
            simp [newArray, List.getElem?_append_left hplt, hpc]
          rw [this] at hcells; injection hcells with hcells; exact hcells.symm
        subst hcells'
        have : p.block < (newArray d.elemType (idx + 1) w).2.heap.length := by
          simp [newArray]; omega
        simp [this]
  · simp only [hcap, if_false] at h
    cases hs : w.storeHeader p { dst with len := idx + 1 } with
    | none => simp [hs] at h
    | some w2 =>
      simp only [hs] at h
      cases hc : copySlice d.elemType { dst with len := idx + 1 }
          { data := data, len := idx + 1, cap := capacity } w2 with
      | none => simp [hc] at h
      | some w3 =>
        simp only [hc, Option.some.injEq] at h
        obtain ⟨cells, hcells, _, rfl⟩ := World.store_inv hs
        have hk := (copySlice_keeps hc).2 p.block (by
          intro hd
          exact hne p.block hd rfl)
        refine ⟨{ dst with len := idx + 1 }, ?_⟩
        rw [← h]
        show w3.heap[p.block]? = _
        rw [hk]
        rw [hpc] at hcells; injection hcells with hcells
        subst hcells
        simp [hplt]

/-- A slice decoder whose element decoder stores scalars, used as element decoder: on a
well-formed array of the values `es`, called on an all-zero slot (a nil slice), it stores a
header of length and capacity `es.length` over a new array; it takes the scratch array from
its pool and puts one back, so its invariant is that the pool is in order (`poolReady`). -/
theorem sliceDecoder_decodesUnder (maxDepth : Int) (d : sliceDecoder) (fuel : Nat)
    (buf : List Nat) (cursor i c0 b0 t : Nat) (depth : Int) (es : List (Nat × Val))
    (hdepth : depth + 1 ≤ maxDepth)
    (hopen : firstNonSpace buf cursor i 91)
    (hfirst : firstNonSpace buf (i + 1) c0 b0) (hb0 : b0 ≠ 93)
    (hes : elemsAt d.valueDecoder buf (depth + 1) c0 es t 93)
    (hfuel : i - cursor + es.length < fuel) :
    decodesUnder (d.toDecoder maxDepth fuel) (poolReady d) (fun v => v = Val.zero) buf depth
      cursor (t + 1) (sliceOfLength es.length) := by
  intro w X ep pc v0 hI hX hXep hpc hv0 hzero
  subst hzero
  have hn := elemsAt_length_pos hes
  have hplt := lt_length_of_getElem? hpc
  have hload : w.load ep = some Val.zero := by
    simp only [World.load, hpc, hv0]
  have hdst : dstValid w ep ⟨none, 0, 0⟩ := ⟨by simp only [World.loadHeader, hload], rfl⟩
  have hpool : scratchReady d w ep := by
    intro h rest hh
    obtain ⟨b, cells, h1, h2, h3, h4, h5⟩ := hI h rest hh
    exact ⟨b, cells, h1, fun hb => h2 (hb ▸ hXep), h3, h4, h5⟩
  show ∃ w' v, d.decode maxDepth fuel buf cursor depth ep w = _ ∧ _
  rw [decode_eq_decodeFrom maxDepth d fuel buf cursor i 91 depth ep w hdepth hopen (by omega),
    decodeFrom_open d buf (depth + 1) ep _ i w hopen.2.2.1,
    decodeArray_elems d buf (depth + 1) ep _ i c0 b0 w hfirst hb0]
  obtain ⟨b, c, h0, hslice, hbp, hinv1, hc0, hlog1, hpools1, hlen1, hheap1, hnil, hcons⟩ :=
    newSlice_spec d w ep hpool hplt
  obtain ⟨cap', b', w2, hfill, hcap', hinv2, hwo2, hbb⟩ :=
    fillElems_spec d (es.map Prod.snd) (d.newSlice w).2 b c 0 [] hinv1
  have hdst1 : dstValid (d.newSlice w).2 ep ⟨none, 0, 0⟩ := dstValid_of_heap hdst hheap1
  have hdst2 : dstValid w2 ep ⟨none, 0, 0⟩ := dstValid_of_writesOnly hdst1 hwo2 hbp
  have hbp' : b' ≠ ep.block := by
    rcases hbb with h | h
    · rw [h]; exact hbp
    · omega
  obtain ⟨k, hk⟩ : ∃ k, es.length = k + 1 := ⟨es.length - 1, by omega⟩
  have hinv2' : scratchInv w2 b' cap' (k + 1) (es.map Prod.snd) := by
    simpa [hk] using hinv2
  obtain ⟨w', dst', a, cells, hclose, hlog, hpools, hl', hlen', hdata', hcells, htake, hlt, hge,
    hlen3, hframe3, hlens3⟩ :=
    closeArray_spec d (d.newSlice w).1 hinv2' hdst2 hbp'
  have hlen2 := hwo2.2.2.1
  simp only [hslice] at hclose ⊢
  rw [decodeElems_eq d buf (depth + 1) ep _ t 93 (by decide) es _ 0 c (some b) c0
    (d.newSlice w).2 cap' (some b') w2 hes hfill]
  have hf : ¬ (fuel - (i - cursor) - 1 < es.length) := by omega
  have hidx : 0 + es.length - 1 = k := by omega
  simp only [hf, if_false, if_true, hidx, hclose]
  -- the block of the slot
  have hpc2 : w2.heap[ep.block]? = some pc := by
    rw [hwo2.2.2.2.1 ep.block (by omega) (Ne.symm hbp), hheap1 ep.block hplt, hpc]
  obtain ⟨dst2, hblock⟩ := closeArray_block d ⟨some b, 0, c⟩ k cap' (some b') ep w2 w'
    ⟨none, 0, 0⟩ pc hdst2.1 hpc2 (by intro a ha; cases ha) hclose
  have hdd : dst2 = dst' := by
    have : w'.loadHeader ep = some dst2 := by
      have hi := hdst.1
      obtain ⟨cs, hcs, hidxlt⟩ := World.loadHeader_inv hi
      rw [hpc] at hcs; injection hcs with hcs; subst hcs
      simp only [World.loadHeader, World.load, hblock, List.getElem?_set_self hidxlt]
    rw [hl'] at this; injection this with this; exact this.symm
  subst hdd
  have hcap2 : dst2.cap = es.length ∧ w2.heap.length ≤ a := by
    have := hlt (by show (0 : Nat) < k + 1; omega)
    exact ⟨by omega, by omega⟩
  -- the scratch array
  have hbX : ¬ X b := by
    cases hp : w.pools d.arrayPool with
    | nil =>
      intro hb
      have h1 := hX b hb
      obtain ⟨cs, hcs, _⟩ := hinv1
      have hne := congrArg Prod.fst (newSlice_empty d w hp)
      rw [hslice] at hne
      simp only [sliceHeader.mk.injEq, Option.some.injEq] at hne
      omega
    | cons h rest =>
      obtain ⟨b2, cells2, h1, h2, _⟩ := hI h rest hp
      have := hcons h rest hp
      intro hb
      have hsl : (d.newSlice w).1 = { h with len := 0 } := by
        unfold sliceDecoder.newSlice; rw [hp]
      rw [hslice] at hsl
      have hd : h.data = some b := by
        simp only [sliceHeader.mk.injEq] at hsl
        exact hsl.1.symm
      rw [h1] at hd; injection hd with hd
      exact h2 (hd ▸ hb)
  have hb'X : ¬ X b' := by
    rcases hbb with h | h
    · rw [h]; exact hbX
    · intro hb
      have := hX b' hb; omega
  refine ⟨w', .slice dst2, rfl, ⟨dst2, a, rfl, by omega, hcap2.1, hdata'⟩, hblock, by omega, ?_,
    ?_⟩
  · intro x hx hxe
    have hxlt := hX x hx
    have hxb : x ≠ b := fun h => hbX (h ▸ hx)
    rw [hframe3 x (by omega) hxe (by intro h; cases h),
      hwo2.2.2.2.1 x (by omega) hxb, hheap1 x hxlt]
  · intro h rest hh
    rw [hpools, Function.update_same] at hh
    simp only [List.cons.injEq] at hh
    obtain ⟨rfl, _⟩ := hh
    obtain ⟨cs, hcs, hcslen, _, hcspos, _⟩ := hinv2'
    have hb'lt := lt_length_of_getElem? hcs
    have hl := hlens3 b' hb'lt
    rw [hcs] at hl
    cases hcs' : w'.heap[b']? with
    | none => rw [hcs'] at hl; simp at hl
    | some cs' =>
      rw [hcs'] at hl
      simp only [Option.map_some', Option.some.injEq] at hl
      exact ⟨b', cs', rfl, hb'X, hcs', by simp only; omega, hcspos⟩

theorem poolReady_stable (d : sliceDecoder) (pool : Nat) (hne : d.arrayPool ≠ pool) :
    stableFor (poolReady d) pool := by
  intro w w' X X' hI hlen hsame hpools hX' h rest hh
  rw [hpools d.arrayPool hne] at hh
  obtain ⟨b, cells, h1, h2, h3, h4, h5⟩ := hI h rest hh
  have hblt := lt_length_of_getElem? h3
  refine ⟨b, cells, h1, ?_, by rw [hsame b hblt h2]; exact h3, h4, h5⟩
  intro hb
  rcases hX' b hb with hx | hx
  · exact h2 hx
  · omega

/-- An element decoder that stores a scalar in its slot and does nothing else is an element
decoder in the general sense, with no invariant and for any content of the slot. -/
theorem decodesUnder_of_decodesTo {dec : decoder} {buf : List Nat} {depth : Int}
    {start stop : Nat} {v : Val} (h : decodesTo dec buf depth start stop v) :
    decodesUnder dec (fun _ _ => True) (fun _ => True) buf depth start stop (fun u => u = v) := by
  intro w X ep cells v0 _ _ _ hcells hv0 _
  have hi : ep.index < cells.length := lt_length_of_getElem? hv0
  have hs := World.store_eq v hcells hi
  have hblt := lt_length_of_getElem? hcells
  refine ⟨_, v, h w _ ep hs, rfl, by simp [hblt], by simp, ?_, trivial⟩
  intro a _ hne
  simp [List.getElem?_set_ne (Ne.symm hne)]

/-! ## Well-formed arrays, element decoders in general -/

/-- Claim C1: on a buffer that holds, from the cursor, optional whitespace, `[`, the
`n >= 1` values `es` separated by commas (whitespace allowed around values and separators)
and a closing `]` at offset `t`, with an element decoder that succeeds on each value
(`elemsUnder`: it may allocate and use pools of its own; `elemReady`: the memory is in order
for it), a call of `decode` that passes the depth check, on a valid destination `dst` and a
usable pool whose scratch array is not the destination's, returns the cursor `t + 1` and no
error; afterwards `dst.len = n`, the first `n` elements of the array of `dst` are the values
the element decoder stored, in input order, and if the incoming `dst.cap < n` then
`dst.data` is an array that did not exist before and `dst.cap = n`, otherwise `dst.data` and
`dst.cap` are as before. -/
theorem decode_array_general (maxDecodeNestingDepth : Int) (d : sliceDecoder)
    (I : World → (Nat → Prop) → Prop) (Sl : Val → Prop) (fuel : Nat)
    (buf : List Nat) (cursor i c0 b0 t : Nat) (depth : Int) (p : Ptr) (w : World)
    (dst : sliceHeader) (es : List (Nat × (Val → Prop)))
    (hdepth : depth + 1 ≤ maxDecodeNestingDepth)
    (hopen : firstNonSpace buf cursor i 91)
    (hfirst : firstNonSpace buf (i + 1) c0 b0) (hb0 : b0 ≠ 93)
    (hes : elemsUnder d.valueDecoder I Sl buf (depth + 1) c0 es t 93)
    (hdst : dstValid w p dst) (hpool : scratchReady d w p)
    (hns : ∀ a, dst.data = some a → notScratch d w a)
    (hready : elemReady d I Sl w p dst)
    (hfuel : i - cursor + es.length < fuel) :
    ∃ (w' : World) (dst' : sliceHeader) (a : Nat) (cells vs : List Val),
      d.decode maxDecodeNestingDepth fuel buf cursor depth p w = .ret (t + 1, none) w' ∧
      w'.loadHeader p = some dst' ∧ dst'.len = es.length ∧ dst'.data = some a ∧
      w'.heap[a]? = some cells ∧ cells.take es.length = vs ∧
      List.Forall₂ (fun e v => e.2 v) es vs ∧
      (dst.cap < es.length → dst'.cap = es.length ∧ w.heap.length ≤ a) ∧
      (es.length ≤ dst.cap → dst'.data = dst.data ∧ dst'.cap = dst.cap) := by
  obtain ⟨w', dst', a, cells, vs, _, _, _, h1, h2, h3, h4, h5, h6, h7, h8, h9, _⟩ :=
    decode_array_under maxDecodeNestingDepth d I Sl fuel buf cursor i c0 b0 t depth p w dst es
      hdepth hopen hfirst hb0 hes hdst hpool hns hready hfuel
  exact ⟨w', dst', a, cells, vs, h1, h2, h3, h4, h5, h6, h7, h8, h9⟩

theorem intSliceSliceDecoder_ready :
    elemReady intSliceSliceDecoder (poolReady intSliceDecoder) (fun v => v = Val.zero)
      (World.init .zero [] []) ⟨0, 0⟩ ⟨none, 0, 0⟩ := by
  refine ⟨?_, poolReady_stable intSliceDecoder 1 (by decide), rfl, ?_, ?_⟩
  · intro h rest hh
    simp [World.init, intSliceDecoder, newSliceDecoder] at hh
  · intro h; exact absurd h (by decide)
  · intro h rest b cells hh
    simp [World.init, intSliceSliceDecoder, newSliceDecoder] at hh

theorem inner_array_decodes (buf : List Nat) (start : Nat) (digit : Nat)
    (h0 : buf[start]? = some 91) (h1 : buf[start + 1]? = some digit)
    (hd : 48 ≤ digit ∧ digit ≤ 57) (h2 : buf[start + 2]? = some 93) :
    decodesUnder intSliceSliceDecoder.valueDecoder (poolReady intSliceDecoder)
      (fun v => v = Val.zero) buf (0 + 1) start (start + 3) (sliceOfLength 1) := by
  have hws : isWhiteSpace digit = false := by
    simp only [isWhiteSpace]
    rcases hd with ⟨ha, hb⟩
    simp only [Bool.or_eq_false_iff, decide_eq_false_iff_not]
    omega
  exact sliceDecoder_decodesUnder 100 intSliceDecoder 20 buf start start (start + 1) digit
    (start + 2) (0 + 1) [(start + 2, .scalar ((digit - 48 : Nat) : Int))] (by decide)
    (firstNonSpace_here h0 (by decide)) (firstNonSpace_here h1 hws)
    (by omega)
    ⟨digitDecoder_decodesTo _ _ (start + 1) (start + 1) digit (firstNonSpace_here h1 hws) hd,
      firstNonSpace_here h2 (by decide)⟩
    (by simp)

theorem decode_array_general_witness :
    ((intSliceSliceDecoder.decode 100 20 [91, 91, 49, 93, 44, 91, 50, 93, 93] 0 0 ⟨0, 0⟩
        (World.init .zero [] [])).world.map
        (fun w => (w.loadHeader ⟨0, 0⟩, w.heap[5]?, w.heap[3]?, w.heap[4]?))
      = some (some ⟨some 5, 2, 2⟩, some [.slice ⟨some 3, 1, 1⟩, .slice ⟨some 4, 1, 1⟩],
          some [.scalar 1], some [.scalar 2])) ∧
    ∃ (w' : World) (dst' : sliceHeader) (a : Nat) (cells vs : List Val),
      intSliceSliceDecoder.decode 100 20 [91, 91, 49, 93, 44, 91, 50, 93, 93] 0 0 ⟨0, 0⟩
        (World.init .zero [] []) = .ret (8 + 1, none) w' ∧
      w'.loadHeader ⟨0, 0⟩ = some dst' ∧
      dst'.len = [(4, sliceOfLength 1), (8, sliceOfLength 1)].length ∧ dst'.data = some a ∧
      w'.heap[a]? = some cells ∧
      cells.take [(4, sliceOfLength 1), (8, sliceOfLength 1)].length = vs ∧
      List.Forall₂ (fun e v => e.2 v) [(4, sliceOfLength 1), (8, sliceOfLength 1)] vs ∧
      ((0 : Nat) < [(4, sliceOfLength 1), (8, sliceOfLength 1)].length →
        dst'.cap = [(4, sliceOfLength 1), (8, sliceOfLength 1)].length ∧
          (World.init .zero [] []).heap.length ≤ a) ∧
      ([(4, sliceOfLength 1), (8, sliceOfLength 1)].length ≤ 0 →
        dst'.data = none ∧ dst'.cap = 0) :=
  ⟨by decide, decode_array_general 100 intSliceSliceDecoder (poolReady intSliceDecoder)
    (fun v => v = Val.zero) 20 [91, 91, 49, 93, 44, 91, 50, 93, 93] 0 0 1 91 8 0 ⟨0, 0⟩
    (World.init .zero [] []) ⟨none, 0, 0⟩ [(4, sliceOfLength 1), (8, sliceOfLength 1)]
    (by decide) (firstNonSpace_here (by decide) (by decide))
    (firstNonSpace_here (by decide) (by decide)) (by decide)
    ⟨inner_array_decodes _ 1 49 (by decide) (by decide) (by decide) (by decide),
      4, firstNonSpace_here (by decide) (by decide),
      inner_array_decodes _ 5 50 (by decide) (by decide) (by decide) (by decide),
      firstNonSpace_here (by decide) (by decide)⟩
    ⟨rfl, rfl⟩
    (by intro h rest hh; simp [World.init, intSliceSliceDecoder, newSliceDecoder] at hh)
    (by intro a ha; cases ha)
    intSliceSliceDecoder_ready (by decide)⟩

/-! ## The capacity of the scratch array, element decoders in general -/

/-- Claim C5, as amended: for a successful parse by `decode` of an array of `n >= 3` values,
with any element decoder that succeeds on each value (`elemsUnder`, `elemReady`), the last
call of the pool of the decoder is the release of the scratch header, and the capacity stored
in that header is the first member that is at least `n` of the doubling sequence
`c, 2c, 4c, ...` starting at the capacity `c` the header had when the pool handed it out
(2 on an empty pool, the capacity of the pooled header otherwise); that is the smallest power
of 2 that is at least `n` when `c = 2`, as for a header the pool creates; and the destination
capacity after the parse is `n` whenever the incoming capacity was less than `n`. -/
theorem scratch_capacity_general (maxDecodeNestingDepth : Int) (d : sliceDecoder)
    (I : World → (Nat → Prop) → Prop) (Sl : Val → Prop) (fuel : Nat)
    (buf : List Nat) (cursor i c0 b0 t : Nat) (depth : Int) (p : Ptr) (w : World)
    (dst : sliceHeader) (es : List (Nat × (Val → Prop)))
    (hdepth : depth + 1 ≤ maxDecodeNestingDepth)
    (hopen : firstNonSpace buf cursor i 91)
    (hfirst : firstNonSpace buf (i + 1) c0 b0) (hb0 : b0 ≠ 93)
    (hes : elemsUnder d.valueDecoder I Sl buf (depth + 1) c0 es t 93)
    (hn : 3 ≤ es.length)
    (hdst : dstValid w p dst) (hpool : scratchReady d w p)
    (hns : ∀ a, dst.data = some a → notScratch d w a)
    (hready : elemReady d I Sl w p dst)
    (hfuel : i - cursor + es.length < fuel) :
    ∃ (w' : World) (dst' h1 : sliceHeader) (l : List PoolEvent) (c : Nat),
      d.decode maxDecodeNestingDepth fuel buf cursor depth p w = .ret (t + 1, none) w' ∧
      w'.log = PoolEvent.put d.arrayPool h1 :: l ∧
      leastDoubling c es.length h1.cap ∧
      (c = 2 → smallestPowerOfTwo es.length h1.cap) ∧
      (w.pools d.arrayPool = [] → c = 2) ∧
      (∀ h rest, w.pools d.arrayPool = h :: rest → c = h.cap) ∧
      w'.loadHeader p = some dst' ∧ (dst.cap < es.length → dst'.cap = es.length) := by
  obtain ⟨w', dst', a, cells, vs, h1, l, c, e1, e2, e3, e4, e5, e6, e7, e8, e9, e10, e11, e12,
      e13, e14⟩ :=
    decode_array_under maxDecodeNestingDepth d I Sl fuel buf cursor i c0 b0 t depth p w dst es
      hdepth hopen hfirst hb0 hes hdst hpool hns hready hfuel
  have hl := capAfter_leastDoubling c es.length e14
  rw [← e11] at hl
  refine ⟨w', dst', h1, l, c, e1, e10, hl, ?_, e12, e13, e2, fun h => (e8 h).1⟩
  intro hc
  rw [hc] at hl
  exact smallestPowerOfTwo_of_leastDoubling (by omega) hl

theorem scratch_capacity_general_witness :
    ∃ (w' : World) (dst' h1 : sliceHeader) (l : List PoolEvent) (c : Nat),
      intSliceSliceDecoder.decode 100 20
        [91, 91, 49, 93, 44, 91, 50, 93, 44, 91, 51, 93, 93] 0 0 ⟨0, 0⟩
        (World.init .zero [] []) = .ret (12 + 1, none) w' ∧
      w'.log = PoolEvent.put intSliceSliceDecoder.arrayPool h1 :: l ∧
      leastDoubling c
        [(4, sliceOfLength 1), (8, sliceOfLength 1), (12, sliceOfLength 1)].length h1.cap ∧
      (c = 2 → smallestPowerOfTwo
        [(4, sliceOfLength 1), (8, sliceOfLength 1), (12, sliceOfLength 1)].length h1.cap) ∧
      ((World.init .zero [] []).pools intSliceSliceDecoder.arrayPool = [] → c = 2) ∧
      (∀ h rest, (World.init .zero [] []).pools intSliceSliceDecoder.arrayPool = h :: rest →
        c = h.cap) ∧
      w'.loadHeader ⟨0, 0⟩ = some dst' ∧
      ((0 : Nat) < [(4, sliceOfLength 1), (8, sliceOfLength 1), (12, sliceOfLength 1)].length →
        dst'.cap = [(4, sliceOfLength 1), (8, sliceOfLength 1), (12, sliceOfLength 1)].length) :=
  scratch_capacity_general 100 intSliceSliceDecoder (poolReady intSliceDecoder)
    (fun v => v = Val.zero) 20 [91, 91, 49, 93, 44, 91, 50, 93, 44, 91, 51, 93, 93] 0 0 1 91 12
    0 ⟨0, 0⟩ (World.init .zero [] []) ⟨none, 0, 0⟩
    [(4, sliceOfLength 1), (8, sliceOfLength 1), (12, sliceOfLength 1)]
    (by decide) (firstNonSpace_here (by decide) (by decide))
    (firstNonSpace_here (by decide) (by decide)) (by decide)
    ⟨inner_array_decodes _ 1 49 (by decide) (by decide) (by decide) (by decide),
      4, firstNonSpace_here (by decide) (by decide),
      inner_array_decodes _ 5 50 (by decide) (by decide) (by decide) (by decide),
      8, firstNonSpace_here (by decide) (by decide),
      inner_array_decodes _ 9 51 (by decide) (by decide) (by decide) (by decide),
      firstNonSpace_here (by decide) (by decide)⟩
    (by decide) ⟨rfl, rfl⟩
    (by intro h rest hh; simp [World.init, intSliceSliceDecoder, newSliceDecoder] at hh)
    (by intro a ha; cases ha)
    intSliceSliceDecoder_ready (by decide)

/-! ## The empty array on a destination with nil data -/

/-- Claim C4 (code bug): on `[]` the branch for a destination whose `data` is nil writes
`data` alone. Into the destination `(data = nil, len = 3, cap = 3)`, `decode` returns the
cursor 2 and no error without any pool call, and leaves the header
`(data = a new array of length 0, len = 3, cap = 3)`, not `len = 0` and `cap = 0`. That
destination is what `decode` itself leaves after `null` on `(array, 3, 3)`. The branch for a
destination whose `data` is not nil does set `len = 0`; on the nil slice `(nil, 0, 0)` the
header ends as `(new array, 0, 0)`. -/
theorem empty_array_keeps_len_and_cap :
    ((intSliceDecoder.decode 100 1 [91, 93] 0 0 ⟨0, 0⟩
        (World.init (.slice ⟨none, 3, 3⟩) [] [])).value = some (2, none)) ∧
    ((intSliceDecoder.decode 100 1 [91, 93] 0 0 ⟨0, 0⟩
        (World.init (.slice ⟨none, 3, 3⟩) [] [])).world.map
        (fun w => (w.loadHeader ⟨0, 0⟩, w.heap[1]?, w.log))
      = some (some ⟨some 1, 3, 3⟩, some [], [])) ∧
    ((intSliceDecoder.decode 100 1 [91, 93] 0 0 ⟨0, 0⟩
        (((intSliceDecoder.decode 100 1 [110, 117, 108, 108] 0 0 ⟨0, 0⟩
          (World.init (.slice ⟨some 1, 3, 3⟩) [[.scalar 1, .scalar 2, .scalar 3]] [])).world).getD
          (World.init .zero [] []))).world.map
        (fun w => (w.loadHeader ⟨0, 0⟩, w.heap[2]?))
      = some (some ⟨some 2, 3, 3⟩, some [])) ∧
    ((intSliceDecoder.decode 100 1 [91, 93] 0 0 ⟨0, 0⟩
        (World.init (.slice ⟨some 1, 3, 3⟩) [[.scalar 1, .scalar 2, .scalar 3]] [])).world.map
        (fun w => (w.loadHeader ⟨0, 0⟩, w.heap.length))
      = some (some ⟨some 1, 0, 3⟩, 2)) ∧
    ((intSliceDecoder.decode 100 1 [91, 93] 0 0 ⟨0, 0⟩
        (World.init .zero [] [])).world.map
        (fun w => (w.loadHeader ⟨0, 0⟩, w.heap[1]?))
      = some (some ⟨some 1, 0, 0⟩, some [])) := by
  refine ⟨by decide, by decide, by decide, by decide, by decide⟩

/-! ## A record with a field that reaches it again -/

end GoJson
